import Mathlib

/-!
# Row storage engine (`src/buffer/out/Row.cpp`)

A shallow embedding of `ROW` and of `ROW::ReplaceCharacters`, `ROW::_resizeChars`,
`ROW::Reset`, `ROW::Resize` and the read accessors, and of the text adapter of
`src/buffer/out/UTextAdapter.cpp`, followed by theorems about them.

Conventions of the embedding

* A UTF-16 code unit and a 16-bit offset word are natural numbers; `u16` is the
  truncation to 16 bits and `sz` the truncation to `size_t` (64 bits).  Arithmetic
  on `ch2`, on the stored offsets and inside `_resizeChars` wraps exactly where the
  C++ arithmetic does.  Column counters are bounded by `_columnCount : uint16_t`
  and are kept as plain naturals.
* For a 16-bit word `v`, `v & CharOffsetsMask` is `v % 32768`, the test
  `v & CharOffsetsTrailer` is `32768 ≤ v`, and `v | CharOffsetsTrailer` is
  `v % 32768 + 32768`.
* `_chars` is the span of the character storage: the list has the length of the
  capacity.  `GetText` is its prefix of `_charSize()` code units.
* The `ASSERT` macro of the file is a debugger breakpoint (`__debugbreak`); it has
  no effect on the data flow.  The conditions it checks are stated as theorems
  instead of being built into the functions.
* `std::copy_n` over the contiguous `wchar_t` storage is the `memmove` the
  standard library lowers it to: the source range is read before it is written.
* A C++ exception (a refused `ubrk_setText`, a failing `gsl::narrow`) is the
  `thrown` outcome; the `catch (...)` block of `ReplaceCharacters` resets the row.
  `ReplaceCharactersAlloc` is the same operation with an allocator that may fail.
* In the text adapter, native indices are integers; `i64` and `i32` are the
  truncations to `int64_t` and `int32_t`, applied where the C++ code converts from
  `size_t`.  The functions take the `UText` and return it with their result.
-/

namespace Row

/-! ## Machine words -/

/-- Truncation to `uint16_t`. -/
def u16 (n : Nat) : Nat := n % 65536

/-- Truncation to `size_t`. -/
def sz (n : Nat) : Nat := n % 2 ^ 64

/-- Subtraction in `size_t` (wraps around when the result is negative). -/
def szSub (a b : Nat) : Nat := (a % 2 ^ 64 + 2 ^ 64 - b % 2 ^ 64) % 2 ^ 64

/-- The space character `UNICODE_SPACE`. -/
def UNICODE_SPACE : Nat := 0x20

/-- Modelled from the spec: `Row.hpp` is not among the sources; the trailer flag is
bit 15 of an offset word (`offsets[i] & 0x8000`). -/
def CharOffsetsTrailer : Nat := 0x8000

/-- Modelled from the spec: `Row.hpp` is not among the sources; the offset is the low
15 bits of an offset word (`offsets[i] & 0x7FFF`). -/
def CharOffsetsMask : Nat := 0x7fff

/-- The value of `word & CharOffsetsMask` for a 16-bit word. -/
def wordOffset (word : Nat) : Nat := word % (CharOffsetsMask + 1)

/-- The test `WI_IsFlagSet(word, CharOffsetsTrailer)` for a 16-bit word. -/
def wordIsTrailer (word : Nat) : Bool := decide (CharOffsetsTrailer ≤ u16 word)

/-- The value of `gsl::narrow_cast<uint16_t>(ch | CharOffsetsTrailer)` for a 16-bit `ch`. -/
def wordWithTrailer (ch : Nat) : Nat := wordOffset ch + CharOffsetsTrailer

/-! ## Data model -/

/-- Modelled from the spec: `TextAttribute` is declared outside the sources; it is a
value type with equality and a hyperlink id (0 when the attribute is no hyperlink). -/
structure TextAttribute where
  value : Nat
  hyperlinkId : Nat
deriving DecidableEq, Repr

instance : Inhabited TextAttribute := ⟨⟨0, 0⟩⟩

/-- The line rendition of a row. -/
inductive LineRendition where
  | SingleWidth
  | DoubleWidth
  | DoubleHeightTop
  | DoubleHeightBottom
deriving DecidableEq, Repr

/-- The role of a column in a wide-glyph pair. -/
inductive DbcsAttribute where
  | Single
  | Leading
  | Trailing
deriving DecidableEq, Repr

/-- The fields of `ROW`.  `chars` is the span `_chars` (its length is the capacity),
`charOffsets` the span `_charOffsets`, `attr` the runs `(value, length)` of the
run-length store, `charsHeap` tells whether `_chars` points into `_charsHeap`. -/
structure ROW where
  chars : List Nat
  charOffsets : List Nat
  attr : List (TextAttribute × Nat)
  columnCount : Nat
  lineRendition : LineRendition
  wrapForced : Bool
  doubleBytePadded : Bool
  charsHeap : Bool
deriving DecidableEq, Repr

/-- The injected capabilities: the ICU break iterator and the glyph width lookup.
`seg s` is `none` when `ubrk_setText` reports an error on `s`, and otherwise the
boundaries that the successive `ubrk_next` calls return before `UBRK_DONE`. -/
structure Env where
  seg : List Nat → Option (List Nat)
  IsGlyphFullWidth : List Nat → Bool

/-! ## Small buffer primitives -/

/-- Writes `src` into `l` starting at index `pos` (`std::copy_n`, `std::fill_n`). -/
def writeAt : List Nat → Nat → List Nat → List Nat
  | l, _, [] => l
  | l, pos, x :: xs => writeAt (l.set pos x) (pos + 1) xs

/-- The function `std::iota` over `count` entries from index `pos`, with a `uint16_t` counter. -/
def iotaAt : List Nat → Nat → Nat → Nat → List Nat
  | l, _, 0, _ => l
  | l, pos, n + 1, val => iotaAt (l.set pos val) (pos + 1) n (u16 (val + 1))

/-- Adds `diff` to every entry from index `pos` on, truncating to 16 bits
(the final loop of `_resizeChars`). -/
def shiftFrom : List Nat → Nat → Nat → List Nat
  | [], _, _ => []
  | x :: xs, 0, diff => u16 (x + diff) :: shiftFrom xs 0 diff
  | x :: xs, pos + 1, diff => x :: shiftFrom xs pos diff

/-! ## Accessors -/

/-- The accessor `ROW::_uncheckedCharOffset`. -/
def ROW._uncheckedCharOffset (r : ROW) (col : Nat) : Nat :=
  wordOffset (r.charOffsets.getD col 0)

/-- The accessor `ROW::_uncheckedIsTrailer`. -/
def ROW._uncheckedIsTrailer (r : ROW) (col : Nat) : Bool :=
  wordIsTrailer (r.charOffsets.getD col 0)

/-- The accessor `ROW::_charSize`: the raw word at index `_columnCount`. -/
def ROW._charSize (r : ROW) : Nat :=
  r.charOffsets.getD r.columnCount 0

/-- The accessor `ROW::GetText`. -/
def ROW.GetText (r : ROW) : List Nat :=
  r.chars.take r._charSize

/-- The helper `ROW::_clampedColumn` on a `til::CoordType` argument. -/
def ROW._clampedColumn (r : ROW) (v : Int) : Nat :=
  (max 0 (min ((r.columnCount : Int) - 1) v)).toNat

/-- The helper `ROW::_clampedColumnInclusive` on a `til::CoordType` argument. -/
def ROW._clampedColumnInclusive (r : ROW) (v : Int) : Nat :=
  (max 0 (min (r.columnCount : Int) v)).toNat

/-- The loop `for (; isTrailer(col); ++col)` over an offsets array; reads past the
array yield no trailer, so `fuel = length` always suffices. -/
def skipTrailers (offs : List Nat) : Nat → Nat → Nat
  | 0, col => col
  | fuel + 1, col =>
    if wordIsTrailer (offs.getD col 0) then skipTrailers offs fuel (col + 1) else col

/-- The loop `for (; col != 0 && isTrailer(col); --col)` over an offsets array. -/
def extendDown (offs : List Nat) : Nat → Nat
  | 0 => 0
  | col + 1 => if wordIsTrailer (offs.getD (col + 1) 0) then extendDown offs col else col + 1

/-- The accessor `ROW::GlyphAt`. -/
def ROW.GlyphAt (r : ROW) (column : Int) : List Nat :=
  let col := r._clampedColumn column
  let beg := r._uncheckedCharOffset col
  let col' := skipTrailers r.charOffsets r.charOffsets.length (col + 1)
  let fin := r._uncheckedCharOffset col'
  (r.chars.drop beg).take (fin - beg)

/-- The accessor `ROW::DbcsAttrAt`. -/
def ROW.DbcsAttrAt (r : ROW) (column : Int) : DbcsAttribute :=
  let col := r._clampedColumn column
  if r._uncheckedIsTrailer col then DbcsAttribute.Trailing
  else if r._uncheckedIsTrailer (col + 1) then DbcsAttribute.Leading
  else DbcsAttribute.Single

/-- The loop `while (col != 0 && isTrailer(--col))` of `ROW::PrecedingColumn`. -/
def precedingLoop (offs : List Nat) : Nat → Nat
  | 0 => 0
  | col + 1 => if wordIsTrailer (offs.getD col 0) then precedingLoop offs col else col

/-- The accessor `ROW::PrecedingColumn`. -/
def ROW.PrecedingColumn (r : ROW) (column : Int) : Nat :=
  precedingLoop r.charOffsets (r._clampedColumn column)

/-! ## Construction and reset -/

/-- Modelled from the spec: `til::small_rle` is not among the sources; the
constructor `{ length, value }` builds a single run of count `length`
(no run at all for length 0). -/
def rleMake (length : Nat) (value : TextAttribute) : List (TextAttribute × Nat) :=
  if length = 0 then [] else [(value, length)]

/-- The helper `ROW::_init`: all spaces, offsets `0, 1, ..., _columnCount`. -/
def ROW._init (r : ROW) : ROW :=
  { r with
    chars := writeAt r.chars 0 (List.replicate r.columnCount UNICODE_SPACE)
    charOffsets := iotaAt r.charOffsets 0 r.charOffsets.length 0 }

/-- The constructor `ROW::ROW` over arenas of `rowWidth` characters and
`rowWidth + 1` offsets. -/
def ROW.new (rowWidth : Nat) (fillAttribute : TextAttribute) : ROW :=
  ROW._init
    { chars := List.replicate rowWidth 0
      charOffsets := List.replicate (rowWidth + 1) 0
      attr := rleMake rowWidth fillAttribute
      columnCount := rowWidth
      lineRendition := LineRendition.SingleWidth
      wrapForced := false
      doubleBytePadded := false
      charsHeap := false }

/-- The operation `ROW::Reset`: back onto the arena `_charsBuffer` of `_columnCount`
characters, default flags, then `_init`. -/
def ROW.Reset (r : ROW) (attr : TextAttribute) : ROW :=
  ROW._init
    { r with
      charsHeap := false
      chars := List.replicate r.columnCount 0
      attr := rleMake r.columnCount attr
      lineRendition := LineRendition.SingleWidth
      wrapForced := false
      doubleBytePadded := false }

/-! ## `ROW::_resizeChars` -/

/-- The slow path `ROW::_resizeChars`.  `none` is the exception of
`gsl::narrow<uint16_t>` when the new capacity does not fit 16 bits.  A fresh heap
block is uninitialised; its cells read as 0 until they are written. -/
def ROW._resizeChars (r : ROW) (colExtEnd chExtBeg chExtEnd chExtEndNew : Nat) : Option ROW :=
  let diff := szSub chExtEndNew chExtEnd
  let currentLength := r._charSize
  let newLength := sz (currentLength + diff)
  let tail := (r.chars.drop chExtEnd).take (currentLength - chExtEnd)
  let offs := shiftFrom r.charOffsets colExtEnd diff
  if newLength ≤ r.chars.length then
    some { r with chars := writeAt r.chars chExtEndNew tail, charOffsets := offs }
  else
    let minCapacity := min 65535 (r.chars.length + r.chars.length / 2)
    let newCapacity := max newLength minCapacity
    if newCapacity ≤ 65535 then
      let chars := writeAt (List.replicate newCapacity 0) 0 (r.chars.take chExtBeg)
      some { r with
        chars := writeAt chars chExtEndNew tail
        charsHeap := true
        charOffsets := offs }
    else none

/-! ## `ROW::ReplaceCharacters` -/

/-- The loop variables of the scanning part of `ReplaceCharacters` (lines 608-673):
the offsets array being written, `col2`, `ch2`, the position of `it` in `chars`,
whether `SetDoubleBytePadded(true)` ran, and `paddingSpaces`.  `placed` logs, for
every execution of line 653, the tuple `(col2, ch2, it, advance, wide)`; no other
field depends on it. -/
structure Scan where
  offs : List Nat
  col2 : Nat
  ch2 : Nat
  it : Nat
  padded : Bool
  paddingSpaces : Nat
  placed : List (Nat × Nat × Nat × Nat × Bool)
deriving DecidableEq, Repr

/-- The ASCII pass `for (; it != asciiEnd; ++it, ++col2, ++ch2) _charOffsets[col2] = ch2`
run for `n` code units. -/
def asciiPass : Nat → Scan → Scan
  | 0, s => s
  | n + 1, s =>
    asciiPass n { s with
      offs := s.offs.set s.col2 s.ch2
      col2 := s.col2 + 1
      ch2 := u16 (s.ch2 + 1)
      it := s.it + 1 }

/-- The width `1 + IsGlyphFullWidth(cluster)` of a cluster. -/
def clusterWidth (wide : Bool) : Nat := 1 + (if wide then 1 else 0)

/-- Lines 653-665: the cluster of `advance` code units is given its one or two columns. -/
def placeCluster (s : Scan) (advance : Nat) (wide : Bool) : Scan :=
  { offs :=
      if clusterWidth wide ≠ 1 then
        (s.offs.set s.col2 s.ch2).set (s.col2 + 1) (wordWithTrailer s.ch2)
      else s.offs.set s.col2 s.ch2
    col2 := if clusterWidth wide ≠ 1 then s.col2 + 2 else s.col2 + 1
    ch2 := u16 (s.ch2 + advance)
    it := s.it + advance
    padded := s.padded
    paddingSpaces := s.paddingSpaces
    placed := s.placed ++ [(s.col2, s.ch2, s.it, advance, wide)] }

/-- The segmenter loop (lines 638-671) over the boundaries still to be returned by
`ubrk_next`; `ubrk0` is the previous boundary. -/
def segLoop (env : Env) (columnCount : Nat) (chars : List Nat) :
    List Nat → Nat → Scan → Scan
  | [], _, s => s
  | ubrk1 :: rest, ubrk0, s =>
    let advance := min 65535 (ubrk1 - ubrk0)
    let wide := env.IsGlyphFullWidth ((chars.drop s.it).take advance)
    if (columnCount : Int) - (s.col2 : Int) < (clusterWidth wide : Int) then
      { s with padded := true, paddingSpaces := 1 }
    else
      let s2 := placeCluster s advance wide
      if s2.col2 = columnCount then s2 else segLoop env columnCount chars rest ubrk1 s2

/-- Lines 624-629: the scan steps back by one code unit when the ASCII pass has
consumed any. -/
def backOff (s : Scan) : Scan :=
  if s.it ≠ 0 then
    { s with it := s.it - 1, col2 := s.col2 - 1, ch2 := u16 (s.ch2 + 65535) }
  else s

/-- Lines 631-671: the segmenter is set to the text from `it` on and the segmenter
loop runs.  `none` is the exception thrown when `gsl::narrow<int32_t>` or
`ubrk_setText` fails. -/
def scanUnicode (env : Env) (columnCount : Nat) (chars : List Nat) (s : Scan) : Option Scan :=
  if 2 ^ 31 ≤ chars.length - s.it then none
  else
    match env.seg (chars.drop s.it) with
    | none => none
    | some bs => some (segLoop env columnCount chars bs 0 s)

/-- The scanning part of `ReplaceCharacters` (lines 608-673): ASCII pass, back-off,
segmenter loop. -/
def scanText (env : Env) (r : ROW) (colBeg ch1 : Nat) (chars : List Nat) : Option Scan :=
  let asciiMax := min (r.columnCount - colBeg) chars.length
  let asciiEnd := ((chars.take asciiMax).takeWhile (fun ch => !decide (0x80 ≤ ch))).length
  let s0 : Scan :=
    { offs := r.charOffsets, col2 := colBeg, ch2 := ch1, it := 0,
      padded := false, paddingSpaces := 0, placed := [] }
  let s1 := asciiPass asciiEnd s0
  if s1.it ≠ asciiMax then scanUnicode env r.columnCount chars (backOff s1)
  else some s1

/-- The values of the locals of `ReplaceCharacters` once the scan is done
(lines 593-684). -/
structure Locals where
  colBeg : Nat
  colExtBeg : Nat
  chExtBeg : Nat
  leadingSpaces : Nat
  ch1 : Nat
  scan : Scan
  col3 : Nat
  ch3 : Nat
  trailingSpaces : Nat
  copiedChars : Nat
  ch3new : Nat
deriving DecidableEq, Repr

/-- Lines 593-684 of `ReplaceCharacters` for an already clamped `colBeg`. -/
def replaceLocals (env : Env) (r : ROW) (colBeg : Nat) (chars : List Nat) : Option Locals :=
  let colExtBeg := extendDown r.charOffsets colBeg
  let chExtBeg := r._uncheckedCharOffset colBeg
  let leadingSpaces := colBeg - colExtBeg
  let ch1 := u16 (chExtBeg + leadingSpaces)
  match scanText env r colBeg ch1 chars with
  | none => none
  | some s =>
    let col3 := skipTrailers s.offs s.offs.length (s.col2 + s.paddingSpaces)
    let ch3 := wordOffset (s.offs.getD col3 0)
    let trailingSpaces := col3 - s.col2
    let copiedChars := szSub s.ch2 ch1
    let insertedChars := sz (sz (copiedChars + leadingSpaces) + trailingSpaces)
    let ch3new := sz (insertedChars + chExtBeg)
    some
      { colBeg := colBeg, colExtBeg := colExtBeg, chExtBeg := chExtBeg
        leadingSpaces := leadingSpaces, ch1 := ch1, scan := s, col3 := col3, ch3 := ch3
        trailingSpaces := trailingSpaces, copiedChars := copiedChars, ch3new := ch3new }

/-- Lines 686-699 of `ReplaceCharacters`: resize, then write the characters and
the offsets of the padding.  `none` is an exception thrown by `_resizeChars`. -/
def replaceWrite (r : ROW) (chars : List Nat) (v : Locals) : Option ROW :=
  let r1 : ROW :=
    { r with
      charOffsets := v.scan.offs
      doubleBytePadded := if v.scan.padded then true else r.doubleBytePadded }
  let r2? := if v.ch3new ≠ v.ch3 then r1._resizeChars v.col3 v.chExtBeg v.ch3 v.ch3new else some r1
  match r2? with
  | none => none
  | some r2 =>
    let c1 := writeAt r2.chars v.chExtBeg (List.replicate v.leadingSpaces UNICODE_SPACE)
    let o1 := iotaAt r2.charOffsets v.colExtBeg (v.colBeg - v.colExtBeg) v.chExtBeg
    let c2 := writeAt c1 v.ch1 (chars.take v.copiedChars)
    let c3 := writeAt c2 v.scan.ch2 (List.replicate v.trailingSpaces UNICODE_SPACE)
    let o2 := iotaAt o1 v.scan.col2 (v.col3 + 1 - v.scan.col2) v.scan.ch2
    some { r2 with chars := c3, charOffsets := o2 }

/-- How a call of `ReplaceCharacters` ends: it returns a column and leaves the
unconsumed suffix in `chars`, or it throws after the `catch` block reset the row. -/
inductive Outcome where
  | returned (row : ROW) (col : Nat) (rest : List Nat)
  | thrown (row : ROW)
deriving DecidableEq, Repr

/-- The operation `ROW::ReplaceCharacters(columnBegin, columnEnd, chars, charOffsets)`;
the `charOffsets` argument is never read by the function.  The `DEBUG` block
re-runs `ubrk_setText` on the whole of `_chars` and throws when that fails. -/
def ROW.ReplaceCharacters (env : Env) (r : ROW) (columnBegin columnEnd : Int)
    (chars : List Nat) : Outcome :=
  let colBeg := r._clampedColumnInclusive columnBegin
  let colEnd := r._clampedColumnInclusive columnEnd
  if colEnd ≤ colBeg ∨ chars = [] then Outcome.returned r colBeg chars
  else
    match replaceLocals env r colBeg chars with
    | none => Outcome.thrown (r.Reset default)
    | some v =>
      match replaceWrite r chars v with
      | none => Outcome.thrown (r.Reset default)
      | some r' =>
        match env.seg r'.chars with
        | none => Outcome.thrown (r.Reset default)
        | some _ => Outcome.returned r' v.col3 (chars.drop v.scan.it)

/-! ## `ROW::Resize` -/

/-- Modelled from the spec: `til::small_rle` is not among the sources; the total
count of the runs. -/
def rleTotal (runs : List (TextAttribute × Nat)) : Nat :=
  (runs.map Prod.snd).sum

/-- Modelled from the spec: `til::small_rle` is not among the sources; truncation
of the runs to a total of `size`. -/
def rleTruncate : List (TextAttribute × Nat) → Nat → List (TextAttribute × Nat)
  | [], _ => []
  | (v, n) :: rest, size =>
    if size = 0 then [] else if size ≤ n then [(v, size)] else (v, n) :: rleTruncate rest (size - n)

/-- Modelled from the spec: `til::small_rle` is not among the sources; the last run
grows by `extra`. -/
def rleExtend : List (TextAttribute × Nat) → Nat → List (TextAttribute × Nat)
  | [], _ => []
  | [(v, n)], extra => [(v, n + extra)]
  | run :: rest, extra => run :: rleExtend rest extra

/-- Modelled from the spec: `til::small_rle` is not among the sources;
`resize_trailing_extent(W')` extends or truncates the last run so that the total
becomes `W'`. -/
def rleResizeTrailingExtent (runs : List (TextAttribute × Nat)) (newSize : Nat) :
    List (TextAttribute × Nat) :=
  if newSize ≤ rleTotal runs then rleTruncate runs newSize
  else rleExtend runs (newSize - rleTotal runs)

/-- The operation `ROW::Resize` of a row that owns a buffer, onto fresh arenas of
`rowWidth` characters and `rowWidth + 1` offsets (fresh cells read as 0 until they
are written). -/
def ROW.Resize (r : ROW) (rowWidth : Nat) (fillAttribute : TextAttribute) : ROW :=
  let colsToCopy0 := min rowWidth r.columnCount
  let charsToCopy := r._uncheckedCharOffset colsToCopy0
  let colsToCopy := extendDown r.charOffsets colsToCopy0
  let trailingWhitespace := rowWidth - colsToCopy
  let charsCapacity := u16 (charsToCopy + trailingWhitespace)
  let heap := decide (rowWidth < charsCapacity)
  let capacity := if heap then charsCapacity else rowWidth
  let c1 := writeAt (List.replicate capacity 0) 0 (r.chars.take charsToCopy)
  let c2 := writeAt c1 charsToCopy (List.replicate trailingWhitespace UNICODE_SPACE)
  let o1 := writeAt (List.replicate (rowWidth + 1) 0) 0 (r.charOffsets.take colsToCopy)
  let o2 := iotaAt o1 colsToCopy (trailingWhitespace + 1) charsToCopy
  { r with
    chars := c2
    charsHeap := heap
    charOffsets := o2
    columnCount := rowWidth
    attr := if r.attr.isEmpty then rleMake rowWidth fillAttribute
            else rleResizeTrailingExtent r.attr rowWidth }

/-! ## Well-formed rows -/

/-- The offsets `cells` encode a sequence of glyphs whose text starts at offset `a`
and ends at offset `b`: a narrow glyph is one entry holding its start offset, a wide
glyph is that entry followed by the same offset with the trailer flag; every glyph
has at least one code unit. -/
inductive Cells : Nat → List Nat → Nat → Prop where
  | nil (a : Nat) : Cells a [] a
  | narrow (a k : Nat) (cs : List Nat) (b : Nat) :
      0 < k → Cells (a + k) cs b → Cells a (a :: cs) b
  | wide (a k : Nat) (cs : List Nat) (b : Nat) :
      0 < k → Cells (a + k) cs b → Cells a (a :: (a + CharOffsetsTrailer) :: cs) b

/-- The invariant of a row within the 15-bit limit: `_columnCount + 1` offsets, the
first `_columnCount` of which encode a glyph sequence from offset 0 to the text
length `_charSize()`, which is at most 32767 and at most the capacity. -/
structure ROW.Inv (r : ROW) : Prop where
  len : r.charOffsets.length = r.columnCount + 1
  cells : Cells 0 (r.charOffsets.take r.columnCount) r._charSize
  bound : r._charSize ≤ 32767
  cap : r._charSize ≤ r.chars.length

/-- The text length of the row after a call of `ReplaceCharacters` with locals `v`,
computed without truncation: the old length, minus the replaced code units, plus
the padding and the consumed code units. -/
def Locals.textLength (v : Locals) (r : ROW) : Nat :=
  r._charSize - v.ch3 + v.chExtBeg + v.leadingSpaces + v.scan.it + v.trailingSpaces

/-- The text length of the row after `Resize(rowWidth)`, computed without truncation. -/
def ROW.resizeTextLength (r : ROW) (rowWidth : Nat) : Nat :=
  r._uncheckedCharOffset (min rowWidth r.columnCount)
    + (rowWidth - extendDown r.charOffsets (min rowWidth r.columnCount))

/-- The segmenter contract: `bs` are boundaries `0 < b_1 < ... < b_n = len`
(none for the empty text). -/
def Boundaries (bs : List Nat) (len : Nat) : Prop :=
  List.Chain (fun a b => a < b) 0 bs ∧ (0 :: bs).getLast? = some len

/-- Whenever the segmenter accepts a text, it returns boundaries that obey its contract. -/
def Env.SegSound (env : Env) : Prop :=
  ∀ s bs, env.seg s = some bs → Boundaries bs s.length

/-- The segmenter accepts every text. -/
def Env.SegTotal (env : Env) : Prop :=
  ∀ s, ∃ bs, env.seg s = some bs

/-- Rows reachable from a freshly constructed row by `Reset`, by `ReplaceCharacters`
calls that return, and by `Resize`, as long as the text length stays at most 32767
(the text of a fresh or reset row has as many code units as the row has columns). -/
inductive Reachable (env : Env) : ROW → Prop where
  | new (rowWidth : Nat) (fill : TextAttribute) :
      rowWidth ≤ 32767 → Reachable env (ROW.new rowWidth fill)
  | reset (r : ROW) (fill : TextAttribute) :
      Reachable env r → r.columnCount ≤ 32767 → Reachable env (r.Reset fill)
  | replace (r : ROW) (columnBegin columnEnd : Int) (chars : List Nat)
      (r' : ROW) (col : Nat) (rest : List Nat) :
      Reachable env r →
      r.ReplaceCharacters env columnBegin columnEnd chars = Outcome.returned r' col rest →
      (∀ v, replaceLocals env r (r._clampedColumnInclusive columnBegin) chars = some v →
        v.textLength r ≤ 32767) →
      Reachable env r'
  | resize (r : ROW) (rowWidth : Nat) (fill : TextAttribute) :
      Reachable env r → r.resizeTextLength rowWidth ≤ 32767 →
      Reachable env (r.Resize rowWidth fill)

/-! ## A concrete segmenter and width lookup

Used to evaluate the functions on the scenarios of the specification: a combining
mark (U+0300..U+036F), the emoji variation selector U+FE0F, the enclosing keycap
U+20E3 or a low surrogate joins the cluster before it; a cluster is wide when it
starts with a high surrogate or with a CJK ideograph, or when it holds the emoji
variation selector. -/

/-- Whether a code unit continues the cluster of the unit before it. -/
def sampleJoins (ch : Nat) : Bool :=
  (decide (0x300 ≤ ch) && decide (ch ≤ 0x36f)) || (decide (0xdc00 ≤ ch) && decide (ch ≤ 0xdfff))
    || decide (ch = 0xfe0f) || decide (ch = 0x20e3)

/-- The cluster boundaries of `s` after position `pos`, where `pos` is the index of
the first unit of `s`. -/
def sampleBoundaries : Nat → List Nat → List Nat
  | _, [] => []
  | pos, [_] => [pos + 1]
  | pos, _ :: b :: s =>
    if sampleJoins b then sampleBoundaries (pos + 1) (b :: s)
    else (pos + 1) :: sampleBoundaries (pos + 1) (b :: s)

/-- Whether the sample width lookup takes a cluster for wide. -/
def sampleWide (cluster : List Nat) : Bool :=
  match cluster with
  | [] => false
  | ch :: rest =>
    (decide (0xd800 ≤ ch) && decide (ch ≤ 0xdbff)) || (decide (0x4e00 ≤ ch) && decide (ch ≤ 0x9fff))
      || rest.contains 0xfe0f

/-- The sample capabilities. -/
def sampleEnv : Env :=
  { seg := fun s => some (sampleBoundaries 0 s), IsGlyphFullWidth := sampleWide }

/-- The offsets of a scan state relative to the offsets `old` before the call: the
columns below `colBeg` are untouched, the columns `[colBeg, col2)` encode the glyphs
placed so far (text offsets `ch1` to `ch1 + it`), `stale` columns at `col2` hold
values that will be overwritten, and the columns after them are untouched. -/
def ScanForm (old : List Nat) (colBeg ch1 : Nat) (s : Scan) (stale : Nat) : Prop :=
  ∃ Y J, s.offs = old.take colBeg ++ Y ++ J ++ old.drop (s.col2 + stale)
    ∧ colBeg + Y.length = s.col2 ∧ J.length = stale ∧ Cells ch1 Y (ch1 + s.it)

/-- What the scan has established when it ends: the shape of the offsets, with one
stale column exactly when a padding space was recorded, and the relations between
its counters. -/
structure ScanDone (old : List Nat) (W colBeg ch1 : Nat) (s : Scan) : Prop where
  form : ScanForm old colBeg ch1 s s.paddingSpaces
  col_le : s.col2 ≤ W
  ch2 : s.ch2 = ch1 + s.it
  pad : (s.paddingSpaces = 0 ∧ s.padded = false)
    ∨ (s.paddingSpaces = 1 ∧ s.padded = true ∧ s.col2 + 1 = W)

/-- What the locals of a `ReplaceCharacters` call on a well-formed row satisfy, when
the call stays within the 15-bit limit. -/
structure LocalsSpec (r : ROW) (colBeg : Nat) (chars : List Nat) (v : Locals) : Prop where
  colBeg_eq : v.colBeg = colBeg
  ext : v.colExtBeg + v.leadingSpaces = colBeg
  lead_le : v.leadingSpaces ≤ 1
  lead_iff : v.leadingSpaces = 1 ↔ wordIsTrailer (r.charOffsets.getD colBeg 0) = true
  extNoTrailer : wordIsTrailer (r.charOffsets.getD v.colExtBeg 0) = false
  chExtBeg : r.charOffsets.getD v.colExtBeg 0 = v.chExtBeg
  ch1 : v.ch1 = v.chExtBeg + v.leadingSpaces
  scan : ScanDone r.charOffsets r.columnCount colBeg v.ch1 v.scan
  it_le : v.scan.it ≤ chars.length
  progress : 0 < v.scan.it ∨ v.scan.paddingSpaces = 1
  col3 : v.scan.col2 + v.trailingSpaces = v.col3
  col3_le : v.col3 ≤ r.columnCount
  trail_le : v.trailingSpaces ≤ 1
  trail_iff : v.trailingSpaces = 1 ↔
    (v.scan.paddingSpaces = 1 ∨ wordIsTrailer (r.charOffsets.getD v.scan.col2 0) = true)
  col3NoTrailer : wordIsTrailer (r.charOffsets.getD v.col3 0) = false
  ch3 : r.charOffsets.getD v.col3 0 = v.ch3
  ch3_ge : v.chExtBeg ≤ v.ch3
  ch3_le : v.ch3 ≤ r._charSize
  copied : v.copiedChars = v.scan.it
  ch3new : v.ch3new = v.scan.ch2 + v.trailingSpaces

/-- What the row `r'` written by `ReplaceCharacters` looks like, given the row `r`
before the call and the locals `v`: the offsets and the text in closed form, the
capacity, the untouched fields and the invariant. -/
structure WriteSpec (r : ROW) (chars : List Nat) (v : Locals) (r' : ROW) : Prop where
  offs : ∃ Y, Cells v.ch1 Y v.scan.ch2 ∧ v.colBeg + Y.length = v.scan.col2
    ∧ Y = (v.scan.offs.drop v.colBeg).take (v.scan.col2 - v.colBeg)
    ∧ r'.charOffsets = r.charOffsets.take v.colExtBeg
        ++ List.range' v.chExtBeg v.leadingSpaces ++ Y
        ++ List.range' v.scan.ch2 v.trailingSpaces
        ++ (r.charOffsets.drop v.col3).map (fun x => x + v.ch3new - v.ch3)
  text : r'.chars.take (v.textLength r) = r.chars.take v.chExtBeg
        ++ List.replicate v.leadingSpaces UNICODE_SPACE ++ chars.take v.scan.it
        ++ List.replicate v.trailingSpaces UNICODE_SPACE
        ++ (r.chars.drop v.ch3).take (r._charSize - v.ch3)
  cap : v.textLength r ≤ r'.chars.length
  size : r'._charSize = v.textLength r
  newLength : v.textLength r = r._charSize + v.ch3new - v.ch3
  columnCount : r'.columnCount = r.columnCount
  attr : r'.attr = r.attr
  lineRendition : r'.lineRendition = r.lineRendition
  wrapForced : r'.wrapForced = r.wrapForced
  padded : r'.doubleBytePadded = (if v.scan.padded then true else r.doubleBytePadded)
  inv : r'.Inv

/-- The row an outcome leaves behind. -/
def Outcome.row : Outcome → ROW
  | Outcome.returned row _ _ => row
  | Outcome.thrown row => row

/-- The text of scenario S1. -/
def sampleHello : List Nat := [0x68, 0x65, 0x6c, 0x6c, 0x6f]

/-- The row of scenario S2: width 6, three wide glyphs of one code unit each. -/
def sampleRowWide : ROW :=
  ((ROW.new 6 default).ReplaceCharacters sampleEnv 0 6 [0x4e00, 0x4e01, 0x4e02]).row

/-- The row of scenario S2 after `ReplaceCharacters(1, 3, w)` with one wide glyph `w`. -/
def sampleRowS2 : ROW :=
  (sampleRowWide.ReplaceCharacters sampleEnv 1 3 [0x4e03]).row

/-- What the log `placed` of a scan state records, for each cluster placed at column
`c` with text offset `ch`, text position `it`, length `a` and wideness `w`: its
columns lie in `[colBeg, col2)`, its first column holds `ch`, its second column (if
wide) holds `ch` with the trailer flag, `ch` is `ch1 + it`, the cluster is not empty
and ends within the consumed text, and the next column holds `ch + a` (or is `col2`,
with `ch2 = ch + a`). -/
def PlacedOK (colBeg ch1 : Nat) (s : Scan) : Prop :=
  ∀ c ch it a w, (c, ch, it, a, w) ∈ s.placed →
    colBeg ≤ c ∧ c + clusterWidth w ≤ s.col2
      ∧ s.offs.getD c 0 = ch
      ∧ (w = true → s.offs.getD (c + 1) 0 = ch + CharOffsetsTrailer)
      ∧ ch = ch1 + it ∧ 0 < a ∧ it + a ≤ s.it
      ∧ ((c + clusterWidth w = s.col2 ∧ s.ch2 = ch + a)
          ∨ (c + clusterWidth w < s.col2 ∧ s.offs.getD (c + clusterWidth w) 0 = ch + a))

/-- The text of scenario S5: `a`, U+1F600 as a surrogate pair, `b`. -/
def sampleEmojiText : List Nat := [0x61, 0xd83d, 0xde00, 0x62]

/-- The row of scenario S5: width 4, written with `sampleEmojiText`. -/
def sampleRowEmoji : ROW :=
  ((ROW.new 4 default).ReplaceCharacters sampleEnv 0 4 sampleEmojiText).row

/-- A keycap sequence: the digit `1`, the emoji variation selector U+FE0F and the
enclosing keycap U+20E3 form one cluster, which the sample width lookup takes for
wide. -/
def sampleKeycap : List Nat := [0x31, 0xfe0f, 0x20e3]

/-- The text of scenario S3: `a`, the combining acute accent U+0301, `b`. -/
def sampleCombining : List Nat := [0x61, 0x301, 0x62]

/-- A text whose last cluster is `b` with a combining acute accent. -/
def sampleSplit : List Nat := [0x61, 0x62, 0x301]

/-- The glyph texts `GlyphAt(c)` of the columns `c` of `[a, b)` that are no
trailers, in column order (every glyph once, at its first column). -/
def ROW.glyphTexts (r : ROW) (a b : Nat) : List (List Nat) :=
  ((List.range' a (b - a)).filter (fun (c : Nat) => !r._uncheckedIsTrailer c)).map
    (fun (c : Nat) => r.GlyphAt (c : Int))

/-! ## `RowTextIterator` -/

/-- The state of a `RowTextIterator`: the spans `_chars` and `_charOffsets` it reads
and the columns `_beg` and `_end`. -/
structure RowTextIterator where
  chars : List Nat
  charOffsets : List Nat
  beg : Nat
  fin : Nat
deriving DecidableEq, Repr

/-- The operator `RowTextIterator::operator++`: `_beg = _end`, then
`while (_uncheckedIsTrailer(++_end))`.  A read past the offsets array yields no
trailer, as in `skipTrailers`. -/
def RowTextIterator.next (it : RowTextIterator) : RowTextIterator :=
  { it with
    beg := it.fin
    fin := skipTrailers it.charOffsets it.charOffsets.length (it.fin + 1) }

/-- The constructor `RowTextIterator(chars, charOffsets, offset)`: both columns are
set to `offset`, then `operator++` runs once. -/
def RowTextIterator.new (chars charOffsets : List Nat) (offset : Nat) : RowTextIterator :=
  RowTextIterator.next { chars := chars, charOffsets := charOffsets, beg := offset, fin := offset }

/-- The comparison `RowTextIterator::operator==`: only `_beg` is compared. -/
def RowTextIterator.eq (a b : RowTextIterator) : Bool := decide (a.beg = b.beg)

/-- The accessor `RowTextIterator::Text`; the length `end - beg` is converted to
`size_t`, a view that is longer than the buffer ends with the buffer. -/
def RowTextIterator.Text (it : RowTextIterator) : List Nat :=
  let b := wordOffset (it.charOffsets.getD it.beg 0)
  let e := wordOffset (it.charOffsets.getD it.fin 0)
  (it.chars.drop b).take (if b ≤ e then e - b else 2 ^ 64 - (b - e))

/-- The accessor `RowTextIterator::Cols`. -/
def RowTextIterator.Cols (it : RowTextIterator) : Int := (it.fin : Int) - (it.beg : Int)

/-- The accessor `RowTextIterator::DbcsAttr`. -/
def RowTextIterator.DbcsAttr (it : RowTextIterator) : DbcsAttribute :=
  if it.Cols = 2 then DbcsAttribute.Leading else DbcsAttribute.Single

/-- The accessor `ROW::Begin`. -/
def ROW.Begin (r : ROW) : RowTextIterator := RowTextIterator.new r.chars r.charOffsets 0

/-- The accessor `ROW::End`. -/
def ROW.End (r : ROW) : RowTextIterator :=
  RowTextIterator.new r.chars r.charOffsets r.columnCount

/-- The traversal `for (auto it = Begin(); it != End(); ++it)`, as in the self-check
of `ReplaceCharacters`: the iterator states it visits, or `none` when `fuel` steps
do not reach `End()`. -/
def iterateFrom (last : RowTextIterator) : Nat → RowTextIterator → Option (List RowTextIterator)
  | 0, _ => none
  | fuel + 1, it =>
    if it.eq last then some []
    else (iterateFrom last fuel it.next).map (fun l => it :: l)

/-- The traversal of a whole row. -/
def ROW.iterate (r : ROW) (fuel : Nat) : Option (List RowTextIterator) :=
  iterateFrom r.End fuel r.Begin

/-- What an iterator state visited by the traversal of a well-formed row `r` is: it
reads the spans of `r`, it stands at a column `beg < W` that is no trailer, `fin` is
the next column that is no trailer, one or two columns later, and `Text()` is the
text between the offsets of the two columns, which is `GlyphAt(beg)`. -/
structure GlyphIter (r : ROW) (it : RowTextIterator) : Prop where
  chars : it.chars = r.chars
  offs : it.charOffsets = r.charOffsets
  lt : it.beg < r.columnCount
  begNoTrailer : wordIsTrailer (r.charOffsets.getD it.beg 0) = false
  finNoTrailer : wordIsTrailer (r.charOffsets.getD it.fin 0) = false
  fin_le : it.fin ≤ r.columnCount
  span : it.fin = it.beg + 1
    ∨ (it.fin = it.beg + 2 ∧ wordIsTrailer (r.charOffsets.getD (it.beg + 1) 0) = true)
  text : it.Text = (r.chars.drop (r.charOffsets.getD it.beg 0)).take
    (r.charOffsets.getD it.fin 0 - r.charOffsets.getD it.beg 0)
  glyph : it.Text = r.GlyphAt (it.beg : Int)

/-- Capabilities whose segmenter refuses every text (`ubrk_setText` reports an
error); the width lookup is the sample one. -/
def sampleRefusingEnv : Env :=
  { seg := fun _ => none, IsGlyphFullWidth := sampleWide }

/-! ## The attribute store -/

/-- Modelled from the spec: `til::small_rle` is not among the sources; the attribute
of every column, run by run. -/
def rleExpand (runs : List (TextAttribute × Nat)) : List TextAttribute :=
  (runs.map (fun run => List.replicate run.2 run.1)).flatten

/-- Modelled from the spec: `til::small_rle` is not among the sources; the runs of a
column-by-column list, abutting columns with equal attributes merged into one run. -/
def rleCompress : List TextAttribute → List (TextAttribute × Nat)
  | [] => []
  | a :: rest =>
    match rleCompress rest with
    | [] => [(a, 1)]
    | (b, n) :: runs => if a = b then (b, n + 1) :: runs else (a, 1) :: (b, n) :: runs

/-- Modelled from the spec: `til::small_rle` is not among the sources;
`replace(begin, end, attr)` overwrites the half-open column range `[begin, end)`.
`none` is the invalid-argument error for a range that does not lie within the
store (the store is left as it is). -/
def rleReplace (runs : List (TextAttribute × Nat)) (b e : Nat) (value : TextAttribute) :
    Option (List (TextAttribute × Nat)) :=
  if b ≤ e ∧ e ≤ rleTotal runs then
    some (rleCompress
      ((rleExpand runs).take b ++ List.replicate (e - b) value ++ (rleExpand runs).drop e))
  else none

/-- Modelled from the spec: `til::small_rle` is not among the sources; `at(col)` is
the attribute of the run that covers `col`, `none` past the last run. -/
def rleAt : List (TextAttribute × Nat) → Nat → Option TextAttribute
  | [], _ => none
  | (v, n) :: rest, pos => if pos < n then some v else rleAt rest (pos - n)

/-- The helper `ROW::_clampedUint16` on a `til::CoordType` argument. -/
def _clampedUint16 (v : Int) : Nat := (max 0 (min 65535 v)).toNat

/-- The accessor `ROW::GetAttrByColumn`. -/
def ROW.GetAttrByColumn (r : ROW) (column : Int) : Option TextAttribute :=
  rleAt r.attr (_clampedUint16 column)

/-- The accessor `ROW::GetHyperlinks`: the ids of the runs whose attribute is a
hyperlink, in run order. -/
def ROW.GetHyperlinks (r : ROW) : List Nat :=
  (r.attr.filter (fun run => decide (run.1.hyperlinkId ≠ 0))).map (fun run => run.1.hyperlinkId)

/-- The operation `ROW::ReplaceAttributes`; `none` when `_attr.replace` refuses the
range. -/
def ROW.ReplaceAttributes (r : ROW) (beginIndex endIndex : Int) (newAttr : TextAttribute) :
    Option ROW :=
  (rleReplace r.attr (r._clampedColumnInclusive beginIndex) (r._clampedColumnInclusive endIndex)
    newAttr).map (fun a => { r with attr := a })

/-- The operation `ROW::SetAttrToEnd`: the range runs to `_attr.size()`. -/
def ROW.SetAttrToEnd (r : ROW) (columnBegin : Int) (attr : TextAttribute) : Option ROW :=
  (rleReplace r.attr (r._clampedColumnInclusive columnBegin) (rleTotal r.attr) attr).map
    (fun a => { r with attr := a })

/-- The operation `ROW::TransferAttributes`; `none` is the exception of
`gsl::narrow<uint16_t>(newWidth)`. -/
def ROW.TransferAttributes (r : ROW) (attr : List (TextAttribute × Nat)) (newWidth : Int) :
    Option ROW :=
  if 0 ≤ newWidth ∧ newWidth ≤ 65535 then
    some { r with attr := rleResizeTrailingExtent attr newWidth.toNat }
  else none

/-- Two attributes that differ. -/
def sampleAttrA : TextAttribute := { value := 1, hyperlinkId := 0 }

/-- Two attributes that differ. -/
def sampleAttrB : TextAttribute := { value := 2, hyperlinkId := 0 }

/-- The row of scenario S3: width 6, written with `sampleCombining`; its text has 7
code units and lives on the heap. -/
def sampleRowCombining : ROW :=
  ((ROW.new 6 default).ReplaceCharacters sampleEnv 0 6 sampleCombining).row

/-! ## Measuring the text -/

/-- The accessor `ROW::MeasureLeft`: the number of code units of `GetText()` before
the first one that is no space. -/
def ROW.MeasureLeft (r : ROW) : Int :=
  ((r.GetText.takeWhile (fun ch => decide (ch = UNICODE_SPACE))).length : Int)

/-- The accessor `ROW::MeasureRight`: `_columnCount - (end - it)`, where `end - it` is
the number of code units of `GetText()` after the last one that is no space. -/
def ROW.MeasureRight (r : ROW) : Int :=
  (r.columnCount : Int)
    - ((r.GetText.reverse.takeWhile (fun ch => decide (ch = UNICODE_SPACE))).length : Int)

/-- The accessor `ROW::ContainsText`. -/
def ROW.ContainsText (r : ROW) : Bool :=
  r.GetText.any (fun ch => decide (ch ≠ UNICODE_SPACE))

/-- Whether a code unit joins the unit after it into one cluster (the Unicode
property `Prepend`, as of U+0600 ARABIC NUMBER SIGN). -/
def samplePrepends (ch : Nat) : Bool := decide (ch = 0x600)

/-- The cluster boundaries of a segmenter that knows combining marks and prepended
marks; `pos` is the index of the first unit of the text. -/
def samplePrependBoundaries : Nat → List Nat → List Nat
  | _, [] => []
  | pos, [_] => [pos + 1]
  | pos, a :: b :: s =>
    if sampleJoins b || samplePrepends a then samplePrependBoundaries (pos + 1) (b :: s)
    else (pos + 1) :: samplePrependBoundaries (pos + 1) (b :: s)

/-- Capabilities with a segmenter that keeps U+0600 with the code unit after it. -/
def samplePrependEnv : Env :=
  { seg := fun s => some (samplePrependBoundaries 0 s), IsGlyphFullWidth := sampleWide }

/-- A row of width 2 whose first column holds the cluster U+0600 U+0020. -/
def sampleRowPrepend : ROW :=
  ((ROW.new 2 default).ReplaceCharacters samplePrependEnv 0 2 [0x600, 0x20]).row

/-- A row of width 6 whose first column holds a space with a combining acute accent. -/
def sampleRowSpaceAccent : ROW :=
  ((ROW.new 6 default).ReplaceCharacters sampleEnv 0 6 [0x20, 0x301, 0x62]).row

/-- The glyphs of a well-formed row from column `a` to the end of the row, as the
iterator states that stand at them: each one starts where the one before it ends. -/
inductive GlyphChain (r : ROW) : Nat → List RowTextIterator → Prop where
  | nil : GlyphChain r r.columnCount []
  | cons (it : RowTextIterator) (l : List RowTextIterator) :
      GlyphIter r it → GlyphChain r it.fin l → GlyphChain r it.beg (it :: l)

/-- The witness row of `MeasureRight`: width 6, the narrow glyphs `a` and `b` in
columns 0 and 1, a wide glyph in columns 2 and 3, spaces after it. -/
def sampleRowMeasure : ROW :=
  ((ROW.new 6 default).ReplaceCharacters sampleEnv 0 6 [0x61, 0x62, 0x4e00]).row

/-! ## Delimiter classes and the reads of the accessors -/

/-- The result of `ROW::DelimiterClassAt`. -/
inductive DelimiterClass where
  | ControlChar
  | DelimiterChar
  | RegularChar
deriving DecidableEq, Repr

/-- The accessor `ROW::_uncheckedChar`. -/
def ROW._uncheckedChar (r : ROW) (off : Nat) : Nat :=
  r.chars.getD off 0

/-- The accessor `ROW::DelimiterClassAt`. -/
def ROW.DelimiterClassAt (r : ROW) (column : Int) (wordDelimiters : List Nat) : DelimiterClass :=
  let col := r._clampedColumn column
  let glyph := r._uncheckedChar (r._uncheckedCharOffset col)
  if glyph ≤ UNICODE_SPACE then DelimiterClass.ControlChar
  else if wordDelimiters.contains glyph then DelimiterClass.DelimiterChar
  else DelimiterClass.RegularChar

/-- The indices of `_charOffsets` that the loop `while (isTrailer(++col))` reads,
`col` being the first of them. -/
def skipTrailersReads (offs : List Nat) : Nat → Nat → List Nat
  | 0, _ => []
  | fuel + 1, col =>
    col :: (if wordIsTrailer (offs.getD col 0) then skipTrailersReads offs fuel (col + 1) else [])

/-- The indices of `_charOffsets` that the loop `while (col != 0 && isTrailer(--col))`
reads. -/
def precedingLoopReads (offs : List Nat) : Nat → List Nat
  | 0 => []
  | col + 1 =>
    col :: (if wordIsTrailer (offs.getD col 0) then precedingLoopReads offs col else [])

/-- The indices of `_charOffsets` that `GlyphAt(column)` reads: the clamped column,
the columns that the loop tests, and the column at which the loop ends. -/
def ROW.GlyphAtOffsetReads (r : ROW) (column : Int) : List Nat :=
  let col := r._clampedColumn column
  col :: (skipTrailersReads r.charOffsets r.charOffsets.length (col + 1)
    ++ [skipTrailers r.charOffsets r.charOffsets.length (col + 1)])

/-- The offsets into `_chars` at which the view that `GlyphAt(column)` returns begins
and ends. -/
def ROW.GlyphAtCharReads (r : ROW) (column : Int) : List Nat :=
  let col := r._clampedColumn column
  [r._uncheckedCharOffset col,
    r._uncheckedCharOffset (skipTrailers r.charOffsets r.charOffsets.length (col + 1))]

/-- The indices of `_charOffsets` that `PrecedingColumn(column)` reads. -/
def ROW.PrecedingColumnOffsetReads (r : ROW) (column : Int) : List Nat :=
  precedingLoopReads r.charOffsets (r._clampedColumn column)

/-! ## The head of `ROW::WriteCells` -/

/-- How `ROW::WriteCells` proceeds up to the first test of its loop condition; the
row has not been touched up to there.  `invalidArg`: one of the two
`THROW_HR_IF(E_INVALIDARG, ...)` fired.  `loop`: the loop condition
`it && currentIndex <= finalColumnInRow` holds and the loop body runs with these
locals.  `done`: the loop condition fails at its first test, `colorUses` is still 0,
no attribute is committed and the function returns `it`. -/
inductive WriteCellsHead where
  | invalidArg (row : ROW)
  | loop (row : ROW) (currentIndex : Nat) (finalColumnInRow : Int)
  | done (row : ROW)
deriving DecidableEq, Repr

/-- The function `ROW::WriteCells` up to the first test of its loop condition:
`itValid` is `bool(it)`, `limitRight` the optional right limit.  The comparisons
with `size()` are comparisons of `int`; `gsl::narrow_cast<uint16_t>` keeps the low 16
bits of `columnBegin`. -/
def ROW.WriteCellsHead (r : ROW) (itValid : Bool) (columnBegin : Int) (limitRight : Option Int) :
    WriteCellsHead :=
  if (r.columnCount : Int) ≤ columnBegin then WriteCellsHead.invalidArg r
  else if (r.columnCount : Int) ≤ limitRight.getD 0 then WriteCellsHead.invalidArg r
  else
    let finalColumnInRow : Int := limitRight.getD ((r.columnCount : Int) - 1)
    let currentIndex : Nat := (columnBegin % 65536).toNat
    if itValid ∧ (currentIndex : Int) ≤ finalColumnInRow then
      WriteCellsHead.loop r currentIndex finalColumnInRow
    else WriteCellsHead.done r

/-! ## Hyperlink fixtures -/

/-- A hyperlink attribute with id 7. -/
def sampleAttrLink : TextAttribute := { value := 3, hyperlinkId := 7 }

/-- A row of width 3 whose columns 0 and 2 carry the same hyperlink and whose column 1
carries the default attribute. -/
def sampleRowLinks : Option ROW :=
  ((ROW.new 3 default).ReplaceAttributes 0 1 sampleAttrLink).bind
    (fun r => r.ReplaceAttributes 2 3 sampleAttrLink)

/-! ## The reads of `RowTextIterator` -/

/-- The indices of `_charOffsets` that `RowTextIterator::operator++` reads: the loop
`while (_uncheckedIsTrailer(++_end))` tests the columns from `_end + 1` on. -/
def RowTextIterator.nextReads (it : RowTextIterator) : List Nat :=
  skipTrailersReads it.charOffsets it.charOffsets.length (it.fin + 1)

/-- The indices of `_charOffsets` that the constructor
`RowTextIterator(chars, charOffsets, offset)` reads through its call of `operator++`. -/
def RowTextIterator.newReads (chars charOffsets : List Nat) (offset : Nat) : List Nat :=
  RowTextIterator.nextReads
    { chars := chars, charOffsets := charOffsets, beg := offset, fin := offset }

/-- The indices of `_charOffsets` that `ROW::Begin` reads. -/
def ROW.BeginReads (r : ROW) : List Nat := RowTextIterator.newReads r.chars r.charOffsets 0

/-- The indices of `_charOffsets` that `ROW::End` reads. -/
def ROW.EndReads (r : ROW) : List Nat :=
  RowTextIterator.newReads r.chars r.charOffsets r.columnCount

/-- The size `gsl::narrow_cast<size_t>(end - beg)` of the view that
`RowTextIterator::Text` returns. -/
def RowTextIterator.TextSize (it : RowTextIterator) : Nat :=
  let b := wordOffset (it.charOffsets.getD it.beg 0)
  let e := wordOffset (it.charOffsets.getD it.fin 0)
  if b ≤ e then e - b else 2 ^ 64 - (b - e)

/-! ## The self-check of `ReplaceCharacters` -/

/-- The loop of the `DEBUG` block of `ReplaceCharacters` (lines 727-740) over the
boundaries that `ubrk_next` still returns, and the `ASSERT(it == end)` after it:
`true` when the condition of every `ASSERT` holds.  The conditions are, for every
cluster: `it != end`, `width == expectedCols`, `expectedText.data() == _chars.data()
+ ubrk0` and `expectedText.size() == advance`. -/
def selfCheckLoop (env : Env) (r : ROW) : List Nat → Nat → RowTextIterator → Bool
  | [], _, it => it.eq r.End
  | ubrk1 :: rest, ubrk0, it =>
    let expectedCols := it.Cols
    let advance := _clampedUint16 ((ubrk1 : Int) - (ubrk0 : Int))
    let width : Int :=
      1 + (if env.IsGlyphFullWidth ((r.chars.drop ubrk0).take advance) then 1 else 0)
    !(it.eq r.End) && decide (width = expectedCols)
      && decide (wordOffset (it.charOffsets.getD it.beg 0) = ubrk0)
      && decide (it.TextSize = advance)
      && selfCheckLoop env r rest ubrk1 it.next

/-- The `DEBUG` block of `ReplaceCharacters` (lines 717-743) on the row as it stands:
the segmenter runs over the whole of `_chars`; `none` when `ubrk_setText` refuses
it, otherwise whether every `ASSERT` of the block holds. -/
def ROW.selfCheck (env : Env) (r : ROW) : Option Bool :=
  (env.seg r.chars).map (fun bs => selfCheckLoop env r bs 0 r.Begin)

/-- A row of width 6 written by two calls: `a` into column 0, then the combining
acute accent U+0301 into column 1. -/
def sampleRowAccentSplit : ROW :=
  (((ROW.new 6 default).ReplaceCharacters sampleEnv 0 6 [0x61]).row.ReplaceCharacters
    sampleEnv 1 6 [0x301]).row

/-! ## The in-place move of `_resizeChars` in the words of the specification -/

/-- The in-place step as the specification words it: memmove
`chars[chExtEndOld..P]` to `chars[chExtEndNew..]`.  The `P - chExtEndOld` cells from
`chExtEndNew` on take the code units that stood at `chExtEndOld`, the other cells
keep theirs. -/
def specMoveTail (chars : List Nat) (P chExtEndOld chExtEndNew : Nat) : List Nat :=
  chars.take chExtEndNew ++ (chars.drop chExtEndOld).take (P - chExtEndOld)
    ++ chars.drop (chExtEndNew + (P - chExtEndOld))

/-! ## The text adapter (`UTextAdapter.cpp`) -/

/-- Truncation to `int64_t`. -/
def i64 (x : Int) : Int := (x + 9223372036854775808) % 18446744073709551616 - 9223372036854775808

/-- Truncation to `int32_t`. -/
def i32 (x : Int) : Int := (x + 2147483648) % 4294967296 - 2147483648

/-- The error code `U_ZERO_ERROR`. -/
def U_ZERO_ERROR : Int := 0

/-- The error code `U_ILLEGAL_ARGUMENT_ERROR`. -/
def U_ILLEGAL_ARGUMENT_ERROR : Int := 1

/-- The flag `UTEXT_PROVIDER_LENGTH_IS_EXPENSIVE` as the file uses it. -/
def UTEXT_PROVIDER_LENGTH_IS_EXPENSIVE : Nat := 1

/-- The flag `UTEXT_PROVIDER_STABLE_CHUNKS` as the file uses it. -/
def UTEXT_PROVIDER_STABLE_CHUNKS : Nat := 2

/-- The fields of the `UText` that the adapter reads and writes: the chunk
description, and the provider fields `r` (the cached length, as `uintptr_t`),
`b` (the row of the chunk) and `c` (the row count). -/
structure UText where
  chunkNativeStart : Int
  chunkNativeLimit : Int
  chunkOffset : Int
  chunkLength : Int
  nativeIndexingLimit : Int
  length : Nat
  row : Int
  rowCount : Int
  providerProperties : Nat
deriving DecidableEq, Repr

/-- Modelled from the spec: `TextBuffer` is not among the sources;
`GetRowByOffset(i).GetText()` is `row_text(i)`, the text of row `i` of the source,
the rows being numbered from 0.  The text of a row that does not exist is taken to
be empty. -/
def rowText (buffer : List ROW) (i : Int) : List Nat :=
  if i < 0 then []
  else
    match buffer[i.toNat]? with
    | some r => r.GetText
    | none => []

/-- Modelled from the spec: `utext_setup` belongs to ICU and is not among the
sources; it hands out a `UText` whose chunk fields and provider fields are zero.
The function `utext_openUChars` on its success path then stores the row count
`GetTextBufferEndPosition().y` and the provider properties. -/
def utext_openUChars (endPositionY : Int) : UText :=
  { chunkNativeStart := 0, chunkNativeLimit := 0, chunkOffset := 0, chunkLength := 0
    nativeIndexingLimit := 0, length := 0, row := 0, rowCount := endPositionY
    providerProperties := UTEXT_PROVIDER_LENGTH_IS_EXPENSIVE ||| UTEXT_PROVIDER_STABLE_CHUNKS }

/-- The function `utextLength`: the cached length when it is not 0, otherwise the sum
of the text lengths of the rows `0 .. c - 1`, which is cached.  Returns the length
and the `UText` after the call. -/
def utextLength (buffer : List ROW) (ut : UText) : Int × UText :=
  if ut.length ≠ 0 then (i64 (ut.length : Int), ut)
  else
    let length := (List.range ut.rowCount.toNat).foldl
      (fun acc (i : Nat) => sz (acc + (rowText buffer (i : Int)).length)) 0
    (i64 (length : Int), { ut with length := length })

/-- The backward loop of `utextAccess` (lines 112-122) with `y + 1` rows still to
visit; yields `y`, `start`, `limit` and `text` as the loop leaves them. -/
def accessBackward (buffer : List ROW) (nativeIndex : Int) :
    Nat → Int → Int → List Nat → Int × Int × Int × List Nat
  | 0, start, limit, text => (-1, start, limit, text)
  | y + 1, start, _, _ =>
    let text := rowText buffer (y : Int)
    let limit := start
    let start := i64 (start - (text.length : Int))
    if start ≤ nativeIndex then ((y : Int), start, limit, text)
    else accessBackward buffer nativeIndex y start limit text

/-- The forward loop of `utextAccess` (lines 129-139) from row `y`; `fuel` bounds the
number of rows still below `rowCount`. -/
def accessForward (buffer : List ROW) (nativeIndex rowCount : Int) :
    Nat → Int → Int → Int → List Nat → Int × Int × Int × List Nat
  | 0, y, start, limit, text => (y, start, limit, text)
  | fuel + 1, y, start, limit, text =>
    if y < rowCount then
      let text := rowText buffer y
      let start := limit
      let limit := i64 (limit + (text.length : Int))
      if nativeIndex < limit then (y, start, limit, text)
      else accessForward buffer nativeIndex rowCount fuel (y + 1) start limit text
    else (y, start, limit, text)

/-- The function `utextAccess`: the returned flag and the `UText` after the call. -/
def utextAccess (buffer : List ROW) (ut : UText) (nativeIndex : Int) (forward : Bool) :
    Bool × UText :=
  let nativeIndex := if forward then nativeIndex else nativeIndex - 1
  let start := ut.chunkNativeStart
  let limit := ut.chunkNativeLimit
  if start ≤ nativeIndex ∧ nativeIndex < limit then (true, ut)
  else
    let res :=
      if nativeIndex < start then
        if ut.row - 1 < 0 then (ut.row - 1, start, limit, [])
        else accessBackward buffer nativeIndex ((ut.row - 1).toNat + 1) start limit []
      else
        accessForward buffer nativeIndex ut.rowCount (ut.rowCount - (ut.row + 1)).toNat
          (ut.row + 1) start limit []
    (false,
      { ut with
        row := res.1
        chunkNativeStart := res.2.1
        chunkNativeLimit := res.2.2.1
        chunkOffset := 0
        chunkLength := i32 (res.2.2.2.length : Int)
        nativeIndexingLimit := i32 (res.2.2.2.length : Int) })

/-- The copy loop of `utextExtract` (lines 201-209) from row `y`: yields `idx` and the
code units written to `dest`, in the order of their addresses. -/
def extractLoop (buffer : List ROW) (rowCount nativeLimit : Int) :
    Nat → Int → Int → Nat → List Nat → Int × List Nat
  | 0, _, idx, _, out => (idx, out)
  | fuel + 1, y, idx, remaining, out =>
    if y < rowCount ∧ idx < nativeLimit then
      let text := rowText buffer y
      let copyable := min text.length remaining
      extractLoop buffer rowCount nativeLimit fuel (y + 1) (i64 (idx + (text.length : Int)))
        (remaining - copyable) (out ++ text.take copyable)
    else (idx, out)

/-- What a call of `utextExtract` leaves behind: the returned count, the code units
written to `dest`, the `UText` and the status. -/
structure Extracted where
  count : Int
  dest : List Nat
  ut : UText
  status : Int
deriving DecidableEq, Repr

/-- The function `utextExtract`; `destNull` tells whether `dest` is `nullptr`. -/
def utextExtract (buffer : List ROW) (ut : UText) (nativeStart nativeLimit : Int)
    (destNull : Bool) (destCapacity : Int) (status : Int) : Extracted :=
  if U_ZERO_ERROR < status then { count := 0, dest := [], ut := ut, status := status }
  else if destCapacity < 0 ∨ (destNull = true ∧ 0 < destCapacity) ∨ nativeLimit < nativeStart then
    { count := 0, dest := [], ut := ut, status := U_ILLEGAL_ARGUMENT_ERROR }
  else
    let ut1 := (utextAccess buffer ut nativeStart true).2
    let res := extractLoop buffer ut1.rowCount nativeLimit (ut1.rowCount - ut1.row).toNat
      ut1.row nativeStart destCapacity.toNat []
    let ut2 :=
      if res.1 < nativeLimit then
        { ut1 with
          length := (res.1 % 18446744073709551616).toNat
          providerProperties := ut1.providerProperties &&& (4294967295 - UTEXT_PROVIDER_LENGTH_IS_EXPENSIVE) }
      else ut1
    { count := i32 (min res.1 nativeLimit - nativeStart), dest := res.2, ut := ut2, status := status }

/-- A buffer of two rows: the row `a`, U+1F600, `b` (4 code units) and the row of
three wide glyphs (3 code units). -/
def sampleBuffer : List ROW := [sampleRowEmoji, sampleRowWide]

/-- The element-by-element reading of `std::copy_n(first, count, result)`: for each
`i` in turn, `*(result + i) = *(first + i)`.  It is what `copy_n` amounts to when it
is not lowered to `memmove`; `src` and `dst` are the indices of `first` and `result`. -/
def copyForward : List Nat → Nat → Nat → Nat → List Nat
  | l, _, _, 0 => l
  | l, src, dst, n + 1 => copyForward (l.set dst (l.getD src 0)) (src + 1) (dst + 1) n

/-- A cluster of `n + 1` code units: the narrow base U+00E9 followed by `n` combining
acute accents U+0301. -/
def sampleLongCluster (n : Nat) : List Nat := 0xe9 :: List.replicate n 0x301

/-- The cluster `sampleLongCluster n` followed by the wide glyph U+4E00. -/
def sampleLongThenWide (n : Nat) : List Nat := sampleLongCluster n ++ [0x4e00]

/-- The start of the scan of `ReplaceCharacters`: nothing consumed at column `colBeg`
and text offset `ch1`. -/
def Scan.start (offs : List Nat) (colBeg ch1 : Nat) : Scan :=
  { offs := offs, col2 := colBeg, ch2 := ch1, it := 0, padded := false, paddingSpaces := 0,
    placed := [] }

/-- The slow path `ROW::_resizeChars` with an allocator that may fail: `alloc n` tells
whether `std::make_unique_for_overwrite<wchar_t[]>(n)` (line 777) returns its block
of `n` characters.  `none` is the exception of `gsl::narrow<uint16_t>` or the
`std::bad_alloc` of the allocator. -/
def ROW._resizeCharsAlloc (alloc : Nat → Bool) (r : ROW)
    (colExtEnd chExtBeg chExtEnd chExtEndNew : Nat) : Option ROW :=
  let diff := szSub chExtEndNew chExtEnd
  let currentLength := r._charSize
  let newLength := sz (currentLength + diff)
  let tail := (r.chars.drop chExtEnd).take (currentLength - chExtEnd)
  let offs := shiftFrom r.charOffsets colExtEnd diff
  if newLength ≤ r.chars.length then
    some { r with chars := writeAt r.chars chExtEndNew tail, charOffsets := offs }
  else
    let minCapacity := min 65535 (r.chars.length + r.chars.length / 2)
    let newCapacity := max newLength minCapacity
    if newCapacity ≤ 65535 then
      if alloc newCapacity then
        let chars := writeAt (List.replicate newCapacity 0) 0 (r.chars.take chExtBeg)
        some { r with
          chars := writeAt chars chExtEndNew tail
          charsHeap := true
          charOffsets := offs }
      else none
    else none

/-- Lines 686-699 of `ReplaceCharacters` with an allocator that may fail. -/
def replaceWriteAlloc (alloc : Nat → Bool) (r : ROW) (chars : List Nat) (v : Locals) :
    Option ROW :=
  let r1 : ROW :=
    { r with
      charOffsets := v.scan.offs
      doubleBytePadded := if v.scan.padded then true else r.doubleBytePadded }
  let r2? :=
    if v.ch3new ≠ v.ch3 then r1._resizeCharsAlloc alloc v.col3 v.chExtBeg v.ch3 v.ch3new
    else some r1
  match r2? with
  | none => none
  | some r2 =>
    let c1 := writeAt r2.chars v.chExtBeg (List.replicate v.leadingSpaces UNICODE_SPACE)
    let o1 := iotaAt r2.charOffsets v.colExtBeg (v.colBeg - v.colExtBeg) v.chExtBeg
    let c2 := writeAt c1 v.ch1 (chars.take v.copiedChars)
    let c3 := writeAt c2 v.scan.ch2 (List.replicate v.trailingSpaces UNICODE_SPACE)
    let o2 := iotaAt o1 v.scan.col2 (v.col3 + 1 - v.scan.col2) v.scan.ch2
    some { r2 with chars := c3, charOffsets := o2 }

/-- The operation `ROW::ReplaceCharacters` with an allocator that may fail.  Whatever
is thrown inside the `try` block, `std::bad_alloc` included, is caught by
`catch (...)` (lines 748-756), which runs `Reset(TextAttribute{})` and throws again. -/
def ROW.ReplaceCharactersAlloc (env : Env) (alloc : Nat → Bool) (r : ROW)
    (columnBegin columnEnd : Int) (chars : List Nat) : Outcome :=
  let colBeg := r._clampedColumnInclusive columnBegin
  let colEnd := r._clampedColumnInclusive columnEnd
  if colEnd ≤ colBeg ∨ chars = [] then Outcome.returned r colBeg chars
  else
    match replaceLocals env r colBeg chars with
    | none => Outcome.thrown (r.Reset default)
    | some v =>
      match replaceWriteAlloc alloc r chars v with
      | none => Outcome.thrown (r.Reset default)
      | some r' =>
        match env.seg r'.chars with
        | none => Outcome.thrown (r.Reset default)
        | some _ => Outcome.returned r' v.col3 (chars.drop v.scan.it)

/-- What a scan state has left untouched of the offsets `old` before the call,
whatever the length of the text: the array keeps its length, and the columns from
`col2 + stale` on hold the words they held. -/
def ScanFrame (old : List Nat) (s : Scan) (stale : Nat) : Prop :=
  s.offs.length = old.length ∧ ∀ i, s.col2 + stale ≤ i → s.offs.getD i 0 = old.getD i 0

/-! ## Buffer primitives in closed form -/

theorem writeAt_length (src : List Nat) : ∀ (l : List Nat) (pos : Nat),
    (writeAt l pos src).length = l.length := by
  induction src with
  | nil => intro l pos; rfl
  | cons x xs ih => intro l pos; simp [writeAt, ih]

theorem writeAt_eq (src : List Nat) : ∀ (l : List Nat) (pos : Nat),
    pos + src.length ≤ l.length →
    writeAt l pos src = l.take pos ++ src ++ l.drop (pos + src.length) := by
  induction src with
  | nil => intro l pos _; simp [writeAt]
  | cons x xs ih =>
    intro l pos h
    simp only [List.length_cons] at h
    have hpos : pos < l.length := by omega
    rw [writeAt, ih _ _ (by simp; omega)]
    rw [List.set_eq_take_append_cons_drop, if_pos hpos]
    have h1 : (l.take pos ++ x :: l.drop (pos + 1)).take (pos + 1) = l.take pos ++ [x] := by
      rw [List.take_append_eq_append_take]
      simp [List.take_take, Nat.min_eq_left (Nat.le_of_lt hpos), Nat.min_eq_left (Nat.le_succ pos)]
    have h2 : (l.take pos ++ x :: l.drop (pos + 1)).drop (pos + 1 + xs.length)
        = l.drop (pos + (xs.length + 1)) := by
      rw [List.drop_append_eq_append_drop]
      have hl : (l.take pos).length = pos := by simp; omega
      rw [hl]
      have : pos + 1 + xs.length - pos = xs.length + 1 := by omega
      rw [this, List.drop_succ_cons, List.drop_drop]
      have : List.drop (pos + 1 + xs.length) (List.take pos l) = [] := by
        apply List.drop_eq_nil_of_le; simp; omega
      rw [this]; simp; congr 1; omega
    rw [h1, h2]; simp


theorem u16_of_lt {n : Nat} (h : n < 65536) : u16 n = n := Nat.mod_eq_of_lt h

theorem u16_u16_add (a b : Nat) : u16 (u16 a + b) = u16 (a + b) := by
  simp [u16, Nat.add_mod]

theorem wordIsTrailer_of_le {v : Nat} (h : v ≤ 32767) : wordIsTrailer v = false := by
  simp [wordIsTrailer, u16, CharOffsetsTrailer, Nat.mod_eq_of_lt (show v < 65536 by omega)]
  omega

theorem wordIsTrailer_add {v : Nat} (h : v ≤ 32767) :
    wordIsTrailer (v + CharOffsetsTrailer) = true := by
  simp [wordIsTrailer, u16, CharOffsetsTrailer,
    Nat.mod_eq_of_lt (show v + 32768 < 65536 by omega)]

theorem wordOffset_of_le {v : Nat} (h : v ≤ 32767) : wordOffset v = v := by
  simp [wordOffset, CharOffsetsMask, Nat.mod_eq_of_lt (show v < 32768 by omega)]

theorem wordOffset_add {v : Nat} (h : v ≤ 32767) : wordOffset (v + CharOffsetsTrailer) = v := by
  simp [wordOffset, CharOffsetsMask, CharOffsetsTrailer, Nat.mod_eq_of_lt (show v < 32768 by omega)]

theorem iotaAt_eq : ∀ (n : Nat) (l : List Nat) (pos val : Nat), val + n ≤ 65536 →
    iotaAt l pos n val = writeAt l pos (List.range' val n) := by
  intro n
  induction n with
  | zero => intro l pos val _; rfl
  | succ n ih =>
    intro l pos val h
    rw [iotaAt, List.range'_succ, writeAt]
    cases n with
    | zero => rfl
    | succ m =>
      rw [u16_of_lt (by omega)]
      exact ih _ _ _ (by omega)

theorem shiftFrom_length : ∀ (l : List Nat) (pos d : Nat), (shiftFrom l pos d).length = l.length := by
  intro l
  induction l with
  | nil => intro pos d; rfl
  | cons x xs ih =>
    intro pos d
    cases pos with
    | zero => simp [shiftFrom, ih]
    | succ p => simp [shiftFrom, ih]

theorem shiftFrom_eq : ∀ (l : List Nat) (pos d : Nat),
    shiftFrom l pos d = l.take pos ++ (l.drop pos).map (fun x => u16 (x + d)) := by
  intro l
  induction l with
  | nil => intro pos d; simp [shiftFrom]
  | cons x xs ih =>
    intro pos d
    cases pos with
    | zero => simp [shiftFrom, ih]
    | succ p => simp [shiftFrom, ih]

/-! ## Glyph encodings -/

theorem Cells.le {a b : Nat} {cs : List Nat} (h : Cells a cs b) : a ≤ b := by
  induction h with
  | nil a => exact Nat.le_refl a
  | narrow a k cs b hk _ ih => omega
  | wide a k cs b hk _ ih => omega

theorem Cells.append {a m b : Nat} {xs ys : List Nat} (h1 : Cells a xs m) (h2 : Cells m ys b) :
    Cells a (xs ++ ys) b := by
  induction h1 with
  | nil a => simpa using h2
  | narrow a k cs m hk _ ih => exact Cells.narrow a k _ b hk (ih h2)
  | wide a k cs m hk _ ih => exact Cells.wide a k _ b hk (ih h2)

theorem Cells.range : ∀ (n a : Nat), Cells a (List.range' a n) (a + n) := by
  intro n
  induction n with
  | zero => intro a; exact Cells.nil a
  | succ n ih =>
    intro a
    rw [List.range'_succ]
    have := ih (a + 1)
    rw [show a + 1 + n = a + (n + 1) by omega] at this
    exact Cells.narrow a 1 _ _ Nat.one_pos this

theorem Cells.snoc_narrow {a b k : Nat} {cs : List Nat} (h : Cells a cs b) (hk : 0 < k) :
    Cells a (cs ++ [b]) (b + k) :=
  h.append (Cells.narrow b k [] (b + k) hk (Cells.nil _))

theorem Cells.snoc_wide {a b k : Nat} {cs : List Nat} (h : Cells a cs b) (hk : 0 < k) :
    Cells a (cs ++ [b, b + CharOffsetsTrailer]) (b + k) :=
  h.append (Cells.wide b k [] (b + k) hk (Cells.nil _))

/-- Shifting a glyph encoding: every entry moves by `p - q`. -/
theorem Cells.shift {a b : Nat} {cs : List Nat} (h : Cells a cs b) (p q : Nat) (hq : q ≤ a) :
    Cells (a + p - q) (cs.map (fun x => x + p - q)) (b + p - q) := by
  induction h with
  | nil a => exact Cells.nil _
  | narrow a k cs b hk _ ih =>
    have := ih (by omega)
    rw [show a + k + p - q = (a + p - q) + k by omega] at this
    exact Cells.narrow _ k _ _ hk this
  | wide a k cs b hk _ ih =>
    have := ih (by omega)
    rw [show a + k + p - q = (a + p - q) + k by omega] at this
    have h2 := Cells.wide _ k _ _ hk this
    simp only [List.map_cons]
    rw [show a + CharOffsetsTrailer + p - q = a + p - q + CharOffsetsTrailer by
      simp only [CharOffsetsTrailer]; omega]
    exact h2

theorem Cells.length_le {a b : Nat} {cs : List Nat} (h : Cells a cs b) : a + cs.length ≤ b + cs.length := by
  have := h.le; omega

/-- Splitting an encoding at a column that is not a trailer. -/
theorem Cells.split {a b : Nat} {cs : List Nat} (h : Cells a cs b) (hb : b ≤ 32767) :
    ∀ i, i ≤ cs.length → wordIsTrailer (cs.getD i 0) = false →
    ∃ m, Cells a (cs.take i) m ∧ Cells m (cs.drop i) b ∧ (i < cs.length → cs.getD i 0 = m) := by
  induction h with
  | nil a =>
    intro i hi _
    exact ⟨a, by simpa using Cells.nil a, by simpa using Cells.nil a, by simp at hi; simp [hi]⟩
  | narrow a k cs b hk hc ih =>
    intro i hi ht
    cases i with
    | zero => exact ⟨a, Cells.nil a, Cells.narrow a k cs b hk hc, by simp⟩
    | succ j =>
      obtain ⟨m, h1, h2, h3⟩ := ih hb j (by simpa using hi) (by simpa using ht)
      exact ⟨m, Cells.narrow a k _ m hk h1, h2, by simpa using h3⟩
  | wide a k cs b hk hc ih =>
    intro i hi ht
    have hab := hc.le
    cases i with
    | zero => exact ⟨a, Cells.nil a, Cells.wide a k cs b hk hc, by simp⟩
    | succ j =>
      cases j with
      | zero =>
        exfalso
        have := wordIsTrailer_add (show a ≤ 32767 by omega)
        simp at ht
        rw [this] at ht
        exact Bool.noConfusion ht
      | succ j =>
        obtain ⟨m, h1, h2, h3⟩ := ih hb j (by simpa using hi) (by simpa using ht)
        exact ⟨m, Cells.wide a k _ m hk h1, h2, by simpa using h3⟩

/-- A trailer column follows a column that is no trailer and holds the same offset,
and is followed by a column that is no trailer. -/
theorem Cells.trailer {a b : Nat} {cs : List Nat} (h : Cells a cs b) (hb : b ≤ 32767) :
    ∀ i, wordIsTrailer (cs.getD i 0) = true →
    ∃ j, i = j + 1 ∧ wordIsTrailer (cs.getD j 0) = false
      ∧ cs.getD i 0 = cs.getD j 0 + CharOffsetsTrailer ∧ cs.getD j 0 ≤ 32767
      ∧ wordIsTrailer (cs.getD (i + 1) 0) = false := by
  induction h with
  | nil a => intro i ht; simp [wordIsTrailer, u16, CharOffsetsTrailer] at ht
  | narrow a k cs b hk hc ih =>
    intro i ht
    have hab := hc.le
    cases i with
    | zero =>
      exfalso
      have := wordIsTrailer_of_le (show a ≤ 32767 by omega)
      simp at ht; rw [this] at ht; exact Bool.noConfusion ht
    | succ j =>
      obtain ⟨j', hj, h1, h2, h3, h4⟩ := ih hb j (by simpa using ht)
      subst hj
      exact ⟨j' + 1, rfl, by simpa using h1, by simpa using h2, by simpa using h3, by simpa using h4⟩
  | wide a k cs b hk hc ih =>
    intro i ht
    have hab := hc.le
    cases i with
    | zero =>
      exfalso
      have := wordIsTrailer_of_le (show a ≤ 32767 by omega)
      simp at ht; rw [this] at ht; exact Bool.noConfusion ht
    | succ j =>
      cases j with
      | zero =>
        refine ⟨0, rfl, ?_, by simp, by simp; omega, ?_⟩
        · simpa using wordIsTrailer_of_le (show a ≤ 32767 by omega)
        · simp
          cases hc with
          | nil _ => simp [wordIsTrailer, u16, CharOffsetsTrailer]
          | narrow _ k2 cs2 _ hk2 hc2 =>
            have := hc2.le
            simpa using wordIsTrailer_of_le (show a + k ≤ 32767 by omega)
          | wide _ k2 cs2 _ hk2 hc2 =>
            have := hc2.le
            simpa using wordIsTrailer_of_le (show a + k ≤ 32767 by omega)
      | succ j =>
        obtain ⟨j', hj, h1, h2, h3, h4⟩ := ih hb j (by simpa using ht)
        subst hj
        exact ⟨j' + 2, rfl, by simpa using h1, by simpa using h2, by simpa using h3,
          by simpa using h4⟩

/-! ## The scanning part of `ReplaceCharacters` -/

theorem set_append_cons (A : List Nat) (x v : Nat) (R : List Nat) :
    (A ++ x :: R).set A.length v = A ++ v :: R := by
  induction A with
  | nil => rfl
  | cons a A ih => simp [ih]

theorem set_append_cons_of_eq (A : List Nat) (x v : Nat) (R : List Nat) (n : Nat)
    (h : A.length = n) : (A ++ x :: R).set n v = A ++ v :: R := by
  subst h; exact set_append_cons A x v R

theorem drop_eq_getD_cons (l : List Nat) (i : Nat) (h : i < l.length) :
    l.drop i = l.getD i 0 :: l.drop (i + 1) := by
  rw [List.drop_eq_getElem_cons h]
  simp [List.getD, List.getElem?_eq_getElem h]

/-- Closed form of the ASCII pass. -/
theorem asciiPass_eq : ∀ (k : Nat) (s : Scan), s.col2 + k ≤ s.offs.length → s.ch2 < 65536 →
    asciiPass k s =
      { s with
        offs := s.offs.take s.col2 ++ (List.range' 0 k).map (fun i => u16 (s.ch2 + i))
                  ++ s.offs.drop (s.col2 + k)
        col2 := s.col2 + k
        ch2 := u16 (s.ch2 + k)
        it := s.it + k } := by
  intro k
  induction k with
  | zero =>
    intro s _ h2
    simp [asciiPass, u16_of_lt h2]
  | succ k ih =>
    intro s h1 h2
    rw [asciiPass, ih _ (by simp; omega) (by simp [u16]; omega)]
    have hlt : s.col2 < s.offs.length := by omega
    have hset : s.offs.set s.col2 s.ch2 = s.offs.take s.col2 ++ s.ch2 :: s.offs.drop (s.col2 + 1) := by
      rw [List.set_eq_take_append_cons_drop, if_pos hlt]
    simp only [hset]
    have e1 : (s.offs.take s.col2 ++ s.ch2 :: s.offs.drop (s.col2 + 1)).take (s.col2 + 1)
        = s.offs.take s.col2 ++ [s.ch2] := by
      rw [List.take_append_eq_append_take]
      simp [List.take_take, Nat.min_eq_left (Nat.le_of_lt hlt)]
    have e2 : (s.offs.take s.col2 ++ s.ch2 :: s.offs.drop (s.col2 + 1)).drop (s.col2 + 1 + k)
        = s.offs.drop (s.col2 + (k + 1)) := by
      rw [List.drop_append_eq_append_drop]
      have hl : (s.offs.take s.col2).length = s.col2 := by simp; omega
      rw [hl, show s.col2 + 1 + k - s.col2 = k + 1 by omega, List.drop_succ_cons, List.drop_drop]
      rw [List.drop_eq_nil_of_le (by simp; omega)]
      simp; congr 1; omega
    rw [e1, e2]
    have e3 : (List.range' 0 (k + 1)).map (fun i => u16 (s.ch2 + i))
        = s.ch2 :: (List.range' 0 k).map (fun i => u16 (u16 (s.ch2 + 1) + i)) := by
      rw [List.range'_succ, List.map_cons, Nat.add_zero, u16_of_lt h2]
      congr 1
      have hr : List.range' 1 k = (List.range' 0 k).map (fun i => 1 + i) := by
        rw [List.map_add_range']
      rw [hr, List.map_map]
      apply List.map_congr_left
      intro i _
      simp only [Function.comp, u16_u16_add]
      congr 1; omega
    rw [e3]
    simp [u16_u16_add, Nat.add_assoc, Nat.add_comm 1 k]

theorem segLoop_it_mono (env : Env) (W : Nat) (text : List Nat) :
    ∀ (bs : List Nat) (ubrk0 : Nat) (s : Scan), s.it ≤ (segLoop env W text bs ubrk0 s).it := by
  intro bs
  induction bs with
  | nil => intro _ s; exact Nat.le_refl _
  | cons b bs ih =>
    intro ubrk0 s
    simp only [segLoop]
    split
    · exact Nat.le_refl _
    · split
      · simp [placeCluster]
      · refine Nat.le_trans ?_ (ih _ _)
        simp [placeCluster]

theorem clusterWidth_true : clusterWidth true = 2 := rfl

theorem clusterWidth_false : clusterWidth false = 1 := rfl

theorem clusterWidth_le (w : Bool) : 1 ≤ clusterWidth w ∧ clusterWidth w ≤ 2 := by
  cases w <;> simp [clusterWidth]

theorem wordWithTrailer_of_le {v : Nat} (h : v ≤ 32767) :
    wordWithTrailer v = v + CharOffsetsTrailer := by
  simp [wordWithTrailer, wordOffset_of_le h]

/-- A scan state with no stale column can be read as one with a stale column. -/
theorem ScanForm.to_stale {old : List Nat} {colBeg ch1 : Nat} {s : Scan}
    (h : ScanForm old colBeg ch1 s 0) (hc : s.col2 < old.length) :
    ScanForm old colBeg ch1 s 1 := by
  obtain ⟨Y, J, h1, h2, h3, h4⟩ := h
  have hJ : J = [] := List.eq_nil_of_length_eq_zero h3
  subst hJ
  refine ⟨Y, [old.getD s.col2 0], ?_, h2, rfl, h4⟩
  rw [h1, Nat.add_zero, drop_eq_getD_cons old s.col2 hc]
  simp

theorem ScanForm.stale_shape {old : List Nat} {colBeg ch1 : Nat} {s : Scan}
    (h : ScanForm old colBeg ch1 s 1) (hcb : colBeg ≤ old.length) :
    ∃ Y x, s.offs = (old.take colBeg ++ Y) ++ x :: old.drop (s.col2 + 1)
      ∧ (old.take colBeg ++ Y).length = s.col2 ∧ colBeg + Y.length = s.col2
      ∧ Cells ch1 Y (ch1 + s.it) := by
  obtain ⟨Y, J, h1, h2, h3, h4⟩ := h
  match J, h3 with
  | [x], _ =>
    refine ⟨Y, x, by simpa using h1, ?_, h2, h4⟩
    simp [Nat.min_eq_left hcb, h2]

theorem placeCluster_form {old : List Nat} {colBeg ch1 W : Nat} {s : Scan} (advance : Nat)
    (wide : Bool) (hold : old.length = W + 1) (hcb : colBeg ≤ old.length)
    (h : ScanForm old colBeg ch1 s 1) (hch : s.ch2 = ch1 + s.it)
    (hfit : s.col2 + clusterWidth wide ≤ W) (hadv : 0 < advance)
    (hb : ch1 + s.it + advance ≤ 32767) :
    ScanForm old colBeg ch1 (placeCluster s advance wide) 0
      ∧ (placeCluster s advance wide).col2 = s.col2 + clusterWidth wide := by
  obtain ⟨Y, x, h1, h2, h3, h4⟩ := h.stale_shape hcb
  cases wide with
  | false =>
    refine ⟨⟨Y ++ [s.ch2], [], ?_, ?_, rfl, ?_⟩, ?_⟩
    · simp only [placeCluster, clusterWidth_false, ne_eq, not_true_eq_false, if_false]
      rw [h1, set_append_cons_of_eq _ _ _ _ _ h2]
      simp
    · simp [placeCluster, clusterWidth_false]; omega
    · simp only [placeCluster]
      rw [hch, ← Nat.add_assoc]
      exact h4.snoc_narrow hadv
    · simp [placeCluster, clusterWidth_false]
  | true =>
    rw [clusterWidth_true] at hfit
    have hd : old.drop (s.col2 + 1) = old.getD (s.col2 + 1) 0 :: old.drop (s.col2 + 1 + 1) :=
      drop_eq_getD_cons old _ (by omega)
    refine ⟨⟨Y ++ [s.ch2, s.ch2 + CharOffsetsTrailer], [], ?_, ?_, rfl, ?_⟩, ?_⟩
    · simp only [placeCluster, clusterWidth_true]
      rw [if_pos (by decide), h1, set_append_cons_of_eq _ _ _ _ _ h2, hd]
      have e : (old.take colBeg ++ Y) ++ s.ch2 :: old.getD (s.col2 + 1) 0 :: old.drop (s.col2 + 1 + 1)
          = (old.take colBeg ++ Y ++ [s.ch2]) ++ old.getD (s.col2 + 1) 0 :: old.drop (s.col2 + 1 + 1) := by
        simp
      rw [e, set_append_cons_of_eq _ _ _ _ _ (by simp; omega),
        wordWithTrailer_of_le (by omega)]
      simp
    · simp [placeCluster, clusterWidth_true]; omega
    · simp only [placeCluster]
      rw [hch, ← Nat.add_assoc]
      exact h4.snoc_wide hadv
    · simp [placeCluster, clusterWidth_true]

/-- The segmenter loop, started in a state of the expected shape and ending within
the 15-bit limit, ends in a state of the expected shape; `it` has advanced to one
of the boundaries. -/
theorem segLoop_spec (env : Env) (W : Nat) (text old : List Nat) (colBeg ch1 base : Nat)
    (hold : old.length = W + 1) (hcb : colBeg ≤ old.length) :
    ∀ (bs : List Nat) (ubrk0 : Nat) (s : Scan),
      List.Chain (fun a b => a < b) ubrk0 bs →
      s.col2 < W → s.ch2 = ch1 + s.it → s.it = base + ubrk0 →
      s.paddingSpaces = 0 → s.padded = false →
      (ScanForm old colBeg ch1 s 0 ∨ (bs ≠ [] ∧ ScanForm old colBeg ch1 s 1)) →
      ch1 + (segLoop env W text bs ubrk0 s).it ≤ 32767 →
      ScanDone old W colBeg ch1 (segLoop env W text bs ubrk0 s)
        ∧ (∃ b, b ∈ ubrk0 :: bs ∧ (segLoop env W text bs ubrk0 s).it = base + b)
        ∧ (bs ≠ [] → s.it < (segLoop env W text bs ubrk0 s).it
            ∨ (segLoop env W text bs ubrk0 s).paddingSpaces = 1)
        ∧ s.col2 ≤ (segLoop env W text bs ubrk0 s).col2 := by
  intro bs
  induction bs with
  | nil =>
    intro ubrk0 s _ hc hch hit hp hpd hform _
    refine ⟨⟨?_, Nat.le_of_lt hc, hch, Or.inl ⟨hp, hpd⟩⟩, ⟨ubrk0, by simp, hit⟩,
      fun h => absurd rfl h, Nat.le_refl _⟩
    simp only [segLoop]
    rw [hp]
    rcases hform with h | ⟨h, _⟩
    · exact h
    · exact absurd rfl h
  | cons b bs ih =>
    intro ubrk0 s hchain hc hch hit hp hpd hform hbound
    have hlt : ubrk0 < b := (List.chain_cons.mp hchain).1
    have hchain' : List.Chain (fun a b => a < b) b bs := (List.chain_cons.mp hchain).2
    have hform1 : ScanForm old colBeg ch1 s 1 := by
      rcases hform with h | ⟨_, h⟩
      · exact h.to_stale (by omega)
      · exact h
    simp only [segLoop] at hbound ⊢
    have hw := clusterWidth_le
      (env.IsGlyphFullWidth (List.take (min 65535 (b - ubrk0)) (List.drop s.it text)))
    split at hbound
    · -- the cluster does not fit: one padding space
      rename_i hnf
      rw [if_pos hnf]
      refine ⟨⟨?_, Nat.le_of_lt hc, hch, Or.inr ⟨rfl, rfl, (by show s.col2 + 1 = W; omega)⟩⟩,
        ⟨ubrk0, by simp, hit⟩,
        fun _ => Or.inr rfl, Nat.le_refl _⟩
      exact hform1
    · rename_i hfit
      rw [if_neg hfit]
      have hfit' : s.col2 + clusterWidth
          (env.IsGlyphFullWidth (List.take (min 65535 (b - ubrk0)) (List.drop s.it text))) ≤ W := by
        omega
      have hmono := segLoop_it_mono env W text bs b
        (placeCluster s (min 65535 (b - ubrk0))
          (env.IsGlyphFullWidth (List.take (min 65535 (b - ubrk0)) (List.drop s.it text))))
      have hb2 : ch1 + s.it + min 65535 (b - ubrk0) ≤ 32767 := by
        split at hbound
        · simp only [placeCluster] at hbound; omega
        · simp only [placeCluster] at hmono hbound; omega
      have hadv : min 65535 (b - ubrk0) = b - ubrk0 := by omega
      obtain ⟨hf2, hcol2⟩ := placeCluster_form (min 65535 (b - ubrk0))
        (env.IsGlyphFullWidth (List.take (min 65535 (b - ubrk0)) (List.drop s.it text)))
        hold hcb hform1 hch hfit' (by omega) hb2
      have hit2 : (placeCluster s (min 65535 (b - ubrk0))
          (env.IsGlyphFullWidth (List.take (min 65535 (b - ubrk0)) (List.drop s.it text)))).it
          = base + b := by
        simp only [placeCluster]; omega
      have hch2 : (placeCluster s (min 65535 (b - ubrk0))
          (env.IsGlyphFullWidth (List.take (min 65535 (b - ubrk0)) (List.drop s.it text)))).ch2
          = ch1 + (placeCluster s (min 65535 (b - ubrk0))
          (env.IsGlyphFullWidth (List.take (min 65535 (b - ubrk0)) (List.drop s.it text)))).it := by
        simp only [placeCluster]
        rw [hch, u16_of_lt (by omega)]; omega
      split
      · rename_i hend
        refine ⟨⟨?_, by omega, hch2, Or.inl ⟨by simpa [placeCluster] using hp,
          by simpa [placeCluster] using hpd⟩⟩, ⟨b, by simp, hit2⟩, fun _ => Or.inl ?_, by omega⟩
        · have : (placeCluster s (min 65535 (b - ubrk0))
            (env.IsGlyphFullWidth (List.take (min 65535 (b - ubrk0)) (List.drop s.it text)))).paddingSpaces
              = 0 := by simpa [placeCluster] using hp
          rw [this]; exact hf2
        · rw [hit2]; omega
      · rename_i hend
        rw [if_neg hend] at hbound
        obtain ⟨h1, ⟨b', hb', hb'2⟩, _, h4⟩ := ih b _ hchain' (by omega) hch2 hit2
          (by simpa [placeCluster] using hp) (by simpa [placeCluster] using hpd)
          (Or.inl hf2) hbound
        refine ⟨h1, ⟨b', by simp at hb' ⊢; tauto, hb'2⟩, fun _ => Or.inl ?_, by omega⟩
        rw [hit2] at hmono
        omega

theorem map_u16_range (a : Nat) : ∀ (k : Nat), a + k ≤ 65536 →
    (List.range' 0 k).map (fun i => u16 (a + i)) = List.range' a k := by
  intro k h
  have : (List.range' 0 k).map (fun i => u16 (a + i)) = (List.range' 0 k).map (fun i => a + i) := by
    apply List.map_congr_left
    intro i hi
    rw [List.mem_range'] at hi
    obtain ⟨j, hj, rfl⟩ := hi
    exact u16_of_lt (by omega)
  rw [this, List.map_add_range', Nat.add_zero]

theorem chain_le_last : ∀ (bs : List Nat) (a b last : Nat),
    List.Chain (fun x y => x < y) a bs → b ∈ a :: bs → (a :: bs).getLast? = some last →
    b ≤ last ∧ a ≤ last := by
  intro bs
  induction bs with
  | nil =>
    intro a b last _ hb hl
    simp at hb hl
    omega
  | cons c bs ih =>
    intro a b last hc hb hl
    have h1 := (List.chain_cons.mp hc).1
    have h2 := (List.chain_cons.mp hc).2
    have hl' : (c :: bs).getLast? = some last := by
      simpa [List.getLast?_cons_cons] using hl
    rcases List.mem_cons.mp hb with rfl | hb'
    · have := (ih c c last h2 (by simp) hl').1
      omega
    · have := ih c b last h2 hb' hl'
      omega

theorem boundaries_ne_nil {bs : List Nat} {len : Nat} (h : Boundaries bs len) (hl : 0 < len) :
    bs ≠ [] := by
  intro hb
  subst hb
  have := h.2
  simp at this
  omega

/-- The segmenter part of the scan, started in a state of the expected shape with
text left, ends in a state of the expected shape. -/
theorem scanUnicode_spec (env : Env) (W : Nat) (old text : List Nat) (colBeg ch1 : Nat)
    (s2 s : Scan) (hsound : env.SegSound) (hold : old.length = W + 1) (hcb : colBeg ≤ old.length)
    (hc : s2.col2 < W) (hch : s2.ch2 = ch1 + s2.it) (hit : s2.it < text.length)
    (hp : s2.paddingSpaces = 0) (hpd : s2.padded = false)
    (hform : ScanForm old colBeg ch1 s2 0 ∨ ScanForm old colBeg ch1 s2 1)
    (h : scanUnicode env W text s2 = some s) (hb : ch1 + s.it ≤ 32767) :
    ScanDone old W colBeg ch1 s ∧ s.it ≤ text.length
      ∧ (s2.it < s.it ∨ s.paddingSpaces = 1) := by
  simp only [scanUnicode] at h
  split at h
  · exact Option.noConfusion h
  · split at h
    · exact Option.noConfusion h
    · rename_i bs hseg
      have hs : s = _ := (Option.some.inj h).symm
      have hB := hsound _ _ hseg
      have hne' : bs ≠ [] := boundaries_ne_nil hB (by simp; omega)
      obtain ⟨h1, ⟨b, hbm, hbit⟩, h3, _⟩ := segLoop_spec env W text old
        colBeg ch1 s2.it hold hcb bs 0 s2 hB.1 hc hch rfl hp hpd
        (by rcases hform with h | h
            · exact Or.inl h
            · exact Or.inr ⟨hne', h⟩) (by rw [← hs]; exact hb)
      rw [← hs] at h1 hbit h3
      have hle := (chain_le_last bs 0 b _ hB.1 hbm hB.2).1
      simp only [List.length_drop] at hle
      exact ⟨h1, by omega, h3 hne'⟩

/-- The scan of a non-empty text from a column inside the row, ending within the
15-bit limit, ends in a state of the expected shape, has consumed a prefix of the
text, and has either consumed something or recorded a padding space. -/
theorem scanText_spec (env : Env) (r : ROW) (colBeg ch1 : Nat) (text : List Nat) (s : Scan)
    (hsound : env.SegSound) (hlen : r.charOffsets.length = r.columnCount + 1)
    (hcb : colBeg < r.columnCount) (hch1 : ch1 < 65536) (htext : text ≠ [])
    (h : scanText env r colBeg ch1 text = some s) (hb : ch1 + s.it ≤ 32767) :
    ScanDone r.charOffsets r.columnCount colBeg ch1 s ∧ s.it ≤ text.length
      ∧ (0 < s.it ∨ s.paddingSpaces = 1) := by
  have htl : 0 < text.length := List.length_pos.mpr htext
  simp only [scanText] at h
  generalize hk : ((text.take (min (r.columnCount - colBeg) text.length)).takeWhile
    (fun ch => !decide (0x80 ≤ ch))).length = k at h
  have hkle : k ≤ min (r.columnCount - colBeg) text.length := by
    rw [← hk]
    refine Nat.le_trans (List.Sublist.length_le (List.takeWhile_sublist _)) ?_
    simp
  rw [asciiPass_eq k _ (by simp; omega) hch1] at h
  simp only [Nat.zero_add] at h
  split at h
  · -- the segmenter runs
    rename_i hne
    have hklt : k < min (r.columnCount - colBeg) text.length := by omega
    by_cases hk0 : k = 0
    · subst hk0
      simp only [backOff, ne_eq, not_true_eq_false, if_false, List.range'_zero, List.map_nil,
        List.append_nil, Nat.add_zero, List.take_append_drop] at h
      have hform : ScanForm r.charOffsets colBeg ch1
          { offs := r.charOffsets, col2 := colBeg, ch2 := u16 ch1, it := 0,
            padded := false, paddingSpaces := 0, placed := [] } 0 :=
        ⟨[], [], by simp, rfl, rfl, Cells.nil _⟩
      obtain ⟨h1, h2, h3⟩ := scanUnicode_spec env r.columnCount r.charOffsets text colBeg ch1 _ s
        hsound hlen (by omega) hcb (by simp only [Nat.add_zero]; exact u16_of_lt hch1) htl rfl rfl
        (Or.inl hform) h hb
      refine ⟨h1, h2, ?_⟩
      rcases h3 with h | h
      · left; simp only at h; omega
      · right; exact h
    · have hk0' : 0 < k := by omega
      simp only [backOff, ne_eq, hk0, not_false_eq_true, if_true] at h
      obtain ⟨S2, hS2⟩ : ∃ S2 : Scan, Scan.mk (r.charOffsets.take colBeg
              ++ (List.range' 0 k).map (fun i => u16 (ch1 + i))
              ++ r.charOffsets.drop (colBeg + k))
            (colBeg + k - 1) (u16 (u16 (ch1 + k) + 65535)) (k - 1) false 0 [] = S2 := ⟨_, rfl⟩
      rw [hS2] at h
      have e1 : S2.col2 = colBeg + k - 1 := by rw [← hS2]
      have e2 : S2.it = k - 1 := by rw [← hS2]
      have e3 : S2.ch2 = u16 (u16 (ch1 + k) + 65535) := by rw [← hS2]
      have e4 : S2.offs = r.charOffsets.take colBeg
          ++ (List.range' 0 k).map (fun i => u16 (ch1 + i))
          ++ r.charOffsets.drop (colBeg + k) := by rw [← hS2]
      have e5 : S2.paddingSpaces = 0 := by rw [← hS2]
      have e6 : S2.padded = false := by rw [← hS2]
      have hmono : k - 1 ≤ s.it := by
        simp only [scanUnicode] at h
        split at h
        · exact Option.noConfusion h
        · split at h
          · exact Option.noConfusion h
          · rename_i bs _
            have hs : s = _ := (Option.some.inj h).symm
            have := segLoop_it_mono env r.columnCount text bs 0 S2
            rw [← hs, e2] at this
            exact this
      have hch2 : S2.ch2 = ch1 + S2.it := by
        rw [e3, e2, u16_u16_add]
        simp only [u16]
        omega
      have hform : ScanForm r.charOffsets colBeg ch1 S2 1 := by
        refine ⟨List.range' ch1 (k - 1), [u16 (ch1 + (k - 1))], ?_, ?_, rfl, ?_⟩
        · have e : List.range' 0 k = List.range' 0 (k - 1) ++ [k - 1] := by
            have := @List.range'_concat 1 0 (k - 1)
            rw [show k - 1 + 1 = k by omega] at this
            simpa using this
          rw [e4, e1, e, List.map_append, map_u16_range ch1 (k - 1) (by omega)]
          simp only [List.map_cons, List.map_nil, List.append_assoc]
          rw [show colBeg + k - 1 + 1 = colBeg + k by omega]
        · rw [e1]; simp; omega
        · rw [e2]; exact Cells.range (k - 1) ch1
      obtain ⟨h1, h2, h3⟩ := scanUnicode_spec env r.columnCount r.charOffsets text colBeg ch1 S2 s
        hsound hlen (by omega) (by rw [e1]; omega) hch2
        (by rw [e2]; omega) e5 e6 (Or.inr hform) h hb
      refine ⟨h1, h2, ?_⟩
      rcases h3 with h | h
      · left; omega
      · right; exact h
  · -- the text was ASCII as far as it was looked at
    rename_i heq
    have hs : s = _ := (Option.some.inj h).symm
    subst hs
    simp only at hb heq ⊢
    have hkeq : k = min (r.columnCount - colBeg) text.length := by
      simp only [ne_eq, Decidable.not_not] at heq; exact heq
    refine ⟨⟨⟨List.range' ch1 k, [], ?_, by simp, rfl, Cells.range k ch1⟩, by simp only; omega,
      by simp only; exact u16_of_lt (by omega), Or.inl ⟨rfl, rfl⟩⟩, by omega, Or.inl (by omega)⟩
    simp only [List.append_nil, Nat.add_zero]
    rw [map_u16_range ch1 k (by omega)]

/-! ## Consequences of the row invariant -/

theorem Cells.nil_eq {a b : Nat} (h : Cells a [] b) : a = b := by
  cases h; rfl

theorem getD_take_of_lt (l : List Nat) (n i : Nat) (h : i < n) :
    (l.take n).getD i 0 = l.getD i 0 := by
  simp [List.getD, List.getElem?_take, h]

theorem ROW.Inv.offs_eq {r : ROW} (h : r.Inv) :
    r.charOffsets = r.charOffsets.take r.columnCount ++ [r._charSize] := by
  have h1 : r.charOffsets.drop r.columnCount = [r._charSize] := by
    rw [drop_eq_getD_cons _ _ (by rw [h.len]; omega)]
    rw [List.drop_eq_nil_of_le (by rw [h.len])]
    rfl
  rw [← h1, List.take_append_drop]

/-- Column `i ≤ W` of a well-formed row that is no trailer splits the encoding. -/
theorem ROW.Inv.split_at {r : ROW} (h : r.Inv) (i : Nat) (hi : i ≤ r.columnCount)
    (ht : wordIsTrailer (r.charOffsets.getD i 0) = false) :
    ∃ m, Cells 0 (r.charOffsets.take i) m
      ∧ Cells m ((r.charOffsets.take r.columnCount).drop i) r._charSize
      ∧ r.charOffsets.getD i 0 = m ∧ m ≤ r._charSize := by
  have hl : (r.charOffsets.take r.columnCount).length = r.columnCount := by
    simp [h.len]
  by_cases hlt : i < r.columnCount
  · obtain ⟨m, h1, h2, h3⟩ := h.cells.split h.bound i (by omega)
      (by rw [getD_take_of_lt _ _ _ hlt]; exact ht)
    refine ⟨m, ?_, h2, ?_, h2.le⟩
    · rw [List.take_take, Nat.min_eq_left (Nat.le_of_lt hlt)] at h1; exact h1
    · rw [← getD_take_of_lt _ _ _ hlt]; exact h3 (by omega)
  · have hi' : i = r.columnCount := by omega
    subst hi'
    refine ⟨r._charSize, h.cells, ?_, rfl, Nat.le_refl _⟩
    rw [List.drop_eq_nil_of_le (by omega)]
    exact Cells.nil _

/-- A trailer column of a well-formed row lies strictly inside the row, follows a
column that is no trailer and holds the same offset, and is followed by a column
that is no trailer. -/
theorem ROW.Inv.trailer_at {r : ROW} (h : r.Inv) (i : Nat)
    (ht : wordIsTrailer (r.charOffsets.getD i 0) = true) :
    ∃ j, i = j + 1 ∧ i < r.columnCount
      ∧ wordIsTrailer (r.charOffsets.getD j 0) = false
      ∧ r.charOffsets.getD i 0 = r.charOffsets.getD j 0 + CharOffsetsTrailer
      ∧ r.charOffsets.getD j 0 ≤ 32767
      ∧ wordIsTrailer (r.charOffsets.getD (i + 1) 0) = false := by
  have hlt : i < r.columnCount := by
    by_contra hge
    have hge' : r.columnCount ≤ i := by omega
    rcases Nat.eq_or_lt_of_le hge' with he | hgt
    · rw [← he] at ht
      have := wordIsTrailer_of_le h.bound
      simp only [ROW._charSize] at this
      rw [this] at ht; exact Bool.noConfusion ht
    · have : r.charOffsets.getD i 0 = 0 := by
        simp [List.getD, List.getElem?_eq_none (show r.charOffsets.length ≤ i by rw [h.len]; omega)]
      rw [this] at ht
      simp [wordIsTrailer, u16, CharOffsetsTrailer] at ht
  obtain ⟨j, hj, h1, h2, h3, h4⟩ := h.cells.trailer h.bound i
    (by rw [getD_take_of_lt _ _ _ hlt]; exact ht)
  subst hj
  refine ⟨j, rfl, hlt, ?_, ?_, ?_, ?_⟩
  · rw [← getD_take_of_lt _ r.columnCount j (by omega)]; exact h1
  · rw [← getD_take_of_lt _ r.columnCount j (by omega),
      ← getD_take_of_lt _ r.columnCount (j + 1) hlt]; exact h2
  · rw [← getD_take_of_lt _ r.columnCount j (by omega)]; exact h3
  · by_cases hl2 : j + 1 + 1 < r.columnCount
    · rw [← getD_take_of_lt _ r.columnCount _ hl2]; exact h4
    · have he : j + 1 + 1 = r.columnCount := by omega
      rw [he]
      exact wordIsTrailer_of_le h.bound

theorem ROW.Inv.extendDown {r : ROW} (h : r.Inv) (i : Nat) :
    (wordIsTrailer (r.charOffsets.getD i 0) = false → extendDown r.charOffsets i = i)
    ∧ (wordIsTrailer (r.charOffsets.getD i 0) = true → extendDown r.charOffsets i + 1 = i) := by
  constructor
  · intro ht
    cases i with
    | zero => rfl
    | succ j => simp only [Row.extendDown, ht, Bool.false_eq_true, if_false]
  · intro ht
    obtain ⟨j, hj, _, h1, _⟩ := h.trailer_at i ht
    subst hj
    simp only [Row.extendDown, ht, if_true]
    cases j with
    | zero => rfl
    | succ k => simp only [Row.extendDown, h1, Bool.false_eq_true, if_false]

theorem ROW.Inv.skipTrailers {r : ROW} (h : r.Inv) (i fuel : Nat) (hf : 2 ≤ fuel) :
    (wordIsTrailer (r.charOffsets.getD i 0) = false → skipTrailers r.charOffsets fuel i = i)
    ∧ (wordIsTrailer (r.charOffsets.getD i 0) = true → skipTrailers r.charOffsets fuel i = i + 1) := by
  obtain ⟨f, rfl⟩ : ∃ f, fuel = f + 2 := ⟨fuel - 2, by omega⟩
  constructor
  · intro ht
    simp only [Row.skipTrailers, ht, Bool.false_eq_true, if_false]
  · intro ht
    obtain ⟨j, hj, _, _, _, _, h4⟩ := h.trailer_at i ht
    simp only [Row.skipTrailers, ht, h4, Bool.false_eq_true, if_false, if_true]

/-! ## The locals of `ReplaceCharacters` -/

theorem skipTrailers_congr (l1 l2 : List Nat) : ∀ (fuel c : Nat),
    (∀ i, c ≤ i → l1.getD i 0 = l2.getD i 0) →
    skipTrailers l1 fuel c = skipTrailers l2 fuel c := by
  intro fuel
  induction fuel with
  | zero => intro c _; rfl
  | succ f ih =>
    intro c h
    simp only [skipTrailers, h c (Nat.le_refl c)]
    split
    · exact ih (c + 1) (fun i hi => h i (by omega))
    · rfl

theorem getD_append_drop (A old : List Nat) (n i : Nat) (hA : A.length = n) (hi : n ≤ i) :
    (A ++ old.drop n).getD i 0 = old.getD i 0 := by
  obtain ⟨j, rfl⟩ : ∃ j, i = n + j := ⟨i - n, by omega⟩
  rw [List.getD_eq_getElem?_getD, List.getD_eq_getElem?_getD,
    List.getElem?_append_right (by omega), hA, Nat.add_sub_cancel_left, List.getElem?_drop]

theorem ScanForm.getD_ge {old : List Nat} {colBeg ch1 : Nat} {s : Scan} {n : Nat}
    (h : ScanForm old colBeg ch1 s n) (hcb : colBeg ≤ old.length) (i : Nat)
    (hi : s.col2 + n ≤ i) : s.offs.getD i 0 = old.getD i 0 := by
  obtain ⟨Y, J, h1, h2, h3, _⟩ := h
  rw [h1]
  exact getD_append_drop _ old _ i (by simp [Nat.min_eq_left hcb]; omega) hi

theorem ScanForm.length {old : List Nat} {colBeg ch1 : Nat} {s : Scan} {n : Nat}
    (h : ScanForm old colBeg ch1 s n) (hcb : colBeg ≤ old.length)
    (hc : s.col2 + n ≤ old.length) : s.offs.length = old.length := by
  obtain ⟨Y, J, h1, h2, h3, _⟩ := h
  rw [h1]
  simp [Nat.min_eq_left hcb]
  omega

theorem szSub_of_le {a b : Nat} (hb : b ≤ a) (ha : a < 2 ^ 64) : szSub a b = a - b := by
  simp only [szSub]
  rw [Nat.mod_eq_of_lt ha, Nat.mod_eq_of_lt (show b < 2 ^ 64 by omega)]
  rw [show a + 2 ^ 64 - b = (a - b) + 2 ^ 64 by omega, Nat.add_mod_right]
  exact Nat.mod_eq_of_lt (by omega)

theorem sz_of_lt {a : Nat} (ha : a < 2 ^ 64) : sz a = a := Nat.mod_eq_of_lt ha

theorem sz_chain (a b c d : Nat) (h : a + b + c + d < 2 ^ 64) :
    sz (sz (sz (a + b) + c) + d) = a + b + c + d := by
  rw [@sz_of_lt (a + b) (by omega), @sz_of_lt (a + b + c) (by omega), sz_of_lt h]

/-- The locals of a call on a well-formed row that stays within the 15-bit limit. -/
theorem replaceLocals_spec_scan (env : Env) (r : ROW) (colBeg : Nat) (text : List Nat)
    (v : Locals) (hsound : env.SegSound) (hinv : r.Inv) (hcb : colBeg < r.columnCount)
    (htext : text ≠ []) (h : replaceLocals env r colBeg text = some v)
    (hb : ∀ s, scanText env r colBeg
        (u16 (r._uncheckedCharOffset colBeg + (colBeg - extendDown r.charOffsets colBeg))) text
          = some s →
      r._uncheckedCharOffset colBeg + (colBeg - extendDown r.charOffsets colBeg) + s.it
        ≤ 32767) :
    LocalsSpec r colBeg text v := by
  simp only [replaceLocals] at h
  split at h
  · exact Option.noConfusion h
  · rename_i s hscan
    have hbs0 := hb s hscan
    have hv : v = _ := (Option.some.inj h).symm
    -- the leading extension
    have hE := hinv.extendDown colBeg
    have hL : extendDown r.charOffsets colBeg + (colBeg - extendDown r.charOffsets colBeg) = colBeg
        ∧ colBeg - extendDown r.charOffsets colBeg ≤ 1
        ∧ (colBeg - extendDown r.charOffsets colBeg = 1
            ↔ wordIsTrailer (r.charOffsets.getD colBeg 0) = true)
        ∧ wordIsTrailer (r.charOffsets.getD (extendDown r.charOffsets colBeg) 0) = false
        ∧ r.charOffsets.getD (extendDown r.charOffsets colBeg) 0 = r._uncheckedCharOffset colBeg
        ∧ r._uncheckedCharOffset colBeg ≤ 32767 := by
      cases ht : wordIsTrailer (r.charOffsets.getD colBeg 0) with
      | false =>
        have e := hE.1 ht
        obtain ⟨m, _, _, hm, hmle⟩ := hinv.split_at colBeg (Nat.le_of_lt hcb) ht
        have hP := hinv.bound
        rw [e]
        refine ⟨by omega, by omega, by simp, ht, ?_, ?_⟩
        · simp only [ROW._uncheckedCharOffset]
          rw [wordOffset_of_le (by omega)]
        · simp only [ROW._uncheckedCharOffset]
          rw [wordOffset_of_le (by omega)]; omega
      | true =>
        have e := hE.2 ht
        obtain ⟨j, hj, _, h1, h2, h3, _⟩ := hinv.trailer_at colBeg ht
        have ej : extendDown r.charOffsets colBeg = j := by omega
        rw [ej]
        refine ⟨by omega, by omega, by simp; omega, h1, ?_, ?_⟩
        · simp only [ROW._uncheckedCharOffset]
          rw [h2, wordOffset_add h3]
        · simp only [ROW._uncheckedCharOffset]
          rw [h2, wordOffset_add h3]; exact h3
    obtain ⟨hL1, hL2, hL3, hL4, hL5, hL6⟩ := hL
    have hch1 : u16 (r._uncheckedCharOffset colBeg + (colBeg - extendDown r.charOffsets colBeg))
        = r._uncheckedCharOffset colBeg + (colBeg - extendDown r.charOffsets colBeg) :=
      u16_of_lt (by omega)
    rw [hch1] at hscan hv
    -- the scan
    have hbs : r._uncheckedCharOffset colBeg + (colBeg - extendDown r.charOffsets colBeg) + s.it
        ≤ 32767 := hbs0
    obtain ⟨hS, hit, hprog⟩ := scanText_spec env r colBeg _ text s hsound hinv.len hcb
      (by omega) htext hscan hbs
    have hcbl : colBeg ≤ r.charOffsets.length := by rw [hinv.len]; omega
    have hslen : s.offs.length = r.charOffsets.length :=
      hS.form.length hcbl (by
        rw [hinv.len]
        rcases hS.pad with ⟨h0, _⟩ | ⟨h1, _, h2⟩
        · have := hS.col_le; omega
        · omega)
    -- the trailing extension
    have hskip : skipTrailers s.offs s.offs.length (s.col2 + s.paddingSpaces)
        = skipTrailers r.charOffsets s.offs.length (s.col2 + s.paddingSpaces) :=
      skipTrailers_congr _ _ _ _ (fun i hi => hS.form.getD_ge hcbl i hi)
    have hfuel : 2 ≤ s.offs.length := by rw [hslen, hinv.len]; omega
    have hK := hinv.skipTrailers (s.col2 + s.paddingSpaces) s.offs.length hfuel
    have hcol3 : ∃ T, s.col2 + T = skipTrailers s.offs s.offs.length (s.col2 + s.paddingSpaces)
        ∧ s.col2 + T ≤ r.columnCount ∧ T ≤ 1
        ∧ (T = 1 ↔ (s.paddingSpaces = 1 ∨ wordIsTrailer (r.charOffsets.getD s.col2 0) = true))
        ∧ wordIsTrailer (r.charOffsets.getD (s.col2 + T) 0) = false := by
      rw [hskip]
      rcases hS.pad with ⟨h0, _⟩ | ⟨h1, _, h2⟩
      · rw [h0, Nat.add_zero] at hK ⊢
        cases ht : wordIsTrailer (r.charOffsets.getD s.col2 0) with
        | false =>
          refine ⟨0, by rw [hK.1 ht, Nat.add_zero], hS.col_le, by omega, by simp [h0], ht⟩
        | true =>
          obtain ⟨j, hj, hlt, _, _, _, h4⟩ := hinv.trailer_at s.col2 ht
          refine ⟨1, by rw [hK.2 ht], by omega, by omega, by simp, h4⟩
      · have hnt : wordIsTrailer (r.charOffsets.getD (s.col2 + 1) 0) = false := by
          rw [h2]; exact wordIsTrailer_of_le hinv.bound
        rw [h1] at hK ⊢
        exact ⟨1, by rw [hK.1 hnt], by omega, by omega, by simp, hnt⟩
    obtain ⟨T, hT1, hT2, hT3, hT4, hT5⟩ := hcol3
    have hTeq : skipTrailers s.offs s.offs.length (s.col2 + s.paddingSpaces) - s.col2 = T := by
      omega
    have hpadT : s.col2 + s.paddingSpaces ≤ s.col2 + T := by
      rcases hS.pad with ⟨h0, _⟩ | ⟨h1, _, _⟩
      · omega
      · have := hT4.2 (Or.inl h1); omega
    have hch3 : s.offs.getD (s.col2 + T) 0 = r.charOffsets.getD (s.col2 + T) 0 :=
      hS.form.getD_ge hcbl _ hpadT
    obtain ⟨m3, hc3a, hc3b, hm3, hm3le⟩ := hinv.split_at (s.col2 + T) hT2 hT5
    have hwo : wordOffset (r.charOffsets.getD (s.col2 + T) 0) = r.charOffsets.getD (s.col2 + T) 0 :=
      wordOffset_of_le (by have := hinv.bound; omega)
    -- the offset of the extended end lies after the offset of the extended begin
    have hge : r._uncheckedCharOffset colBeg ≤ r.charOffsets.getD (s.col2 + T) 0 := by
      obtain ⟨mE, hEa, _, hmE, _⟩ := hinv.split_at (extendDown r.charOffsets colBeg)
        (by omega) hL4
      have hsplit := hc3a
      have hform := hS.form
      obtain ⟨Y, J, _, hY, _, _⟩ := hform
      have hle : extendDown r.charOffsets colBeg ≤ s.col2 + T := by omega
      obtain ⟨m', hx1, hx2, hx3⟩ := hc3a.split (by have := hinv.bound; omega)
        (extendDown r.charOffsets colBeg)
        (by simp; rw [hinv.len]; omega)
        (by
          by_cases hlt : extendDown r.charOffsets colBeg < s.col2 + T
          · rw [getD_take_of_lt _ _ _ hlt]; exact hL4
          · simp [List.getD, List.getElem?_eq_none, wordIsTrailer, u16, CharOffsetsTrailer]
            rw [List.getElem?_eq_none (by simp; omega)]
            simp)
      by_cases hlt : extendDown r.charOffsets colBeg < s.col2 + T
      · have := hx3 (by simp; rw [hinv.len]; omega)
        rw [getD_take_of_lt _ _ _ hlt, hL5] at this
        rw [this, hm3]
        exact hx2.le
      · have heq : extendDown r.charOffsets colBeg = s.col2 + T := by omega
        rw [← heq, hL5]
    rw [hv]
    refine
      { colBeg_eq := rfl, ext := hL1, lead_le := hL2, lead_iff := hL3, extNoTrailer := hL4,
        chExtBeg := hL5, ch1 := rfl, scan := hS, it_le := hit, progress := hprog,
        col3 := ?_, col3_le := ?_, trail_le := ?_, trail_iff := ?_, col3NoTrailer := ?_,
        ch3 := ?_, ch3_ge := ?_, ch3_le := ?_, copied := ?_, ch3new := ?_ }
    · simp only; omega
    · simp only; omega
    · simp only; omega
    · simp only; rw [hTeq]; exact hT4
    · simp only; rw [← hT1]; exact hT5
    · simp only; rw [← hT1, hch3, hwo]
    · simp only; rw [← hT1, hch3, hwo]; exact hge
    · simp only; rw [← hT1, hch3, hwo, hm3]; exact hm3le
    · simp only
      rw [hS.ch2, szSub_of_le (by omega) (by omega)]
      omega
    · simp only
      rw [hS.ch2, szSub_of_le (by omega) (by omega), hTeq, sz_chain _ _ _ _ (by omega)]
      omega

/-- The locals of a call on a well-formed row that stays within the 15-bit limit. -/
theorem replaceLocals_spec (env : Env) (r : ROW) (colBeg : Nat) (text : List Nat) (v : Locals)
    (hsound : env.SegSound) (hinv : r.Inv) (hcb : colBeg < r.columnCount) (htext : text ≠ [])
    (h : replaceLocals env r colBeg text = some v) (hb : v.textLength r ≤ 32767) :
    LocalsSpec r colBeg text v := by
  refine replaceLocals_spec_scan env r colBeg text v hsound hinv hcb htext h ?_
  intro s hscan
  have h0 := h
  simp only [replaceLocals, hscan] at h0
  have hv : v = _ := (Option.some.inj h0).symm
  rw [hv] at hb
  simp only [Locals.textLength] at hb
  omega

/-! ## Writing into the buffers -/

theorem writeAt_mid (A M R src : List Nat) (n : Nat) (hn : n = A.length)
    (h : src.length = M.length) : writeAt (A ++ M ++ R) n src = A ++ src ++ R := by
  subst hn
  rw [writeAt_eq _ _ _ (by simp; omega)]
  have h1 : (A ++ M ++ R).take A.length = A := by
    rw [List.append_assoc, List.take_left']; rfl
  have h2 : (A ++ M ++ R).drop (A.length + src.length) = R := by
    rw [h, ← List.length_append, List.drop_left']; rfl
  rw [h1, h2]

theorem iotaAt_mid (A M R : List Nat) (n k val : Nat) (hn : n = A.length)
    (h : k = M.length) (hv : val + k ≤ 65536) :
    iotaAt (A ++ M ++ R) n k val = A ++ List.range' val k ++ R := by
  rw [iotaAt_eq _ _ _ _ hv]
  exact writeAt_mid A M R _ n hn (by simp [h])

/-- Every entry of an encoding is an offset between the two ends, with or without
the trailer flag. -/
theorem Cells.mem_bounds {a b : Nat} {cs : List Nat} (h : Cells a cs b) :
    ∀ x, x ∈ cs → ∃ o t, x = o + t ∧ a ≤ o ∧ o ≤ b ∧ (t = 0 ∨ t = CharOffsetsTrailer) := by
  induction h with
  | nil a => intro x hx; simp at hx
  | narrow a k cs b hk hc ih =>
    intro x hx
    have hab := hc.le
    rcases List.mem_cons.mp hx with rfl | hx'
    · exact ⟨x, 0, rfl, Nat.le_refl _, by omega, Or.inl rfl⟩
    · obtain ⟨o, t, h1, h2, h3, h4⟩ := ih x hx'
      exact ⟨o, t, h1, by omega, h3, h4⟩
  | wide a k cs b hk hc ih =>
    intro x hx
    have hab := hc.le
    rcases List.mem_cons.mp hx with rfl | hx'
    · exact ⟨x, 0, rfl, Nat.le_refl _, by omega, Or.inl rfl⟩
    · rcases List.mem_cons.mp hx' with rfl | hx''
      · exact ⟨a, CharOffsetsTrailer, rfl, Nat.le_refl _, by omega, Or.inr rfl⟩
      · obtain ⟨o, t, h1, h2, h3, h4⟩ := ih x hx''
        exact ⟨o, t, h1, by omega, h3, h4⟩

/-- The 16-bit addition of the `size_t` difference `new - old` is the exact shift
as long as the shifted offset stays within 15 bits. -/
theorem u16_add_szSub (o t new old : Nat) (ho : old ≤ o) (hnew : o + new - old ≤ 32767)
    (ht : t = 0 ∨ t = CharOffsetsTrailer) (hold : o ≤ 32767) :
    u16 (o + t + szSub new old) = o + t + new - old := by
  have hnew' : new < 2 ^ 64 := by omega
  have hold' : old < 2 ^ 64 := by omega
  simp only [szSub, u16, Nat.mod_eq_of_lt hnew', Nat.mod_eq_of_lt hold', CharOffsetsTrailer] at *
  by_cases hc : old ≤ new
  · rw [show new + 2 ^ 64 - old = (new - old) + 2 ^ 64 by omega, Nat.add_mod_right,
      Nat.mod_eq_of_lt (show new - old < 2 ^ 64 by omega)]
    rw [Nat.mod_eq_of_lt (by rcases ht with h | h <;> omega)]
    omega
  · rw [Nat.mod_eq_of_lt (show new + 2 ^ 64 - old < 2 ^ 64 by omega)]
    have e : o + t + (new + 2 ^ 64 - old) = (o + t + new - old) + 65536 * 281474976710656 := by
      omega
    rw [e, Nat.add_mul_mod_self_left]
    exact Nat.mod_eq_of_lt (by rcases ht with h | h <;> omega)

theorem sz_add_szSub (p new old : Nat) (ho : old ≤ p) (hp : p ≤ 32767) (hnew : new ≤ 65536) :
    sz (p + szSub new old) = p + new - old := by
  have hnew' : new < 2 ^ 64 := by omega
  have hold' : old < 2 ^ 64 := by omega
  simp only [szSub, sz, Nat.mod_eq_of_lt hnew', Nat.mod_eq_of_lt hold']
  by_cases hc : old ≤ new
  · rw [show new + 2 ^ 64 - old = (new - old) + 2 ^ 64 by omega, Nat.add_mod_right,
      Nat.mod_eq_of_lt (show new - old < 2 ^ 64 by omega)]
    rw [Nat.mod_eq_of_lt (by omega)]
    omega
  · rw [Nat.mod_eq_of_lt (show new + 2 ^ 64 - old < 2 ^ 64 by omega)]
    have e : p + (new + 2 ^ 64 - old) = (p + new - old) + 2 ^ 64 := by omega
    rw [e, Nat.add_mod_right]
    exact Nat.mod_eq_of_lt (by omega)

theorem ROW._charSize_mk (r : ROW) (offs : List Nat) (b : Bool) :
    ({ r with charOffsets := offs, doubleBytePadded := b } : ROW)._charSize
      = offs.getD r.columnCount 0 := rfl

/-- The effect of `_resizeChars` when the text stays within the 15-bit limit: it does
not throw, every offset from `colExtEnd` on moves by `chExtEndNew - chExtEnd`, the
text before `chExtBeg` stays, the text from `chExtEnd` on moves to `chExtEndNew`,
and the capacity suffices for the new length. -/
theorem resizeChars_spec (r1 : ROW) (col3 chExtBeg ch3 ch3new : Nat)
    (hentries : ∀ x, x ∈ r1.charOffsets.drop col3 →
      ∃ o t, x = o + t ∧ ch3 ≤ o ∧ o ≤ r1._charSize ∧ (t = 0 ∨ t = CharOffsetsTrailer))
    (h1 : chExtBeg ≤ ch3) (h2 : ch3 ≤ r1._charSize) (h3 : chExtBeg ≤ ch3new)
    (h4 : r1._charSize + ch3new - ch3 ≤ 32767) (h5 : r1._charSize ≤ r1.chars.length)
    (h6 : r1._charSize ≤ 32767) :
    ∃ r2, r1._resizeChars col3 chExtBeg ch3 ch3new = some r2
      ∧ r2.charOffsets = r1.charOffsets.take col3
          ++ (r1.charOffsets.drop col3).map (fun x => x + ch3new - ch3)
      ∧ r2.chars.take chExtBeg = r1.chars.take chExtBeg
      ∧ (r2.chars.drop ch3new).take (r1._charSize - ch3)
          = (r1.chars.drop ch3).take (r1._charSize - ch3)
      ∧ r1._charSize + ch3new - ch3 ≤ r2.chars.length
      ∧ r2.columnCount = r1.columnCount ∧ r2.attr = r1.attr
      ∧ r2.lineRendition = r1.lineRendition ∧ r2.wrapForced = r1.wrapForced
      ∧ r2.doubleBytePadded = r1.doubleBytePadded := by
  have hoffs : shiftFrom r1.charOffsets col3 (szSub ch3new ch3)
      = r1.charOffsets.take col3 ++ (r1.charOffsets.drop col3).map (fun x => x + ch3new - ch3) := by
    rw [shiftFrom_eq]
    congr 1
    apply List.map_congr_left
    intro x hx
    obtain ⟨o, t, rfl, ho1, ho2, ht⟩ := hentries x hx
    exact u16_add_szSub o t ch3new ch3 ho1 (by omega) ht (by omega)
  have hnl : sz (r1._charSize + szSub ch3new ch3) = r1._charSize + ch3new - ch3 :=
    sz_add_szSub _ _ _ h2 h6 (by omega)
  have htl : ((r1.chars.drop ch3).take (r1._charSize - ch3)).length = r1._charSize - ch3 := by
    simp; omega
  simp only [ROW._resizeChars, hnl, hoffs]
  by_cases hfit : r1._charSize + ch3new - ch3 ≤ r1.chars.length
  · rw [if_pos hfit]
    refine ⟨_, rfl, rfl, ?_, ?_, ?_, rfl, rfl, rfl, rfl, rfl⟩
    · simp only
      rw [writeAt_eq _ _ _ (by rw [htl]; omega)]
      rw [List.append_assoc, List.take_append_of_le_length (by simp; omega), List.take_take,
        Nat.min_eq_left h3]
    · simp only
      rw [writeAt_eq _ _ _ (by rw [htl]; omega)]
      rw [List.append_assoc, List.drop_left' (by simp; omega),
        List.take_left' htl]
    · simp only [writeAt_length]; exact hfit
  · rw [if_neg hfit]
    have hcap : max (r1._charSize + ch3new - ch3)
        (min 65535 (r1.chars.length + r1.chars.length / 2)) ≤ 65535 := by omega
    rw [if_pos hcap]
    generalize hN : max (r1._charSize + ch3new - ch3)
        (min 65535 (r1.chars.length + r1.chars.length / 2)) = N
    have hNge : r1._charSize + ch3new - ch3 ≤ N := by omega
    have hl1 : (r1.chars.take chExtBeg).length = chExtBeg := by simp; omega
    have hw1 : writeAt (List.replicate N 0) 0 (r1.chars.take chExtBeg)
        = r1.chars.take chExtBeg ++ List.replicate (N - chExtBeg) 0 := by
      rw [writeAt_eq _ _ _ (by simp; omega)]
      simp [hl1]
    refine ⟨_, rfl, rfl, ?_, ?_, ?_, rfl, rfl, rfl, rfl, rfl⟩
    · simp only
      rw [writeAt_eq _ _ _ (by rw [htl, writeAt_length]; simp; omega)]
      rw [List.append_assoc, List.take_append_of_le_length (by simp [writeAt_length]; omega),
        List.take_take, Nat.min_eq_left h3, hw1,
        List.take_append_of_le_length (by omega), List.take_take, Nat.min_self]
    · simp only
      rw [writeAt_eq _ _ _ (by rw [htl, writeAt_length]; simp; omega)]
      rw [List.append_assoc, List.drop_left' (by simp [writeAt_length]; omega),
        List.take_left' htl]
    · simp only [writeAt_length, List.length_replicate]; exact hNge

theorem append5_split (l : List Nat) (a n1 n2 n3 : Nat) (h : a + n1 + n2 + n3 ≤ l.length) :
    ∃ G1 G2 G3, G1.length = n1 ∧ G2.length = n2 ∧ G3.length = n3
      ∧ l = l.take a ++ G1 ++ G2 ++ G3 ++ l.drop (a + n1 + n2 + n3) := by
  refine ⟨(l.drop a).take n1, (l.drop (a + n1)).take n2, (l.drop (a + n1 + n2)).take n3,
    by simp; omega, by simp; omega, by simp; omega, ?_⟩
  have e1 : l = l.take a ++ l.drop a := (List.take_append_drop a l).symm
  have e2 : l.drop a = (l.drop a).take n1 ++ l.drop (a + n1) := by
    rw [← List.drop_drop, List.take_append_drop]
  have e3 : l.drop (a + n1) = (l.drop (a + n1)).take n2 ++ l.drop (a + n1 + n2) := by
    rw [← List.drop_drop (n := n2), List.take_append_drop]
  have e4 : l.drop (a + n1 + n2) = (l.drop (a + n1 + n2)).take n3 ++ l.drop (a + n1 + n2 + n3) := by
    rw [← List.drop_drop (n := n3), List.take_append_drop]
  calc l = l.take a ++ l.drop a := e1
    _ = l.take a ++ ((l.drop a).take n1 ++ l.drop (a + n1)) := by rw [← e2]
    _ = l.take a ++ ((l.drop a).take n1 ++ ((l.drop (a + n1)).take n2 ++ l.drop (a + n1 + n2))) := by
        rw [← e3]
    _ = l.take a ++ ((l.drop a).take n1 ++ ((l.drop (a + n1)).take n2
          ++ ((l.drop (a + n1 + n2)).take n3 ++ l.drop (a + n1 + n2 + n3)))) := by rw [← e4]
    _ = _ := by simp only [List.append_assoc]

/-- Three consecutive writes that fill the gap between two kept parts of a buffer. -/
theorem writeAt_three (l X M Z : List Nat) (a : Nat)
    (h : a + X.length + M.length + Z.length ≤ l.length) :
    writeAt (writeAt (writeAt l a X) (a + X.length) M) (a + X.length + M.length) Z
      = l.take a ++ X ++ M ++ Z ++ l.drop (a + X.length + M.length + Z.length) := by
  obtain ⟨G1, G2, G3, h1, h2, h3, hl⟩ := append5_split l a X.length M.length Z.length h
  have hA : (l.take a).length = a := by simp; omega
  generalize l.take a = A at hl hA ⊢
  generalize l.drop (a + X.length + M.length + Z.length) = R at hl ⊢
  rw [hl]
  have s1 : A ++ G1 ++ G2 ++ G3 ++ R = A ++ G1 ++ (G2 ++ G3 ++ R) := by
    simp only [List.append_assoc]
  rw [s1, writeAt_mid A G1 _ X a hA.symm h1.symm]
  have s2 : A ++ X ++ (G2 ++ G3 ++ R) = (A ++ X) ++ G2 ++ (G3 ++ R) := by
    simp only [List.append_assoc]
  rw [s2, writeAt_mid (A ++ X) G2 _ M _ (by simp [hA]) h2.symm]
  have s3 : A ++ X ++ M ++ (G3 ++ R) = (A ++ X ++ M) ++ G3 ++ R := by
    simp only [List.append_assoc]
  rw [s3, writeAt_mid (A ++ X ++ M) G3 _ Z _ (by simp [hA]; omega) h3.symm]

theorem ScanForm.decomp {old : List Nat} {colBeg ch1 : Nat} {s : Scan} {n : Nat}
    (h : ScanForm old colBeg ch1 s n) (hcb : colBeg ≤ old.length) (T : Nat) (hn : n ≤ T)
    (hT : s.col2 + T ≤ old.length) :
    ∃ Y Z, Cells ch1 Y (ch1 + s.it) ∧ colBeg + Y.length = s.col2 ∧ Z.length = T
      ∧ Y = (s.offs.drop colBeg).take (s.col2 - colBeg)
      ∧ s.offs = old.take colBeg ++ Y ++ Z ++ old.drop (s.col2 + T) := by
  obtain ⟨Y, J, h1, h2, h3, h4⟩ := h
  have hd : old.drop (s.col2 + n) = (old.drop (s.col2 + n)).take (T - n) ++ old.drop (s.col2 + T) := by
    have := (List.take_append_drop (T - n) (old.drop (s.col2 + n))).symm
    rw [List.drop_drop] at this
    rw [show s.col2 + n + (T - n) = s.col2 + T by omega] at this
    exact this
  refine ⟨Y, J ++ (old.drop (s.col2 + n)).take (T - n), h4, h2, by simp; omega, ?_, ?_⟩
  · rw [h1]
    have hl : (old.take colBeg).length = colBeg := by simp; omega
    rw [List.append_assoc, List.append_assoc, List.drop_left' hl,
      List.take_left' (by omega)]
  · rw [h1]
    conv_lhs => rw [hd]
    simp only [List.append_assoc]

/-- The row written by a call on a well-formed row that stays within the 15-bit
limit: no exception is thrown and the new row is as `WriteSpec` describes. -/
theorem replaceWrite_spec (r : ROW) (colBeg : Nat) (text : List Nat) (v : Locals)
    (hinv : r.Inv) (hS : LocalsSpec r colBeg text v) (hb : v.textLength r ≤ 32767) :
    ∃ r', replaceWrite r text v = some r' ∧ WriteSpec r text v r' := by
  have hP := hinv.bound
  have hlen := hinv.len
  have hcbl : colBeg ≤ r.charOffsets.length := by
    have := hS.scan.col_le
    obtain ⟨_, _, _, hY, _⟩ := hS.scan.form
    omega
  have hcol3l : v.scan.col2 + v.trailingSpaces ≤ r.charOffsets.length := by
    have := hS.col3; have := hS.col3_le; omega
  have hpadT : v.scan.paddingSpaces ≤ v.trailingSpaces := by
    rcases hS.scan.pad with ⟨h0, _⟩ | ⟨h1, _, _⟩
    · omega
    · have := hS.trail_iff.2 (Or.inl h1); omega
  obtain ⟨Y, Z, hY, hYlen, hZlen, hYeq, hform⟩ :=
    hS.scan.form.decomp hcbl v.trailingSpaces hpadT hcol3l
  rw [hS.col3] at hform
  have hch2 := hS.scan.ch2
  have hch1 := hS.ch1
  have hnl : v.textLength r = r._charSize + v.ch3new - v.ch3 := by
    simp only [Locals.textLength]
    have := hS.ch3new; have := hS.ch3_le
    omega
  have hEle : v.colExtBeg ≤ colBeg := by have := hS.ext; omega
  -- the old offsets from col3 on
  obtain ⟨m3, hc3a, hc3b, hm3, hm3le⟩ := hinv.split_at v.col3 hS.col3_le hS.col3NoTrailer
  rw [hS.ch3] at hm3
  subst hm3
  have hdrop3 : r.charOffsets.drop v.col3
      = (r.charOffsets.take r.columnCount).drop v.col3 ++ [r._charSize] := by
    conv_lhs => rw [hinv.offs_eq]
    rw [List.drop_append_of_le_length (by simp [hlen]; exact hS.col3_le)]
  have hentries : ∀ x, x ∈ r.charOffsets.drop v.col3 →
      ∃ o t, x = o + t ∧ v.ch3 ≤ o ∧ o ≤ r._charSize ∧ (t = 0 ∨ t = CharOffsetsTrailer) := by
    intro x hx
    rw [hdrop3] at hx
    rcases List.mem_append.mp hx with hx | hx
    · exact hc3b.mem_bounds x hx
    · simp at hx
      exact ⟨x, 0, rfl, by omega, by omega, Or.inl rfl⟩
  -- the row after the scan
  have hAlen : (r.charOffsets.take colBeg ++ Y ++ Z).length = v.col3 := by
    simp [Nat.min_eq_left hcbl]
    have := hS.col3; omega
  have htake3 : v.scan.offs.take v.col3 = r.charOffsets.take colBeg ++ Y ++ Z := by
    rw [hform, List.take_left' hAlen]
  have hdropS : v.scan.offs.drop v.col3 = r.charOffsets.drop v.col3 := by
    rw [hform, List.drop_left' hAlen]
  have hsize1 : v.scan.offs.getD r.columnCount 0 = r._charSize := by
    rw [hform]
    exact getD_append_drop _ _ _ _ hAlen hS.col3_le
  -- the resize
  have hres : ∃ r2, (if v.ch3new ≠ v.ch3 then
        ({ r with charOffsets := v.scan.offs,
                  doubleBytePadded := if v.scan.padded then true else r.doubleBytePadded } : ROW)._resizeChars
          v.col3 v.chExtBeg v.ch3 v.ch3new
        else some ({ r with charOffsets := v.scan.offs,
                             doubleBytePadded :=
                               if v.scan.padded then true else r.doubleBytePadded } : ROW))
        = some r2
      ∧ r2.charOffsets = r.charOffsets.take colBeg ++ Y ++ Z
          ++ (r.charOffsets.drop v.col3).map (fun x => x + v.ch3new - v.ch3)
      ∧ r2.chars.take v.chExtBeg = r.chars.take v.chExtBeg
      ∧ (r2.chars.drop v.ch3new).take (r._charSize - v.ch3)
          = (r.chars.drop v.ch3).take (r._charSize - v.ch3)
      ∧ r._charSize + v.ch3new - v.ch3 ≤ r2.chars.length
      ∧ r2.columnCount = r.columnCount ∧ r2.attr = r.attr
      ∧ r2.lineRendition = r.lineRendition ∧ r2.wrapForced = r.wrapForced
      ∧ r2.doubleBytePadded = (if v.scan.padded then true else r.doubleBytePadded) := by
    by_cases hne : v.ch3new = v.ch3
    · rw [if_neg (by simpa using hne)]
      refine ⟨_, rfl, ?_, rfl, ?_, ?_, rfl, rfl, rfl, rfl, rfl⟩
      · simp only
        rw [hne]
        have : (fun x : Nat => x + v.ch3 - v.ch3) = id := by
          funext x; simp
        rw [this, List.map_id, ← htake3, ← hdropS, List.take_append_drop]
      · simp only; rw [hne]
      · simp only; rw [hne]; have := hinv.cap; omega
    · rw [if_pos hne]
      obtain ⟨r2, e1, e2, e3, e4, e5, e6, e7, e8, e9, e10⟩ := resizeChars_spec
        ({ r with charOffsets := v.scan.offs,
                  doubleBytePadded := if v.scan.padded then true else r.doubleBytePadded } : ROW)
        v.col3 v.chExtBeg v.ch3 v.ch3new
        (by rw [ROW._charSize_mk, hsize1]; simp only; rw [hdropS]; exact hentries)
        hS.ch3_ge (by rw [ROW._charSize_mk, hsize1]; exact hS.ch3_le)
        (by have := hS.ch3new; omega)
        (by rw [ROW._charSize_mk, hsize1]; omega)
        (by rw [ROW._charSize_mk, hsize1]; exact hinv.cap)
        (by rw [ROW._charSize_mk, hsize1]; exact hP)
      rw [ROW._charSize_mk, hsize1] at e4 e5
      simp only at e2 e3 e4 e5 e6 e7 e8 e9 e10
      rw [htake3, hdropS] at e2
      exact ⟨r2, e1, e2, e3, e4, e5, e6, e7, e8, e9, e10⟩
  obtain ⟨r2, e1, e2, e3, e4, e5, e6, e7, e8, e9, e10⟩ := hres
  simp only [replaceWrite, e1]
  refine ⟨_, rfl, ?_⟩
  -- the offsets after the two `iota` calls
  have hd3 : r.charOffsets.drop v.col3 = v.ch3 :: r.charOffsets.drop (v.col3 + 1) := by
    rw [drop_eq_getD_cons _ _ (by rw [hlen]; have := hS.col3_le; omega), hS.ch3]
  have hTE : r.charOffsets.take colBeg
      = r.charOffsets.take v.colExtBeg ++ (r.charOffsets.drop v.colExtBeg).take v.leadingSpaces := by
    have := hS.ext
    rw [← List.take_add, this]
  have hoffs : iotaAt (iotaAt r2.charOffsets v.colExtBeg (v.colBeg - v.colExtBeg) v.chExtBeg)
        v.scan.col2 (v.col3 + 1 - v.scan.col2) v.scan.ch2
      = r.charOffsets.take v.colExtBeg ++ List.range' v.chExtBeg v.leadingSpaces ++ Y
        ++ List.range' v.scan.ch2 v.trailingSpaces
        ++ (r.charOffsets.drop v.col3).map (fun x => x + v.ch3new - v.ch3) := by
    have hc1 : v.colBeg - v.colExtBeg = v.leadingSpaces := by
      have := hS.ext; have := hS.colBeg_eq; omega
    have hc2 : v.col3 + 1 - v.scan.col2 = v.trailingSpaces + 1 := by
      have := hS.col3; omega
    have hElen : (r.charOffsets.take v.colExtBeg).length = v.colExtBeg := by
      simp; omega
    rw [hc1, hc2, e2, hTE]
    have s1 : r.charOffsets.take v.colExtBeg ++ (r.charOffsets.drop v.colExtBeg).take v.leadingSpaces
          ++ Y ++ Z ++ (r.charOffsets.drop v.col3).map (fun x => x + v.ch3new - v.ch3)
        = r.charOffsets.take v.colExtBeg ++ (r.charOffsets.drop v.colExtBeg).take v.leadingSpaces
          ++ (Y ++ Z ++ (r.charOffsets.drop v.col3).map (fun x => x + v.ch3new - v.ch3)) := by
      simp only [List.append_assoc]
    rw [s1, iotaAt_mid _ _ _ _ _ _ hElen.symm (by simp; have := hS.ext; omega)
      (by have := hS.ch3_ge; have := hS.ch3_le; have := hS.lead_le; omega)]
    rw [hd3, List.map_cons]
    have hsh : v.ch3 + v.ch3new - v.ch3 = v.scan.ch2 + v.trailingSpaces := by
      have := hS.ch3new; omega
    have s2 : r.charOffsets.take v.colExtBeg ++ List.range' v.chExtBeg v.leadingSpaces
          ++ (Y ++ Z ++ (v.ch3 + v.ch3new - v.ch3)
              :: (r.charOffsets.drop (v.col3 + 1)).map (fun x => x + v.ch3new - v.ch3))
        = (r.charOffsets.take v.colExtBeg ++ List.range' v.chExtBeg v.leadingSpaces ++ Y)
          ++ (Z ++ [v.ch3 + v.ch3new - v.ch3])
          ++ (r.charOffsets.drop (v.col3 + 1)).map (fun x => x + v.ch3new - v.ch3) := by
      simp only [List.append_assoc, List.singleton_append]
    rw [s2, iotaAt_mid _ _ _ _ _ _ (by simp [hElen]; have := hS.ext; omega) (by simp [hZlen])
      (by have := hS.ch3new; omega)]
    rw [List.range'_1_concat, hsh]
    simp only [List.append_assoc, List.singleton_append]
  -- the characters after the three writes
  have hX : (List.replicate v.leadingSpaces UNICODE_SPACE).length = v.leadingSpaces := by simp
  have hM : (text.take v.copiedChars).length = v.scan.it := by
    rw [hS.copied]; simp; exact hS.it_le
  have hZ : (List.replicate v.trailingSpaces UNICODE_SPACE).length = v.trailingSpaces := by simp
  have hsum : v.chExtBeg + v.leadingSpaces + v.scan.it + v.trailingSpaces = v.ch3new := by
    have := hS.ch3new; omega
  have hchars : writeAt (writeAt (writeAt r2.chars v.chExtBeg
          (List.replicate v.leadingSpaces UNICODE_SPACE)) v.ch1 (text.take v.copiedChars))
        v.scan.ch2 (List.replicate v.trailingSpaces UNICODE_SPACE)
      = r2.chars.take v.chExtBeg ++ List.replicate v.leadingSpaces UNICODE_SPACE
        ++ text.take v.copiedChars ++ List.replicate v.trailingSpaces UNICODE_SPACE
        ++ r2.chars.drop v.ch3new := by
    have := writeAt_three r2.chars (List.replicate v.leadingSpaces UNICODE_SPACE)
      (text.take v.copiedChars) (List.replicate v.trailingSpaces UNICODE_SPACE) v.chExtBeg
      (by rw [hX, hM, hZ]; have := hS.ch3_le; omega)
    rw [hX, hM, hZ, hsum] at this
    rw [hch1, hch2, hch1]
    exact this
  have hpre : (r2.chars.take v.chExtBeg ++ List.replicate v.leadingSpaces UNICODE_SPACE
      ++ text.take v.copiedChars ++ List.replicate v.trailingSpaces UNICODE_SPACE).length
      = v.ch3new := by
    simp only [List.length_append, hX, hM, hZ, List.length_take]
    have := hS.ch3_le
    omega
  -- the cells of the new row
  have hcellsE : Cells 0 (r.charOffsets.take v.colExtBeg) v.chExtBeg := by
    obtain ⟨m, h1, _, h3, _⟩ := hinv.split_at v.colExtBeg (by have := hS.col3_le; have := hS.col3; omega)
      hS.extNoTrailer
    rw [hS.chExtBeg] at h3
    rw [h3]; exact h1
  have hcells : Cells 0 (r.charOffsets.take v.colExtBeg ++ List.range' v.chExtBeg v.leadingSpaces
      ++ Y ++ List.range' v.scan.ch2 v.trailingSpaces
      ++ ((r.charOffsets.take r.columnCount).drop v.col3).map (fun x => x + v.ch3new - v.ch3))
      (r._charSize + v.ch3new - v.ch3) := by
    refine ((((hcellsE.append (Cells.range _ _)).append ?_).append (Cells.range _ _)).append ?_)
    · rw [← hch1, hch2]
      exact hY
    · have := hc3b.shift v.ch3new v.ch3 (Nat.le_refl _)
      rw [show v.ch3 + v.ch3new - v.ch3 = v.scan.ch2 + v.trailingSpaces by
        have := hS.ch3new; omega] at this
      exact this
  have hfinal : r.charOffsets.take v.colExtBeg ++ List.range' v.chExtBeg v.leadingSpaces ++ Y
        ++ List.range' v.scan.ch2 v.trailingSpaces
        ++ (r.charOffsets.drop v.col3).map (fun x => x + v.ch3new - v.ch3)
      = (r.charOffsets.take v.colExtBeg ++ List.range' v.chExtBeg v.leadingSpaces
        ++ Y ++ List.range' v.scan.ch2 v.trailingSpaces
        ++ ((r.charOffsets.take r.columnCount).drop v.col3).map (fun x => x + v.ch3new - v.ch3))
        ++ [r._charSize + v.ch3new - v.ch3] := by
    rw [hdrop3]
    simp only [List.map_append, List.map_cons, List.map_nil, List.append_assoc]
  have hWlen : (r.charOffsets.take v.colExtBeg ++ List.range' v.chExtBeg v.leadingSpaces
      ++ Y ++ List.range' v.scan.ch2 v.trailingSpaces
      ++ ((r.charOffsets.take r.columnCount).drop v.col3).map (fun x => x + v.ch3new - v.ch3)).length
      = r.columnCount := by
    simp only [List.length_append, List.length_take, List.length_range', List.length_map,
      List.length_drop]
    have := hS.ext; have := hS.col3; have := hS.col3_le
    omega
  have hsize' : (r.charOffsets.take v.colExtBeg ++ List.range' v.chExtBeg v.leadingSpaces ++ Y
        ++ List.range' v.scan.ch2 v.trailingSpaces
        ++ (r.charOffsets.drop v.col3).map (fun x => x + v.ch3new - v.ch3)).getD r.columnCount 0
      = r._charSize + v.ch3new - v.ch3 := by
    rw [hfinal, List.getD_eq_getElem?_getD, List.getElem?_append_right (by omega), hWlen]
    simp
  have htext' : (r2.chars.take v.chExtBeg ++ List.replicate v.leadingSpaces UNICODE_SPACE
        ++ text.take v.copiedChars ++ List.replicate v.trailingSpaces UNICODE_SPACE
        ++ r2.chars.drop v.ch3new).take (v.textLength r)
      = r.chars.take v.chExtBeg ++ List.replicate v.leadingSpaces UNICODE_SPACE
        ++ text.take v.scan.it ++ List.replicate v.trailingSpaces UNICODE_SPACE
        ++ (r.chars.drop v.ch3).take (r._charSize - v.ch3) := by
    rw [List.take_append_eq_append_take, hpre, List.take_of_length_le (by rw [hpre]; omega),
      show v.textLength r - v.ch3new = r._charSize - v.ch3 by
        have := hS.ch3_le; omega, e4, e3, hS.copied]
  exact
    { offs := ⟨Y, by rw [hch2]; exact hY,
        by rw [hS.colBeg_eq]; exact hYlen, by rw [hS.colBeg_eq]; exact hYeq, hoffs⟩
      text := by simp only; rw [hchars]; exact htext'
      cap := by
        simp only [writeAt_length]; omega
      size := by
        simp only [ROW._charSize, e6]
        rw [hoffs, hsize', hnl]
      newLength := hnl
      columnCount := e6
      attr := e7
      lineRendition := e8
      wrapForced := e9
      padded := e10
      inv :=
        { len := by
            simp only [e6]
            rw [hoffs, hfinal, List.length_append, hWlen]; rfl
          cells := by
            simp only [ROW._charSize, e6]
            rw [hoffs, hsize', hfinal, List.take_left' hWlen]
            exact hcells
          bound := by
            simp only [ROW._charSize, e6]
            rw [hoffs, hsize']; omega
          cap := by
            simp only [ROW._charSize, e6, writeAt_length]
            rw [hoffs, hsize']; omega } }

/-! ## The invariant is kept -/

theorem ROW.new_offs (w : Nat) (fill : TextAttribute) (hw : w ≤ 65535) :
    (ROW.new w fill).charOffsets = List.range' 0 (w + 1) := by
  simp only [ROW.new, ROW._init, List.length_replicate]
  rw [iotaAt_eq _ _ _ _ (by omega)]
  have := writeAt_mid [] (List.replicate (w + 1) 0) [] (List.range' 0 (w + 1)) 0 rfl (by simp)
  simpa using this

theorem ROW.new_chars (w : Nat) (fill : TextAttribute) :
    (ROW.new w fill).chars = List.replicate w UNICODE_SPACE := by
  simp only [ROW.new, ROW._init]
  have := writeAt_mid [] (List.replicate w 0) [] (List.replicate w UNICODE_SPACE) 0 rfl (by simp)
  simpa using this

theorem range'_take_getD (w : Nat) :
    (List.range' 0 (w + 1)).take w = List.range' 0 w ∧ (List.range' 0 (w + 1)).getD w 0 = w := by
  rw [List.range'_1_concat]
  constructor
  · rw [List.take_left' (by simp)]
  · rw [List.getD_eq_getElem?_getD, List.getElem?_append_right (by simp)]
    simp

theorem ROW.new_inv (w : Nat) (fill : TextAttribute) (hw : w ≤ 32767) : (ROW.new w fill).Inv := by
  have ho := ROW.new_offs w fill (by omega)
  have hc := ROW.new_chars w fill
  have hW : (ROW.new w fill).columnCount = w := rfl
  have hsz : (ROW.new w fill)._charSize = w := by
    simp only [ROW._charSize, hW, ho, (range'_take_getD w).2]
  refine { len := by rw [ho, hW]; simp, cells := ?_, bound := by rw [hsz]; exact hw,
           cap := by rw [hsz, hc]; simp }
  rw [hsz, hW, ho, (range'_take_getD w).1]
  simpa using Cells.range w 0

theorem ROW.Reset_eq_new (r : ROW) (fill : TextAttribute)
    (h : r.charOffsets.length = r.columnCount + 1) (hw : r.columnCount ≤ 65535) :
    r.Reset fill = ROW.new r.columnCount fill := by
  have e1 : (r.Reset fill).charOffsets = List.range' 0 (r.columnCount + 1) := by
    simp only [ROW.Reset, ROW._init]
    rw [iotaAt_eq _ _ _ _ (by omega), h]
    have := writeAt_mid [] r.charOffsets [] (List.range' 0 (r.columnCount + 1)) 0 rfl (by simp [h])
    simpa using this
  have e2 := ROW.new_offs r.columnCount fill hw
  have e3 : (r.Reset fill).chars = (ROW.new r.columnCount fill).chars := rfl
  have e4 : r.Reset fill = { (ROW.new r.columnCount fill) with
      charOffsets := (r.Reset fill).charOffsets } := rfl
  rw [e4, e1, ← e2]

theorem ROW.Reset_inv (r : ROW) (fill : TextAttribute) (h : r.Inv) (hw : r.columnCount ≤ 32767) :
    (r.Reset fill).Inv := by
  rw [ROW.Reset_eq_new r fill h.len (by omega)]
  exact ROW.new_inv _ _ hw

theorem ROW.Resize_inv (r : ROW) (w : Nat) (fill : TextAttribute) (h : r.Inv)
    (hb : r.resizeTextLength w ≤ 32767) : (r.Resize w fill).Inv := by
  have hP := h.bound
  have hm : min w r.columnCount ≤ r.columnCount := Nat.min_le_right _ _
  generalize hmdef : min w r.columnCount = m at hm hb
  have hmw : m ≤ w := by rw [← hmdef]; exact Nat.min_le_left _ _
  -- the column the copy stops at, and its offset
  have hk : ∃ k c, extendDown r.charOffsets m = k ∧ r._uncheckedCharOffset m = c ∧ k ≤ m
      ∧ Cells 0 (r.charOffsets.take k) c ∧ c ≤ r._charSize := by
    have hE := h.extendDown m
    cases ht : wordIsTrailer (r.charOffsets.getD m 0) with
    | false =>
      obtain ⟨c, h1, _, h3, h4⟩ := h.split_at m hm ht
      refine ⟨m, c, hE.1 ht, ?_, Nat.le_refl _, h1, h4⟩
      simp only [ROW._uncheckedCharOffset]
      rw [h3, wordOffset_of_le (by omega)]
    | true =>
      obtain ⟨j, hj, _, h1, h2, h3, _⟩ := h.trailer_at m ht
      obtain ⟨c, h4, _, h6, h7⟩ := h.split_at j (by omega) h1
      refine ⟨j, c, by have := hE.2 ht; omega, ?_, by omega, h4, h7⟩
      simp only [ROW._uncheckedCharOffset]
      rw [h2, h6, wordOffset_add (by omega)]
  obtain ⟨k, c, hk1, hk2, hk3, hk4, hk5⟩ := hk
  simp only [ROW.resizeTextLength, hmdef, hk1, hk2] at hb
  have hkl : (r.charOffsets.take k).length = k := by
    simp; rw [h.len]; omega
  have hoffs : (r.Resize w fill).charOffsets
      = r.charOffsets.take k ++ List.range' c (w - k) ++ [c + (w - k)] := by
    simp only [ROW.Resize, hmdef, hk1, hk2]
    have e1 : writeAt (List.replicate (w + 1) 0) 0 (r.charOffsets.take k)
        = r.charOffsets.take k ++ List.replicate (w + 1 - k) 0 := by
      rw [writeAt_eq _ _ _ (by simp; omega)]
      simp [hkl]
    rw [e1]
    have := iotaAt_mid (r.charOffsets.take k) (List.replicate (w + 1 - k) 0) [] k (w - k + 1) c
      hkl.symm (by simp; omega) (by omega)
    rw [List.append_nil, List.append_nil] at this
    rw [this, List.range'_1_concat, List.append_assoc]
  have hW : (r.Resize w fill).columnCount = w := rfl
  have hlen : (r.charOffsets.take k ++ List.range' c (w - k)).length = w := by
    simp [hkl]; omega
  have hsz : (r.Resize w fill)._charSize = c + (w - k) := by
    simp only [ROW._charSize, hW, hoffs]
    rw [List.getD_eq_getElem?_getD, List.getElem?_append_right (by omega), hlen]
    simp
  refine { len := by rw [hoffs, hW, List.length_append, hlen]; rfl, cells := ?_,
           bound := by rw [hsz]; exact hb, cap := ?_ }
  · rw [hsz, hW, hoffs, List.take_left' hlen]
    exact hk4.append (Cells.range _ _)
  · rw [hsz]
    simp only [ROW.Resize, hmdef, hk1, hk2, writeAt_length, List.length_replicate]
    rw [u16_of_lt (by omega)]
    split
    · exact Nat.le_refl _
    · rename_i hn
      simp at hn
      exact hn

theorem ROW._clampedColumnInclusive_le (r : ROW) (v : Int) :
    r._clampedColumnInclusive v ≤ r.columnCount := by
  simp only [ROW._clampedColumnInclusive]
  omega

/-- A call of `ReplaceCharacters` on a well-formed row that returns and stays within
the 15-bit limit is either a no-op or is described by `LocalsSpec` and `WriteSpec`. -/
theorem ReplaceCharacters_returned (env : Env) (r : ROW) (columnBegin columnEnd : Int)
    (text : List Nat) (r' : ROW) (col : Nat) (rest : List Nat)
    (hsound : env.SegSound) (hinv : r.Inv)
    (h : r.ReplaceCharacters env columnBegin columnEnd text = Outcome.returned r' col rest)
    (hb : ∀ v, replaceLocals env r (r._clampedColumnInclusive columnBegin) text = some v →
      v.textLength r ≤ 32767) :
    ((r._clampedColumnInclusive columnEnd ≤ r._clampedColumnInclusive columnBegin ∨ text = [])
        ∧ r' = r ∧ col = r._clampedColumnInclusive columnBegin ∧ rest = text)
    ∨ (r._clampedColumnInclusive columnBegin < r._clampedColumnInclusive columnEnd ∧ text ≠ []
        ∧ ∃ v, replaceLocals env r (r._clampedColumnInclusive columnBegin) text = some v
          ∧ LocalsSpec r (r._clampedColumnInclusive columnBegin) text v
          ∧ WriteSpec r text v r' ∧ col = v.col3 ∧ rest = text.drop v.scan.it) := by
  simp only [ROW.ReplaceCharacters] at h
  split at h
  · rename_i hnoop
    injection h with h1 h2 h3
    exact Or.inl ⟨hnoop, h1.symm, h2.symm, h3.symm⟩
  · rename_i hop
    have hlt : r._clampedColumnInclusive columnBegin < r._clampedColumnInclusive columnEnd := by
      by_contra hc; exact hop (Or.inl (by omega))
    have hne : text ≠ [] := fun hc => hop (Or.inr hc)
    have hcw := r._clampedColumnInclusive_le columnEnd
    split at h
    · exact Outcome.noConfusion h
    · rename_i v hv
      have hS := replaceLocals_spec env r _ text v hsound hinv (by omega) hne hv (hb v hv)
      obtain ⟨r'', hw, hWS⟩ := replaceWrite_spec r _ text v hinv hS (hb v hv)
      rw [hw] at h
      simp only at h
      split at h
      · exact Outcome.noConfusion h
      · injection h with h1 h2 h3
        subst h1
        exact Or.inr ⟨hlt, hne, v, hv, hS, hWS, h2.symm, h3.symm⟩

/-- Every reachable row is well-formed. -/
theorem Reachable.inv {env : Env} (hsound : env.SegSound) {r : ROW} (h : Reachable env r) :
    r.Inv := by
  induction h with
  | new w fill hw => exact ROW.new_inv w fill hw
  | reset r fill _ hw ih => exact ROW.Reset_inv r fill ih hw
  | replace r cb ce text r' col rest _ hcall hb ih =>
    rcases ReplaceCharacters_returned env r cb ce text r' col rest hsound ih hcall hb with
      ⟨_, h1, _, _⟩ | ⟨_, _, v, _, _, hWS, _, _⟩
    · rw [h1]; exact ih
    · exact hWS.inv
  | resize r w fill _ hb ih => exact ROW.Resize_inv r w fill ih hb

/-! ## The sample segmenter obeys the contract -/

theorem sampleBoundaries_spec : ∀ (s : List Nat) (pos p0 : Nat), p0 ≤ pos →
    List.Chain (fun a b => a < b) p0 (sampleBoundaries pos s)
      ∧ (p0 :: sampleBoundaries pos s).getLast? = some (if s = [] then p0 else pos + s.length) := by
  intro s
  induction s with
  | nil => intro pos p0 _; simp [sampleBoundaries]
  | cons a s ih =>
    intro pos p0 h
    cases s with
    | nil => simp [sampleBoundaries]; omega
    | cons b s =>
      simp only [sampleBoundaries]
      split
      · obtain ⟨h1, h2⟩ := ih (pos + 1) p0 (by omega)
        refine ⟨h1, ?_⟩
        rw [h2]
        simp; omega
      · obtain ⟨h1, h2⟩ := ih (pos + 1) (pos + 1) (Nat.le_refl _)
        refine ⟨List.Chain.cons (by omega) h1, ?_⟩
        rw [List.getLast?_cons_cons, h2]
        simp; omega

theorem sampleEnv_segSound : sampleEnv.SegSound := by
  intro s bs h
  simp only [sampleEnv, Option.some.injEq] at h
  subst h
  obtain ⟨h1, h2⟩ := sampleBoundaries_spec s 0 0 (Nat.le_refl 0)
  refine ⟨h1, ?_⟩
  rw [h2]
  by_cases hs : s = []
  · simp [hs]
  · simp [hs]

theorem sampleEnv_segTotal : sampleEnv.SegTotal := fun _ => ⟨_, rfl⟩

/-! ## Pointwise consequences of the invariant -/

theorem Cells.lt_of_ne_nil {a b : Nat} {cs : List Nat} (h : Cells a cs b) (hne : cs ≠ []) :
    a < b := by
  cases h with
  | nil => exact absurd rfl hne
  | narrow _ k cs _ hk hc => have := hc.le; omega
  | wide _ k cs _ hk hc => have := hc.le; omega

/-- A column of a well-formed row that is no trailer holds its offset, without flag. -/
theorem ROW.Inv.noTrailer_le {r : ROW} (h : r.Inv) (i : Nat) (hi : i ≤ r.columnCount)
    (ht : wordIsTrailer (r.charOffsets.getD i 0) = false) :
    r.charOffsets.getD i 0 ≤ r._charSize ∧ r._uncheckedCharOffset i = r.charOffsets.getD i 0 := by
  obtain ⟨m, _, _, h3, h4⟩ := h.split_at i hi ht
  have := h.bound
  refine ⟨by omega, ?_⟩
  simp only [ROW._uncheckedCharOffset]
  exact wordOffset_of_le (by omega)

/-- Of two columns that are no trailers, the later one has the larger offset. -/
theorem ROW.Inv.noTrailer_lt {r : ROW} (h : r.Inv) (a b : Nat) (hab : a < b)
    (hb : b ≤ r.columnCount) (hta : wordIsTrailer (r.charOffsets.getD a 0) = false)
    (htb : wordIsTrailer (r.charOffsets.getD b 0) = false) :
    r.charOffsets.getD a 0 < r.charOffsets.getD b 0 := by
  obtain ⟨mb, h1, _, h3, h4⟩ := h.split_at b hb htb
  have hbound := h.bound
  have hlen : (r.charOffsets.take b).length = b := by simp; rw [h.len]; omega
  obtain ⟨ma, _, h6, h7⟩ := h1.split (by omega) a (by omega)
    (by rw [getD_take_of_lt _ _ _ hab]; exact hta)
  have h8 := h7 (by omega)
  rw [getD_take_of_lt _ _ _ hab] at h8
  rw [h8, h3]
  exact h6.lt_of_ne_nil (by
    intro hnil
    have := congrArg List.length hnil
    rw [List.length_drop, hlen] at this
    simp at this
    omega)

theorem ROW.Inv.getD_zero {r : ROW} (h : r.Inv) : r.charOffsets.getD 0 0 = 0 := by
  have ht : wordIsTrailer (r.charOffsets.getD 0 0) = false := by
    cases hc : wordIsTrailer (r.charOffsets.getD 0 0) with
    | false => rfl
    | true =>
      obtain ⟨j, hj, _⟩ := h.trailer_at 0 hc
      omega
  obtain ⟨m, h1, _, h3, _⟩ := h.split_at 0 (Nat.zero_le _) ht
  rw [List.take_zero] at h1
  rw [h3, ← h1.nil_eq]

/-- The offset of every column of a well-formed row lies within the text. -/
theorem ROW.Inv.offset_le {r : ROW} (h : r.Inv) (i : Nat) :
    r._uncheckedCharOffset i ≤ r._charSize := by
  cases ht : wordIsTrailer (r.charOffsets.getD i 0) with
  | false =>
    by_cases hi : i ≤ r.columnCount
    · have := h.noTrailer_le i hi ht
      omega
    · have : r.charOffsets.getD i 0 = 0 := by
        rw [List.getD_eq_getElem?_getD, List.getElem?_eq_none (by rw [h.len]; omega)]
        rfl
      simp only [ROW._uncheckedCharOffset, this, wordOffset]
      simp
  | true =>
    obtain ⟨j, hj, hlt, h1, h2, h3, _⟩ := h.trailer_at i ht
    have := (h.noTrailer_le j (by omega) h1).1
    simp only [ROW._uncheckedCharOffset]
    rw [h2, wordOffset_add h3]
    exact this

/-- Offsets never decrease from a column to the next, and stay equal only into a
trailer column. -/
theorem ROW.Inv.mono {r : ROW} (h : r.Inv) (i : Nat) (hi : i < r.columnCount) :
    r._uncheckedCharOffset i ≤ r._uncheckedCharOffset (i + 1)
      ∧ (r._uncheckedCharOffset (i + 1) = r._uncheckedCharOffset i →
          r._uncheckedIsTrailer (i + 1) = true) := by
  cases ht : wordIsTrailer (r.charOffsets.getD (i + 1) 0) with
  | true =>
    obtain ⟨j, hj, _, h1, h2, h3, _⟩ := h.trailer_at (i + 1) ht
    have hji : j = i := by omega
    subst hji
    have e1 : r._uncheckedCharOffset (j + 1) = r.charOffsets.getD j 0 := by
      simp only [ROW._uncheckedCharOffset]; rw [h2, wordOffset_add h3]
    have e2 := (h.noTrailer_le j (by omega) h1).2
    exact ⟨by omega, fun _ => ht⟩
  | false =>
    have e1 := (h.noTrailer_le (i + 1) hi ht).2
    have hlt : r._uncheckedCharOffset i < r.charOffsets.getD (i + 1) 0 := by
      cases hti : wordIsTrailer (r.charOffsets.getD i 0) with
      | false =>
        have := h.noTrailer_lt i (i + 1) (by omega) hi hti ht
        have := (h.noTrailer_le i (by omega) hti).2
        omega
      | true =>
        obtain ⟨j, hj, _, h1, h2, h3, _⟩ := h.trailer_at i hti
        have := h.noTrailer_lt j (i + 1) (by omega) hi h1 ht
        simp only [ROW._uncheckedCharOffset]
        rw [h2, wordOffset_add h3]
        exact this
    refine ⟨by omega, fun heq => ?_⟩
    omega

/-! ## Sample rows -/

/-- Turns an evaluated bound on the locals into the hypothesis of `Reachable.replace`. -/
theorem bound_of_eval (o : Option Locals) (r : ROW)
    (h : (match o with
          | none => true
          | some v => decide (v.textLength r ≤ 32767)) = true) :
    ∀ v, o = some v → v.textLength r ≤ 32767 := by
  intro v hv
  subst hv
  simpa using h

theorem sampleRowWide_reachable : Reachable sampleEnv sampleRowWide :=
  Reachable.replace (ROW.new 6 default) 0 6 [0x4e00, 0x4e01, 0x4e02] sampleRowWide 6 []
    (Reachable.new 6 default (by decide)) (by rfl) (bound_of_eval _ _ (by rfl))

/-! ## C1 and C2: the ends of the offsets array and monotonicity -/

/-- C1: in every row reachable within the 15-bit limit, `offsets[0]` is 0 with the
trailer flag clear, `offsets[W]` has the trailer flag clear and is the length of the
text that `GetText` returns, this length never exceeds the capacity of the character
buffer, and so the offset of every column in `[0, W]` indexes inside the buffer. -/
theorem C1_offsets_ends (env : Env) (hs : env.SegSound) (r : ROW) (h : Reachable env r) :
    r.charOffsets.getD 0 0 = 0
      ∧ r._uncheckedIsTrailer 0 = false
      ∧ r._uncheckedIsTrailer r.columnCount = false
      ∧ r._uncheckedCharOffset r.columnCount = r._charSize
      ∧ r.GetText.length = r._charSize
      ∧ r._charSize ≤ r.chars.length
      ∧ ∀ i, i ≤ r.columnCount → r._uncheckedCharOffset i ≤ r.chars.length := by
  have hinv := h.inv hs
  have h0 := hinv.getD_zero
  have hW : wordIsTrailer (r.charOffsets.getD r.columnCount 0) = false :=
    wordIsTrailer_of_le hinv.bound
  refine ⟨h0, ?_, hW, ?_, ?_, hinv.cap, fun i _ => Nat.le_trans (hinv.offset_le i) hinv.cap⟩
  · simp only [ROW._uncheckedIsTrailer, h0]
    rfl
  · exact (hinv.noTrailer_le _ (Nat.le_refl _) hW).2
  · simp only [ROW.GetText, List.length_take]
    exact Nat.min_eq_left hinv.cap

theorem C1_offsets_ends_witness :
    sampleEnv.SegSound ∧ Reachable sampleEnv sampleRowWide
      ∧ sampleRowWide.charOffsets.getD 0 0 = 0
      ∧ sampleRowWide._uncheckedIsTrailer 0 = false
      ∧ sampleRowWide._uncheckedIsTrailer sampleRowWide.columnCount = false
      ∧ sampleRowWide._uncheckedCharOffset sampleRowWide.columnCount = sampleRowWide._charSize
      ∧ sampleRowWide.GetText.length = sampleRowWide._charSize
      ∧ sampleRowWide._charSize ≤ sampleRowWide.chars.length
      ∧ ∀ i, i ≤ sampleRowWide.columnCount →
          sampleRowWide._uncheckedCharOffset i ≤ sampleRowWide.chars.length :=
  ⟨sampleEnv_segSound, sampleRowWide_reachable,
    C1_offsets_ends sampleEnv sampleEnv_segSound sampleRowWide sampleRowWide_reachable⟩

/-- C2: in every row reachable within the 15-bit limit, for every `i` with
`0 < i ≤ W` the offset of column `i` is at least the offset of column `i - 1`, and
the two are equal only when column `i` has the trailer flag. -/
theorem C2_offsets_monotone (env : Env) (hs : env.SegSound) (r : ROW) (h : Reachable env r)
    (i : Nat) (h0 : 0 < i) (hi : i ≤ r.columnCount) :
    r._uncheckedCharOffset (i - 1) ≤ r._uncheckedCharOffset i
      ∧ (r._uncheckedCharOffset i = r._uncheckedCharOffset (i - 1) →
          r._uncheckedIsTrailer i = true) := by
  obtain ⟨j, rfl⟩ : ∃ j, i = j + 1 := ⟨i - 1, by omega⟩
  exact (h.inv hs).mono j (by omega)

theorem C2_offsets_monotone_witness :
    sampleEnv.SegSound ∧ Reachable sampleEnv sampleRowWide ∧ 0 < 3 ∧ 3 ≤ sampleRowWide.columnCount
      ∧ sampleRowWide._uncheckedCharOffset (3 - 1) ≤ sampleRowWide._uncheckedCharOffset 3
      ∧ (sampleRowWide._uncheckedCharOffset 3 = sampleRowWide._uncheckedCharOffset (3 - 1) →
          sampleRowWide._uncheckedIsTrailer 3 = true) :=
  ⟨sampleEnv_segSound, sampleRowWide_reachable, by decide, by decide,
    C2_offsets_monotone sampleEnv sampleEnv_segSound sampleRowWide sampleRowWide_reachable 3
      (by decide) (by decide)⟩

/-! ## C3: trailers come singly -/

theorem range'_getD (n i : Nat) (h : i < n) : (List.range' 0 n).getD i 0 = i := by
  rw [List.getD_eq_getElem?_getD, List.getElem?_range' 0 1 h]
  simp

/-- C3, as stated, fails on a freshly constructed row of 32770 columns: the offsets
of columns 32768 and 32769 both carry the trailer flag. -/
theorem C3_counterexample :
    (ROW.new 32770 default)._uncheckedIsTrailer 32768 = true
      ∧ (ROW.new 32770 default)._uncheckedIsTrailer 32769 = true := by
  have ho := ROW.new_offs 32770 default (by decide)
  simp only [ROW._uncheckedIsTrailer, ho]
  rw [range'_getD _ _ (by decide), range'_getD _ _ (by decide)]
  exact ⟨by decide, by decide⟩

/-- C3, amended: in every row reachable within the 15-bit limit, column 0 is no
trailer and no two adjacent columns are both trailers; hence every glyph spans one
or two columns, and the leading pad count of any `ReplaceCharacters` call is 0 or 1. -/
theorem C3_single_trailers (env : Env) (hs : env.SegSound) (r : ROW) (h : Reachable env r) :
    r._uncheckedIsTrailer 0 = false
      ∧ (∀ i, ¬ (r._uncheckedIsTrailer i = true ∧ r._uncheckedIsTrailer (i + 1) = true))
      ∧ (∀ c, c < r.columnCount → r._uncheckedIsTrailer c = false →
          skipTrailers r.charOffsets r.charOffsets.length (c + 1) = c + 1
            ∨ skipTrailers r.charOffsets r.charOffsets.length (c + 1) = c + 2)
      ∧ (∀ colBeg chars v, replaceLocals env r colBeg chars = some v →
          v.leadingSpaces = v.colBeg - v.colExtBeg
            ∧ (v.leadingSpaces = 0 ∨ v.leadingSpaces = 1)) := by
  have hinv := h.inv hs
  refine ⟨?_, ?_, ?_, ?_⟩
  · simp only [ROW._uncheckedIsTrailer, hinv.getD_zero]
    rfl
  · rintro i ⟨h1, h2⟩
    obtain ⟨_, _, _, _, _, _, h3⟩ := hinv.trailer_at i h1
    simp only [ROW._uncheckedIsTrailer] at h2
    rw [h3] at h2
    exact Bool.noConfusion h2
  · intro c hc _
    have hK := hinv.skipTrailers (c + 1) r.charOffsets.length (by rw [hinv.len]; omega)
    cases ht : wordIsTrailer (r.charOffsets.getD (c + 1) 0) with
    | false => exact Or.inl (hK.1 ht)
    | true => exact Or.inr (hK.2 ht)
  · intro colBeg chars v hv
    simp only [replaceLocals] at hv
    split at hv
    · exact Option.noConfusion hv
    · have e : v = _ := (Option.some.inj hv).symm
      subst e
      refine ⟨rfl, ?_⟩
      simp only
      have hE := hinv.extendDown colBeg
      cases ht : wordIsTrailer (r.charOffsets.getD colBeg 0) with
      | false => left; have := hE.1 ht; omega
      | true => right; have := hE.2 ht; omega

theorem C3_single_trailers_witness :
    sampleEnv.SegSound ∧ Reachable sampleEnv sampleRowWide
      ∧ sampleRowWide._uncheckedIsTrailer 0 = false
      ∧ (∀ i, ¬ (sampleRowWide._uncheckedIsTrailer i = true
            ∧ sampleRowWide._uncheckedIsTrailer (i + 1) = true))
      ∧ (∀ c, c < sampleRowWide.columnCount → sampleRowWide._uncheckedIsTrailer c = false →
          skipTrailers sampleRowWide.charOffsets sampleRowWide.charOffsets.length (c + 1) = c + 1
            ∨ skipTrailers sampleRowWide.charOffsets sampleRowWide.charOffsets.length (c + 1)
                = c + 2)
      ∧ (∀ colBeg chars v, replaceLocals sampleEnv sampleRowWide colBeg chars = some v →
          v.leadingSpaces = v.colBeg - v.colExtBeg
            ∧ (v.leadingSpaces = 0 ∨ v.leadingSpaces = 1)) :=
  ⟨sampleEnv_segSound, sampleRowWide_reachable,
    C3_single_trailers sampleEnv sampleEnv_segSound sampleRowWide sampleRowWide_reachable⟩

/-! ## The written row, column by column -/

theorem getD_append_left' (A B : List Nat) (i : Nat) (h : i < A.length) :
    (A ++ B).getD i 0 = A.getD i 0 := by
  rw [List.getD_eq_getElem?_getD, List.getD_eq_getElem?_getD, List.getElem?_append_left h]

theorem getD_append_right' (A B : List Nat) (i j : Nat) (h : i = A.length + j) :
    (A ++ B).getD i 0 = B.getD j 0 := by
  subst h
  rw [List.getD_eq_getElem?_getD, List.getD_eq_getElem?_getD,
    List.getElem?_append_right (by omega), Nat.add_sub_cancel_left]

theorem slice_of_take (l A X R : List Nat) (N : Nat) (h : l.take N = A ++ X ++ R) :
    (l.drop A.length).take X.length = X := by
  have e : l = A ++ X ++ R ++ l.drop N := by
    rw [← h, List.take_append_drop]
  conv_lhs => rw [e]
  rw [List.append_assoc, List.append_assoc, List.drop_left' rfl, List.take_left' rfl]

theorem Cells.head_eq {a b x : Nat} {cs : List Nat} (h : Cells a (x :: cs) b) : x = a := by
  cases h <;> rfl

theorem getD_map_drop (l : List Nat) (f : Nat → Nat) (n j : Nat) (h : n + j < l.length) :
    ((l.drop n).map f).getD j 0 = f (l.getD (n + j) 0) := by
  rw [List.getD_eq_getElem?_getD, List.getD_eq_getElem?_getD, List.getElem?_map,
    List.getElem?_drop, List.getElem?_eq_getElem h]
  rfl

/-- The offsets of the written row at the columns that matter: below the extended
range they are the old ones, at the leading pad column and at `colBeg` they are
`chExtBeg` and `ch1`, at the trailing pad column `ch2`, and from `col3` on the old
ones shifted. -/
theorem WriteSpec.offs_at {r r' : ROW} {colBeg : Nat} {text : List Nat} {v : Locals}
    (hinv : r.Inv) (hS : LocalsSpec r colBeg text v) (hW : WriteSpec r text v r') :
    (∀ i, i < v.colExtBeg → r'.charOffsets.getD i 0 = r.charOffsets.getD i 0)
      ∧ (v.leadingSpaces = 1 → r'.charOffsets.getD v.colExtBeg 0 = v.chExtBeg)
      ∧ r'.charOffsets.getD colBeg 0 = v.ch1
      ∧ (v.trailingSpaces = 1 → r'.charOffsets.getD v.scan.col2 0 = v.scan.ch2)
      ∧ (∀ i, v.col3 ≤ i → i ≤ r.columnCount →
          r'.charOffsets.getD i 0 = r.charOffsets.getD i 0 + v.ch3new - v.ch3)
      ∧ (∀ i, colBeg ≤ i → i < v.scan.col2 →
          r'.charOffsets.getD i 0 = v.scan.offs.getD i 0) := by
  obtain ⟨Y, hY, hYlen, hYeq, hoffs⟩ := hW.offs
  rw [hS.colBeg_eq] at hYlen hYeq
  have hlen := hinv.len
  have hext := hS.ext
  have hcol3 := hS.col3
  have hcol3le := hS.col3_le
  have hElen : (r.charOffsets.take v.colExtBeg).length = v.colExtBeg := by
    simp; omega
  have hR1 : (List.range' v.chExtBeg v.leadingSpaces).length = v.leadingSpaces := by simp
  have hR2 : (List.range' v.scan.ch2 v.trailingSpaces).length = v.trailingSpaces := by simp
  refine ⟨?_, ?_, ?_, ?_, ?_, ?_⟩
  · intro i hi
    rw [hoffs]
    simp only [List.append_assoc]
    rw [getD_append_left' _ _ _ (by omega), List.getD_eq_getElem?_getD,
      List.getD_eq_getElem?_getD, List.getElem?_take_of_lt hi]
  · intro hL
    rw [hoffs]
    simp only [List.append_assoc]
    rw [getD_append_right' _ _ v.colExtBeg 0 (by omega), hL]
    rfl
  · rw [hoffs]
    have e : r.charOffsets.take v.colExtBeg ++ List.range' v.chExtBeg v.leadingSpaces ++ Y
          ++ List.range' v.scan.ch2 v.trailingSpaces
          ++ (r.charOffsets.drop v.col3).map (fun x => x + v.ch3new - v.ch3)
        = (r.charOffsets.take v.colExtBeg ++ List.range' v.chExtBeg v.leadingSpaces)
          ++ (Y ++ (List.range' v.scan.ch2 v.trailingSpaces
          ++ (r.charOffsets.drop v.col3).map (fun x => x + v.ch3new - v.ch3))) := by
      simp only [List.append_assoc]
    rw [e, getD_append_right' _ _ colBeg 0 (by simp; omega)]
    cases Y with
    | cons y Y' =>
      rw [hY.head_eq]
      rfl
    | nil =>
      have hit : v.scan.ch2 = v.ch1 := hY.nil_eq.symm
      have h0 : v.scan.it = 0 := by have := hS.scan.ch2; omega
      have hT : v.trailingSpaces = 1 := by
        rcases hS.progress with hp | hp
        · omega
        · exact hS.trail_iff.2 (Or.inl hp)
      rw [hT, hit]
      rfl
  · intro hT
    rw [hoffs]
    have e : r.charOffsets.take v.colExtBeg ++ List.range' v.chExtBeg v.leadingSpaces ++ Y
          ++ List.range' v.scan.ch2 v.trailingSpaces
          ++ (r.charOffsets.drop v.col3).map (fun x => x + v.ch3new - v.ch3)
        = (r.charOffsets.take v.colExtBeg ++ List.range' v.chExtBeg v.leadingSpaces ++ Y)
          ++ (List.range' v.scan.ch2 v.trailingSpaces
          ++ (r.charOffsets.drop v.col3).map (fun x => x + v.ch3new - v.ch3)) := by
      simp only [List.append_assoc]
    rw [e, getD_append_right' _ _ v.scan.col2 0 (by simp; omega), hT]
    rfl
  · intro i hi hiW
    rw [hoffs]
    rw [getD_append_right' _ _ i (i - v.col3) (by simp; omega)]
    rw [getD_map_drop _ _ _ _ (by omega)]
    congr 2
    congr 1
    omega
  · intro i hi hi2
    rw [hoffs, hYeq]
    have e : r.charOffsets.take v.colExtBeg ++ List.range' v.chExtBeg v.leadingSpaces
          ++ (v.scan.offs.drop colBeg).take (v.scan.col2 - colBeg)
          ++ List.range' v.scan.ch2 v.trailingSpaces
          ++ (r.charOffsets.drop v.col3).map (fun x => x + v.ch3new - v.ch3)
        = (r.charOffsets.take v.colExtBeg ++ List.range' v.chExtBeg v.leadingSpaces)
          ++ ((v.scan.offs.drop colBeg).take (v.scan.col2 - colBeg)
          ++ (List.range' v.scan.ch2 v.trailingSpaces
          ++ (r.charOffsets.drop v.col3).map (fun x => x + v.ch3new - v.ch3))) := by
      simp only [List.append_assoc]
    rw [e, getD_append_right' _ _ i (i - colBeg) (by simp; omega)]
    rw [getD_append_left' _ _ _ (by rw [← hYeq]; omega)]
    rw [List.getD_eq_getElem?_getD, List.getD_eq_getElem?_getD,
      List.getElem?_take_of_lt (by omega), List.getElem?_drop]
    congr 2
    omega

/-- The text of the written row, part by part. -/
theorem WriteSpec.text_at {r r' : ROW} {colBeg : Nat} {text : List Nat} {v : Locals}
    (hinv : r.Inv) (hS : LocalsSpec r colBeg text v) (hW : WriteSpec r text v r') :
    r'.chars.take v.chExtBeg = r.chars.take v.chExtBeg
      ∧ (r'.chars.drop v.chExtBeg).take v.leadingSpaces
          = List.replicate v.leadingSpaces UNICODE_SPACE
      ∧ (r'.chars.drop v.ch1).take v.scan.it = text.take v.scan.it
      ∧ (r'.chars.drop v.scan.ch2).take v.trailingSpaces
          = List.replicate v.trailingSpaces UNICODE_SPACE
      ∧ (r'.chars.drop v.ch3new).take (r._charSize - v.ch3)
          = (r.chars.drop v.ch3).take (r._charSize - v.ch3) := by
  have ht := hW.text
  have hcap := hinv.cap
  have h1 := hS.ch3_ge
  have h2 := hS.ch3_le
  have hA : (r.chars.take v.chExtBeg).length = v.chExtBeg := by simp; omega
  have hX : (List.replicate v.leadingSpaces UNICODE_SPACE).length = v.leadingSpaces := by simp
  have hM : (text.take v.scan.it).length = v.scan.it := by simp; exact hS.it_le
  have hZ : (List.replicate v.trailingSpaces UNICODE_SPACE).length = v.trailingSpaces := by simp
  have hTl : ((r.chars.drop v.ch3).take (r._charSize - v.ch3)).length = r._charSize - v.ch3 := by
    simp; omega
  have hch1 := hS.ch1
  have hch2 := hS.scan.ch2
  have hch3 := hS.ch3new
  generalize r.chars.take v.chExtBeg = A at ht hA ⊢
  generalize List.replicate v.leadingSpaces UNICODE_SPACE = X at ht hX ⊢
  generalize text.take v.scan.it = M at ht hM ⊢
  generalize List.replicate v.trailingSpaces UNICODE_SPACE = Z at ht hZ ⊢
  generalize (r.chars.drop v.ch3).take (r._charSize - v.ch3) = Tl at ht hTl ⊢
  refine ⟨?_, ?_, ?_, ?_, ?_⟩
  · have := slice_of_take r'.chars [] A (X ++ M ++ Z ++ Tl) _
      (by rw [ht]; simp only [List.nil_append, List.append_assoc])
    rw [hA] at this
    simpa using this
  · have := slice_of_take r'.chars A X (M ++ Z ++ Tl) _
      (by rw [ht]; simp only [List.append_assoc])
    rw [hA, hX] at this
    exact this
  · have := slice_of_take r'.chars (A ++ X) M (Z ++ Tl) _
      (by rw [ht]; simp only [List.append_assoc])
    rw [List.length_append, hA, hX, hM, ← hch1] at this
    exact this
  · have := slice_of_take r'.chars (A ++ X ++ M) Z Tl _
      (by rw [ht])
    rw [List.length_append, List.length_append, hA, hX, hM, hZ, ← hch1, ← hch2] at this
    exact this
  · have := slice_of_take r'.chars (A ++ X ++ M ++ Z) Tl [] _
      (by rw [ht]; simp only [List.append_nil])
    rw [List.length_append, List.length_append, List.length_append, hA, hX, hM, hZ, hTl,
      ← hch1, ← hch2, ← hch3] at this
    exact this

/-! ## C4: the overwrite-padding rule -/

theorem ROW._clampedColumn_of_lt (r : ROW) (c : Nat) (h : c < r.columnCount) :
    r._clampedColumn (c : Int) = c := by
  simp only [ROW._clampedColumn]
  omega

/-- A column of a well-formed row whose offset is `x`, followed by a column whose
offset is `x + 1`, both without flag, holds the one code unit at `x` as a glyph of
its own. -/
theorem ROW.Inv.glyph_one {r : ROW} (h : r.Inv) (c x : Nat) (hc : c < r.columnCount)
    (h1 : r.charOffsets.getD c 0 = x) (h2 : r.charOffsets.getD (c + 1) 0 = x + 1)
    (hx : x + 1 ≤ 32767) :
    r.GlyphAt (c : Int) = (r.chars.drop x).take 1
      ∧ r.DbcsAttrAt (c : Int) = DbcsAttribute.Single := by
  have ht1 : wordIsTrailer (r.charOffsets.getD c 0) = false := by
    rw [h1]; exact wordIsTrailer_of_le (by omega)
  have ht2 : wordIsTrailer (r.charOffsets.getD (c + 1) 0) = false := by
    rw [h2]; exact wordIsTrailer_of_le hx
  have hK := (h.skipTrailers (c + 1) r.charOffsets.length (by rw [h.len]; omega)).1 ht2
  constructor
  · have e1 : wordOffset x = x := wordOffset_of_le (by omega)
    have e2 : wordOffset (x + 1) = x + 1 := wordOffset_of_le hx
    simp only [ROW.GlyphAt, ROW._clampedColumn_of_lt r c hc, hK, ROW._uncheckedCharOffset, h1, h2,
      e1, e2]
    congr 1
    omega
  · simp only [ROW.DbcsAttrAt, ROW._clampedColumn_of_lt r c hc, ROW._uncheckedIsTrailer, ht1, ht2]
    rfl

/-- C4, amended: for every row reachable within the 15-bit limit and every
`ReplaceCharacters`
call on it that is no no-op, returns and stays within the limit: if `colBeg` was the
trailing column of a wide glyph, column `colBeg - 1` afterwards holds exactly one
space with DBCS attribute `Single`; if the first column `col2` after the written
glyphs was the trailing column of a wide glyph, that column afterwards holds exactly
one space with DBCS attribute `Single`; neither `colBeg` nor `col2` is a trailer
afterwards, and every trailer of the new row follows its leading half. -/
theorem C4_overwrite_padding (env : Env) (hs : env.SegSound) (r : ROW) (h : Reachable env r)
    (columnBegin columnEnd : Int) (chars : List Nat) (r' : ROW) (col : Nat) (rest : List Nat)
    (hcall : r.ReplaceCharacters env columnBegin columnEnd chars = Outcome.returned r' col rest)
    (hop : r._clampedColumnInclusive columnBegin < r._clampedColumnInclusive columnEnd
      ∧ chars ≠ [])
    (hb : ∀ v, replaceLocals env r (r._clampedColumnInclusive columnBegin) chars = some v →
      v.textLength r ≤ 32767) :
    ∃ v, replaceLocals env r (r._clampedColumnInclusive columnBegin) chars = some v
      ∧ (r._uncheckedIsTrailer (r._clampedColumnInclusive columnBegin) = true →
          r'.GlyphAt ((r._clampedColumnInclusive columnBegin : Int) - 1) = [UNICODE_SPACE]
            ∧ r'.DbcsAttrAt ((r._clampedColumnInclusive columnBegin : Int) - 1)
                = DbcsAttribute.Single)
      ∧ (v.scan.col2 < r.columnCount → r._uncheckedIsTrailer v.scan.col2 = true →
          r'.GlyphAt (v.scan.col2 : Int) = [UNICODE_SPACE]
            ∧ r'.DbcsAttrAt (v.scan.col2 : Int) = DbcsAttribute.Single)
      ∧ r'._uncheckedIsTrailer (r._clampedColumnInclusive columnBegin) = false
      ∧ r'._uncheckedIsTrailer v.scan.col2 = false
      ∧ (∀ i, r'._uncheckedIsTrailer i = true →
          ∃ j, i = j + 1 ∧ r'._uncheckedIsTrailer j = false
            ∧ r'._uncheckedCharOffset j = r'._uncheckedCharOffset i) := by
  have hinv := h.inv hs
  rcases ReplaceCharacters_returned env r columnBegin columnEnd chars r' col rest hs hinv hcall hb
    with ⟨hno, _⟩ | ⟨_, _, v, hv, hS, hW, _, _⟩
  · rcases hno with hno | hno
    · omega
    · exact absurd hno hop.2
  generalize r._clampedColumnInclusive columnBegin = colBeg at *
  obtain ⟨o1, o2, o3, o4, o5, _⟩ := hW.offs_at hinv hS
  obtain ⟨_, t2, _, t4, _⟩ := hW.text_at hinv hS
  have hinv' := hW.inv
  have hW' := hW.columnCount
  have hnl := hW.newLength
  have hbv := hb v hv
  have hch1 := hS.ch1
  have hch2 := hS.scan.ch2
  have hch3 := hS.ch3new
  have hch3le := hS.ch3_le
  have hcol3 := hS.col3
  have hcol3le := hS.col3_le
  have hext := hS.ext
  have hcolle := hS.scan.col_le
  have hcb2 : colBeg ≤ v.scan.col2 := by
    obtain ⟨_, _, _, hY, _⟩ := hS.scan.form
    omega
  have h3 : r'.charOffsets.getD v.col3 0 = v.ch3new := by
    rw [o5 v.col3 (Nat.le_refl _) hcol3le, hS.ch3]
    omega
  have hcol2 : r'.charOffsets.getD v.scan.col2 0 = v.scan.ch2 := by
    by_cases hT : v.trailingSpaces = 1
    · exact o4 hT
    · have hT0 : v.trailingSpaces = 0 := by have := hS.trail_le; omega
      rw [show v.scan.col2 = v.col3 by omega, h3]
      omega
  refine ⟨v, hv, ?_, ?_, ?_, ?_, ?_⟩
  · intro ht
    have hL : v.leadingSpaces = 1 := hS.lead_iff.2 ht
    have hE : (colBeg : Int) - 1 = ((v.colExtBeg : Nat) : Int) := by omega
    rw [hE]
    have hg := hinv'.glyph_one v.colExtBeg v.chExtBeg (by omega) (o2 hL)
      (by rw [show v.colExtBeg + 1 = colBeg by omega, o3]; omega) (by omega)
    rw [hL] at t2
    rw [hg.1, t2]
    exact ⟨rfl, hg.2⟩
  · intro hlt ht
    have hT : v.trailingSpaces = 1 := hS.trail_iff.2 (Or.inr ht)
    have hg := hinv'.glyph_one v.scan.col2 v.scan.ch2 (by omega) hcol2
      (by rw [show v.scan.col2 + 1 = v.col3 by omega, h3]; omega) (by omega)
    rw [hT] at t4
    rw [hg.1, t4]
    exact ⟨rfl, hg.2⟩
  · simp only [ROW._uncheckedIsTrailer, o3]
    exact wordIsTrailer_of_le (by omega)
  · simp only [ROW._uncheckedIsTrailer, hcol2]
    exact wordIsTrailer_of_le (by omega)
  · intro i hi
    obtain ⟨j, hj, _, h1, h2, h3, _⟩ := hinv'.trailer_at i hi
    refine ⟨j, hj, h1, ?_⟩
    simp only [ROW._uncheckedCharOffset]
    rw [h2, wordOffset_add h3, wordOffset_of_le h3]

theorem C4_overwrite_padding_witness :
    sampleEnv.SegSound ∧ Reachable sampleEnv sampleRowWide
      ∧ sampleRowWide.ReplaceCharacters sampleEnv 1 3 [0x4e03] = Outcome.returned sampleRowS2 4 []
      ∧ (sampleRowWide._clampedColumnInclusive 1 < sampleRowWide._clampedColumnInclusive 3
          ∧ [0x4e03] ≠ [])
      ∧ ∃ v, replaceLocals sampleEnv sampleRowWide (sampleRowWide._clampedColumnInclusive 1)
          [0x4e03] = some v
        ∧ (sampleRowWide._uncheckedIsTrailer (sampleRowWide._clampedColumnInclusive 1) = true →
            sampleRowS2.GlyphAt ((sampleRowWide._clampedColumnInclusive 1 : Int) - 1)
                = [UNICODE_SPACE]
              ∧ sampleRowS2.DbcsAttrAt ((sampleRowWide._clampedColumnInclusive 1 : Int) - 1)
                  = DbcsAttribute.Single)
        ∧ (v.scan.col2 < sampleRowWide.columnCount →
            sampleRowWide._uncheckedIsTrailer v.scan.col2 = true →
            sampleRowS2.GlyphAt (v.scan.col2 : Int) = [UNICODE_SPACE]
              ∧ sampleRowS2.DbcsAttrAt (v.scan.col2 : Int) = DbcsAttribute.Single)
        ∧ sampleRowS2._uncheckedIsTrailer (sampleRowWide._clampedColumnInclusive 1) = false
        ∧ sampleRowS2._uncheckedIsTrailer v.scan.col2 = false
        ∧ (∀ i, sampleRowS2._uncheckedIsTrailer i = true →
            ∃ j, i = j + 1 ∧ sampleRowS2._uncheckedIsTrailer j = false
              ∧ sampleRowS2._uncheckedCharOffset j = sampleRowS2._uncheckedCharOffset i) :=
  ⟨sampleEnv_segSound, sampleRowWide_reachable, by rfl, by decide,
    C4_overwrite_padding sampleEnv sampleEnv_segSound sampleRowWide sampleRowWide_reachable 1 3
      [0x4e03] sampleRowS2 4 [] (by rfl) (by decide) (bound_of_eval _ _ (by rfl))⟩

/-! ## The log of placed clusters -/

theorem getD_set_ne (l : List Nat) (i j v : Nat) (h : i ≠ j) :
    (l.set i v).getD j 0 = l.getD j 0 := by
  rw [List.getD_eq_getElem?_getD, List.getD_eq_getElem?_getD, List.getElem?_set_ne h]

theorem getD_set_eq (l : List Nat) (i v : Nat) (h : i < l.length) :
    (l.set i v).getD i 0 = v := by
  rw [List.getD_eq_getElem?_getD, List.getElem?_set_self h]
  rfl

theorem placeCluster_placedOK {colBeg ch1 W : Nat} {s : Scan} (advance : Nat) (wide : Bool)
    (hlen : s.offs.length = W + 1) (hcb : colBeg ≤ s.col2) (hch : s.ch2 = ch1 + s.it)
    (hfit : s.col2 + clusterWidth wide ≤ W) (hadv : 0 < advance)
    (hb : ch1 + s.it + advance ≤ 32767) (h : PlacedOK colBeg ch1 s) :
    PlacedOK colBeg ch1 (placeCluster s advance wide) := by
  have hw := clusterWidth_le wide
  have hoffs_lt : ∀ j, j < s.col2 → (placeCluster s advance wide).offs.getD j 0 = s.offs.getD j 0 := by
    intro j hj
    simp only [placeCluster]
    split
    · rw [getD_set_ne _ _ _ _ (by omega), getD_set_ne _ _ _ _ (by omega)]
    · rw [getD_set_ne _ _ _ _ (by omega)]
  have hoffs_c : (placeCluster s advance wide).offs.getD s.col2 0 = s.ch2 := by
    simp only [placeCluster]
    split
    · rw [getD_set_ne _ _ _ _ (by omega), getD_set_eq _ _ _ (by omega)]
    · rw [getD_set_eq _ _ _ (by omega)]
  have hcol : (placeCluster s advance wide).col2 = s.col2 + clusterWidth wide := by
    cases wide <;> simp [placeCluster, clusterWidth]
  have hch2 : (placeCluster s advance wide).ch2 = s.ch2 + advance := by
    simp only [placeCluster]
    exact u16_of_lt (by omega)
  have hit : (placeCluster s advance wide).it = s.it + advance := rfl
  intro c ch it a w hmem
  have hmem' : (c, ch, it, a, w) ∈ s.placed ∨ (c, ch, it, a, w) = (s.col2, s.ch2, s.it, advance, wide) := by
    simp only [placeCluster, List.mem_append, List.mem_singleton] at hmem
    exact hmem
  rcases hmem' with hold | hnew
  · obtain ⟨p1, p2, p3, p4, p5, p6, p7, p8⟩ := h c ch it a w hold
    have hwc := clusterWidth_le w
    refine ⟨p1, by omega, ?_, ?_, p5, p6, by omega, ?_⟩
    · rw [hoffs_lt c (by omega)]; exact p3
    · intro hwt
      rw [hoffs_lt (c + 1) (by rw [hwt, clusterWidth_true] at p2; omega)]
      exact p4 hwt
    · right
      rcases p8 with ⟨q1, q2⟩ | ⟨q1, q2⟩
      · refine ⟨by omega, ?_⟩
        rw [q1, hoffs_c, q2]
      · refine ⟨by omega, ?_⟩
        rw [hoffs_lt _ q1]; exact q2
  · simp only [Prod.mk.injEq] at hnew
    obtain ⟨rfl, rfl, rfl, rfl, rfl⟩ := hnew
    refine ⟨hcb, by omega, hoffs_c, ?_, hch, hadv, by omega, Or.inl ⟨hcol.symm, hch2⟩⟩
    intro hwt
    subst hwt
    simp only [placeCluster, clusterWidth_true]
    rw [if_pos (by decide), getD_set_eq _ _ _ (by
      rw [List.length_set]; rw [clusterWidth_true] at hfit; omega)]
    exact wordWithTrailer_of_le (by omega)

theorem placeCluster_length (s : Scan) (advance : Nat) (wide : Bool) :
    (placeCluster s advance wide).offs.length = s.offs.length := by
  simp only [placeCluster]
  split <;> simp

/-- The segmenter loop keeps the log of placed clusters accurate. -/
theorem segLoop_placedOK (env : Env) (W : Nat) (text : List Nat) (colBeg ch1 : Nat) :
    ∀ (bs : List Nat) (ubrk0 : Nat) (s : Scan),
      List.Chain (fun a b => a < b) ubrk0 bs →
      s.offs.length = W + 1 → colBeg ≤ s.col2 → s.col2 < W → s.ch2 = ch1 + s.it →
      PlacedOK colBeg ch1 s →
      ch1 + (segLoop env W text bs ubrk0 s).it ≤ 32767 →
      PlacedOK colBeg ch1 (segLoop env W text bs ubrk0 s) := by
  intro bs
  induction bs with
  | nil => intro _ s _ _ _ _ _ h _; exact h
  | cons b bs ih =>
    intro ubrk0 s hchain hlen hcb hc hch hP hbound
    have hlt : ubrk0 < b := (List.chain_cons.mp hchain).1
    have hchain' : List.Chain (fun a b => a < b) b bs := (List.chain_cons.mp hchain).2
    simp only [segLoop] at hbound ⊢
    have hw := clusterWidth_le
      (env.IsGlyphFullWidth (List.take (min 65535 (b - ubrk0)) (List.drop s.it text)))
    split at hbound
    · rename_i hnf
      rw [if_pos hnf]
      exact hP
    · rename_i hfit
      rw [if_neg hfit]
      have hfit' : s.col2 + clusterWidth
          (env.IsGlyphFullWidth (List.take (min 65535 (b - ubrk0)) (List.drop s.it text))) ≤ W := by
        omega
      have hmono := segLoop_it_mono env W text bs b
        (placeCluster s (min 65535 (b - ubrk0))
          (env.IsGlyphFullWidth (List.take (min 65535 (b - ubrk0)) (List.drop s.it text))))
      have hb2 : ch1 + s.it + min 65535 (b - ubrk0) ≤ 32767 := by
        split at hbound
        · simp only [placeCluster] at hbound; omega
        · simp only [placeCluster] at hmono hbound; omega
      have hP2 := placeCluster_placedOK (min 65535 (b - ubrk0))
        (env.IsGlyphFullWidth (List.take (min 65535 (b - ubrk0)) (List.drop s.it text)))
        hlen hcb hch hfit' (by omega) hb2 hP
      have hcol2 : (placeCluster s (min 65535 (b - ubrk0))
          (env.IsGlyphFullWidth (List.take (min 65535 (b - ubrk0)) (List.drop s.it text)))).col2
          = s.col2 + clusterWidth
            (env.IsGlyphFullWidth (List.take (min 65535 (b - ubrk0)) (List.drop s.it text))) := by
        cases env.IsGlyphFullWidth (List.take (min 65535 (b - ubrk0)) (List.drop s.it text)) <;>
          simp [placeCluster, clusterWidth]
      split
      · exact hP2
      · rename_i hend
        rw [if_neg hend] at hbound
        refine ih b _ hchain' (by rw [placeCluster_length]; exact hlen) (by omega) (by omega)
          ?_ hP2 hbound
        simp only [placeCluster]
        rw [hch, u16_of_lt (by omega)]
        omega

theorem PlacedOK_nil (colBeg ch1 : Nat) (s : Scan) (h : s.placed = []) : PlacedOK colBeg ch1 s := by
  intro c ch it a w hmem
  rw [h] at hmem
  exact absurd hmem (List.not_mem_nil _)

/-- The log of placed clusters of a finished scan is accurate. -/
theorem scanText_placedOK (env : Env) (r : ROW) (colBeg ch1 : Nat) (text : List Nat) (s : Scan)
    (hsound : env.SegSound) (hlen : r.charOffsets.length = r.columnCount + 1)
    (hcb : colBeg < r.columnCount) (hch1 : ch1 < 65536) (htext : text ≠ [])
    (h : scanText env r colBeg ch1 text = some s) (hb : ch1 + s.it ≤ 32767) :
    PlacedOK colBeg ch1 s := by
  have htl : 0 < text.length := List.length_pos.mpr htext
  simp only [scanText] at h
  generalize hk : ((text.take (min (r.columnCount - colBeg) text.length)).takeWhile
    (fun ch => !decide (0x80 ≤ ch))).length = k at h
  have hkle : k ≤ min (r.columnCount - colBeg) text.length := by
    rw [← hk]
    refine Nat.le_trans (List.Sublist.length_le (List.takeWhile_sublist _)) ?_
    simp
  rw [asciiPass_eq k _ (by simp; omega) hch1] at h
  simp only [Nat.zero_add] at h
  split at h
  · rename_i hne
    have hklt : k < min (r.columnCount - colBeg) text.length := by omega
    obtain ⟨S2, hS2⟩ : ∃ S2 : Scan, backOff (Scan.mk (r.charOffsets.take colBeg
            ++ (List.range' 0 k).map (fun i => u16 (ch1 + i))
            ++ r.charOffsets.drop (colBeg + k))
          (colBeg + k) (u16 (ch1 + k)) k false 0 []) = S2 := ⟨_, rfl⟩
    rw [hS2] at h
    have e1 : S2.col2 = colBeg + k - (if k = 0 then 0 else 1) := by
      rw [← hS2]; simp only [backOff]; split <;> simp_all
    have e2 : S2.it = k - 1 := by
      rw [← hS2]; simp only [backOff]; split <;> simp_all
    have e3 : S2.ch2 = if k = 0 then u16 (ch1 + k) else u16 (u16 (ch1 + k) + 65535) := by
      rw [← hS2]; simp only [backOff]; split <;> simp_all
    have e4 : S2.offs.length = r.columnCount + 1 := by
      rw [← hS2]; simp only [backOff]
      split <;> (simp; omega)
    have e5 : S2.placed = [] := by
      rw [← hS2]; simp only [backOff]; split <;> rfl
    simp only [scanUnicode] at h
    split at h
    · exact Option.noConfusion h
    · split at h
      · exact Option.noConfusion h
      · rename_i bs hseg
        have hs : s = _ := (Option.some.inj h).symm
        have hB := hsound _ _ hseg
        have hmono := segLoop_it_mono env r.columnCount text bs 0 S2
        rw [← hs, e2] at hmono
        have hch2 : S2.ch2 = ch1 + S2.it := by
          rw [e3, e2]
          split
          · rename_i hk0; subst hk0; exact u16_of_lt (by omega)
          · rw [u16_u16_add]; simp only [u16]; omega
        rw [hs]
        exact segLoop_placedOK env r.columnCount text colBeg ch1 bs 0 S2 hB.1 e4
          (by rw [e1]; split <;> omega) (by rw [e1]; split <;> omega) hch2
          (PlacedOK_nil _ _ _ e5) (by rw [← hs]; exact hb)
  · have hs : s = _ := (Option.some.inj h).symm
    rw [hs]
    exact PlacedOK_nil _ _ _ rfl

/-- The log of placed clusters in the locals of a call is accurate. -/
theorem replaceLocals_placedOK (env : Env) (r : ROW) (colBeg : Nat) (text : List Nat)
    (v : Locals) (hsound : env.SegSound) (hinv : r.Inv) (hcb : colBeg < r.columnCount)
    (htext : text ≠ []) (h : replaceLocals env r colBeg text = some v)
    (hb : v.textLength r ≤ 32767) : PlacedOK colBeg v.ch1 v.scan := by
  have hS := replaceLocals_spec env r colBeg text v hsound hinv hcb htext h hb
  simp only [replaceLocals] at h
  split at h
  · exact Option.noConfusion h
  · rename_i s hscan
    have hv : v = _ := (Option.some.inj h).symm
    have e1 : v.scan = s := by rw [hv]
    have e2 : v.ch1 = u16 (r._uncheckedCharOffset colBeg + (colBeg - extendDown r.charOffsets colBeg)) := by
      rw [hv]
    rw [e1, e2]
    refine scanText_placedOK env r colBeg _ text s hsound hinv.len hcb
      (by simp only [u16]; omega) htext hscan ?_
    rw [← e2, ← e1]
    have := hS.ch1
    simp only [Locals.textLength] at hb
    omega

/-! ## C5: a wide cluster takes two columns -/

/-- A column of a well-formed row with offset `x`, followed by a trailer column,
followed by a column with offset `y`: both columns show the glyph `[x, y)`, the
first as `Leading`, the second as `Trailing`. -/
theorem ROW.Inv.glyph_wide {r : ROW} (h : r.Inv) (c x y : Nat) (hc : c + 1 < r.columnCount)
    (h1 : r.charOffsets.getD c 0 = x) (h2 : r.charOffsets.getD (c + 1) 0 = x + CharOffsetsTrailer)
    (h3 : r.charOffsets.getD (c + 2) 0 = y) (hx : x ≤ 32767) (hy : y ≤ 32767) :
    r.GlyphAt (c : Int) = (r.chars.drop x).take (y - x)
      ∧ r.GlyphAt ((c + 1 : Nat) : Int) = (r.chars.drop x).take (y - x)
      ∧ r.DbcsAttrAt (c : Int) = DbcsAttribute.Leading
      ∧ r.DbcsAttrAt ((c + 1 : Nat) : Int) = DbcsAttribute.Trailing := by
  have ht1 : wordIsTrailer (r.charOffsets.getD c 0) = false := by
    rw [h1]; exact wordIsTrailer_of_le hx
  have ht2 : wordIsTrailer (r.charOffsets.getD (c + 1) 0) = true := by
    rw [h2]; exact wordIsTrailer_add hx
  have ht3 : wordIsTrailer (r.charOffsets.getD (c + 1 + 1) 0) = false := by
    rw [h3]; exact wordIsTrailer_of_le hy
  have hK1 := (h.skipTrailers (c + 1) r.charOffsets.length (by rw [h.len]; omega)).2 ht2
  have hK2 := (h.skipTrailers (c + 1 + 1) r.charOffsets.length (by rw [h.len]; omega)).1 ht3
  have e1 : wordOffset x = x := wordOffset_of_le hx
  have e2 : wordOffset (x + CharOffsetsTrailer) = x := wordOffset_add hx
  have e3 : wordOffset y = y := wordOffset_of_le hy
  refine ⟨?_, ?_, ?_, ?_⟩
  · simp only [ROW.GlyphAt, ROW._clampedColumn_of_lt r c (by omega), hK1,
      ROW._uncheckedCharOffset, h1, h3, e1, e3]
  · simp only [ROW.GlyphAt, ROW._clampedColumn_of_lt r (c + 1) hc, hK2,
      ROW._uncheckedCharOffset, h2, h3, e2, e3]
  · simp only [ROW.DbcsAttrAt, ROW._clampedColumn_of_lt r c (by omega), ROW._uncheckedIsTrailer,
      ht1, ht2]
    rfl
  · simp only [ROW.DbcsAttrAt, ROW._clampedColumn_of_lt r (c + 1) hc, ROW._uncheckedIsTrailer,
      ht2]
    rfl

theorem slice_sub (l t : List Nat) (p n i a : Nat) (h : (l.drop p).take n = t.take n)
    (hia : i + a ≤ n) : (l.drop (p + i)).take a = (t.drop i).take a := by
  have e : ∀ L : List Nat, ((L.take n).drop i).take a = (L.drop i).take a := by
    intro L
    rw [List.drop_take, List.take_take, Nat.min_eq_left (by omega)]
  rw [← List.drop_drop, ← e (l.drop p), h, e t]

/-- The segmenter loop only ever appends to the log of placed clusters. -/
theorem segLoop_placed_prefix (env : Env) (W : Nat) (text : List Nat) :
    ∀ (bs : List Nat) (ubrk0 : Nat) (s : Scan),
      ∃ more, (segLoop env W text bs ubrk0 s).placed = s.placed ++ more := by
  intro bs
  induction bs with
  | nil => intro _ s; exact ⟨[], by simp [segLoop]⟩
  | cons b bs ih =>
    intro ubrk0 s
    simp only [segLoop]
    split
    · exact ⟨[], by simp⟩
    · split
      · exact ⟨_, rfl⟩
      · obtain ⟨more, hm⟩ := ih b (placeCluster s (min 65535 (b - ubrk0))
          (env.IsGlyphFullWidth (List.take (min 65535 (b - ubrk0)) (List.drop s.it text))))
        rw [hm]
        exact ⟨_, by simp only [placeCluster, List.append_assoc]; rfl⟩

/-- A cluster that the segmenter loop meets at a column `c ≤ W - 2` is placed. -/
theorem segLoop_places (env : Env) (W : Nat) (text : List Nat) (b ubrk0 : Nat) (bs : List Nat)
    (s : Scan) (h : s.col2 + 2 ≤ W) :
    ∃ more, (segLoop env W text (b :: bs) ubrk0 s).placed
      = s.placed ++ (s.col2, s.ch2, s.it, min 65535 (b - ubrk0),
          env.IsGlyphFullWidth ((text.drop s.it).take (min 65535 (b - ubrk0)))) :: more := by
  have hw := clusterWidth_le
    (env.IsGlyphFullWidth (List.take (min 65535 (b - ubrk0)) (List.drop s.it text)))
  simp only [segLoop]
  rw [if_neg (by omega)]
  split
  · exact ⟨[], rfl⟩
  · obtain ⟨more, hm⟩ := segLoop_placed_prefix env W text bs b (placeCluster s (min 65535 (b - ubrk0))
      (env.IsGlyphFullWidth (List.take (min 65535 (b - ubrk0)) (List.drop s.it text))))
    rw [hm]
    exact ⟨more, by simp only [placeCluster, List.append_assoc]; rfl⟩

/-- C5, amended: for every `ReplaceCharacters` call on a row reachable within the
15-bit limit
that is no no-op, returns and stays within the limit, and every cluster of `a` code
units that the width oracle reports as wide and that the call places at column `c`:
`c ≤ W - 2`, `offsets[c]` has the trailer flag clear, `offsets[c + 1]` is
`offsets[c]` with the trailer flag set, `GlyphAt(c)` and `GlyphAt(c + 1)` are the
whole cluster of `a` code units, `DbcsAttrAt(c)` is `Leading` and `DbcsAttrAt(c + 1)`
is `Trailing`.  The flag `dbcs_padded` changes only when the scan stops before the
last column with a cluster that does not fit, and a cluster met at a column
`c ≤ W - 2` (also `c = W - 2`) is always placed. -/
theorem C5_wide_cluster (env : Env) (hs : env.SegSound) (r : ROW) (h : Reachable env r)
    (columnBegin columnEnd : Int) (chars : List Nat) (r' : ROW) (col : Nat) (rest : List Nat)
    (hcall : r.ReplaceCharacters env columnBegin columnEnd chars = Outcome.returned r' col rest)
    (hop : r._clampedColumnInclusive columnBegin < r._clampedColumnInclusive columnEnd
      ∧ chars ≠ [])
    (hb : ∀ v, replaceLocals env r (r._clampedColumnInclusive columnBegin) chars = some v →
      v.textLength r ≤ 32767) :
    ∃ v, replaceLocals env r (r._clampedColumnInclusive columnBegin) chars = some v
      ∧ (∀ c ch it a, (c, ch, it, a, true) ∈ v.scan.placed →
          c + 2 ≤ r.columnCount
            ∧ r'.charOffsets.getD c 0 = ch
            ∧ r'._uncheckedIsTrailer c = false
            ∧ r'.charOffsets.getD (c + 1) 0 = r'.charOffsets.getD c 0 + CharOffsetsTrailer
            ∧ r'._uncheckedIsTrailer (c + 1) = true
            ∧ r'.GlyphAt (c : Int) = (chars.drop it).take a
            ∧ r'.GlyphAt ((c + 1 : Nat) : Int) = (chars.drop it).take a
            ∧ ((chars.drop it).take a).length = a
            ∧ r'.DbcsAttrAt (c : Int) = DbcsAttribute.Leading
            ∧ r'.DbcsAttrAt ((c + 1 : Nat) : Int) = DbcsAttribute.Trailing)
      ∧ (r'.doubleBytePadded ≠ r.doubleBytePadded →
          v.scan.paddingSpaces = 1 ∧ v.scan.col2 + 1 = r.columnCount)
      ∧ (∀ (s : Scan) (b ubrk0 : Nat) (bs : List Nat), s.col2 + 2 ≤ r.columnCount →
          ∃ more, (segLoop env r.columnCount chars (b :: bs) ubrk0 s).placed
            = s.placed ++ (s.col2, s.ch2, s.it, min 65535 (b - ubrk0),
                env.IsGlyphFullWidth ((chars.drop s.it).take (min 65535 (b - ubrk0)))) :: more) := by
  have hinv := h.inv hs
  rcases ReplaceCharacters_returned env r columnBegin columnEnd chars r' col rest hs hinv hcall hb
    with ⟨hno, _⟩ | ⟨hlt, hne, v, hv, hS, hW, _, _⟩
  · rcases hno with hno | hno
    · omega
    · exact absurd hno hop.2
  have hcw := r._clampedColumnInclusive_le columnEnd
  have hP := replaceLocals_placedOK env r _ chars v hs hinv (by omega) hne hv (hb v hv)
  generalize r._clampedColumnInclusive columnBegin = colBeg at *
  obtain ⟨_, _, _, o4, o5, o6⟩ := hW.offs_at hinv hS
  obtain ⟨_, _, t3, _, _⟩ := hW.text_at hinv hS
  have hinv' := hW.inv
  have hW' := hW.columnCount
  have hnl := hW.newLength
  have hbv := hb v hv
  have hch1 := hS.ch1
  have hch2 := hS.scan.ch2
  have hch3 := hS.ch3new
  have hch3le := hS.ch3_le
  have hcol3 := hS.col3
  have hcol3le := hS.col3_le
  have hcolle := hS.scan.col_le
  have h3 : r'.charOffsets.getD v.col3 0 = v.ch3new := by
    rw [o5 v.col3 (Nat.le_refl _) hcol3le, hS.ch3]
    omega
  have hcol2 : r'.charOffsets.getD v.scan.col2 0 = v.scan.ch2 := by
    by_cases hT : v.trailingSpaces = 1
    · exact o4 hT
    · have hT0 : v.trailingSpaces = 0 := by have := hS.trail_le; omega
      rw [show v.scan.col2 = v.col3 by omega, h3]
      omega
  refine ⟨v, hv, ?_, ?_, fun s b ubrk0 bs hs2 => segLoop_places env _ chars b ubrk0 bs s hs2⟩
  · intro c ch it a hmem
    obtain ⟨p1, p2, p3, p4, p5, p6, p7, p8⟩ := hP c ch it a true hmem
    rw [clusterWidth_true] at p2 p8
    have hx : ch ≤ 32767 := by omega
    have e1 : r'.charOffsets.getD c 0 = ch := by rw [o6 c p1 (by omega)]; exact p3
    have e2 : r'.charOffsets.getD (c + 1) 0 = ch + CharOffsetsTrailer := by
      rw [o6 (c + 1) (by omega) (by omega)]; exact p4 rfl
    have e3 : r'.charOffsets.getD (c + 2) 0 = ch + a := by
      rcases p8 with ⟨q1, q2⟩ | ⟨q1, q2⟩
      · rw [q1, hcol2, q2]
      · rw [o6 (c + 2) (by omega) q1]; exact q2
    -- a wide cluster placed at `c` leaves room for its trailer: `c + 2 ≤ col2 ≤ W`
    have hcW : c + 2 ≤ r.columnCount := by omega
    have hc1 : c + 1 < r'.columnCount := by omega
    obtain ⟨g1, g2, g3, g4⟩ := hinv'.glyph_wide c ch (ch + a) hc1 e1 e2 e3 hx (by omega)
    have hslice : (r'.chars.drop ch).take (ch + a - ch) = (chars.drop it).take a := by
      rw [Nat.add_sub_cancel_left, p5]
      exact slice_sub r'.chars chars v.ch1 v.scan.it it a
        (by rw [t3]) p7
    refine ⟨hcW, e1, ?_, by rw [e2, e1], ?_, by rw [g1, hslice], by rw [g2, hslice], ?_, g3, g4⟩
    · simp only [ROW._uncheckedIsTrailer, e1]; exact wordIsTrailer_of_le hx
    · simp only [ROW._uncheckedIsTrailer, e2]; exact wordIsTrailer_add hx
    · have := hS.it_le
      simp only [List.length_take, List.length_drop]
      omega
  · intro hne'
    rw [hW.padded] at hne'
    rcases hS.scan.pad with ⟨_, hp⟩ | ⟨h1, _, h2⟩
    · rw [hp] at hne'
      exact absurd rfl hne'
    · exact ⟨h1, h2⟩

theorem C5_wide_cluster_witness :
    sampleEnv.SegSound ∧ Reachable sampleEnv (ROW.new 4 default)
      ∧ (ROW.new 4 default).ReplaceCharacters sampleEnv 0 4 sampleEmojiText
          = Outcome.returned sampleRowEmoji 4 []
      ∧ ((ROW.new 4 default)._clampedColumnInclusive 0 < (ROW.new 4 default)._clampedColumnInclusive 4
          ∧ sampleEmojiText ≠ [])
      ∧ ∃ v, replaceLocals sampleEnv (ROW.new 4 default)
            ((ROW.new 4 default)._clampedColumnInclusive 0) sampleEmojiText = some v
        ∧ (∀ c ch it a, (c, ch, it, a, true) ∈ v.scan.placed →
            c + 2 ≤ (ROW.new 4 default).columnCount
              ∧ sampleRowEmoji.charOffsets.getD c 0 = ch
              ∧ sampleRowEmoji._uncheckedIsTrailer c = false
              ∧ sampleRowEmoji.charOffsets.getD (c + 1) 0
                  = sampleRowEmoji.charOffsets.getD c 0 + CharOffsetsTrailer
              ∧ sampleRowEmoji._uncheckedIsTrailer (c + 1) = true
              ∧ sampleRowEmoji.GlyphAt (c : Int) = (sampleEmojiText.drop it).take a
              ∧ sampleRowEmoji.GlyphAt ((c + 1 : Nat) : Int) = (sampleEmojiText.drop it).take a
              ∧ ((sampleEmojiText.drop it).take a).length = a
              ∧ sampleRowEmoji.DbcsAttrAt (c : Int) = DbcsAttribute.Leading
              ∧ sampleRowEmoji.DbcsAttrAt ((c + 1 : Nat) : Int) = DbcsAttribute.Trailing)
        ∧ (sampleRowEmoji.doubleBytePadded ≠ (ROW.new 4 default).doubleBytePadded →
            v.scan.paddingSpaces = 1 ∧ v.scan.col2 + 1 = (ROW.new 4 default).columnCount)
        ∧ (∀ (s : Scan) (b ubrk0 : Nat) (bs : List Nat),
            s.col2 + 2 ≤ (ROW.new 4 default).columnCount →
            ∃ more, (segLoop sampleEnv (ROW.new 4 default).columnCount sampleEmojiText
                (b :: bs) ubrk0 s).placed
              = s.placed ++ (s.col2, s.ch2, s.it, min 65535 (b - ubrk0),
                  sampleEnv.IsGlyphFullWidth
                    ((sampleEmojiText.drop s.it).take (min 65535 (b - ubrk0)))) :: more) :=
  ⟨sampleEnv_segSound, Reachable.new 4 default (by decide), by rfl, by decide,
    C5_wide_cluster sampleEnv sampleEnv_segSound (ROW.new 4 default)
      (Reachable.new 4 default (by decide)) 0 4 sampleEmojiText sampleRowEmoji 4 []
      (by rfl) (by decide) (bound_of_eval _ _ (by rfl))⟩

/-- The witness of C5 in numbers: width 4, text `a`, U+1F600 (a surrogate pair), `b`:
the wide cluster is placed at column 1 with its two code units, column 2 is its
trailer, column 3 holds `b`. -/
theorem sampleRowEmoji_layout :
    (replaceLocals sampleEnv (ROW.new 4 default) 0 sampleEmojiText).map (fun v => v.scan.placed)
        = some [(0, 0, 0, 1, false), (1, 1, 1, 2, true), (3, 3, 3, 1, false)]
      ∧ sampleRowEmoji.charOffsets = [0, 1, 1 + CharOffsetsTrailer, 3, 4]
      ∧ sampleRowEmoji.GlyphAt 1 = [0xd83d, 0xde00]
      ∧ sampleRowEmoji.GlyphAt 2 = [0xd83d, 0xde00]
      ∧ sampleRowEmoji.GlyphAt 3 = [0x62]
      ∧ sampleRowEmoji.doubleBytePadded = false := by
  refine ⟨by rfl, by rfl, by rfl, by rfl, by rfl, by rfl⟩

/-! ## C6: a wide cluster that meets the last column -/

/-- C6 at its failing input: on a fresh row of width 6 the keycap sequence
`1 U+FE0F U+20E3` is one cluster for the segmenter and wide for the width lookup, yet
`ReplaceCharacters(5, 6, text)` consumes the digit, writes it into column 5, does not
set `dbcs_padded` and hands back U+FE0F U+20E3.  The ASCII pass takes the digit and
ends at `asciiMax`, so the test `it != asciiMax` skips the back-off and the
segmenter, and the cluster is never examined. -/
theorem C6_keycap_in_last_column :
    sampleEnv.seg sampleKeycap = some [3]
      ∧ sampleEnv.IsGlyphFullWidth (sampleKeycap.take 3) = true
      ∧ (ROW.new 6 default).ReplaceCharacters sampleEnv 5 6 sampleKeycap
          = Outcome.returned ((ROW.new 6 default).ReplaceCharacters sampleEnv 5 6 sampleKeycap).row
              6 [0xfe0f, 0x20e3]
      ∧ ((ROW.new 6 default).ReplaceCharacters sampleEnv 5 6 sampleKeycap).row.doubleBytePadded
          = false
      ∧ ((ROW.new 6 default).ReplaceCharacters sampleEnv 5 6 sampleKeycap).row.GlyphAt 5
          = [0x31] := by
  refine ⟨by rfl, by rfl, by rfl, by rfl, by rfl⟩

/-- The scan of a text whose first code unit is not ASCII and whose first cluster is
wide, from the last column: nothing is consumed, one padding space is recorded. -/
theorem scanText_wide_last (env : Env) (r : ROW) (ch1 t0 b1 : Nat) (ts bs : List Nat)
    (hW : 1 ≤ r.columnCount) (ht0 : 0x80 ≤ t0) (hlen : (t0 :: ts).length < 2 ^ 31)
    (hseg : env.seg (t0 :: ts) = some (b1 :: bs)) (hb1 : b1 ≤ 65535)
    (hwide : env.IsGlyphFullWidth ((t0 :: ts).take b1) = true) :
    scanText env r (r.columnCount - 1) ch1 (t0 :: ts)
      = some { offs := r.charOffsets, col2 := r.columnCount - 1, ch2 := ch1, it := 0,
               padded := true, paddingSpaces := 1, placed := [] } := by
  have e1 : min (r.columnCount - (r.columnCount - 1)) (t0 :: ts).length = 1 := by
    simp only [List.length_cons]; omega
  have e2 : ((t0 :: ts).take 1).takeWhile (fun ch => !decide (0x80 ≤ ch)) = [] := by
    simp [List.takeWhile, ht0]
  simp only [scanText, e1, e2, List.length_nil, asciiPass, backOff, scanUnicode]
  rw [if_pos (by decide)]
  simp only [ne_eq, not_true_eq_false, if_false, Nat.sub_zero, List.drop_zero, hseg]
  rw [if_neg (by omega)]
  simp only [segLoop, Nat.sub_zero, Nat.min_eq_right hb1, List.drop_zero, hwide, clusterWidth_true]
  rw [if_pos (by omega)]

theorem ROW._clampedColumnInclusive_of_le (r : ROW) (c : Nat) (h : c ≤ r.columnCount) :
    r._clampedColumnInclusive (c : Int) = c := by
  simp only [ROW._clampedColumnInclusive]
  omega

/-- A call of `ReplaceCharacters` that is no no-op, on a well-formed row, with
locals `v` within the 15-bit limit and a segmenter that accepts the written text,
returns the written row, `col3` and the unconsumed text. -/
theorem ReplaceCharacters_eq (env : Env) (r : ROW) (columnBegin columnEnd : Int)
    (text : List Nat) (v : Locals) (hsound : env.SegSound) (htot : env.SegTotal) (hinv : r.Inv)
    (hlt : r._clampedColumnInclusive columnBegin < r._clampedColumnInclusive columnEnd)
    (hne : text ≠ [])
    (hv : replaceLocals env r (r._clampedColumnInclusive columnBegin) text = some v)
    (hb : v.textLength r ≤ 32767) :
    ∃ r', r.ReplaceCharacters env columnBegin columnEnd text
        = Outcome.returned r' v.col3 (text.drop v.scan.it)
      ∧ LocalsSpec r (r._clampedColumnInclusive columnBegin) text v ∧ WriteSpec r text v r' := by
  have hcw := r._clampedColumnInclusive_le columnEnd
  have hS := replaceLocals_spec env r _ text v hsound hinv (by omega) hne hv hb
  obtain ⟨r', hw, hWS⟩ := replaceWrite_spec r _ text v hinv hS hb
  obtain ⟨bs, hbs⟩ := htot r'.chars
  refine ⟨r', ?_, hS, hWS⟩
  simp only [ROW.ReplaceCharacters]
  rw [if_neg (by
    intro hc
    rcases hc with hc | hc
    · omega
    · exact hne hc)]
  simp only [hv, hw, hbs]

/-- A wide cluster that reaches the segmenter with one column left is not placed: for
every row of width `W ≥ 1` reachable within the 15-bit limit and every text of fewer
than 2^31 code units whose first code unit is not ASCII and whose first grapheme
cluster (of at most 65535 code units) is wide, with a segmenter that accepts its
inputs and a call that stays within the limit, `ReplaceCharacters(W - 1, W, text)`
returns `W` and hands back the whole text, sets `dbcs_padded`, and leaves column
`W - 1` holding exactly one space with DBCS attribute `Single`. -/
theorem ReplaceCharacters_wide_last_column (env : Env) (hs : env.SegSound) (htot : env.SegTotal)
    (r : ROW) (h : Reachable env r) (hW : 1 ≤ r.columnCount)
    (t0 b1 : Nat) (ts bs : List Nat) (ht0 : 0x80 ≤ t0) (hlen : (t0 :: ts).length < 2 ^ 31)
    (hseg : env.seg (t0 :: ts) = some (b1 :: bs)) (hb1 : b1 ≤ 65535)
    (hwide : env.IsGlyphFullWidth ((t0 :: ts).take b1) = true)
    (hb : ∀ v, replaceLocals env r (r._clampedColumnInclusive ((r.columnCount : Int) - 1))
        (t0 :: ts) = some v → v.textLength r ≤ 32767) :
    ∃ r', r.ReplaceCharacters env ((r.columnCount : Int) - 1) (r.columnCount : Int) (t0 :: ts)
        = Outcome.returned r' r.columnCount (t0 :: ts)
      ∧ r'.doubleBytePadded = true
      ∧ r'.GlyphAt ((r.columnCount : Int) - 1) = [UNICODE_SPACE]
      ∧ r'.DbcsAttrAt ((r.columnCount : Int) - 1) = DbcsAttribute.Single := by
  have hinv := h.inv hs
  have hc1 : r._clampedColumnInclusive ((r.columnCount : Int) - 1) = r.columnCount - 1 := by
    simp only [ROW._clampedColumnInclusive]; omega
  have hc2 : r._clampedColumnInclusive (r.columnCount : Int) = r.columnCount :=
    r._clampedColumnInclusive_of_le _ (Nat.le_refl _)
  rw [hc1] at hb
  obtain ⟨v, hv, hscan⟩ : ∃ v, replaceLocals env r (r.columnCount - 1) (t0 :: ts) = some v
      ∧ v.scan = { offs := r.charOffsets, col2 := r.columnCount - 1, ch2 := v.ch1, it := 0,
                   padded := true, paddingSpaces := 1, placed := [] } := by
    simp only [replaceLocals, scanText_wide_last env r _ t0 b1 ts bs hW ht0 hlen hseg hb1 hwide]
    exact ⟨_, rfl, rfl⟩
  obtain ⟨r', hcall, hS, hWS⟩ := ReplaceCharacters_eq env r ((r.columnCount : Int) - 1)
    (r.columnCount : Int) (t0 :: ts) v hs htot hinv (by rw [hc1, hc2]; omega)
    (List.cons_ne_nil _ _) (by rw [hc1]; exact hv) (hb v hv)
  rw [hc1] at hS
  have hcol2 : v.scan.col2 = r.columnCount - 1 := by rw [hscan]
  have hit : v.scan.it = 0 := by rw [hscan]
  have hpad : v.scan.paddingSpaces = 1 := by rw [hscan]
  have hpadded : v.scan.padded = true := by rw [hscan]
  have hT : v.trailingSpaces = 1 := hS.trail_iff.2 (Or.inl hpad)
  have hcol3 : v.col3 = r.columnCount := by have := hS.col3; omega
  obtain ⟨_, _, _, o4, o5, _⟩ := hWS.offs_at hinv hS
  obtain ⟨_, _, _, t4, _⟩ := hWS.text_at hinv hS
  have hnl := hWS.newLength
  have hbv := hb v hv
  have hch3 := hS.ch3new
  have hch3le := hS.ch3_le
  have h3 : r'.charOffsets.getD v.col3 0 = v.ch3new := by
    rw [o5 v.col3 (Nat.le_refl _) hS.col3_le, hS.ch3]
    omega
  have hg := hWS.inv.glyph_one v.scan.col2 v.scan.ch2 (by rw [hWS.columnCount]; omega) (o4 hT)
    (by rw [show v.scan.col2 + 1 = v.col3 by omega, h3]; omega) (by omega)
  have hcI : (r.columnCount : Int) - 1 = ((v.scan.col2 : Nat) : Int) := by omega
  rw [hT] at t4
  refine ⟨r', ?_, ?_, ?_, ?_⟩
  · rw [hcall, hcol3, hit, List.drop_zero]
  · rw [hWS.padded, hpadded]; rfl
  · rw [hcI, hg.1, t4]; rfl
  · rw [hcI, hg.2]

theorem ReplaceCharacters_wide_last_column_sample :
    sampleEnv.SegSound ∧ sampleEnv.SegTotal ∧ Reachable sampleEnv sampleRowWide
      ∧ 1 ≤ sampleRowWide.columnCount ∧ 0x80 ≤ 0x4e03 ∧ ([0x4e03] : List Nat).length < 2 ^ 31
      ∧ sampleEnv.seg [0x4e03] = some [1] ∧ 1 ≤ 65535
      ∧ sampleEnv.IsGlyphFullWidth (([0x4e03] : List Nat).take 1) = true
      ∧ ∃ r', sampleRowWide.ReplaceCharacters sampleEnv ((sampleRowWide.columnCount : Int) - 1)
            (sampleRowWide.columnCount : Int) [0x4e03]
          = Outcome.returned r' sampleRowWide.columnCount [0x4e03]
        ∧ r'.doubleBytePadded = true
        ∧ r'.GlyphAt ((sampleRowWide.columnCount : Int) - 1) = [UNICODE_SPACE]
        ∧ r'.DbcsAttrAt ((sampleRowWide.columnCount : Int) - 1) = DbcsAttribute.Single :=
  ⟨sampleEnv_segSound, sampleEnv_segTotal, sampleRowWide_reachable, by decide, by decide,
    by decide, by rfl, by decide, by rfl,
    ReplaceCharacters_wide_last_column sampleEnv sampleEnv_segSound sampleEnv_segTotal sampleRowWide
      sampleRowWide_reachable (by decide) 0x4e03 1 [] [] (by decide) (by decide) (by rfl)
      (by decide) (by rfl) (bound_of_eval _ _ (by rfl))⟩

/-! ## C7: ASCII text on a fresh row -/

theorem extendDown_of_noTrailer (offs : List Nat) (col : Nat)
    (h : wordIsTrailer (offs.getD col 0) = false) : extendDown offs col = col := by
  cases col with
  | zero => rfl
  | succ c => simp only [extendDown, h, Bool.false_eq_true, if_false]

theorem skipTrailers_of_noTrailer (offs : List Nat) (fuel col : Nat)
    (h : wordIsTrailer (offs.getD col 0) = false) : skipTrailers offs (fuel + 1) col = col := by
  simp only [skipTrailers, h, Bool.false_eq_true, if_false]

theorem takeWhile_ascii (text : List Nat) (h : ∀ ch, ch ∈ text → ch < 0x80) :
    text.takeWhile (fun ch => !decide (0x80 ≤ ch)) = text := by
  rw [List.takeWhile_eq_self_iff]
  intro ch hch
  have := h ch hch
  simp; omega

theorem range'_split3 (W a n : Nat) (h : a + n ≤ W) :
    (List.range' 0 (W + 1)).take a ++ List.range' a n ++ (List.range' 0 (W + 1)).drop (a + n)
      = List.range' 0 (W + 1) := by
  have e : List.range' 0 (W + 1)
      = List.range' 0 a ++ (List.range' a n ++ List.range' (a + n) (W + 1 - (a + n))) := by
    rw [List.range'_append_1 a n (W + 1 - (a + n))]
    have := List.range'_append_1 0 a (W + 1 - (a + n) + n)
    rw [Nat.zero_add] at this
    rw [this]
    congr 1
    omega
  have h1 : (List.range' 0 (W + 1)).take a = List.range' 0 a := by
    rw [e, List.take_left' (by simp)]
  have h2 : (List.range' 0 (W + 1)).drop (a + n) = List.range' (a + n) (W + 1 - (a + n)) := by
    conv_lhs => rw [e]
    rw [← List.append_assoc, List.drop_left' (by simp)]
  rw [h1, h2, List.append_assoc]
  exact e.symm

/-- The scan of an ASCII text that fits the row, on the offsets `0, 1, ..., W`: every
code unit gets its column and the offsets stay as they are. -/
theorem scanText_ascii_fresh (env : Env) (r : ROW) (colBeg : Nat) (text : List Nat)
    (hoffs : r.charOffsets = List.range' 0 (r.columnCount + 1))
    (hfit : colBeg + text.length ≤ r.columnCount) (hlim : colBeg + text.length ≤ 65535)
    (hascii : ∀ ch, ch ∈ text → ch < 0x80) :
    scanText env r colBeg colBeg text
      = some { offs := r.charOffsets, col2 := colBeg + text.length, ch2 := colBeg + text.length,
               it := text.length, padded := false, paddingSpaces := 0, placed := [] } := by
  have e1 : min (r.columnCount - colBeg) text.length = text.length := by omega
  simp only [scanText, e1, List.take_length, takeWhile_ascii text hascii]
  rw [asciiPass_eq _ _ (by simp only [hoffs, List.length_range']; omega) (by simp only; omega)]
  simp only [Nat.zero_add, ne_eq, not_true_eq_false, if_false]
  rw [map_u16_range colBeg text.length (by omega), u16_of_lt (by omega)]
  congr 2
  rw [hoffs]
  exact range'_split3 _ _ _ hfit

/-- The locals of a call that writes an ASCII text that fits, on a row whose offsets
are `0, 1, ..., W`. -/
theorem replaceLocals_ascii_fresh (env : Env) (r : ROW) (colBeg : Nat) (text : List Nat)
    (hoffs : r.charOffsets = List.range' 0 (r.columnCount + 1))
    (hfit : colBeg + text.length ≤ r.columnCount) (hlim : colBeg + text.length ≤ 32767)
    (hascii : ∀ ch, ch ∈ text → ch < 0x80) :
    replaceLocals env r colBeg text
      = some { colBeg := colBeg, colExtBeg := colBeg, chExtBeg := colBeg, leadingSpaces := 0,
               ch1 := colBeg,
               scan := { offs := r.charOffsets, col2 := colBeg + text.length,
                         ch2 := colBeg + text.length, it := text.length, padded := false,
                         paddingSpaces := 0, placed := [] },
               col3 := colBeg + text.length, ch3 := colBeg + text.length, trailingSpaces := 0,
               copiedChars := text.length, ch3new := colBeg + text.length } := by
  have g1 : r.charOffsets.getD colBeg 0 = colBeg := by
    rw [hoffs]; exact range'_getD _ _ (by omega)
  have g2 : r.charOffsets.getD (colBeg + text.length) 0 = colBeg + text.length := by
    rw [hoffs]; exact range'_getD _ _ (by omega)
  have t1 : wordIsTrailer (r.charOffsets.getD colBeg 0) = false := by
    rw [g1]; exact wordIsTrailer_of_le (by omega)
  have t2 : wordIsTrailer (r.charOffsets.getD (colBeg + text.length) 0) = false := by
    rw [g2]; exact wordIsTrailer_of_le hlim
  have e1 : extendDown r.charOffsets colBeg = colBeg := extendDown_of_noTrailer _ _ t1
  have e2 : r._uncheckedCharOffset colBeg = colBeg := by
    simp only [ROW._uncheckedCharOffset, g1]; exact wordOffset_of_le (by omega)
  have e3 : u16 (colBeg + 0) = colBeg := by
    rw [Nat.add_zero]; exact u16_of_lt (by omega)
  have e4 := scanText_ascii_fresh env r colBeg text hoffs hfit (by omega) hascii
  have hlen : r.charOffsets.length = r.columnCount + 1 := by rw [hoffs]; simp
  have e5 : skipTrailers r.charOffsets r.charOffsets.length (colBeg + text.length + 0)
      = colBeg + text.length := by
    rw [hlen, Nat.add_zero]
    exact skipTrailers_of_noTrailer _ _ _ t2
  have e6 : wordOffset (r.charOffsets.getD (colBeg + text.length) 0) = colBeg + text.length := by
    rw [g2]; exact wordOffset_of_le hlim
  have e7 : szSub (colBeg + text.length) colBeg = text.length := by
    rw [szSub_of_le (by omega) (by omega)]; omega
  have e8 : sz (sz (sz (text.length + 0) + 0) + colBeg) = colBeg + text.length := by
    rw [sz_chain _ _ _ _ (by omega)]; omega
  simp only [replaceLocals, e1, e2, Nat.sub_self, e3, e4, e5, e6, e7, e8]

theorem replicate_split3 (W a n : Nat) (x : Nat) (h : a + n ≤ W) :
    List.replicate W x
      = List.replicate a x ++ List.replicate n x ++ List.replicate (W - (a + n)) x := by
  rw [← List.replicate_add, ← List.replicate_add]
  congr 1
  omega

/-- The written characters of the call of `replaceLocals_ascii_fresh` on a row of spaces. -/
theorem replaceWrite_ascii_fresh (r : ROW) (colBeg : Nat) (text : List Nat)
    (hoffs : r.charOffsets = List.range' 0 (r.columnCount + 1))
    (hchars : r.chars = List.replicate r.columnCount UNICODE_SPACE)
    (hfit : colBeg + text.length ≤ r.columnCount) :
    replaceWrite r text
        { colBeg := colBeg, colExtBeg := colBeg, chExtBeg := colBeg, leadingSpaces := 0,
          ch1 := colBeg,
          scan := { offs := r.charOffsets, col2 := colBeg + text.length,
                    ch2 := colBeg + text.length, it := text.length, padded := false,
                    paddingSpaces := 0, placed := [] },
          col3 := colBeg + text.length, ch3 := colBeg + text.length, trailingSpaces := 0,
          copiedChars := text.length, ch3new := colBeg + text.length }
      = some { r with
          chars := List.replicate colBeg UNICODE_SPACE ++ text
            ++ List.replicate (r.columnCount - (colBeg + text.length)) UNICODE_SPACE } := by
  have hlen : r.charOffsets.length = r.columnCount + 1 := by rw [hoffs]; simp
  have g2 : r.charOffsets.getD (colBeg + text.length) 0 = colBeg + text.length := by
    rw [hoffs]; exact range'_getD _ _ (by omega)
  have w1 : writeAt r.chars colBeg text
      = List.replicate colBeg UNICODE_SPACE ++ text
        ++ List.replicate (r.columnCount - (colBeg + text.length)) UNICODE_SPACE := by
    rw [hchars, replicate_split3 r.columnCount colBeg text.length _ hfit]
    exact writeAt_mid _ _ _ text colBeg (by simp) (by simp)
  have w2 : (r.charOffsets.set (colBeg + text.length) (colBeg + text.length)) = r.charOffsets := by
    have hlt : colBeg + text.length < r.charOffsets.length := by omega
    rw [List.set_eq_take_append_cons_drop, if_pos hlt]
    conv_rhs => rw [← List.take_append_drop (colBeg + text.length) r.charOffsets,
      drop_eq_getD_cons _ _ hlt, g2]
  simp only [replaceWrite, ne_eq, not_true_eq_false, if_false, List.replicate_zero, writeAt,
    Nat.sub_self, iotaAt, List.take_length, w1, Bool.false_eq_true,
    show colBeg + text.length + 1 - (colBeg + text.length) = 1 by omega, w2]

/-- The call of `ReplaceCharacters` that writes an ASCII text that fits into a fresh
row, when the segmenter accepts the written text: the offsets stay `0, 1, ..., W`,
the text is put at `colBeg`, and the call returns `colBeg + n` with nothing left. -/
theorem ReplaceCharacters_ascii_fresh (env : Env) (W colBeg : Nat) (fill : TextAttribute)
    (text : List Nat) (columnEnd : Int) (hW : W ≤ 65535) (hne : text ≠ [])
    (hend : colBeg < (ROW.new W fill)._clampedColumnInclusive columnEnd)
    (hfit : colBeg + text.length ≤ W) (hlim : colBeg + text.length ≤ 32767)
    (hascii : ∀ ch, ch ∈ text → ch < 0x80)
    (hseg : ∃ bs, env.seg (List.replicate colBeg UNICODE_SPACE ++ text
      ++ List.replicate (W - (colBeg + text.length)) UNICODE_SPACE) = some bs) :
    (ROW.new W fill).ReplaceCharacters env (colBeg : Int) columnEnd text
      = Outcome.returned
          { ROW.new W fill with
            chars := List.replicate colBeg UNICODE_SPACE ++ text
              ++ List.replicate (W - (colBeg + text.length)) UNICODE_SPACE }
          (colBeg + text.length) [] := by
  have hO := ROW.new_offs W fill hW
  have hC := ROW.new_chars W fill
  have hWc : (ROW.new W fill).columnCount = W := rfl
  have hc := (ROW.new W fill)._clampedColumnInclusive_of_le colBeg (by rw [hWc]; omega)
  obtain ⟨bs, hbs⟩ := hseg
  simp only [ROW.ReplaceCharacters, hc]
  rw [if_neg (by
    intro h
    rcases h with h | h
    · omega
    · exact hne h)]
  rw [replaceLocals_ascii_fresh env _ colBeg text (by rw [hO, hWc]) (by rw [hWc]; exact hfit)
    hlim hascii]
  simp only
  rw [replaceWrite_ascii_fresh _ colBeg text (by rw [hO, hWc]) (by rw [hC, hWc])
    (by rw [hWc]; exact hfit)]
  simp only [hWc, hbs, List.drop_length]

/-- C7, as stated, fails on a freshly Reset row of 32768 columns: after
`ReplaceCharacters(0, W, "a")` the offset word of column 32768 still carries the
trailer flag, and its masked offset is 0 and not 32768. -/
theorem C7_counterexample :
    ((ROW.new 32768 default).Reset default).ReplaceCharacters sampleEnv 0 32768 [0x61]
        = Outcome.returned
            (((ROW.new 32768 default).Reset default).ReplaceCharacters sampleEnv 0 32768
              [0x61]).row 1 []
      ∧ (((ROW.new 32768 default).Reset default).ReplaceCharacters sampleEnv 0 32768
          [0x61]).row._uncheckedIsTrailer 32768 = true
      ∧ (((ROW.new 32768 default).Reset default).ReplaceCharacters sampleEnv 0 32768
          [0x61]).row._uncheckedCharOffset 32768 = 0 := by
  have hO := ROW.new_offs 32768 default (by decide)
  have hWc : (ROW.new 32768 default).columnCount = 32768 := rfl
  have hR : (ROW.new 32768 default).Reset default = ROW.new 32768 default :=
    ROW.Reset_eq_new _ _ (by rw [hO, hWc, List.length_range']) (by rw [hWc]; decide)
  have hcall := ReplaceCharacters_ascii_fresh sampleEnv 32768 0 default [0x61] 32768 (by decide)
    (by decide) (by
      simp only [ROW._clampedColumnInclusive, hWc]
      omega)
    (by decide) (by decide) (by intro ch hch; simp at hch; omega) ⟨_, rfl⟩
  rw [hR]
  have hcall' : (ROW.new 32768 default).ReplaceCharacters sampleEnv 0 32768 [0x61]
      = Outcome.returned
          { ROW.new 32768 default with
            chars := List.replicate 0 UNICODE_SPACE ++ [0x61]
              ++ List.replicate (32768 - (0 + 1)) UNICODE_SPACE } 1 [] := hcall
  rw [hcall']
  refine ⟨rfl, ?_, ?_⟩
  · simp only [Outcome.row, ROW._uncheckedIsTrailer, hO]
    rw [range'_getD _ _ (by decide)]
    decide
  · simp only [Outcome.row, ROW._uncheckedCharOffset, hO]
    rw [range'_getD _ _ (by decide)]
    decide

/-- C7, amended: for every freshly Reset row of width `W ≤ 32767`, every `colBeg < W`
and every text of `n` code units, all below 0x80, with `1 ≤ n ≤ W - colBeg`, when the
segmenter accepts its inputs: `ReplaceCharacters(colBeg, W, text)` returns
`colBeg + n` and leaves the text empty, `offsets[i] = i` for every `i` in `[0, W]`
with no trailer flag, and `GetText()` is `colBeg` spaces, the text, and
`W - colBeg - n` spaces. -/
theorem C7_ascii_fast_path (env : Env) (htot : env.SegTotal) (r : ROW) (fill : TextAttribute)
    (hlen : r.charOffsets.length = r.columnCount + 1) (hW : r.columnCount ≤ 32767)
    (colBeg : Nat) (text : List Nat) (hcb : colBeg < r.columnCount) (hn : 1 ≤ text.length)
    (hfit : text.length ≤ r.columnCount - colBeg) (hascii : ∀ ch, ch ∈ text → ch < 0x80) :
    ∃ r', (r.Reset fill).ReplaceCharacters env (colBeg : Int) (r.columnCount : Int) text
        = Outcome.returned r' (colBeg + text.length) []
      ∧ (∀ i, i ≤ r.columnCount →
          r'.charOffsets.getD i 0 = i ∧ r'._uncheckedIsTrailer i = false
            ∧ r'._uncheckedCharOffset i = i)
      ∧ r'.GetText = List.replicate colBeg UNICODE_SPACE ++ text
          ++ List.replicate (r.columnCount - colBeg - text.length) UNICODE_SPACE := by
  have hR := ROW.Reset_eq_new r fill hlen (by omega)
  have hO := ROW.new_offs r.columnCount fill (by omega)
  have hne : text ≠ [] := by
    intro hc
    rw [hc] at hn
    exact absurd hn (by decide)
  have hcall := ReplaceCharacters_ascii_fresh env r.columnCount colBeg fill text
    (r.columnCount : Int) (by omega) hne
    (by rw [(ROW.new r.columnCount fill)._clampedColumnInclusive_of_le r.columnCount
          (Nat.le_refl _)]; exact hcb)
    (by omega) (by omega) hascii (htot _)
  rw [hR]
  refine ⟨_, hcall, ?_, ?_⟩
  · intro i hi
    have hg : (List.range' 0 (r.columnCount + 1)).getD i 0 = i := range'_getD _ _ (by omega)
    simp only [ROW._uncheckedIsTrailer, ROW._uncheckedCharOffset, hO, hg]
    exact ⟨trivial, wordIsTrailer_of_le (by omega), wordOffset_of_le (by omega)⟩
  · have hsz : (List.range' 0 (r.columnCount + 1)).getD r.columnCount 0 = r.columnCount :=
      range'_getD _ _ (by omega)
    simp only [ROW.GetText, ROW._charSize, hO]
    have hWc : (ROW.new r.columnCount fill).columnCount = r.columnCount := rfl
    rw [hWc, hsz, List.take_of_length_le (by simp; omega)]
    congr 2
    omega

theorem C7_ascii_fast_path_witness :
    sampleEnv.SegTotal ∧ sampleRowWide.charOffsets.length = sampleRowWide.columnCount + 1
      ∧ sampleRowWide.columnCount ≤ 32767 ∧ 0 < sampleRowWide.columnCount
      ∧ 1 ≤ sampleHello.length ∧ sampleHello.length ≤ sampleRowWide.columnCount - 0
      ∧ (∀ ch, ch ∈ sampleHello → ch < 0x80)
      ∧ ∃ r', (sampleRowWide.Reset default).ReplaceCharacters sampleEnv ((0 : Nat) : Int)
            (sampleRowWide.columnCount : Int) sampleHello
          = Outcome.returned r' (0 + sampleHello.length) []
        ∧ (∀ i, i ≤ sampleRowWide.columnCount →
            r'.charOffsets.getD i 0 = i ∧ r'._uncheckedIsTrailer i = false
              ∧ r'._uncheckedCharOffset i = i)
        ∧ r'.GetText = List.replicate 0 UNICODE_SPACE ++ sampleHello
            ++ List.replicate (sampleRowWide.columnCount - 0 - sampleHello.length) UNICODE_SPACE :=
  ⟨sampleEnv_segTotal, by rfl, by decide, by decide, by decide, by decide, by decide,
    C7_ascii_fast_path sampleEnv sampleEnv_segTotal sampleRowWide default (by rfl) (by decide)
      0 sampleHello (by decide) (by decide) (by decide) (by decide)⟩

/-- The witness of C7 in numbers (scenario S1): width 6, text `hello` gives the text
`hello` followed by a space and the offsets 0 to 6. -/
theorem sampleHello_layout :
    ((ROW.new 6 default).ReplaceCharacters sampleEnv 0 6 sampleHello).row.GetText
        = [0x68, 0x65, 0x6c, 0x6c, 0x6f, 0x20]
      ∧ ((ROW.new 6 default).ReplaceCharacters sampleEnv 0 6 sampleHello).row.charOffsets
        = [0, 1, 2, 3, 4, 5, 6]
      ∧ (ROW.new 6 default).ReplaceCharacters sampleEnv 0 6 sampleHello
        = Outcome.returned ((ROW.new 6 default).ReplaceCharacters sampleEnv 0 6 sampleHello).row
            5 [] := by
  refine ⟨by rfl, by rfl, by rfl⟩

/-! ## C8: a cluster that begins with an ASCII code unit -/

/-- C8 at its failing input: on a fresh row of width 2 the text `a b U+0301` has the
clusters `a` and `b U+0301` (narrow), yet `ReplaceCharacters(0, 2, text)` leaves `b`
in a column of its own and hands back the combining mark alone. -/
theorem C8_cluster_split_at_row_end :
    sampleEnv.seg sampleSplit = some [1, 3]
      ∧ sampleEnv.IsGlyphFullWidth [0x62, 0x301] = false
      ∧ (ROW.new 2 default).ReplaceCharacters sampleEnv 0 2 sampleSplit
          = Outcome.returned ((ROW.new 2 default).ReplaceCharacters sampleEnv 0 2 sampleSplit).row
              2 [0x301]
      ∧ ((ROW.new 2 default).ReplaceCharacters sampleEnv 0 2 sampleSplit).row.GlyphAt 0 = [0x61]
      ∧ ((ROW.new 2 default).ReplaceCharacters sampleEnv 0 2 sampleSplit).row.GlyphAt 1 = [0x62]
      ∧ ((ROW.new 2 default).ReplaceCharacters sampleEnv 0 2 sampleSplit).row.charOffsets
          = [0, 1, 2] := by
  refine ⟨by rfl, by rfl, by rfl, by rfl, by rfl, by rfl⟩

/-- The witness of C8 (scenario S3) holds: on a fresh row of width 6 the text
`a U+0301 b` is fully consumed, the call returns 2, column 0 holds the two code units
`a U+0301`, column 1 holds `b`, columns 2 to 5 hold spaces, the offsets are
`[0, 2, 3, 4, 5, 6, 7]` and the text has 7 code units. -/
theorem sampleCombining_layout :
    sampleEnv.seg sampleCombining = some [2, 3]
      ∧ (ROW.new 6 default).ReplaceCharacters sampleEnv 0 6 sampleCombining
          = Outcome.returned
              ((ROW.new 6 default).ReplaceCharacters sampleEnv 0 6 sampleCombining).row 2 []
      ∧ ((ROW.new 6 default).ReplaceCharacters sampleEnv 0 6 sampleCombining).row.GlyphAt 0
          = [0x61, 0x301]
      ∧ ((ROW.new 6 default).ReplaceCharacters sampleEnv 0 6 sampleCombining).row.GlyphAt 1
          = [0x62]
      ∧ (∀ c : Nat, 2 ≤ c → c ≤ 5 →
          ((ROW.new 6 default).ReplaceCharacters sampleEnv 0 6 sampleCombining).row.GlyphAt c
            = [UNICODE_SPACE])
      ∧ ((ROW.new 6 default).ReplaceCharacters sampleEnv 0 6 sampleCombining).row.charOffsets
          = [0, 2, 3, 4, 5, 6, 7]
      ∧ ((ROW.new 6 default).ReplaceCharacters sampleEnv 0 6 sampleCombining).row.GetText.length
          = 7 := by
  refine ⟨by rfl, by rfl, by rfl, by rfl, ?_, by rfl, by rfl⟩
  intro c h2 h5
  have hc : c = 2 ∨ c = 3 ∨ c = 4 ∨ c = 5 := by omega
  rcases hc with rfl | rfl | rfl | rfl <;> rfl

/-! ## C9: what a call consumes and returns -/

/-- A column `c < W` of a well-formed row that is no trailer: the next column `n`
that is no trailer is `c + 1` or, after a trailer, `c + 2`; the glyph of `c` is the
text between the offsets of `c` and `n`, and it is not empty. -/
theorem ROW.Inv.glyph_next {r : ROW} (h : r.Inv) (c : Nat) (hc : c < r.columnCount)
    (ht : wordIsTrailer (r.charOffsets.getD c 0) = false) :
    ∃ n, (n = c + 1 ∨ (n = c + 2 ∧ wordIsTrailer (r.charOffsets.getD (c + 1) 0) = true))
      ∧ n ≤ r.columnCount ∧ wordIsTrailer (r.charOffsets.getD n 0) = false
      ∧ Row.skipTrailers r.charOffsets r.charOffsets.length (c + 1) = n
      ∧ r.GlyphAt (c : Int) = (r.chars.drop (r.charOffsets.getD c 0)).take
          (r.charOffsets.getD n 0 - r.charOffsets.getD c 0)
      ∧ r.charOffsets.getD c 0 < r.charOffsets.getD n 0 := by
  have hf : 2 ≤ r.charOffsets.length := by rw [h.len]; omega
  have e0 := (h.noTrailer_le c (by omega) ht).2
  cases ht1 : wordIsTrailer (r.charOffsets.getD (c + 1) 0) with
  | false =>
    have hK := (h.skipTrailers (c + 1) r.charOffsets.length hf).1 ht1
    have e1 := (h.noTrailer_le (c + 1) (by omega) ht1).2
    refine ⟨c + 1, Or.inl rfl, by omega, ht1, hK, ?_, h.noTrailer_lt c (c + 1) (by omega)
      (by omega) ht ht1⟩
    simp only [ROW.GlyphAt, ROW._clampedColumn_of_lt r c hc, hK, e0, e1]
  | true =>
    obtain ⟨j, hj, hlt, _, _, _, ht2⟩ := h.trailer_at (c + 1) ht1
    have hK := (h.skipTrailers (c + 1) r.charOffsets.length hf).2 ht1
    have e2 := (h.noTrailer_le (c + 1 + 1) (by omega) ht2).2
    refine ⟨c + 2, Or.inr ⟨rfl, rfl⟩, by omega, ht2, hK, ?_, h.noTrailer_lt c (c + 2) (by omega)
      (by omega) ht ht2⟩
    simp only [ROW.GlyphAt, ROW._clampedColumn_of_lt r c hc, hK, e0, e2]

theorem slice_append (l : List Nat) (p q s : Nat) (hpq : p ≤ q) (hqs : q ≤ s) :
    (l.drop p).take (q - p) ++ (l.drop q).take (s - q) = (l.drop p).take (s - p) := by
  have e : s - p = (q - p) + (s - q) := by omega
  rw [e, List.take_add, List.drop_drop]
  congr 3
  omega

/-- The glyph texts of the columns `[a, b)` of a well-formed row, between two
columns that are no trailers, concatenate to the text between their offsets. -/
theorem ROW.Inv.glyphTexts_flatten {r : ROW} (h : r.Inv) : ∀ (k a b : Nat), b - a ≤ k →
    a ≤ b → b ≤ r.columnCount →
    wordIsTrailer (r.charOffsets.getD a 0) = false →
    wordIsTrailer (r.charOffsets.getD b 0) = false →
    (r.glyphTexts a b).flatten = (r.chars.drop (r.charOffsets.getD a 0)).take
      (r.charOffsets.getD b 0 - r.charOffsets.getD a 0) := by
  intro k
  induction k with
  | zero =>
    intro a b hk hab _ _ _
    have : a = b := by omega
    subst this
    simp [ROW.glyphTexts]
  | succ k ih =>
    intro a b hk hab hb hta htb
    rcases Nat.eq_or_lt_of_le hab with he | hlt
    · subst he
      simp [ROW.glyphTexts]
    · obtain ⟨n, hn, hnW, htn, _, hg, hlt2⟩ := h.glyph_next a (by omega) hta
      have hnb : n ≤ b := by
        rcases hn with hn | ⟨hn, ht1⟩
        · omega
        · have : b ≠ a + 1 := by
            intro hc
            rw [hc, ht1] at htb
            exact Bool.noConfusion htb
          omega
      have hcons : r.glyphTexts a b = r.GlyphAt (a : Int) :: r.glyphTexts n b := by
        have ha : (!r._uncheckedIsTrailer a) = true := by
          simp only [ROW._uncheckedIsTrailer, hta]; rfl
        rcases hn with hn | ⟨hn, ht1⟩
        · subst hn
          have e : b - a = (b - (a + 1)) + 1 := by omega
          simp only [ROW.glyphTexts]
          rw [e, List.range'_succ]
          simp only [List.filter_cons, ha, if_true, List.map_cons]
        · subst hn
          have e : b - a = (b - (a + 2)) + 1 + 1 := by omega
          have ha1 : ¬ ((!r._uncheckedIsTrailer (a + 1)) = true) := by
            simp only [ROW._uncheckedIsTrailer, ht1]; decide
          simp only [ROW.glyphTexts]
          rw [e, List.range'_succ, List.range'_succ]
          simp only [List.filter_cons, ha, ha1, if_true, if_false, List.map_cons,
            Bool.false_eq_true]
      have hmono : r.charOffsets.getD n 0 ≤ r.charOffsets.getD b 0 := by
        rcases Nat.eq_or_lt_of_le hnb with he | hl
        · rw [he]
        · exact Nat.le_of_lt (h.noTrailer_lt n b hl hb htn htb)
      have hna : a < n := by
        rcases hn with hn | ⟨hn, _⟩ <;> omega
      rw [hcons, List.flatten_cons, hg, ih n b (by omega) hnb hb htn htb]
      exact slice_append _ _ _ _ (Nat.le_of_lt hlt2) hmono

/-- The columns and offsets that delimit the written range in the row `r'` after a
call: `colBeg ≤ col2 ≤ col3 ≤ W`, the offsets of `colBeg`, `col2` and `col3` are
`ch1`, `ch2` and `ch3new`, all within the 15-bit limit. -/
theorem WriteSpec.delims {r r' : ROW} {colBeg : Nat} {text : List Nat} {v : Locals}
    (hinv : r.Inv) (hS : LocalsSpec r colBeg text v) (hW : WriteSpec r text v r')
    (hbv : v.textLength r ≤ 32767) :
    colBeg ≤ v.scan.col2 ∧ v.scan.col2 ≤ v.col3 ∧ v.col3 ≤ r.columnCount
      ∧ r'.charOffsets.getD colBeg 0 = v.ch1
      ∧ r'.charOffsets.getD v.scan.col2 0 = v.scan.ch2
      ∧ r'.charOffsets.getD v.col3 0 = v.ch3new
      ∧ v.scan.ch2 = v.ch1 + v.scan.it
      ∧ v.ch3new = v.scan.ch2 + v.trailingSpaces
      ∧ v.ch3new ≤ 32767 ∧ v.ch3 ≤ r._charSize := by
  obtain ⟨_, _, o3, o4, o5, _⟩ := hW.offs_at hinv hS
  have hnl := hW.newLength
  have hch2 := hS.scan.ch2
  have hch3 := hS.ch3new
  have hch3le := hS.ch3_le
  have hcol3 := hS.col3
  have hcol3le := hS.col3_le
  have hcb2 : colBeg ≤ v.scan.col2 := by
    obtain ⟨_, _, _, hY, _⟩ := hS.scan.form
    omega
  have h3 : r'.charOffsets.getD v.col3 0 = v.ch3new := by
    rw [o5 v.col3 (Nat.le_refl _) hcol3le, hS.ch3]
    omega
  have hcol2 : r'.charOffsets.getD v.scan.col2 0 = v.scan.ch2 := by
    by_cases hT : v.trailingSpaces = 1
    · exact o4 hT
    · have hT0 : v.trailingSpaces = 0 := by have := hS.trail_le; omega
      rw [show v.scan.col2 = v.col3 by omega, h3]
      omega
  exact ⟨hcb2, by omega, hcol3le, o3, hcol2, h3, hch2, hch3, by omega, hch3le⟩

/-- C9, amended: for every `ReplaceCharacters` call on a row reachable within the
15-bit limit
that is no no-op, returns and stays within the limit: the original text is the
consumed prefix followed by the text left on return; the glyph texts stored in the
columns `[colBeg, col2)` after the call concatenate to the consumed prefix; and the
returned column is `col2` plus the number of trailing padding spaces (`colExtEnd`),
which is 0 or 1. -/
theorem C9_consumed_and_returned (env : Env) (hs : env.SegSound) (r : ROW)
    (h : Reachable env r) (columnBegin columnEnd : Int) (chars : List Nat) (r' : ROW)
    (col : Nat) (rest : List Nat)
    (hcall : r.ReplaceCharacters env columnBegin columnEnd chars = Outcome.returned r' col rest)
    (hop : r._clampedColumnInclusive columnBegin < r._clampedColumnInclusive columnEnd
      ∧ chars ≠ [])
    (hb : ∀ v, replaceLocals env r (r._clampedColumnInclusive columnBegin) chars = some v →
      v.textLength r ≤ 32767) :
    ∃ v, replaceLocals env r (r._clampedColumnInclusive columnBegin) chars = some v
      ∧ chars = chars.take v.scan.it ++ rest
      ∧ (chars.take v.scan.it).length = v.scan.it
      ∧ (r'.glyphTexts (r._clampedColumnInclusive columnBegin) v.scan.col2).flatten
          = chars.take v.scan.it
      ∧ col = v.scan.col2 + v.trailingSpaces
      ∧ col = v.col3
      ∧ v.trailingSpaces = v.col3 - v.scan.col2
      ∧ (v.trailingSpaces = 0 ∨ v.trailingSpaces = 1) := by
  have hinv := h.inv hs
  rcases ReplaceCharacters_returned env r columnBegin columnEnd chars r' col rest hs hinv hcall hb
    with ⟨hno, _⟩ | ⟨_, _, v, hv, hS, hW, hcol, hrest⟩
  · rcases hno with hno | hno
    · omega
    · exact absurd hno hop.2
  generalize r._clampedColumnInclusive columnBegin = colBeg at *
  have hbv := hb v hv
  obtain ⟨hcb2, h23, h3W, e1, e2, _, hch2, hch3, hle, _⟩ := hW.delims hinv hS hbv
  obtain ⟨_, _, t3, _, _⟩ := hW.text_at hinv hS
  have hT := hS.trail_le
  have hcol3 := hS.col3
  have hfl := hW.inv.glyphTexts_flatten (v.scan.col2 - colBeg) colBeg v.scan.col2
    (Nat.le_refl _) hcb2 (by rw [hW.columnCount]; omega)
    (by rw [e1]; exact wordIsTrailer_of_le (by omega))
    (by rw [e2]; exact wordIsTrailer_of_le (by omega))
  refine ⟨v, hv, ?_, ?_, ?_, by omega, hcol, by omega, by omega⟩
  · rw [hrest, List.take_append_drop]
  · rw [List.length_take, Nat.min_eq_left hS.it_le]
  · rw [hfl, e1, e2, hch2, Nat.add_sub_cancel_left]
    exact t3

theorem C9_consumed_and_returned_witness :
    sampleEnv.SegSound ∧ Reachable sampleEnv (ROW.new 4 default)
      ∧ (ROW.new 4 default).ReplaceCharacters sampleEnv 0 4 (sampleEmojiText ++ [0x63])
          = Outcome.returned sampleRowEmoji 4 [0x63]
      ∧ ((ROW.new 4 default)._clampedColumnInclusive 0
            < (ROW.new 4 default)._clampedColumnInclusive 4
          ∧ sampleEmojiText ++ [0x63] ≠ [])
      ∧ ∃ v, replaceLocals sampleEnv (ROW.new 4 default)
            ((ROW.new 4 default)._clampedColumnInclusive 0) (sampleEmojiText ++ [0x63]) = some v
        ∧ sampleEmojiText ++ [0x63] = (sampleEmojiText ++ [0x63]).take v.scan.it ++ [0x63]
        ∧ ((sampleEmojiText ++ [0x63]).take v.scan.it).length = v.scan.it
        ∧ (sampleRowEmoji.glyphTexts ((ROW.new 4 default)._clampedColumnInclusive 0)
              v.scan.col2).flatten = (sampleEmojiText ++ [0x63]).take v.scan.it
        ∧ 4 = v.scan.col2 + v.trailingSpaces
        ∧ 4 = v.col3
        ∧ v.trailingSpaces = v.col3 - v.scan.col2
        ∧ (v.trailingSpaces = 0 ∨ v.trailingSpaces = 1) :=
  ⟨sampleEnv_segSound, Reachable.new 4 default (by decide), by rfl, by decide,
    C9_consumed_and_returned sampleEnv sampleEnv_segSound (ROW.new 4 default)
      (Reachable.new 4 default (by decide)) 0 4 (sampleEmojiText ++ [0x63]) sampleRowEmoji 4
      [0x63] (by rfl) (by decide) (bound_of_eval _ _ (by rfl))⟩

/-- The witness of C9 in numbers: of `a`, U+1F600, `b`, `c` a row of width 4 consumes
the first four code units into the glyphs `a`, U+1F600 and `b`, returns column 4 and
hands back `c`. -/
theorem sampleRowEmoji_glyphTexts :
    sampleRowEmoji.glyphTexts 0 4 = [[0x61], [0xd83d, 0xde00], [0x62]]
      ∧ (replaceLocals sampleEnv (ROW.new 4 default) 0 (sampleEmojiText ++ [0x63])).map
          (fun v => (v.scan.it, v.scan.col2, v.trailingSpaces, v.col3)) = some (4, 4, 0, 4) := by
  refine ⟨by rfl, by rfl⟩

/-! ## C10: the frame of a call -/

/-- Every offset word of a well-formed row is an offset `o` within the text, with or
without the trailer flag; `o` is at least the offset of every earlier column that
is no trailer. -/
theorem ROW.Inv.entry {r : ROW} (h : r.Inv) (i : Nat) (hi : i ≤ r.columnCount) :
    ∃ o t, r.charOffsets.getD i 0 = o + t ∧ (t = 0 ∨ t = CharOffsetsTrailer)
      ∧ o ≤ r._charSize ∧ r._uncheckedCharOffset i = o
      ∧ (∀ c, c ≤ i → wordIsTrailer (r.charOffsets.getD c 0) = false →
          r.charOffsets.getD c 0 ≤ o)
      ∧ (∀ c, i ≤ c → c ≤ r.columnCount → wordIsTrailer (r.charOffsets.getD c 0) = false →
          o ≤ r.charOffsets.getD c 0) := by
  have hmono : ∀ a b, a ≤ b → b ≤ r.columnCount →
      wordIsTrailer (r.charOffsets.getD a 0) = false →
      wordIsTrailer (r.charOffsets.getD b 0) = false →
      r.charOffsets.getD a 0 ≤ r.charOffsets.getD b 0 := by
    intro a b hab hb hta htb
    rcases Nat.eq_or_lt_of_le hab with he | hl
    · rw [he]
    · exact Nat.le_of_lt (h.noTrailer_lt a b hl hb hta htb)
  cases ht : wordIsTrailer (r.charOffsets.getD i 0) with
  | false =>
    obtain ⟨h1, h2⟩ := h.noTrailer_le i hi ht
    exact ⟨r.charOffsets.getD i 0, 0, rfl, Or.inl rfl, h1, h2,
      fun c hc htc => hmono c i hc hi htc ht, fun c hc hcW htc => hmono i c hc hcW ht htc⟩
  | true =>
    obtain ⟨j, hj, hlt, h1, h2, h3, _⟩ := h.trailer_at i ht
    obtain ⟨h4, _⟩ := h.noTrailer_le j (by omega) h1
    refine ⟨r.charOffsets.getD j 0, CharOffsetsTrailer, h2, Or.inr rfl, h4, ?_, ?_, ?_⟩
    · simp only [ROW._uncheckedCharOffset]
      rw [h2, wordOffset_add h3]
    · intro c hc htc
      have hne : c ≠ i := by
        intro he
        rw [he, ht] at htc
        exact Bool.noConfusion htc
      exact hmono c j (by omega) (by omega) htc h1
    · intro c hc hcW htc
      exact hmono j c (by omega) hcW h1 htc

/-- Adding `n - m` to an offset word whose offset is at least `m` keeps the trailer
flag and moves the offset, as long as the new offset fits 15 bits. -/
theorem shift_word (o t n m : Nat) (ht : t = 0 ∨ t = CharOffsetsTrailer) (hm : m ≤ o)
    (ho : o ≤ 32767) (hn : o + n - m ≤ 32767) :
    wordIsTrailer (o + t + n - m) = wordIsTrailer (o + t)
      ∧ wordOffset (o + t + n - m) = wordOffset (o + t) + n - m := by
  rcases ht with ht | ht
  · subst ht
    rw [Nat.add_zero, wordIsTrailer_of_le hn, wordIsTrailer_of_le ho, wordOffset_of_le hn,
      wordOffset_of_le ho]
    exact ⟨rfl, rfl⟩
  · subst ht
    have e : o + CharOffsetsTrailer + n - m = (o + n - m) + CharOffsetsTrailer := by omega
    rw [e, wordIsTrailer_add hn, wordIsTrailer_add ho, wordOffset_add hn, wordOffset_add ho]
    exact ⟨rfl, rfl⟩

theorem slice_shift (l1 l2 : List Nat) (p1 p2 n i a : Nat)
    (h : (l1.drop p1).take n = (l2.drop p2).take n) (hia : i + a ≤ n) :
    (l1.drop (p1 + i)).take a = (l2.drop (p2 + i)).take a := by
  have e : ∀ L : List Nat, ((L.take n).drop i).take a = (L.drop i).take a := by
    intro L
    rw [List.drop_take, List.take_take, Nat.min_eq_left (by omega)]
  rw [← List.drop_drop, ← List.drop_drop, ← e (l1.drop p1), h, e (l2.drop p2)]

/-- Two well-formed rows show the same glyph and the same DBCS attribute at a column
`c` of both when, at the columns from `c` up to a later column `lim` that is no
trailer, their offset words carry the same flags and offsets that differ by `n - m`,
and the text of the one is the text of the other moved by `n - m`. -/
theorem glyph_frame_cols {r r' : ROW} (h : r.Inv) (h' : r'.Inv) (c lim n m top : Nat)
    (hc' : c < r'.columnCount) (hc : c < lim) (hlim : lim ≤ r.columnCount)
    (htl : wordIsTrailer (r.charOffsets.getD lim 0) = false)
    (hst : ∀ i, c ≤ i → i ≤ lim →
      wordIsTrailer (r'.charOffsets.getD i 0) = wordIsTrailer (r.charOffsets.getD i 0))
    (hoff : ∀ i, c ≤ i → i ≤ lim →
      r'._uncheckedCharOffset i = r._uncheckedCharOffset i + n - m
        ∧ m ≤ r._uncheckedCharOffset i ∧ r._uncheckedCharOffset i ≤ top)
    (htxt : ∀ p a, m ≤ p → p + a ≤ top →
      (r'.chars.drop (p + n - m)).take a = (r.chars.drop p).take a) :
    r'.GlyphAt (c : Int) = r.GlyphAt (c : Int)
      ∧ r'.DbcsAttrAt (c : Int) = r.DbcsAttrAt (c : Int) := by
  have hf : 2 ≤ r.charOffsets.length := by rw [h.len]; omega
  have hf' : 2 ≤ r'.charOffsets.length := by rw [h'.len]; omega
  have hcW : c < r.columnCount := by omega
  obtain ⟨k, hk, hkW, hK, hK'⟩ : ∃ k, c + 1 ≤ k ∧ k ≤ lim
      ∧ Row.skipTrailers r.charOffsets r.charOffsets.length (c + 1) = k
      ∧ Row.skipTrailers r'.charOffsets r'.charOffsets.length (c + 1) = k := by
    cases ht : wordIsTrailer (r.charOffsets.getD (c + 1) 0) with
    | false =>
      have ht' := hst (c + 1) (by omega) (by omega)
      rw [ht] at ht'
      exact ⟨c + 1, Nat.le_refl _, by omega,
        (h.skipTrailers (c + 1) _ hf).1 ht, (h'.skipTrailers (c + 1) _ hf').1 ht'⟩
    | true =>
      have hne : c + 1 ≠ lim := by
        intro he
        rw [he, htl] at ht
        exact Bool.noConfusion ht
      have ht' := hst (c + 1) (by omega) (by omega)
      rw [ht] at ht'
      exact ⟨c + 1 + 1, by omega, by omega,
        (h.skipTrailers (c + 1) _ hf).2 ht, (h'.skipTrailers (c + 1) _ hf').2 ht'⟩
  constructor
  · obtain ⟨e1, e2, e3⟩ := hoff c (Nat.le_refl _) (by omega)
    obtain ⟨e4, e5, e6⟩ := hoff k (by omega) hkW
    simp only [ROW.GlyphAt, ROW._clampedColumn_of_lt r c hcW, ROW._clampedColumn_of_lt r' c hc',
      hK, hK', e1, e4]
    have ea : r._uncheckedCharOffset k + n - m - (r._uncheckedCharOffset c + n - m)
        = r._uncheckedCharOffset k - r._uncheckedCharOffset c := by omega
    rw [ea]
    exact htxt _ _ e2 (by omega)
  · simp only [ROW.DbcsAttrAt, ROW._clampedColumn_of_lt r c hcW, ROW._clampedColumn_of_lt r' c hc',
      ROW._uncheckedIsTrailer, hst c (Nat.le_refl _) (by omega), hst (c + 1) (by omega) (by omega)]

/-- The same for two rows of the same width. -/
theorem glyph_frame {r r' : ROW} (h : r.Inv) (h' : r'.Inv) (hW : r'.columnCount = r.columnCount)
    (c lim n m top : Nat) (hc : c < lim) (hlim : lim ≤ r.columnCount)
    (htl : wordIsTrailer (r.charOffsets.getD lim 0) = false)
    (hst : ∀ i, c ≤ i → i ≤ lim →
      wordIsTrailer (r'.charOffsets.getD i 0) = wordIsTrailer (r.charOffsets.getD i 0))
    (hoff : ∀ i, c ≤ i → i ≤ lim →
      r'._uncheckedCharOffset i = r._uncheckedCharOffset i + n - m
        ∧ m ≤ r._uncheckedCharOffset i ∧ r._uncheckedCharOffset i ≤ top)
    (htxt : ∀ p a, m ≤ p → p + a ≤ top →
      (r'.chars.drop (p + n - m)).take a = (r.chars.drop p).take a) :
    r'.GlyphAt (c : Int) = r.GlyphAt (c : Int)
      ∧ r'.DbcsAttrAt (c : Int) = r.DbcsAttrAt (c : Int) :=
  glyph_frame_cols h h' c lim n m top (by omega) hc hlim htl hst hoff htxt

/-- From the returned column `col3` on, the offset words of the written row are the
old ones with the same trailer flag and the offset moved by `ch3new - ch3`. -/
theorem WriteSpec.shifted {r r' : ROW} {colBeg : Nat} {text : List Nat} {v : Locals}
    (hinv : r.Inv) (hS : LocalsSpec r colBeg text v) (hW : WriteSpec r text v r')
    (hbv : v.textLength r ≤ 32767) (i : Nat) (h3 : v.col3 ≤ i) (hi : i ≤ r.columnCount) :
    wordIsTrailer (r'.charOffsets.getD i 0) = wordIsTrailer (r.charOffsets.getD i 0)
      ∧ r'._uncheckedCharOffset i = r._uncheckedCharOffset i + v.ch3new - v.ch3
      ∧ v.ch3 ≤ r._uncheckedCharOffset i ∧ r._uncheckedCharOffset i ≤ r._charSize := by
  obtain ⟨_, _, _, _, o5, _⟩ := hW.offs_at hinv hS
  obtain ⟨o, t, e1, ht, ho, e2, hlo, _⟩ := hinv.entry i hi
  have hge : v.ch3 ≤ o := by
    have := hlo v.col3 h3 hS.col3NoTrailer
    rw [hS.ch3] at this
    exact this
  have hnl := hW.newLength
  have hP := hinv.bound
  have hch3le := hS.ch3_le
  obtain ⟨s1, s2⟩ := shift_word o t v.ch3new v.ch3 ht hge (by omega) (by omega)
  have e3 : r'.charOffsets.getD i 0 = o + t + v.ch3new - v.ch3 := by
    rw [o5 i h3 hi, e1]
  refine ⟨?_, ?_, by omega, by omega⟩
  · rw [e3, e1]; exact s1
  · simp only [ROW._uncheckedCharOffset]
    rw [e3, e1]; exact s2

/-- Up to the first column `colExtBeg` of the extended range, the offset words of
the written row are the old ones. -/
theorem WriteSpec.kept {r r' : ROW} {colBeg : Nat} {text : List Nat} {v : Locals}
    (hinv : r.Inv) (hS : LocalsSpec r colBeg text v) (hW : WriteSpec r text v r')
    (i : Nat) (hi : i ≤ v.colExtBeg) :
    r'.charOffsets.getD i 0 = r.charOffsets.getD i 0 := by
  obtain ⟨o1, o2, o3, _⟩ := hW.offs_at hinv hS
  rcases Nat.eq_or_lt_of_le hi with he | hl
  · subst he
    rw [hS.chExtBeg]
    have hle := hS.lead_le
    by_cases hL : v.leadingSpaces = 1
    · exact o2 hL
    · have hext := hS.ext
      have hch1 := hS.ch1
      have e : v.colExtBeg = colBeg := by omega
      rw [e, o3]
      omega
  · exact o1 i hl

/-- C10, amended: a `ReplaceCharacters` call on a row reachable within the 15-bit
limit that
returns and stays within the limit either is a no-op that leaves the row as it is, or
has an extended range `[colExtBeg, col)` with `col` the returned column: for every
column `c < colExtBeg` and every column `c` with `col ≤ c < W`, `GlyphAt(c)` and
`DbcsAttrAt(c)` are the same before and after the call; the offsets of the columns
`c ≥ col` are moved by the one delta `ch3new - ch3` and keep their trailer flag, and
the text they index is moved with them; the attribute runs, the line rendition, the
`wrap_forced` flag and `W` are unchanged. -/
theorem C10_frame (env : Env) (hs : env.SegSound) (r : ROW) (h : Reachable env r)
    (columnBegin columnEnd : Int) (chars : List Nat) (r' : ROW) (col : Nat) (rest : List Nat)
    (hcall : r.ReplaceCharacters env columnBegin columnEnd chars = Outcome.returned r' col rest)
    (hb : ∀ v, replaceLocals env r (r._clampedColumnInclusive columnBegin) chars = some v →
      v.textLength r ≤ 32767) :
    (r' = r ∧ col = r._clampedColumnInclusive columnBegin)
    ∨ ∃ v, replaceLocals env r (r._clampedColumnInclusive columnBegin) chars = some v
      ∧ col = v.col3
      ∧ v.colExtBeg = extendDown r.charOffsets (r._clampedColumnInclusive columnBegin)
      ∧ v.colExtBeg ≤ r._clampedColumnInclusive columnBegin
      ∧ r._clampedColumnInclusive columnBegin < col
      ∧ (∀ c, c < v.colExtBeg →
          r'.GlyphAt (c : Int) = r.GlyphAt (c : Int)
            ∧ r'.DbcsAttrAt (c : Int) = r.DbcsAttrAt (c : Int))
      ∧ (∀ c, col ≤ c → c < r.columnCount →
          r'.GlyphAt (c : Int) = r.GlyphAt (c : Int)
            ∧ r'.DbcsAttrAt (c : Int) = r.DbcsAttrAt (c : Int))
      ∧ (∀ c, col ≤ c → c ≤ r.columnCount →
          (r'._uncheckedCharOffset c : Int)
              = (r._uncheckedCharOffset c : Int) + ((v.ch3new : Int) - (v.ch3 : Int))
            ∧ r'._uncheckedIsTrailer c = r._uncheckedIsTrailer c)
      ∧ (r'.chars.drop v.ch3new).take (r._charSize - v.ch3)
          = (r.chars.drop v.ch3).take (r._charSize - v.ch3)
      ∧ r'.attr = r.attr ∧ r'.lineRendition = r.lineRendition
      ∧ r'.wrapForced = r.wrapForced ∧ r'.columnCount = r.columnCount := by
  have hinv := h.inv hs
  rcases ReplaceCharacters_returned env r columnBegin columnEnd chars r' col rest hs hinv hcall hb
    with ⟨_, hr, hc, _⟩ | ⟨_, _, v, hv, hS, hW, hcol, _⟩
  · exact Or.inl ⟨hr, hc⟩
  right
  have hcolExt : v.colExtBeg
      = extendDown r.charOffsets (r._clampedColumnInclusive columnBegin) := by
    simp only [replaceLocals] at hv
    split at hv
    · exact Option.noConfusion hv
    · injection hv with hv
      rw [← hv]
  generalize r._clampedColumnInclusive columnBegin = colBeg at *
  have hbv := hb v hv
  obtain ⟨hcb2, h23, h3W, _, _, _, _, _, _, _⟩ := hW.delims hinv hS hbv
  obtain ⟨t1, _, _, _, t5⟩ := hW.text_at hinv hS
  have hext := hS.ext
  have hprog : colBeg < v.col3 := by
    have hcol3 := hS.col3
    rcases hS.progress with hp | hp
    · obtain ⟨Y, J, _, hY, _, hC⟩ := hS.scan.form
      have hYne : Y ≠ [] := by
        intro hnil
        rw [hnil] at hC
        have := hC.nil_eq
        omega
      have : 0 < Y.length := List.length_pos.2 hYne
      omega
    · have := hS.trail_iff.2 (Or.inl hp)
      omega
  subst hcol
  refine ⟨v, hv, rfl, hcolExt, by omega, hprog, ?_, ?_, ?_, t5, hW.attr, hW.lineRendition,
    hW.wrapForced, hW.columnCount⟩
  · intro c hc
    have hEW : v.colExtBeg ≤ r.columnCount := by omega
    refine glyph_frame hinv hW.inv hW.columnCount c v.colExtBeg 0 0 v.chExtBeg hc hEW
      hS.extNoTrailer ?_ ?_ ?_
    · intro i _ hi
      rw [hW.kept hinv hS i hi]
    · intro i _ hi
      obtain ⟨o, t, _, _, _, e2, _, hup⟩ := hinv.entry i (by omega)
      have := hup v.colExtBeg hi hEW hS.extNoTrailer
      rw [hS.chExtBeg] at this
      refine ⟨?_, Nat.zero_le _, by omega⟩
      simp only [ROW._uncheckedCharOffset]
      rw [hW.kept hinv hS i hi]
      rfl
    · intro p a _ hpa
      have := slice_shift r'.chars r.chars 0 0 v.chExtBeg p a
        (by rw [List.drop_zero, List.drop_zero]; exact t1) hpa
      rw [Nat.zero_add] at this
      exact this
  · intro c hc hcW
    refine glyph_frame hinv hW.inv hW.columnCount c r.columnCount v.ch3new v.ch3 r._charSize hcW
      (Nat.le_refl _) (wordIsTrailer_of_le hinv.bound) ?_ ?_ ?_
    · intro i hci hi
      exact (hW.shifted hinv hS hbv i (by omega) hi).1
    · intro i hci hi
      exact (hW.shifted hinv hS hbv i (by omega) hi).2
    · intro p a hp hpa
      have := slice_shift r'.chars r.chars v.ch3new v.ch3 (r._charSize - v.ch3) (p - v.ch3) a
        t5 (by omega)
      rw [show v.ch3new + (p - v.ch3) = p + v.ch3new - v.ch3 by omega,
        show v.ch3 + (p - v.ch3) = p by omega] at this
      exact this
  · intro c hc hcW
    obtain ⟨s1, s2, s3, _⟩ := hW.shifted hinv hS hbv c hc hcW
    refine ⟨?_, s1⟩
    rw [s2]
    omega

theorem C10_frame_witness :
    sampleEnv.SegSound ∧ Reachable sampleEnv sampleRowWide
      ∧ sampleRowWide.ReplaceCharacters sampleEnv 1 3 [0x4e03] = Outcome.returned sampleRowS2 4 []
      ∧ ((sampleRowS2 = sampleRowWide ∧ 4 = sampleRowWide._clampedColumnInclusive 1)
        ∨ ∃ v, replaceLocals sampleEnv sampleRowWide (sampleRowWide._clampedColumnInclusive 1)
              [0x4e03] = some v
          ∧ 4 = v.col3
          ∧ v.colExtBeg
              = extendDown sampleRowWide.charOffsets (sampleRowWide._clampedColumnInclusive 1)
          ∧ v.colExtBeg ≤ sampleRowWide._clampedColumnInclusive 1
          ∧ sampleRowWide._clampedColumnInclusive 1 < 4
          ∧ (∀ c, c < v.colExtBeg →
              sampleRowS2.GlyphAt (c : Int) = sampleRowWide.GlyphAt (c : Int)
                ∧ sampleRowS2.DbcsAttrAt (c : Int) = sampleRowWide.DbcsAttrAt (c : Int))
          ∧ (∀ c, 4 ≤ c → c < sampleRowWide.columnCount →
              sampleRowS2.GlyphAt (c : Int) = sampleRowWide.GlyphAt (c : Int)
                ∧ sampleRowS2.DbcsAttrAt (c : Int) = sampleRowWide.DbcsAttrAt (c : Int))
          ∧ (∀ c, 4 ≤ c → c ≤ sampleRowWide.columnCount →
              (sampleRowS2._uncheckedCharOffset c : Int)
                  = (sampleRowWide._uncheckedCharOffset c : Int)
                    + ((v.ch3new : Int) - (v.ch3 : Int))
                ∧ sampleRowS2._uncheckedIsTrailer c = sampleRowWide._uncheckedIsTrailer c)
          ∧ (sampleRowS2.chars.drop v.ch3new).take (sampleRowWide._charSize - v.ch3)
              = (sampleRowWide.chars.drop v.ch3).take (sampleRowWide._charSize - v.ch3)
          ∧ sampleRowS2.attr = sampleRowWide.attr
          ∧ sampleRowS2.lineRendition = sampleRowWide.lineRendition
          ∧ sampleRowS2.wrapForced = sampleRowWide.wrapForced
          ∧ sampleRowS2.columnCount = sampleRowWide.columnCount) :=
  ⟨sampleEnv_segSound, sampleRowWide_reachable, by rfl,
    C10_frame sampleEnv sampleEnv_segSound sampleRowWide sampleRowWide_reachable 1 3
      [0x4e03] sampleRowS2 4 [] (by rfl) (bound_of_eval _ _ (by rfl))⟩

/-- The witness of C10 in numbers (scenario S2): replacing columns 1 and 2 of three
wide glyphs by one wide glyph extends the range to the columns 0 to 3; the glyph of
the columns 4 and 5 stays, its offset moves from 2 to 4. -/
theorem sampleRowS2_frame :
    sampleRowWide.charOffsets
        = [0, 0 + CharOffsetsTrailer, 1, 1 + CharOffsetsTrailer, 2, 2 + CharOffsetsTrailer, 3]
      ∧ sampleRowS2.charOffsets
        = [0, 1, 1 + CharOffsetsTrailer, 2, 3, 3 + CharOffsetsTrailer, 4]
      ∧ sampleRowWide.GlyphAt 4 = [0x4e02] ∧ sampleRowS2.GlyphAt 4 = [0x4e02]
      ∧ sampleRowWide.GlyphAt 5 = [0x4e02] ∧ sampleRowS2.GlyphAt 5 = [0x4e02]
      ∧ sampleRowS2.GetText = [0x20, 0x4e03, 0x20, 0x4e02] := by
  refine ⟨by rfl, by rfl, by rfl, by rfl, by rfl, by rfl, by rfl⟩

/-! ## C11: the column range of a call -/

/-- C11 at its failing input: on a fresh row of width 6, `ReplaceCharacters(0, 1,
"hello")` has `colEnd = 1` and `colExtEnd = 1` (column 1 is no trailer), yet it
writes the five code units into the columns 0 to 4 and returns 5: the glyphs of the
columns 1 to 4, which lie beyond `colExtEnd`, are changed. -/
theorem C11_writes_past_colEnd :
    (ROW.new 6 default)._clampedColumnInclusive 1 = 1
      ∧ skipTrailers (ROW.new 6 default).charOffsets (ROW.new 6 default).charOffsets.length
          ((ROW.new 6 default)._clampedColumnInclusive 1) = 1
      ∧ (ROW.new 6 default).ReplaceCharacters sampleEnv 0 1 sampleHello
          = Outcome.returned ((ROW.new 6 default).ReplaceCharacters sampleEnv 0 1 sampleHello).row
              5 []
      ∧ (ROW.new 6 default).GlyphAt 1 = [UNICODE_SPACE]
      ∧ ((ROW.new 6 default).ReplaceCharacters sampleEnv 0 1 sampleHello).row.GlyphAt 1 = [0x65]
      ∧ ((ROW.new 6 default).ReplaceCharacters sampleEnv 0 1 sampleHello).row.GlyphAt 4 = [0x6f]
      ∧ ((ROW.new 6 default).ReplaceCharacters sampleEnv 0 1 sampleHello).row.GetText
          = [0x68, 0x65, 0x6c, 0x6c, 0x6f, 0x20] := by
  refine ⟨by rfl, by rfl, by rfl, by rfl, by rfl, by rfl, by rfl⟩

/-! ## The row iterator -/

theorem iterator_new_next (chars offs : List Nat) (a : Nat) :
    (RowTextIterator.new chars offs a).next
      = RowTextIterator.new chars offs (skipTrailers offs offs.length (a + 1)) := rfl

/-- The trailer column of a wide glyph of a well-formed row shows the glyph of the
column before it. -/
theorem ROW.Inv.glyph_trailer {r : ROW} (h : r.Inv) (c : Nat) (hc : c < r.columnCount)
    (ht : wordIsTrailer (r.charOffsets.getD c 0) = false)
    (ht1 : wordIsTrailer (r.charOffsets.getD (c + 1) 0) = true) :
    r.GlyphAt ((c + 1 : Nat) : Int) = r.GlyphAt (c : Int)
      ∧ r.DbcsAttrAt (c : Int) = DbcsAttribute.Leading
      ∧ r.DbcsAttrAt ((c + 1 : Nat) : Int) = DbcsAttribute.Trailing := by
  obtain ⟨j, hj, hlt, _, h2, h3, ht2⟩ := h.trailer_at (c + 1) ht1
  have hjc : j = c := by omega
  subst hjc
  have hy : r.charOffsets.getD (j + 2) 0 ≤ r._charSize :=
    (h.noTrailer_le (j + 1 + 1) (by omega) ht2).1
  have hP := h.bound
  have hg := h.glyph_wide j _ _ hlt rfl h2 rfl h3 (by omega)
  exact ⟨by rw [hg.2.1, hg.1], hg.2.2.1, hg.2.2.2⟩

/-- The iterator constructed at a column `a < W` of a well-formed row that is no
trailer. -/
theorem ROW.Inv.glyphIter {r : ROW} (h : r.Inv) (a : Nat) (ha : a < r.columnCount)
    (hta : wordIsTrailer (r.charOffsets.getD a 0) = false) :
    GlyphIter r (RowTextIterator.new r.chars r.charOffsets a)
      ∧ (RowTextIterator.new r.chars r.charOffsets a).beg = a
      ∧ a < (RowTextIterator.new r.chars r.charOffsets a).fin := by
  obtain ⟨n, hn, hnW, htn, hK, hg, hlt⟩ := h.glyph_next a ha hta
  have e0 : wordOffset (r.charOffsets.getD a 0) = r.charOffsets.getD a 0 :=
    (h.noTrailer_le a (by omega) hta).2
  have e1 : wordOffset (r.charOffsets.getD n 0) = r.charOffsets.getD n 0 :=
    (h.noTrailer_le n hnW htn).2
  have hfin : (RowTextIterator.new r.chars r.charOffsets a).fin = n := hK
  have hbeg : (RowTextIterator.new r.chars r.charOffsets a).beg = a := rfl
  have htext : (RowTextIterator.new r.chars r.charOffsets a).Text
      = (r.chars.drop (r.charOffsets.getD a 0)).take
          (r.charOffsets.getD n 0 - r.charOffsets.getD a 0) := by
    simp only [RowTextIterator.Text, hfin, hbeg]
    have hc : (RowTextIterator.new r.chars r.charOffsets a).chars = r.chars := rfl
    have ho : (RowTextIterator.new r.chars r.charOffsets a).charOffsets = r.charOffsets := rfl
    rw [hc, ho, e0, e1, if_pos (Nat.le_of_lt hlt)]
  refine ⟨⟨rfl, rfl, ha, hta, ?_, ?_, ?_, ?_, ?_⟩, rfl, ?_⟩
  · rw [hfin]; exact htn
  · rw [hfin]; exact hnW
  · rw [hfin, hbeg]; exact hn
  · rw [htext, hfin, hbeg]
  · rw [htext, hbeg, hg]
  · rw [hfin]
    rcases hn with hn | ⟨hn, _⟩ <;> omega

theorem sum_cons_int (x : Int) (l : List Int) : (x :: l).sum = x + l.sum := List.sum_cons

/-- The traversal of a well-formed row from a column `a` that is no trailer: it
reaches `End()` within `W - a + 1` steps, the states it visits stand at glyph
boundaries, their spans add up to `W - a`, their texts concatenate to the text from
the offset of `a` on, every column from `a` on is covered by one of them, and each
state starts where the spans of the states before it end. -/
theorem ROW.Inv.iterate_spec {r : ROW} (h : r.Inv) : ∀ (k a : Nat), r.columnCount - a ≤ k →
    a ≤ r.columnCount → wordIsTrailer (r.charOffsets.getD a 0) = false →
    ∃ l, (∀ fuel, k < fuel →
          iterateFrom r.End fuel (RowTextIterator.new r.chars r.charOffsets a) = some l)
      ∧ (∀ it, it ∈ l → GlyphIter r it ∧ a ≤ it.beg)
      ∧ (l.map RowTextIterator.Cols).sum = (r.columnCount : Int) - (a : Int)
      ∧ (l.map RowTextIterator.Text).flatten
          = (r.chars.drop (r.charOffsets.getD a 0)).take (r._charSize - r.charOffsets.getD a 0)
      ∧ (∀ c, a ≤ c → c < r.columnCount → ∃ it, it ∈ l ∧ it.beg ≤ c ∧ c < it.fin)
      ∧ (∀ j it, l[j]? = some it →
          (it.beg : Int) = (a : Int) + ((l.take j).map RowTextIterator.Cols).sum) := by
  have hEnd : r.End.beg = r.columnCount := rfl
  have hstop : ∀ fuel, 0 < fuel →
      iterateFrom r.End fuel (RowTextIterator.new r.chars r.charOffsets r.columnCount)
        = some [] := by
    intro fuel hf
    obtain ⟨f, rfl⟩ : ∃ f, fuel = f + 1 := ⟨fuel - 1, by omega⟩
    simp only [iterateFrom, RowTextIterator.eq]
    rw [if_pos (by rw [hEnd]; exact decide_eq_true rfl)]
  have hnil : ∀ k, ∃ l, (∀ fuel, k < fuel →
          iterateFrom r.End fuel (RowTextIterator.new r.chars r.charOffsets r.columnCount)
            = some l)
      ∧ (∀ it, it ∈ l → GlyphIter r it ∧ r.columnCount ≤ it.beg)
      ∧ (l.map RowTextIterator.Cols).sum = (r.columnCount : Int) - (r.columnCount : Int)
      ∧ (l.map RowTextIterator.Text).flatten
          = (r.chars.drop (r.charOffsets.getD r.columnCount 0)).take
              (r._charSize - r.charOffsets.getD r.columnCount 0)
      ∧ (∀ c, r.columnCount ≤ c → c < r.columnCount → ∃ it, it ∈ l ∧ it.beg ≤ c ∧ c < it.fin)
      ∧ (∀ j it, l[j]? = some it →
          (it.beg : Int)
            = (r.columnCount : Int) + ((l.take j).map RowTextIterator.Cols).sum) := by
    intro k
    refine ⟨[], fun fuel hf => hstop fuel (by omega), ?_, ?_, ?_, ?_, ?_⟩
    · intro it hit; exact absurd hit (List.not_mem_nil _)
    · simp
    · simp [ROW._charSize]
    · intro c h1 h2; omega
    · intro j it hj; simp at hj
  intro k
  induction k with
  | zero =>
    intro a hk ha _
    have : a = r.columnCount := by omega
    subst this
    exact hnil 0
  | succ k ih =>
    intro a hk ha hta
    rcases Nat.eq_or_lt_of_le ha with he | hlt
    · subst he
      exact hnil (k + 1)
    · obtain ⟨hG, hbeg, hfin⟩ := h.glyphIter a hlt hta
      obtain ⟨it0, hit0⟩ : ∃ it0, it0 = RowTextIterator.new r.chars r.charOffsets a := ⟨_, rfl⟩
      rw [← hit0] at hG hbeg hfin
      have hnext : it0.next = RowTextIterator.new r.chars r.charOffsets it0.fin := by
        rw [hit0]; rfl
      obtain ⟨l, h1, h2, h3, h4, h5, h6⟩ := ih it0.fin (by omega) hG.fin_le hG.finNoTrailer
      have hmono : r.charOffsets.getD it0.fin 0 ≤ r._charSize :=
        (h.noTrailer_le it0.fin hG.fin_le hG.finNoTrailer).1
      have hlt2 : r.charOffsets.getD a 0 ≤ r.charOffsets.getD it0.fin 0 :=
        Nat.le_of_lt (h.noTrailer_lt a it0.fin hfin hG.fin_le hta hG.finNoTrailer)
      refine ⟨it0 :: l, ?_, ?_, ?_, ?_, ?_, ?_⟩
      · intro fuel hf
        obtain ⟨f, rfl⟩ : ∃ f, fuel = f + 1 := ⟨fuel - 1, by omega⟩
        rw [← hit0]
        simp only [iterateFrom, RowTextIterator.eq]
        rw [if_neg (by rw [hEnd, hbeg]; simp; omega), hnext, h1 f (by omega)]
        rfl
      · intro it hit
        rcases List.mem_cons.1 hit with he | hm
        · subst he
          exact ⟨hG, by omega⟩
        · obtain ⟨g1, g2⟩ := h2 it hm
          exact ⟨g1, by omega⟩
      · rw [List.map_cons, sum_cons_int, h3]
        simp only [RowTextIterator.Cols, hbeg]
        omega
      · rw [List.map_cons, List.flatten_cons, h4, hG.text, hbeg]
        exact slice_append _ _ _ _ hlt2 hmono
      · intro c hc hcW
        by_cases hcf : c < it0.fin
        · exact ⟨it0, List.mem_cons_self _ _, by omega, hcf⟩
        · obtain ⟨it, hm, g1, g2⟩ := h5 c (by omega) hcW
          exact ⟨it, List.mem_cons_of_mem _ hm, g1, g2⟩
      · intro j it hj
        cases j with
        | zero =>
          simp only [List.getElem?_cons_zero, Option.some.injEq] at hj
          subst hj
          simp [hbeg]
        | succ j =>
          simp only [List.getElem?_cons_succ] at hj
          have := h6 j it hj
          rw [this, List.take_succ_cons, List.map_cons, sum_cons_int]
          simp only [RowTextIterator.Cols, hbeg]
          omega

theorem sampleRowEmoji_reachable : Reachable sampleEnv sampleRowEmoji :=
  Reachable.replace (ROW.new 4 default) 0 4 sampleEmojiText sampleRowEmoji 4 []
    (Reachable.new 4 default (by decide)) (by rfl) (bound_of_eval _ _ (by rfl))

/-! ## C12: the iterator covers the row -/

/-- On a well-formed row the traversal from `Begin()` reaches `End()` within `W + 1`
steps; the spans of the glyphs it yields are positive and sum to `W`, each glyph
starts where the glyphs before it end, and the texts concatenate to `GetText()`. -/
theorem ROW.Inv.iterate_total {r : ROW} (hinv : r.Inv) :
    ∃ l, (∀ fuel, r.columnCount < fuel → r.iterate fuel = some l)
      ∧ (l.map RowTextIterator.Cols).sum = (r.columnCount : Int)
      ∧ (∀ j it, l[j]? = some it →
          (it.beg : Int) = ((l.take j).map RowTextIterator.Cols).sum ∧ 0 < it.Cols)
      ∧ (l.map RowTextIterator.Text).flatten = r.GetText := by
  have h0 := hinv.getD_zero
  obtain ⟨l, h1, h2, h3, h4, _, h6⟩ := hinv.iterate_spec r.columnCount 0 (by omega)
    (Nat.zero_le _) (by rw [h0]; exact wordIsTrailer_of_le (by omega))
  refine ⟨l, h1, by simpa using h3, ?_, ?_⟩
  · intro j it hj
    have hb := h6 j it hj
    have hG := (h2 it (List.getElem?_mem hj)).1
    refine ⟨by simpa using hb, ?_⟩
    simp only [RowTextIterator.Cols]
    rcases hG.span with hsp | ⟨hsp, _⟩ <;> omega
  · rw [h4, h0, List.drop_zero, Nat.sub_zero]
    rfl

/-- C12, amended: for every row of width `W` reachable within the 15-bit
limit, the traversal from `Begin()` reaches `End()` within `W + 1` steps; the spans
`Cols()` of the glyphs it yields are positive and sum to `W`, each glyph starts at
the column where the spans of the glyphs before it end (the first at column 0), and
the texts `Text()` it yields concatenate to `GetText()`.  In particular this holds
for the row left by `ReplaceCharacters(0, W, text)` on a fresh row of width
`W <= 32767`, for every text with which the call returns and stays within the
limit. -/
theorem C12_iterator_total (env : Env) (hs : env.SegSound) (r : ROW) (h : Reachable env r) :
    (∃ l, (∀ fuel, r.columnCount < fuel → r.iterate fuel = some l)
      ∧ (l.map RowTextIterator.Cols).sum = (r.columnCount : Int)
      ∧ (∀ j it, l[j]? = some it →
          (it.beg : Int) = ((l.take j).map RowTextIterator.Cols).sum ∧ 0 < it.Cols)
      ∧ (l.map RowTextIterator.Text).flatten = r.GetText)
    ∧ ∀ (W : Nat) (fill : TextAttribute) (text : List Nat) (r' : ROW) (col : Nat)
        (rest : List Nat), W ≤ 32767 →
      (ROW.new W fill).ReplaceCharacters env 0 (W : Int) text = Outcome.returned r' col rest →
      (∀ v, replaceLocals env (ROW.new W fill) ((ROW.new W fill)._clampedColumnInclusive 0) text
          = some v → v.textLength (ROW.new W fill) ≤ 32767) →
      r'.columnCount = W
        ∧ ∃ l, (∀ fuel, W < fuel → r'.iterate fuel = some l)
          ∧ (l.map RowTextIterator.Cols).sum = (W : Int)
          ∧ (∀ j it, l[j]? = some it →
              (it.beg : Int) = ((l.take j).map RowTextIterator.Cols).sum ∧ 0 < it.Cols)
          ∧ (l.map RowTextIterator.Text).flatten = r'.GetText := by
  refine ⟨(h.inv hs).iterate_total, ?_⟩
  intro W fill text r' col rest hW hcall hb
  have hr : Reachable env r' :=
    Reachable.replace (ROW.new W fill) 0 (W : Int) text r' col rest (Reachable.new W fill hW)
      hcall hb
  have hc : r'.columnCount = W := by
    rcases ReplaceCharacters_returned env _ 0 (W : Int) text r' col rest hs
      (ROW.new_inv W fill hW) hcall hb with ⟨_, h1, _, _⟩ | ⟨_, _, v, _, _, hWS, _, _⟩
    · rw [h1]
      rfl
    · rw [hWS.columnCount]
      rfl
  have ht := (hr.inv hs).iterate_total
  rw [hc] at ht
  exact ⟨hc, ht⟩

theorem C12_iterator_total_witness :
    sampleEnv.SegSound ∧ Reachable sampleEnv sampleRowEmoji
      ∧ (∃ l, (∀ fuel, sampleRowEmoji.columnCount < fuel → sampleRowEmoji.iterate fuel = some l)
        ∧ (l.map RowTextIterator.Cols).sum = (sampleRowEmoji.columnCount : Int)
        ∧ (∀ j it, l[j]? = some it →
            (it.beg : Int) = ((l.take j).map RowTextIterator.Cols).sum ∧ 0 < it.Cols)
        ∧ (l.map RowTextIterator.Text).flatten = sampleRowEmoji.GetText)
      ∧ (6 : Nat) ≤ 32767
      ∧ (ROW.new 6 default).ReplaceCharacters sampleEnv 0 ((6 : Nat) : Int)
            [0x4e00, 0x4e01, 0x4e02] = Outcome.returned sampleRowWide 6 []
      ∧ (∀ v, replaceLocals sampleEnv (ROW.new 6 default)
            ((ROW.new 6 default)._clampedColumnInclusive 0) [0x4e00, 0x4e01, 0x4e02] = some v →
          v.textLength (ROW.new 6 default) ≤ 32767)
      ∧ sampleRowWide.columnCount = 6
      ∧ ∃ l, (∀ fuel, 6 < fuel → sampleRowWide.iterate fuel = some l)
        ∧ (l.map RowTextIterator.Cols).sum = ((6 : Nat) : Int)
        ∧ (∀ j it, l[j]? = some it →
            (it.beg : Int) = ((l.take j).map RowTextIterator.Cols).sum ∧ 0 < it.Cols)
        ∧ (l.map RowTextIterator.Text).flatten = sampleRowWide.GetText :=
  ⟨sampleEnv_segSound, sampleRowEmoji_reachable,
    (C12_iterator_total sampleEnv sampleEnv_segSound sampleRowEmoji sampleRowEmoji_reachable).1,
    by decide, by rfl, bound_of_eval _ _ (by rfl),
    (C12_iterator_total sampleEnv sampleEnv_segSound sampleRowEmoji sampleRowEmoji_reachable).2
      6 default [0x4e00, 0x4e01, 0x4e02] sampleRowWide 6 [] (by decide) (by rfl)
      (bound_of_eval _ _ (by rfl))⟩

/-- The witness of C12 in numbers: the row of width 4 written with `a`, U+1F600, `b`
yields the glyphs `a` (1 column), U+1F600 (2 columns) and `b` (1 column). -/
theorem sampleRowEmoji_iterate :
    (sampleRowEmoji.iterate 5).map
        (fun l => l.map (fun it => (it.beg, it.Cols, it.Text, it.DbcsAttr)))
      = some [(0, 1, [0x61], DbcsAttribute.Single),
          (1, 2, [0xd83d, 0xde00], DbcsAttribute.Leading), (3, 1, [0x62], DbcsAttribute.Single)] := by
  rfl

/-! ## C20: `GlyphAt` and the iterator -/

/-- A call that returns and is no no-op has passed the segmenter self-check on the
written buffer. -/
theorem ReplaceCharacters_parts (env : Env) (r : ROW) (columnBegin columnEnd : Int)
    (text : List Nat) (r' : ROW) (col : Nat) (rest : List Nat)
    (h : r.ReplaceCharacters env columnBegin columnEnd text = Outcome.returned r' col rest)
    (hop : ¬ (r._clampedColumnInclusive columnEnd ≤ r._clampedColumnInclusive columnBegin
      ∨ text = [])) :
    ∃ v bs, replaceLocals env r (r._clampedColumnInclusive columnBegin) text = some v
      ∧ replaceWrite r text v = some r' ∧ env.seg r'.chars = some bs := by
  simp only [ROW.ReplaceCharacters] at h
  rw [if_neg hop] at h
  split at h
  · exact Outcome.noConfusion h
  · rename_i v hv
    split at h
    · exact Outcome.noConfusion h
    · rename_i r'' hw
      split at h
      · exact Outcome.noConfusion h
      · rename_i bs hbs
        injection h with h1 h2 h3
        subst h1
        exact ⟨v, bs, hv, hw, hbs⟩

theorem ReplaceCharacters_of_parts (env : Env) (r : ROW) (columnBegin columnEnd : Int)
    (text : List Nat) (r' : ROW) (v : Locals) (bs : List Nat)
    (hop : ¬ (r._clampedColumnInclusive columnEnd ≤ r._clampedColumnInclusive columnBegin
      ∨ text = []))
    (hv : replaceLocals env r (r._clampedColumnInclusive columnBegin) text = some v)
    (hw : replaceWrite r text v = some r') (hbs : env.seg r'.chars = some bs) :
    r.ReplaceCharacters env columnBegin columnEnd text
      = Outcome.returned r' v.col3 (text.drop v.scan.it) := by
  simp only [ROW.ReplaceCharacters]
  rw [if_neg hop]
  simp only [hv, hw, hbs]

theorem range'_getD_add (s n i : Nat) (h : i < n) : (List.range' s n).getD i 0 = s + i := by
  rw [List.getD_eq_getElem?_getD, List.getElem?_range' s 1 h]
  simp

theorem Cells.length_le_twice {a b : Nat} {cs : List Nat} (h : Cells a cs b) :
    cs.length + 2 * a ≤ 2 * b := by
  induction h with
  | nil a => simp
  | narrow a k cs b hk _ ih => simp only [List.length_cons]; omega
  | wide a k cs b hk _ ih => simp only [List.length_cons]; omega

/-- A well-formed row has at most 65534 columns. -/
theorem ROW.Inv.columnCount_le {r : ROW} (h : r.Inv) : r.columnCount ≤ 65534 := by
  have h1 := h.cells.length_le_twice
  have h2 := h.bound
  have h3 : (r.charOffsets.take r.columnCount).length = r.columnCount := by
    simp [h.len]
  omega

/-- The state that `Reset` produces, field by field. -/
theorem ROW.Reset_state (r : ROW) (fill : TextAttribute)
    (hlen : r.charOffsets.length = r.columnCount + 1) (hw : r.columnCount ≤ 65535) :
    r.Reset fill = ROW.new r.columnCount fill
      ∧ (r.Reset fill).columnCount = r.columnCount
      ∧ (r.Reset fill).GetText = List.replicate r.columnCount UNICODE_SPACE
      ∧ (r.Reset fill).chars = List.replicate r.columnCount UNICODE_SPACE
      ∧ (r.Reset fill).charOffsets = List.range' 0 (r.columnCount + 1)
      ∧ (∀ i, i ≤ r.columnCount → (r.Reset fill).charOffsets.getD i 0 = i)
      ∧ (r.Reset fill).charsHeap = false
      ∧ (r.Reset fill).wrapForced = false
      ∧ (r.Reset fill).doubleBytePadded = false
      ∧ (r.Reset fill).lineRendition = LineRendition.SingleWidth
      ∧ (r.Reset fill).attr = rleMake r.columnCount fill
      ∧ rleTotal (r.Reset fill).attr = r.columnCount := by
  have hR := ROW.Reset_eq_new r fill hlen hw
  have hO := ROW.new_offs r.columnCount fill hw
  have hC := ROW.new_chars r.columnCount fill
  have hg : ∀ i, i ≤ r.columnCount → (List.range' 0 (r.columnCount + 1)).getD i 0 = i :=
    fun i hi => range'_getD _ _ (by omega)
  rw [hR]
  refine ⟨rfl, rfl, ?_, hC, hO, ?_, rfl, rfl, rfl, rfl, rfl, ?_⟩
  · simp only [ROW.GetText, ROW._charSize, hO, hC]
    have hWc : (ROW.new r.columnCount fill).columnCount = r.columnCount := rfl
    rw [hWc, hg _ (Nat.le_refl _), List.take_replicate, Nat.min_self]
  · intro i hi
    rw [hO]; exact hg i hi
  · have ha : (ROW.new r.columnCount fill).attr = rleMake r.columnCount fill := rfl
    rw [ha]
    simp only [rleMake, rleTotal]
    split
    · rename_i h0; simp [h0]
    · simp

/-- With an allocator that never fails, `_resizeCharsAlloc` is `_resizeChars`. -/
theorem ROW._resizeCharsAlloc_true (r : ROW) (colExtEnd chExtBeg chExtEnd chExtEndNew : Nat) :
    r._resizeCharsAlloc (fun _ => true) colExtEnd chExtBeg chExtEnd chExtEndNew
      = r._resizeChars colExtEnd chExtBeg chExtEnd chExtEndNew := by
  simp only [ROW._resizeCharsAlloc, ROW._resizeChars, if_true]

/-- With an allocator that never fails, `ReplaceCharactersAlloc` is `ReplaceCharacters`. -/
theorem ROW.ReplaceCharactersAlloc_true (env : Env) (r : ROW) (columnBegin columnEnd : Int)
    (chars : List Nat) :
    r.ReplaceCharactersAlloc env (fun _ => true) columnBegin columnEnd chars
      = r.ReplaceCharacters env columnBegin columnEnd chars := by
  have hw : ∀ v, replaceWriteAlloc (fun _ => true) r chars v = replaceWrite r chars v := by
    intro v
    simp only [replaceWriteAlloc, replaceWrite, ROW._resizeCharsAlloc_true]
  simp only [ROW.ReplaceCharactersAlloc, ROW.ReplaceCharacters, hw]

/-- A call that ends with an exception leaves the row that `Reset` with the default
attribute produces, whatever raised the exception. -/
theorem ROW.ReplaceCharactersAlloc_thrown (env : Env) (alloc : Nat → Bool) (r : ROW)
    (columnBegin columnEnd : Int) (chars : List Nat) (row : ROW)
    (h : r.ReplaceCharactersAlloc env alloc columnBegin columnEnd chars = Outcome.thrown row) :
    row = r.Reset default := by
  simp only [ROW.ReplaceCharactersAlloc] at h
  split at h
  · exact Outcome.noConfusion h
  · split at h
    · injection h with e; exact e.symm
    · split at h
      · injection h with e; exact e.symm
      · split at h
        · injection h with e; exact e.symm
        · exact Outcome.noConfusion h

/-- With a segmenter that refuses every text, every call that is no no-op ends with
an exception: at the latest the self-check on the written buffer fails. -/
theorem ROW.ReplaceCharactersAlloc_refused (env : Env) (alloc : Nat → Bool) (r : ROW)
    (columnBegin columnEnd : Int) (chars : List Nat) (hall : ∀ s, env.seg s = none)
    (hlt : r._clampedColumnInclusive columnBegin < r._clampedColumnInclusive columnEnd)
    (hne : chars ≠ []) :
    r.ReplaceCharactersAlloc env alloc columnBegin columnEnd chars
      = Outcome.thrown (r.Reset default) := by
  simp only [ROW.ReplaceCharactersAlloc]
  rw [if_neg (by
    intro hc
    rcases hc with hc | hc
    · omega
    · exact hne hc)]
  split
  · rfl
  · split
    · rfl
    · simp only [hall]

/-- A text that begins with a code unit that is not ASCII and that the segmenter
refuses makes the scan fail. -/
theorem scanText_refused (env : Env) (r : ROW) (colBeg ch1 t0 : Nat) (ts : List Nat)
    (hcb : colBeg < r.columnCount) (ht0 : 0x80 ≤ t0) (hseg : env.seg (t0 :: ts) = none) :
    scanText env r colBeg ch1 (t0 :: ts) = none := by
  have e1 : 0 < min (r.columnCount - colBeg) (t0 :: ts).length := by
    simp only [List.length_cons]; omega
  have e2 : ((t0 :: ts).take (min (r.columnCount - colBeg)
      (t0 :: ts).length)).takeWhile (fun ch => !decide (0x80 ≤ ch)) = [] := by
    obtain ⟨m, hm⟩ : ∃ m, min (r.columnCount - colBeg) (t0 :: ts).length = m + 1 :=
      ⟨_, (Nat.succ_pred_eq_of_pos e1).symm⟩
    rw [hm]
    simp [List.takeWhile, ht0]
  simp only [scanText, e2, List.length_nil, asciiPass]
  rw [if_pos (by omega)]
  simp only [backOff, scanUnicode, ne_eq, not_true_eq_false, if_false, Nat.sub_zero,
    List.drop_zero, hseg]
  split <;> rfl

/-- When the reallocating branch of `_resizeChars` is reached and the allocator
fails, the write fails. -/
theorem replaceWriteAlloc_refused (alloc : Nat → Bool) (r : ROW) (chars : List Nat) (v : Locals)
    (hall : ∀ n, alloc n = false) (hne : v.ch3new ≠ v.ch3)
    (hgrow : r.chars.length
      < sz (({ r with charOffsets := v.scan.offs } : ROW)._charSize + szSub v.ch3new v.ch3)) :
    replaceWriteAlloc alloc r chars v = none := by
  have hgrow2 : ¬ sz (v.scan.offs.getD r.columnCount 0 + szSub v.ch3new v.ch3)
      ≤ r.chars.length := by
    simp only [ROW._charSize] at hgrow
    omega
  simp only [replaceWriteAlloc, ROW._resizeCharsAlloc, ROW._charSize, if_pos hne, if_neg hgrow2,
    hall, Bool.false_eq_true, if_false, ite_self]

/-- C14 as stated, at a row filled with another attribute and at a width past the
15-bit limit.  On a row of width 6 filled with the attribute `A`, a call that the
segmenter refuses leaves one run of count 6 holding the default attribute, not the
fill attribute `A` of the row.  On a row of width 32768 the row left on the error
path has the word 32768 at `offsets[W]`, which reads as a trailer with offset 0, so
the row invariants do not hold there. -/
theorem C14_counterexample :
    (ROW.new 6 sampleAttrA).attr = [(sampleAttrA, 6)]
      ∧ sampleAttrA ≠ default
      ∧ (∃ row, (ROW.new 6 sampleAttrA).ReplaceCharacters sampleRefusingEnv 0 6 [0x4e00]
            = Outcome.thrown row
          ∧ row.attr = [(default, 6)]
          ∧ row.attr ≠ ((ROW.new 6 sampleAttrA).Reset sampleAttrA).attr)
      ∧ ∃ row, (ROW.new 32768 default).ReplaceCharacters sampleRefusingEnv ((0 : Nat) : Int)
            ((1 : Nat) : Int) [0x4e00] = Outcome.thrown row
          ∧ row = (ROW.new 32768 default).Reset default
          ∧ row.columnCount = 32768
          ∧ row.charOffsets.getD 32768 0 = 32768
          ∧ row._uncheckedIsTrailer row.columnCount = true
          ∧ row._uncheckedCharOffset row.columnCount = 0
          ∧ ¬ row.Inv := by
  have hO := ROW.new_offs 32768 default (by decide)
  have hWc : (ROW.new 32768 default).columnCount = 32768 := rfl
  have hst := ROW.Reset_state (ROW.new 32768 default) default
    (by rw [hO, hWc, List.length_range']) (by rw [hWc]; decide)
  have h6 := hst.2.2.2.2.2.1 32768 (by rw [hWc])
  have hc : ((ROW.new 32768 default).Reset default).columnCount = 32768 := hst.2.1
  have hcall := ROW.ReplaceCharactersAlloc_refused sampleRefusingEnv (fun _ => true)
    (ROW.new 32768 default) ((0 : Nat) : Int) ((1 : Nat) : Int) [0x4e00] (fun _ => rfl)
    (by
      rw [ROW._clampedColumnInclusive_of_le _ 0 (by rw [hWc]; decide),
        ROW._clampedColumnInclusive_of_le _ 1 (by rw [hWc]; decide)]
      decide)
    (List.cons_ne_nil _ _)
  rw [ROW.ReplaceCharactersAlloc_true] at hcall
  refine ⟨by rfl, by decide, ⟨_, by rfl, by rfl, by decide⟩, _, hcall, rfl, hc, h6, ?_, ?_, ?_⟩
  · rw [hc]
    simp only [ROW._uncheckedIsTrailer, h6]
    decide
  · rw [hc]
    simp only [ROW._uncheckedCharOffset, h6]
    decide
  · intro hinv
    have hb := hinv.bound
    simp only [ROW._charSize, hc, h6] at hb
    omega

/-- C14, amended: when a `ReplaceCharacters` call on a row of `W <= 65535` columns
(an offsets arena of `W + 1` words; any row state) ends with an exception, whether
the segmenter refused the text, `gsl::narrow` failed or the heap block could not be
allocated, the row is left exactly in the state that `Reset(TextAttribute{})`
produces: `W` spaces on the inline buffer, `offsets[i] = i` for every `i` in
`[0, W]`, no heap spill, `wrap_forced` and `dbcs_padded` false, the rendition
`SingleWidth`, and one attribute run of count `W` holding the default attribute
(whatever attribute the row was filled with).  For `W <= 32767` this state satisfies
the row invariant and has no trailer flags.  A call that is no no-op does end with
an exception when the segmenter refuses every text, when it refuses a text that
begins with a code unit that is not ASCII, and when the text buffer has to grow and
the allocator fails.  With an allocator that never fails the operation is
`ReplaceCharacters`. -/
theorem C14_error_path (env : Env) (alloc : Nat → Bool) (r : ROW)
    (hlen : r.charOffsets.length = r.columnCount + 1) (hw : r.columnCount ≤ 65535)
    (columnBegin columnEnd : Int) (chars : List Nat) :
    r.ReplaceCharactersAlloc env (fun _ => true) columnBegin columnEnd chars
        = r.ReplaceCharacters env columnBegin columnEnd chars
    ∧ (∀ row, r.ReplaceCharactersAlloc env alloc columnBegin columnEnd chars
          = Outcome.thrown row →
      row = r.Reset default
        ∧ row = ROW.new r.columnCount default
        ∧ row.columnCount = r.columnCount
        ∧ row.GetText = List.replicate r.columnCount UNICODE_SPACE
        ∧ row.chars = List.replicate r.columnCount UNICODE_SPACE
        ∧ (∀ i, i ≤ r.columnCount → row.charOffsets.getD i 0 = i)
        ∧ row.charsHeap = false ∧ row.wrapForced = false ∧ row.doubleBytePadded = false
        ∧ row.lineRendition = LineRendition.SingleWidth
        ∧ row.attr = rleMake r.columnCount default
        ∧ rleTotal row.attr = r.columnCount
        ∧ (r.columnCount ≤ 32767 →
            row.Inv ∧ ∀ i, i ≤ r.columnCount → row._uncheckedIsTrailer i = false))
    ∧ ((∀ s, env.seg s = none) →
        r._clampedColumnInclusive columnBegin < r._clampedColumnInclusive columnEnd →
        chars ≠ [] →
        r.ReplaceCharactersAlloc env alloc columnBegin columnEnd chars
          = Outcome.thrown (r.Reset default))
    ∧ (∀ t0 ts, chars = t0 :: ts → 0x80 ≤ t0 → env.seg chars = none →
        r._clampedColumnInclusive columnBegin < r._clampedColumnInclusive columnEnd →
        r.ReplaceCharactersAlloc env alloc columnBegin columnEnd chars
          = Outcome.thrown (r.Reset default))
    ∧ (∀ v, (∀ n, alloc n = false) →
        r._clampedColumnInclusive columnBegin < r._clampedColumnInclusive columnEnd →
        chars ≠ [] →
        replaceLocals env r (r._clampedColumnInclusive columnBegin) chars = some v →
        v.ch3new ≠ v.ch3 →
        r.chars.length
          < sz (({ r with charOffsets := v.scan.offs } : ROW)._charSize
              + szSub v.ch3new v.ch3) →
        r.ReplaceCharactersAlloc env alloc columnBegin columnEnd chars
          = Outcome.thrown (r.Reset default)) := by
  have hst := ROW.Reset_state r default hlen hw
  refine ⟨ROW.ReplaceCharactersAlloc_true env r columnBegin columnEnd chars, ?_,
    ROW.ReplaceCharactersAlloc_refused env alloc r columnBegin columnEnd chars, ?_, ?_⟩
  · intro row hrow
    have hrr := ROW.ReplaceCharactersAlloc_thrown env alloc r columnBegin columnEnd chars row hrow
    subst hrr
    obtain ⟨a1, a2, a3, a4, a5, a6, a7, a8, a9, a10, a11, a12⟩ := hst
    refine ⟨rfl, a1, a2, a3, a4, a6, a7, a8, a9, a10, a11, a12, ?_⟩
    intro hW
    refine ⟨by rw [a1]; exact ROW.new_inv r.columnCount default hW, ?_⟩
    intro i hi
    simp only [ROW._uncheckedIsTrailer, a6 i hi]
    exact wordIsTrailer_of_le (by omega)
  · intro t0 ts hch ht0 hseg hlt
    have hcw := r._clampedColumnInclusive_le columnEnd
    subst hch
    simp only [ROW.ReplaceCharactersAlloc]
    rw [if_neg (by
      intro hc
      rcases hc with hc | hc
      · omega
      · exact List.cons_ne_nil _ _ hc)]
    have hcb : r._clampedColumnInclusive columnBegin < r.columnCount := by omega
    simp only [replaceLocals,
      scanText_refused env r (r._clampedColumnInclusive columnBegin) _ t0 ts hcb ht0 hseg]
  · intro v hall hlt hne hv hch hgrow
    simp only [ROW.ReplaceCharactersAlloc]
    rw [if_neg (by
      intro hc
      rcases hc with hc | hc
      · omega
      · exact hne hc)]
    simp only [hv, replaceWriteAlloc_refused alloc r chars v hall hch hgrow]

theorem sampleRefusingEnv_segSound : sampleRefusingEnv.SegSound := by
  intro s bs h
  exact Option.noConfusion h

theorem C14_error_path_witness :
    (ROW.new 6 sampleAttrA).charOffsets.length = (ROW.new 6 sampleAttrA).columnCount + 1
      ∧ (ROW.new 6 sampleAttrA).columnCount ≤ 65535
      ∧ (ROW.new 6 sampleAttrA).ReplaceCharactersAlloc sampleRefusingEnv (fun _ => true) 0 6
            [0x4e00] = Outcome.thrown (ROW.new 6 default)
      ∧ (ROW.new 6 default = (ROW.new 6 sampleAttrA).Reset default
          ∧ ROW.new 6 default = ROW.new (ROW.new 6 sampleAttrA).columnCount default
          ∧ (ROW.new 6 default).columnCount = (ROW.new 6 sampleAttrA).columnCount
          ∧ (ROW.new 6 default).GetText
              = List.replicate (ROW.new 6 sampleAttrA).columnCount UNICODE_SPACE
          ∧ (ROW.new 6 default).chars
              = List.replicate (ROW.new 6 sampleAttrA).columnCount UNICODE_SPACE
          ∧ (∀ i, i ≤ (ROW.new 6 sampleAttrA).columnCount →
              (ROW.new 6 default).charOffsets.getD i 0 = i)
          ∧ (ROW.new 6 default).charsHeap = false ∧ (ROW.new 6 default).wrapForced = false
          ∧ (ROW.new 6 default).doubleBytePadded = false
          ∧ (ROW.new 6 default).lineRendition = LineRendition.SingleWidth
          ∧ (ROW.new 6 default).attr = rleMake (ROW.new 6 sampleAttrA).columnCount default
          ∧ rleTotal (ROW.new 6 default).attr = (ROW.new 6 sampleAttrA).columnCount
          ∧ ((ROW.new 6 sampleAttrA).columnCount ≤ 32767 →
              (ROW.new 6 default).Inv ∧ ∀ i, i ≤ (ROW.new 6 sampleAttrA).columnCount →
                (ROW.new 6 default)._uncheckedIsTrailer i = false))
      ∧ (ROW.new 4 sampleAttrA).charOffsets.length = (ROW.new 4 sampleAttrA).columnCount + 1
      ∧ (ROW.new 4 sampleAttrA).columnCount ≤ 65535
      ∧ (∀ n, (fun (_ : Nat) => false) n = false)
      ∧ (ROW.new 4 sampleAttrA)._clampedColumnInclusive 0
          < (ROW.new 4 sampleAttrA)._clampedColumnInclusive 4
      ∧ sampleCombining ≠ []
      ∧ (∃ v, replaceLocals sampleEnv (ROW.new 4 sampleAttrA)
            ((ROW.new 4 sampleAttrA)._clampedColumnInclusive 0) sampleCombining = some v
          ∧ v.ch3new ≠ v.ch3
          ∧ (ROW.new 4 sampleAttrA).chars.length
              < sz (({ ROW.new 4 sampleAttrA with charOffsets := v.scan.offs } : ROW)._charSize
                  + szSub v.ch3new v.ch3))
      ∧ (ROW.new 4 sampleAttrA).ReplaceCharactersAlloc sampleEnv (fun _ => false) 0 4
            sampleCombining = Outcome.thrown ((ROW.new 4 sampleAttrA).Reset default)
      ∧ (ROW.new 4 sampleAttrA).ReplaceCharactersAlloc sampleEnv (fun _ => true) 0 4
            sampleCombining
          = Outcome.returned
              ((ROW.new 4 sampleAttrA).ReplaceCharacters sampleEnv 0 4 sampleCombining).row 2 [] :=
  ⟨by rfl, by decide, by rfl,
    (C14_error_path sampleRefusingEnv (fun _ => true) (ROW.new 6 sampleAttrA) (by rfl)
      (by decide) 0 6 [0x4e00]).2.1 (ROW.new 6 default) (by rfl),
    by rfl, by decide, fun _ => rfl, by decide, by decide,
    ⟨(replaceLocals sampleEnv (ROW.new 4 sampleAttrA) 0 sampleCombining).get (by rfl),
      by rfl, by decide, by decide⟩,
    (C14_error_path sampleEnv (fun _ => false) (ROW.new 4 sampleAttrA) (by rfl)
      (by decide) 0 4 sampleCombining).2.2.2.2
      ((replaceLocals sampleEnv (ROW.new 4 sampleAttrA) 0 sampleCombining).get (by rfl))
      (fun _ => rfl) (by decide) (by decide) (by rfl) (by decide) (by decide),
    by rfl⟩

/-! ## C15: the attribute runs cover the row -/

theorem rleTotal_cons (v : TextAttribute) (n : Nat) (rest : List (TextAttribute × Nat)) :
    rleTotal ((v, n) :: rest) = n + rleTotal rest := by
  simp [rleTotal]

theorem rleExpand_length (runs : List (TextAttribute × Nat)) :
    (rleExpand runs).length = rleTotal runs := by
  induction runs with
  | nil => rfl
  | cons run rest ih =>
    obtain ⟨v, n⟩ := run
    have e : rleExpand ((v, n) :: rest) = List.replicate n v ++ rleExpand rest := by
      simp [rleExpand]
    rw [e, List.length_append, List.length_replicate, ih, rleTotal_cons]

theorem rleCompress_total (l : List TextAttribute) : rleTotal (rleCompress l) = l.length := by
  induction l with
  | nil => rfl
  | cons a rest ih =>
    simp only [rleCompress]
    split
    · rename_i hnil
      rw [hnil] at ih
      simp only [rleTotal, List.map_nil, List.sum_nil] at ih
      simp [rleTotal, ← ih]
    · rename_i b n runs hcons
      rw [hcons, rleTotal_cons] at ih
      split
      · rw [rleTotal_cons, List.length_cons]; omega
      · rw [rleTotal_cons, rleTotal_cons, List.length_cons]; omega

theorem rleReplace_total (runs runs' : List (TextAttribute × Nat)) (b e : Nat)
    (value : TextAttribute) (h : rleReplace runs b e value = some runs') :
    rleTotal runs' = rleTotal runs := by
  simp only [rleReplace] at h
  split at h
  · rename_i hbe
    injection h with h
    rw [← h, rleCompress_total]
    simp only [List.length_append, List.length_take, List.length_replicate, List.length_drop,
      rleExpand_length]
    omega
  · exact Option.noConfusion h

theorem rleTruncate_total : ∀ (runs : List (TextAttribute × Nat)) (n : Nat),
    n ≤ rleTotal runs → rleTotal (rleTruncate runs n) = n := by
  intro runs
  induction runs with
  | nil =>
    intro n hn
    simp only [rleTotal, List.map_nil, List.sum_nil] at hn
    simp [rleTruncate, rleTotal]; omega
  | cons run rest ih =>
    intro n hn
    obtain ⟨v, k⟩ := run
    rw [rleTotal_cons] at hn
    simp only [rleTruncate]
    split
    · rename_i h0; simp [rleTotal, h0]
    · split
      · simp [rleTotal]
      · rw [rleTotal_cons, ih (n - k) (by omega)]; omega

theorem rleExtend_total : ∀ (runs : List (TextAttribute × Nat)) (extra : Nat),
    runs ≠ [] → rleTotal (rleExtend runs extra) = rleTotal runs + extra := by
  intro runs
  induction runs with
  | nil => intro _ h; exact absurd rfl h
  | cons run rest ih =>
    intro extra _
    obtain ⟨v, k⟩ := run
    cases rest with
    | nil => simp [rleExtend, rleTotal]
    | cons run2 rest2 =>
      have e : rleExtend ((v, k) :: run2 :: rest2) extra
          = (v, k) :: rleExtend (run2 :: rest2) extra := by
        simp [rleExtend]
      rw [e, rleTotal_cons, rleTotal_cons, ih extra (List.cons_ne_nil _ _)]
      omega

/-- After `resize_trailing_extent(n)` the runs of a store that is not empty sum to
`n`. -/
theorem rleResize_total (runs : List (TextAttribute × Nat)) (n : Nat) (h : runs ≠ []) :
    rleTotal (rleResizeTrailingExtent runs n) = n := by
  simp only [rleResizeTrailingExtent]
  split
  · rename_i hle; exact rleTruncate_total runs n hle
  · rw [rleExtend_total runs _ h]; omega

theorem rleMake_total (n : Nat) (v : TextAttribute) : rleTotal (rleMake n v) = n := by
  simp only [rleMake]
  split
  · rename_i h0; simp [rleTotal, h0]
  · simp [rleTotal]

theorem ROW._resizeChars_attr (r r' : ROW) (a b c d : Nat)
    (h : r._resizeChars a b c d = some r') :
    r'.attr = r.attr ∧ r'.columnCount = r.columnCount := by
  simp only [ROW._resizeChars] at h
  split at h
  · injection h with h; rw [← h]; exact ⟨rfl, rfl⟩
  · split at h
    · injection h with h; rw [← h]; exact ⟨rfl, rfl⟩
    · exact Option.noConfusion h

theorem replaceWrite_attr (r r' : ROW) (chars : List Nat) (v : Locals)
    (h : replaceWrite r chars v = some r') :
    r'.attr = r.attr ∧ r'.columnCount = r.columnCount := by
  simp only [replaceWrite] at h
  split at h
  · exact Option.noConfusion h
  · rename_i r2 hr2
    injection h with h
    rw [← h]
    simp only
    split at hr2
    · have := ROW._resizeChars_attr _ r2 _ _ _ _ hr2
      exact this
    · injection hr2 with hr2
      rw [← hr2]
      exact ⟨rfl, rfl⟩

/-- Whatever a `ReplaceCharacters` call does, the row it leaves behind has the width
of the old row, and its attribute runs sum to the width if those of the old row did. -/
theorem ReplaceCharacters_attr_total (env : Env) (r : ROW) (columnBegin columnEnd : Int)
    (chars : List Nat) (h : rleTotal r.attr = r.columnCount) :
    (r.ReplaceCharacters env columnBegin columnEnd chars).row.columnCount = r.columnCount
      ∧ rleTotal (r.ReplaceCharacters env columnBegin columnEnd chars).row.attr
          = r.columnCount := by
  have hR : (r.Reset default).columnCount = r.columnCount
      ∧ rleTotal (r.Reset default).attr = r.columnCount :=
    ⟨rfl, rleMake_total r.columnCount default⟩
  simp only [ROW.ReplaceCharacters]
  split
  · exact ⟨rfl, h⟩
  · split
    · exact hR
    · rename_i v hv
      split
      · exact hR
      · rename_i r' hw'
        obtain ⟨ha, hc⟩ := replaceWrite_attr r r' chars v hw'
        split
        · exact hR
        · simp only [Outcome.row]
          rw [ha, hc]
          exact ⟨rfl, h⟩

/-- C15 as stated, at `TransferAttributes`: on a fresh row of width 6 (one run of 6
columns), `TransferAttributes(attr, 3)` with one run of 3 columns returns and leaves
runs that sum to 3, the width passed by the caller, not to the width 6 of the row. -/
theorem C15_counterexample :
    rleTotal (ROW.new 6 default).attr = (ROW.new 6 default).columnCount
      ∧ ∃ r', (ROW.new 6 default).TransferAttributes [(sampleAttrA, 3)] 3 = some r'
        ∧ r'.attr = [(sampleAttrA, 3)]
        ∧ rleTotal r'.attr = 3
        ∧ r'.columnCount = 6
        ∧ rleTotal r'.attr ≠ r'.columnCount := by
  refine ⟨by rfl, _, rfl, by rfl, by rfl, by rfl, by decide⟩

/-- C15, amended: a freshly constructed row has attribute runs that sum to its width
`W`; if the runs of a row sum to `W`, they still do after `Reset`, after `Resize`
(to the new width), after `ReplaceCharacters` (however it ends), after
`ReplaceAttributes` and after `SetAttrToEnd`; after `TransferAttributes(attr,
newWidth)` with a store `attr` that is not empty the runs sum to `newWidth`, which
is `W` only when `newWidth = W`. -/
theorem C15_attr_total (env : Env) (r : ROW) (h : rleTotal r.attr = r.columnCount) :
    (∀ w fill, rleTotal (ROW.new w fill).attr = (ROW.new w fill).columnCount)
      ∧ (∀ fill, rleTotal (r.Reset fill).attr = (r.Reset fill).columnCount)
      ∧ (∀ w fill, rleTotal (r.Resize w fill).attr = (r.Resize w fill).columnCount)
      ∧ (∀ columnBegin columnEnd chars,
          rleTotal (r.ReplaceCharacters env columnBegin columnEnd chars).row.attr
            = (r.ReplaceCharacters env columnBegin columnEnd chars).row.columnCount)
      ∧ (∀ beginIndex endIndex newAttr r', r.ReplaceAttributes beginIndex endIndex newAttr = some r' →
          rleTotal r'.attr = r'.columnCount)
      ∧ (∀ columnBegin attr r', r.SetAttrToEnd columnBegin attr = some r' →
          rleTotal r'.attr = r'.columnCount)
      ∧ (∀ attr newWidth r', r.TransferAttributes attr newWidth = some r' → attr ≠ [] →
          (rleTotal r'.attr : Int) = newWidth ∧ r'.columnCount = r.columnCount
            ∧ (rleTotal r'.attr = r'.columnCount ↔ newWidth = (r.columnCount : Int))) := by
  refine ⟨?_, ?_, ?_, ?_, ?_, ?_, ?_⟩
  · intro w fill
    exact rleMake_total w fill
  · intro fill
    exact rleMake_total r.columnCount fill
  · intro w fill
    have hc : (r.Resize w fill).columnCount = w := rfl
    have ha : (r.Resize w fill).attr
        = if r.attr.isEmpty then rleMake w fill else rleResizeTrailingExtent r.attr w := rfl
    rw [hc, ha]
    split
    · exact rleMake_total w fill
    · rename_i hne
      exact rleResize_total r.attr w (by
        intro hnil
        rw [hnil] at hne
        exact hne rfl)
  · intro columnBegin columnEnd chars
    obtain ⟨h1, h2⟩ := ReplaceCharacters_attr_total env r columnBegin columnEnd chars h
    rw [h1, h2]
  · intro b e a r' hr
    simp only [ROW.ReplaceAttributes] at hr
    cases hrep : rleReplace r.attr (r._clampedColumnInclusive b) (r._clampedColumnInclusive e) a with
    | none => rw [hrep] at hr; exact Option.noConfusion hr
    | some runs =>
      rw [hrep] at hr
      injection hr with hr
      rw [← hr]
      simp only
      rw [rleReplace_total _ _ _ _ _ hrep, h]
  · intro b a r' hr
    simp only [ROW.SetAttrToEnd] at hr
    cases hrep : rleReplace r.attr (r._clampedColumnInclusive b) (rleTotal r.attr) a with
    | none => rw [hrep] at hr; exact Option.noConfusion hr
    | some runs =>
      rw [hrep] at hr
      injection hr with hr
      rw [← hr]
      simp only
      rw [rleReplace_total _ _ _ _ _ hrep, h]
  · intro attr w r' hr hne
    simp only [ROW.TransferAttributes] at hr
    split at hr
    · rename_i hw
      injection hr with hr
      rw [← hr]
      simp only
      rw [rleResize_total attr w.toNat hne]
      refine ⟨by omega, trivial, ?_⟩
      constructor <;> intro hx <;> omega
    · exact Option.noConfusion hr

theorem C15_attr_total_witness :
    rleTotal (ROW.new 6 default).attr = (ROW.new 6 default).columnCount
      ∧ (∀ columnBegin columnEnd chars,
          rleTotal ((ROW.new 6 default).ReplaceCharacters sampleEnv columnBegin columnEnd
              chars).row.attr
            = ((ROW.new 6 default).ReplaceCharacters sampleEnv columnBegin columnEnd
              chars).row.columnCount)
      ∧ (∃ r', (ROW.new 6 default).ReplaceAttributes 1 3 sampleAttrA = some r'
          ∧ r'.attr = [(default, 1), (sampleAttrA, 2), (default, 3)]
          ∧ rleTotal r'.attr = r'.columnCount)
      ∧ (∃ r', (ROW.new 6 default).SetAttrToEnd 4 sampleAttrB = some r'
          ∧ r'.attr = [(default, 4), (sampleAttrB, 2)]
          ∧ rleTotal r'.attr = r'.columnCount)
      ∧ (∃ r', (ROW.new 6 default).TransferAttributes [(sampleAttrA, 2), (sampleAttrB, 1)] 6
            = some r'
          ∧ [(sampleAttrA, 2), (sampleAttrB, 1)] ≠ ([] : List (TextAttribute × Nat))
          ∧ r'.attr = [(sampleAttrA, 2), (sampleAttrB, 4)]
          ∧ (rleTotal r'.attr : Int) = 6 ∧ r'.columnCount = (ROW.new 6 default).columnCount
          ∧ (rleTotal r'.attr = r'.columnCount ↔ (6 : Int) = ((ROW.new 6 default).columnCount : Int))) :=
  ⟨by rfl, (C15_attr_total sampleEnv (ROW.new 6 default) (by rfl)).2.2.2.1,
    ⟨_, rfl, by rfl,
      (C15_attr_total sampleEnv (ROW.new 6 default) (by rfl)).2.2.2.2.1 1 3 sampleAttrA _ rfl⟩,
    ⟨_, rfl, by rfl,
      (C15_attr_total sampleEnv (ROW.new 6 default) (by rfl)).2.2.2.2.2.1 4 sampleAttrB _ rfl⟩,
    ⟨_, rfl, by decide, by rfl,
      (C15_attr_total sampleEnv (ROW.new 6 default) (by rfl)).2.2.2.2.2.2
        [(sampleAttrA, 2), (sampleAttrB, 1)] 6 _ rfl (by decide)⟩⟩

/-! ## C16: `Reset` -/

/-- C16, as stated, fails on a row of 32768 columns: after `Reset` the offset word of
column 32768 is 32768, which is the trailer flag with offset 0. -/
theorem C16_counterexample :
    ((ROW.new 32768 default).Reset sampleAttrA).charOffsets.getD 32768 0 = 32768
      ∧ ((ROW.new 32768 default).Reset sampleAttrA)._uncheckedIsTrailer 32768 = true
      ∧ ((ROW.new 32768 default).Reset sampleAttrA)._uncheckedCharOffset 32768 = 0 := by
  have hO := ROW.new_offs 32768 default (by decide)
  have hWc : (ROW.new 32768 default).columnCount = 32768 := rfl
  have hst := ROW.Reset_state (ROW.new 32768 default) sampleAttrA
    (by rw [hO, hWc, List.length_range']) (by rw [hWc]; decide)
  have h6 := hst.2.2.2.2.2.1 32768 (by rw [hWc])
  refine ⟨h6, ?_, ?_⟩
  · simp only [ROW._uncheckedIsTrailer, h6]
    decide
  · simp only [ROW._uncheckedCharOffset, h6]
    decide

/-- C16, amended: for every row state with `W ≤ 65535` columns on an offsets arena of
`W + 1` words and every attribute `f`, `Reset(f)` yields the state of a freshly
constructed row of width `W` with fill `f`: `GetText()` is `W` spaces, the character
storage is the inline buffer of capacity `W` (no heap spill), `offsets[i] = i` for
every `i` in `[0, W]`, with the trailer flag clear and the offset `i` for every
`i ≤ 32767`, one attribute run `(W, f)`, the rendition `SingleWidth`, `wrap_forced`
and `dbcs_padded` false. -/
theorem C16_reset_state (r : ROW) (f : TextAttribute)
    (hlen : r.charOffsets.length = r.columnCount + 1) (hw : r.columnCount ≤ 65535) :
    r.Reset f = ROW.new r.columnCount f
      ∧ (r.Reset f).columnCount = r.columnCount
      ∧ (r.Reset f).GetText = List.replicate r.columnCount UNICODE_SPACE
      ∧ (r.Reset f).chars = List.replicate r.columnCount UNICODE_SPACE
      ∧ (r.Reset f).chars.length = r.columnCount
      ∧ (r.Reset f).charsHeap = false
      ∧ (r.Reset f).charOffsets.length = r.columnCount + 1
      ∧ (∀ i, i ≤ r.columnCount → (r.Reset f).charOffsets.getD i 0 = i)
      ∧ (∀ i, i ≤ r.columnCount → i ≤ 32767 →
          (r.Reset f)._uncheckedIsTrailer i = false ∧ (r.Reset f)._uncheckedCharOffset i = i)
      ∧ (r.Reset f).attr = rleMake r.columnCount f
      ∧ (0 < r.columnCount → (r.Reset f).attr = [(f, r.columnCount)])
      ∧ (r.Reset f).lineRendition = LineRendition.SingleWidth
      ∧ (r.Reset f).wrapForced = false
      ∧ (r.Reset f).doubleBytePadded = false := by
  obtain ⟨a1, a2, a3, a4, a5, a6, a7, a8, a9, a10, a11, _⟩ := ROW.Reset_state r f hlen hw
  refine ⟨a1, a2, a3, a4, ?_, a7, ?_, a6, ?_, a11, ?_, a10, a8, a9⟩
  · rw [a4, List.length_replicate]
  · rw [a5, List.length_range']
  · intro i hi h15
    simp only [ROW._uncheckedIsTrailer, ROW._uncheckedCharOffset, a6 i hi]
    exact ⟨wordIsTrailer_of_le h15, wordOffset_of_le h15⟩
  · intro hpos
    rw [a11]
    simp only [rleMake]
    rw [if_neg (by omega)]

theorem C16_reset_state_witness :
    sampleRowCombining.charOffsets.length = sampleRowCombining.columnCount + 1
      ∧ sampleRowCombining.columnCount ≤ 65535
      ∧ sampleRowCombining.charsHeap = true
      ∧ sampleRowCombining.Reset sampleAttrA = ROW.new sampleRowCombining.columnCount sampleAttrA
      ∧ (sampleRowCombining.Reset sampleAttrA).GetText
          = List.replicate sampleRowCombining.columnCount UNICODE_SPACE
      ∧ (sampleRowCombining.Reset sampleAttrA).charsHeap = false :=
  ⟨by rfl, by decide, by rfl,
    (C16_reset_state sampleRowCombining sampleAttrA (by rfl) (by decide)).1,
    (C16_reset_state sampleRowCombining sampleAttrA (by rfl) (by decide)).2.2.1,
    (C16_reset_state sampleRowCombining sampleAttrA (by rfl) (by decide)).2.2.2.2.2.1⟩

/-! ## C17: `Resize` -/

/-- The row that `Resize` builds from a well-formed row within the 15-bit limit, in
closed form: the offsets of the `k` columns that are copied, then one offset per new
space, then the new text length; the copied text followed by the new spaces. -/
theorem ROW.Resize_spec (r : ROW) (w : Nat) (fill : TextAttribute) (h : r.Inv)
    (hb : r.resizeTextLength w ≤ 32767) :
    ∃ k c, extendDown r.charOffsets (min w r.columnCount) = k
      ∧ r._uncheckedCharOffset (min w r.columnCount) = c
      ∧ k ≤ min w r.columnCount
      ∧ wordIsTrailer (r.charOffsets.getD k 0) = false
      ∧ r.charOffsets.getD k 0 = c ∧ c ≤ r._charSize
      ∧ c + (w - k) ≤ 32767
      ∧ (r.Resize w fill).charOffsets = r.charOffsets.take k ++ List.range' c (w - k + 1)
      ∧ (r.Resize w fill)._charSize = c + (w - k)
      ∧ (r.Resize w fill).chars.take (c + (w - k))
          = r.chars.take c ++ List.replicate (w - k) UNICODE_SPACE := by
  have hP := h.bound
  have hm : min w r.columnCount ≤ r.columnCount := Nat.min_le_right _ _
  generalize hmdef : min w r.columnCount = m at hm hb
  have hmw : m ≤ w := by rw [← hmdef]; exact Nat.min_le_left _ _
  have hk : ∃ k c, extendDown r.charOffsets m = k ∧ r._uncheckedCharOffset m = c ∧ k ≤ m
      ∧ wordIsTrailer (r.charOffsets.getD k 0) = false ∧ r.charOffsets.getD k 0 = c
      ∧ c ≤ r._charSize := by
    have hE := h.extendDown m
    cases ht : wordIsTrailer (r.charOffsets.getD m 0) with
    | false =>
      obtain ⟨c, h1, _, h3, h4⟩ := h.split_at m hm ht
      refine ⟨m, c, hE.1 ht, ?_, Nat.le_refl _, ht, h3, h4⟩
      simp only [ROW._uncheckedCharOffset]
      rw [h3, wordOffset_of_le (by omega)]
    | true =>
      obtain ⟨j, hj, _, h1, h2, h3, _⟩ := h.trailer_at m ht
      obtain ⟨c, h4, _, h6, h7⟩ := h.split_at j (by omega) h1
      refine ⟨j, c, by have := hE.2 ht; omega, ?_, by omega, h1, h6, h7⟩
      simp only [ROW._uncheckedCharOffset]
      rw [h2, h6, wordOffset_add (by omega)]
  obtain ⟨k, c, hk1, hk2, hk3, hk4, hk5, hk6⟩ := hk
  have hb' : c + (w - k) ≤ 32767 := by
    simp only [ROW.resizeTextLength, hmdef, hk1, hk2] at hb
    exact hb
  have hkl : (r.charOffsets.take k).length = k := by
    simp; rw [h.len]; omega
  have hoffs : (r.Resize w fill).charOffsets
      = r.charOffsets.take k ++ List.range' c (w - k + 1) := by
    simp only [ROW.Resize, hmdef, hk1, hk2]
    have e1 : writeAt (List.replicate (w + 1) 0) 0 (r.charOffsets.take k)
        = r.charOffsets.take k ++ List.replicate (w + 1 - k) 0 := by
      rw [writeAt_eq _ _ _ (by simp; omega)]
      simp [hkl]
    rw [e1]
    have := iotaAt_mid (r.charOffsets.take k) (List.replicate (w + 1 - k) 0) [] k (w - k + 1) c
      hkl.symm (by simp; omega) (by omega)
    rw [List.append_nil, List.append_nil] at this
    exact this
  have hW : (r.Resize w fill).columnCount = w := rfl
  have hsz : (r.Resize w fill)._charSize = c + (w - k) := by
    simp only [ROW._charSize, hW, hoffs]
    rw [getD_append_right' _ _ w (w - k) (by rw [hkl]; omega), range'_getD_add _ _ _ (by omega)]
  refine ⟨k, c, hk1, hk2, hk3, hk4, hk5, hk6, hb', hoffs, hsz, ?_⟩
  have hcap := h.cap
  have hA : (r.chars.take c).length = c := by
    rw [List.length_take]; omega
  simp only [ROW.Resize, hmdef, hk1, hk2]
  rw [u16_of_lt (by omega)]
  obtain ⟨cap, hcapdef, hcapge⟩ : ∃ cap, (if decide (w < c + (w - k)) = true then c + (w - k)
      else w) = cap ∧ c + (w - k) ≤ cap := by
    refine ⟨_, rfl, ?_⟩
    split
    · exact Nat.le_refl _
    · rename_i hn
      simp at hn
      exact hn
  rw [hcapdef]
  have e1 : writeAt (List.replicate cap 0) 0 (r.chars.take c)
      = r.chars.take c ++ List.replicate (w - k) 0 ++ List.replicate (cap - c - (w - k)) 0 := by
    rw [writeAt_eq _ _ _ (by simp; omega)]
    simp only [List.take_zero, List.nil_append, Nat.zero_add, hA, List.drop_replicate,
      List.append_assoc]
    rw [← List.replicate_add]
    congr 2
    omega
  rw [e1, writeAt_mid _ _ _ _ c hA.symm (by simp)]
  rw [List.take_left' (by simp [hA])]

theorem ROW.Resize_offs_at (r : ROW) (w : Nat) (fill : TextAttribute) (k c : Nat)
    (hk : k ≤ r.charOffsets.length)
    (hoffs : (r.Resize w fill).charOffsets = r.charOffsets.take k ++ List.range' c (w - k + 1)) :
    (∀ i, i < k → (r.Resize w fill).charOffsets.getD i 0 = r.charOffsets.getD i 0)
      ∧ (∀ i, k ≤ i → i ≤ w → (r.Resize w fill).charOffsets.getD i 0 = c + (i - k)) := by
  have hkl : (r.charOffsets.take k).length = k := by
    rw [List.length_take]; omega
  constructor
  · intro i hi
    rw [hoffs, getD_append_left' _ _ _ (by omega), getD_take_of_lt _ _ _ hi]
  · intro i hki hiw
    rw [hoffs, getD_append_right' _ _ i (i - k) (by omega), range'_getD_add _ _ _ (by omega)]

/-- C17, amended: for every row of width `W` reachable within the 15-bit limit and
every new
width `W'` for which the resized text stays within the limit, with `m = min(W, W')`
and `k` the column `m` moved down past a trailer (`k = m` if column `m` is no
trailer, else `k = m - 1`, the leading column of the wide glyph cut at `m`): after
`Resize(W')` every column `c < k` has the `GlyphAt(c)` and `DbcsAttrAt(c)` it had
before, every column in `[k, W')` holds exactly one space with DBCS attribute
`Single`, `offsets[W']` is the new text length, and the resized row is reachable
(so it satisfies the offsets invariants for width `W'`). -/
theorem C17_resize (env : Env) (hs : env.SegSound) (r : ROW) (h : Reachable env r)
    (w : Nat) (fill : TextAttribute) (hb : r.resizeTextLength w ≤ 32767) :
    ∃ k, k = extendDown r.charOffsets (min w r.columnCount)
      ∧ (r._uncheckedIsTrailer (min w r.columnCount) = false → k = min w r.columnCount)
      ∧ (r._uncheckedIsTrailer (min w r.columnCount) = true →
          k + 1 = min w r.columnCount ∧ r._uncheckedIsTrailer k = false)
      ∧ (∀ c, c < k →
          (r.Resize w fill).GlyphAt (c : Int) = r.GlyphAt (c : Int)
            ∧ (r.Resize w fill).DbcsAttrAt (c : Int) = r.DbcsAttrAt (c : Int))
      ∧ (∀ c, k ≤ c → c < w →
          (r.Resize w fill).GlyphAt (c : Int) = [UNICODE_SPACE]
            ∧ (r.Resize w fill).DbcsAttrAt (c : Int) = DbcsAttribute.Single)
      ∧ (r.Resize w fill).columnCount = w
      ∧ (r.Resize w fill).charOffsets.getD w 0 = (r.Resize w fill).GetText.length
      ∧ (r.Resize w fill).GetText.length = r._uncheckedCharOffset (min w r.columnCount) + (w - k)
      ∧ (r.Resize w fill).Inv
      ∧ Reachable env (r.Resize w fill) := by
  have hinv := h.inv hs
  have hinv' := ROW.Resize_inv r w fill hinv hb
  obtain ⟨k, c, hk1, hk2, hk3, hk4, hk5, hk6, hb', hoffs, hsz, hchars⟩ :=
    ROW.Resize_spec r w fill hinv hb
  have hmW : min w r.columnCount ≤ r.columnCount := Nat.min_le_right _ _
  have hmw : min w r.columnCount ≤ w := Nat.min_le_left _ _
  obtain ⟨g1, g2⟩ := ROW.Resize_offs_at r w fill k c (by rw [hinv.len]; omega) hoffs
  have hWc : (r.Resize w fill).columnCount = w := rfl
  have hE := hinv.extendDown (min w r.columnCount)
  have hP := hinv.bound
  have hgk : (r.Resize w fill).charOffsets.getD k 0 = r.charOffsets.getD k 0 := by
    rw [g2 k (Nat.le_refl _) (by omega), hk5, Nat.sub_self, Nat.add_zero]
  have htake : (r.Resize w fill).chars.take c = r.chars.take c := by
    have := congrArg (List.take c) hchars
    rw [List.take_take, Nat.min_eq_left (by omega)] at this
    rw [this, List.take_left' (by rw [List.length_take]; have := hinv.cap; omega)]
  have hspaces : ((r.Resize w fill).chars.drop c).take (w - k)
      = List.replicate (w - k) UNICODE_SPACE := by
    have := slice_of_take (r.Resize w fill).chars (r.chars.take c)
      (List.replicate (w - k) UNICODE_SPACE) [] (c + (w - k)) (by rw [List.append_nil]; exact hchars)
    rw [List.length_take, Nat.min_eq_left (by have := hinv.cap; omega),
      List.length_replicate] at this
    exact this
  refine ⟨k, hk1.symm, ?_, ?_, ?_, ?_, hWc, ?_, ?_, hinv', Reachable.resize r w fill h hb⟩
  · intro ht
    rw [← hk1]; exact hE.1 ht
  · intro ht
    rw [← hk1]
    refine ⟨hE.2 ht, ?_⟩
    rw [hk1]; exact hk4
  · intro c0 hc0
    refine glyph_frame_cols hinv hinv' c0 k 0 0 c (by rw [hWc]; omega) hc0 (by omega) hk4
      ?_ ?_ ?_
    · intro i _ hi
      rcases Nat.eq_or_lt_of_le hi with he | hl
      · rw [he, hgk]
      · rw [g1 i hl]
    · intro i _ hi
      obtain ⟨o, t, _, _, _, e2, _, hup⟩ := hinv.entry i (by omega)
      have := hup k hi (by omega) hk4
      rw [hk5] at this
      refine ⟨?_, Nat.zero_le _, by omega⟩
      simp only [ROW._uncheckedCharOffset]
      rcases Nat.eq_or_lt_of_le hi with he | hl
      · rw [he, hgk]; rfl
      · rw [g1 i hl]; rfl
    · intro p a _ hpa
      have := slice_shift (r.Resize w fill).chars r.chars 0 0 c p a
        (by rw [List.drop_zero, List.drop_zero]; exact htake) hpa
      rw [Nat.zero_add] at this
      exact this
  · intro c0 hk0 hc0
    have hg := hinv'.glyph_one c0 (c + (c0 - k)) (by rw [hWc]; exact hc0)
      (g2 c0 hk0 (by omega)) (by rw [g2 (c0 + 1) (by omega) (by omega)]; omega) (by omega)
    have ht := slice_shift (r.Resize w fill).chars (List.replicate (w - k) UNICODE_SPACE) c 0
      (w - k) (c0 - k) 1 (by
        rw [hspaces, List.drop_zero, List.take_replicate, Nat.min_self]) (by omega)
    rw [Nat.zero_add, List.drop_replicate, List.take_replicate,
      Nat.min_eq_left (by omega)] at ht
    rw [hg.1, ht]
    exact ⟨rfl, hg.2⟩
  · have hsz' := hsz
    simp only [ROW._charSize, hWc] at hsz'
    rw [hsz']
    simp only [ROW.GetText]
    rw [hsz, List.length_take, Nat.min_eq_left (by
      have := hinv'.cap
      rw [hsz] at this
      exact this)]
  · simp only [ROW.GetText]
    rw [hsz, List.length_take, Nat.min_eq_left (by
      have := hinv'.cap
      rw [hsz] at this
      exact this), hk2]

theorem C17_resize_witness :
    sampleEnv.SegSound ∧ Reachable sampleEnv sampleRowWide
      ∧ sampleRowWide.resizeTextLength 3 ≤ 32767
      ∧ ∃ k, k = extendDown sampleRowWide.charOffsets (min 3 sampleRowWide.columnCount)
        ∧ (sampleRowWide._uncheckedIsTrailer (min 3 sampleRowWide.columnCount) = false →
            k = min 3 sampleRowWide.columnCount)
        ∧ (sampleRowWide._uncheckedIsTrailer (min 3 sampleRowWide.columnCount) = true →
            k + 1 = min 3 sampleRowWide.columnCount ∧ sampleRowWide._uncheckedIsTrailer k = false)
        ∧ (∀ c, c < k →
            (sampleRowWide.Resize 3 default).GlyphAt (c : Int) = sampleRowWide.GlyphAt (c : Int)
              ∧ (sampleRowWide.Resize 3 default).DbcsAttrAt (c : Int)
                  = sampleRowWide.DbcsAttrAt (c : Int))
        ∧ (∀ c, k ≤ c → c < 3 →
            (sampleRowWide.Resize 3 default).GlyphAt (c : Int) = [UNICODE_SPACE]
              ∧ (sampleRowWide.Resize 3 default).DbcsAttrAt (c : Int) = DbcsAttribute.Single)
        ∧ (sampleRowWide.Resize 3 default).columnCount = 3
        ∧ (sampleRowWide.Resize 3 default).charOffsets.getD 3 0
            = (sampleRowWide.Resize 3 default).GetText.length
        ∧ (sampleRowWide.Resize 3 default).GetText.length
            = sampleRowWide._uncheckedCharOffset (min 3 sampleRowWide.columnCount) + (3 - k)
        ∧ (sampleRowWide.Resize 3 default).Inv
        ∧ Reachable sampleEnv (sampleRowWide.Resize 3 default) :=
  ⟨sampleEnv_segSound, sampleRowWide_reachable, by decide,
    C17_resize sampleEnv sampleEnv_segSound sampleRowWide sampleRowWide_reachable 3 default
      (by decide)⟩

/-- The witness of C17 in numbers: the row of three wide glyphs cut to width 3 keeps
the first glyph; the second, cut by the new right edge, is discarded whole and
column 2 holds a space. -/
theorem sampleRowWide_resize :
    (sampleRowWide.Resize 3 default).charOffsets = [0, 0 + CharOffsetsTrailer, 1, 2]
      ∧ (sampleRowWide.Resize 3 default).GetText = [0x4e00, 0x20]
      ∧ extendDown sampleRowWide.charOffsets (min 3 sampleRowWide.columnCount) = 2 := by
  refine ⟨by rfl, by rfl, by rfl⟩

/-! ## C18: `Resize` to the same width -/

/-- Columns added by extending the last run carry the attribute of the last run. -/
theorem rleAt_extend : ∀ (runs : List (TextAttribute × Nat)) (extra pos : Nat)
    (last : TextAttribute × Nat), runs.getLast? = some last →
    rleTotal runs ≤ pos → pos < rleTotal runs + extra →
    rleAt (rleExtend runs extra) pos = some last.1 := by
  intro runs
  induction runs with
  | nil => intro _ _ last h; simp at h
  | cons x rest ih =>
    intro extra pos last hlast hge hlt
    obtain ⟨v, k⟩ := x
    rw [rleTotal_cons] at hge hlt
    cases rest with
    | nil =>
      simp only [List.getLast?_singleton, Option.some.injEq] at hlast
      simp only [rleTotal, List.map_nil, List.sum_nil, Nat.add_zero] at hge hlt
      simp only [rleExtend, rleAt]
      rw [if_pos (by omega), ← hlast]
    | cons run2 rest2 =>
      have e : rleExtend ((v, k) :: run2 :: rest2) extra
          = (v, k) :: rleExtend (run2 :: rest2) extra := by
        simp [rleExtend]
      rw [e]
      simp only [rleAt]
      rw [if_neg (by omega)]
      exact ih extra (pos - k) last (by simpa [List.getLast?_cons_cons] using hlast)
        (by omega) (by omega)

/-- The columns that `Resize` adds to a row whose attribute store is not empty carry
the attribute of its last run, whatever the fill attribute is. -/
theorem ROW.Resize_new_columns_attr (r : ROW) (w : Nat) (fill : TextAttribute)
    (last : TextAttribute × Nat) (c : Nat) (hlast : r.attr.getLast? = some last)
    (htot : rleTotal r.attr = r.columnCount) (hc : r.columnCount ≤ c) (hcw : c < w)
    (hw : w ≤ 65535) :
    (r.Resize w fill).GetAttrByColumn (c : Int) = some last.1 := by
  have hne : r.attr ≠ [] := by
    intro hnil
    rw [hnil] at hlast
    simp at hlast
  have ha : (r.Resize w fill).attr
      = if r.attr.isEmpty then rleMake w fill else rleResizeTrailingExtent r.attr w := rfl
  have hcl : _clampedUint16 (c : Int) = c := by
    simp only [_clampedUint16]
    omega
  simp only [ROW.GetAttrByColumn, ha, hcl]
  rw [if_neg (by
    intro hemp
    exact hne (List.isEmpty_iff.1 hemp))]
  simp only [rleResizeTrailingExtent]
  rw [if_neg (by omega)]
  exact rleAt_extend r.attr _ c last hlast (by omega) (by omega)

/-- C19 at its failing input: a row of width 2 with the attribute `A` in its one run,
resized to width 4 with the fill attribute `B`: the new columns 2 and 3 carry `A`,
the attribute of the last run, and not `B`; the columns 0 and 1 keep `A`. -/
theorem C19_resize_ignores_fill :
    sampleAttrA ≠ sampleAttrB
      ∧ (ROW.new 2 sampleAttrA).attr = [(sampleAttrA, 2)]
      ∧ ((ROW.new 2 sampleAttrA).Resize 4 sampleAttrB).attr = [(sampleAttrA, 4)]
      ∧ ((ROW.new 2 sampleAttrA).Resize 4 sampleAttrB).GetAttrByColumn 0 = some sampleAttrA
      ∧ ((ROW.new 2 sampleAttrA).Resize 4 sampleAttrB).GetAttrByColumn 1 = some sampleAttrA
      ∧ ((ROW.new 2 sampleAttrA).Resize 4 sampleAttrB).GetAttrByColumn 2 = some sampleAttrA
      ∧ ((ROW.new 2 sampleAttrA).Resize 4 sampleAttrB).GetAttrByColumn 3 = some sampleAttrA := by
  refine ⟨by decide, by rfl, by rfl, by rfl, by rfl, by rfl, by rfl⟩

/-! ## The glyphs of a row as a chain -/

/-- The text of a glyph of a well-formed row is not empty. -/
theorem GlyphIter.text_ne_nil {r : ROW} {it : RowTextIterator} (h : r.Inv)
    (hG : GlyphIter r it) : it.Text ≠ [] := by
  have hlt := h.noTrailer_lt it.beg it.fin (by rcases hG.span with h1 | ⟨h1, _⟩ <;> omega)
    hG.fin_le hG.begNoTrailer hG.finNoTrailer
  have hle := (h.noTrailer_le it.fin hG.fin_le hG.finNoTrailer).1
  have hcap := h.cap
  intro hnil
  have := congrArg List.length hnil
  rw [hG.text, List.length_take, List.length_drop] at this
  simp only [List.length_nil] at this
  omega

/-- The glyph of a column that a glyph of a well-formed row covers. -/
theorem GlyphIter.glyphAt {r : ROW} {it : RowTextIterator} (h : r.Inv) (hG : GlyphIter r it)
    (c : Nat) (hb : it.beg ≤ c) (hf : c < it.fin) :
    r.GlyphAt (c : Int) = it.Text
      ∧ (r.DbcsAttrAt (c : Int) = DbcsAttribute.Single → it.fin = it.beg + 1) := by
  rcases hG.span with hsp | ⟨hsp, ht1⟩
  · have hcb : c = it.beg := by omega
    subst hcb
    exact ⟨hG.glyph.symm, fun _ => hsp⟩
  · have hg := h.glyph_trailer it.beg hG.lt hG.begNoTrailer ht1
    rcases Nat.eq_or_lt_of_le hb with hcb | hlt
    · rw [← hcb]
      refine ⟨hG.glyph.symm, fun hs => ?_⟩
      rw [hg.2.1] at hs
      exact DbcsAttribute.noConfusion hs
    · have hcb : c = it.beg + 1 := by omega
      rw [hcb]
      refine ⟨by rw [hg.1, hG.glyph], fun hs => ?_⟩
      rw [hg.2.2] at hs
      exact DbcsAttribute.noConfusion hs

/-- From every column of a well-formed row that is no trailer a chain of glyphs leads
to the end of the row; their texts concatenate to the text from that column on. -/
theorem ROW.Inv.chain_exists {r : ROW} (h : r.Inv) : ∀ (k a : Nat), r.columnCount - a ≤ k →
    a ≤ r.columnCount → wordIsTrailer (r.charOffsets.getD a 0) = false →
    ∃ l, GlyphChain r a l
      ∧ (l.map RowTextIterator.Text).flatten
          = (r.chars.drop (r.charOffsets.getD a 0)).take
              (r._charSize - r.charOffsets.getD a 0) := by
  intro k
  induction k with
  | zero =>
    intro a hk ha _
    have : a = r.columnCount := by omega
    subst this
    exact ⟨[], GlyphChain.nil, by simp [ROW._charSize]⟩
  | succ k ih =>
    intro a hk ha hta
    rcases Nat.eq_or_lt_of_le ha with he | hlt
    · subst he
      exact ⟨[], GlyphChain.nil, by simp [ROW._charSize]⟩
    · obtain ⟨hG, hbeg, hfin⟩ := h.glyphIter a hlt hta
      obtain ⟨it0, hit0⟩ : ∃ it0, it0 = RowTextIterator.new r.chars r.charOffsets a := ⟨_, rfl⟩
      rw [← hit0] at hG hbeg hfin
      obtain ⟨l, h1, h2⟩ := ih it0.fin (by omega) hG.fin_le hG.finNoTrailer
      have hmono : r.charOffsets.getD it0.fin 0 ≤ r._charSize :=
        (h.noTrailer_le it0.fin hG.fin_le hG.finNoTrailer).1
      have hlt2 : r.charOffsets.getD a 0 ≤ r.charOffsets.getD it0.fin 0 :=
        Nat.le_of_lt (h.noTrailer_lt a it0.fin hfin hG.fin_le hta hG.finNoTrailer)
      refine ⟨it0 :: l, ?_, ?_⟩
      · have := GlyphChain.cons it0 l hG h1
        rw [hbeg] at this
        exact this
      · rw [List.map_cons, List.flatten_cons, h2, hG.text, hbeg]
        exact slice_append _ _ _ _ hlt2 hmono

/-- The glyphs of a whole well-formed row. -/
theorem ROW.Inv.chain {r : ROW} (h : r.Inv) :
    ∃ l, GlyphChain r 0 l ∧ (l.map RowTextIterator.Text).flatten = r.GetText := by
  have h0 := h.getD_zero
  obtain ⟨l, h1, h2⟩ := h.chain_exists r.columnCount 0 (by omega) (Nat.zero_le _)
    (by rw [h0]; exact wordIsTrailer_of_le (by omega))
  refine ⟨l, h1, ?_⟩
  rw [h2, h0, List.drop_zero, Nat.sub_zero]
  rfl

/-! ## C23: `MeasureLeft` -/

theorem takeWhile_space_cons_ne (t : Nat) (X : List Nat) (h : t ≠ UNICODE_SPACE) :
    (t :: X).takeWhile (fun ch => decide (ch = UNICODE_SPACE)) = [] := by
  simp [List.takeWhile, h]

theorem takeWhile_space_cons (X : List Nat) :
    (UNICODE_SPACE :: X).takeWhile (fun ch => decide (ch = UNICODE_SPACE))
      = UNICODE_SPACE :: X.takeWhile (fun ch => decide (ch = UNICODE_SPACE)) := by
  simp [List.takeWhile]

/-- Along a chain of glyphs in which every glyph that begins with a space is a single
narrow space, the number of leading spaces of the text is the number of leading
columns that hold a single space. -/
theorem GlyphChain.leading {r : ROW} (h : r.Inv)
    (hL : ∀ c, c < r.columnCount → (r.GlyphAt (c : Int)).head? = some UNICODE_SPACE →
      r.GlyphAt (c : Int) = [UNICODE_SPACE] ∧ r.DbcsAttrAt (c : Int) = DbcsAttribute.Single)
    {a : Nat} {l : List RowTextIterator} (hc : GlyphChain r a l) :
    a + ((l.map RowTextIterator.Text).flatten.takeWhile
        (fun ch => decide (ch = UNICODE_SPACE))).length ≤ r.columnCount
      ∧ (∀ c, a ≤ c →
          c < a + ((l.map RowTextIterator.Text).flatten.takeWhile
            (fun ch => decide (ch = UNICODE_SPACE))).length →
          r.GlyphAt (c : Int) = [UNICODE_SPACE] ∧ r._uncheckedIsTrailer c = false)
      ∧ (a + ((l.map RowTextIterator.Text).flatten.takeWhile
            (fun ch => decide (ch = UNICODE_SPACE))).length < r.columnCount →
          r.GlyphAt ((a + ((l.map RowTextIterator.Text).flatten.takeWhile
            (fun ch => decide (ch = UNICODE_SPACE))).length : Nat) : Int) ≠ [UNICODE_SPACE]
          ∧ r._uncheckedIsTrailer (a + ((l.map RowTextIterator.Text).flatten.takeWhile
            (fun ch => decide (ch = UNICODE_SPACE))).length) = false) := by
  induction hc with
  | nil =>
    simp only [List.map_nil, List.flatten_nil, List.takeWhile_nil, List.length_nil, Nat.add_zero]
    exact ⟨Nat.le_refl _, fun c h1 h2 => by omega, fun h1 => by omega⟩
  | cons it l hG _ ih =>
    have hne := hG.text_ne_nil h
    have hg := hG.glyphAt h it.beg (Nat.le_refl _) (by rcases hG.span with h1 | ⟨h1, _⟩ <;> omega)
    rw [List.map_cons, List.flatten_cons]
    obtain ⟨t, T, hT⟩ : ∃ t T, it.Text = t :: T := by
      cases hx : it.Text with
      | nil => exact absurd hx hne
      | cons t T => exact ⟨t, T, rfl⟩
    by_cases ht : t = UNICODE_SPACE
    · have hsp := hL it.beg hG.lt (by rw [hg.1, hT, ht]; rfl)
      rw [hg.1] at hsp
      have hfin := hg.2 hsp.2
      rw [hsp.1, List.singleton_append, takeWhile_space_cons, List.length_cons]
      rw [hfin] at ih
      obtain ⟨i1, i2, i3⟩ := ih
      refine ⟨by omega, ?_, ?_⟩
      · intro c hc1 hc2
        rcases Nat.eq_or_lt_of_le hc1 with he | hl
        · rw [← he, hg.1, hsp.1]
          exact ⟨rfl, hG.begNoTrailer⟩
        · exact i2 c (by omega) (by omega)
      · intro hlt
        have e : it.beg + ((List.takeWhile (fun ch => decide (ch = UNICODE_SPACE))
            (List.map RowTextIterator.Text l).flatten).length + 1)
            = it.beg + 1 + (List.takeWhile (fun ch => decide (ch = UNICODE_SPACE))
              (List.map RowTextIterator.Text l).flatten).length := by omega
        rw [e]
        exact i3 (by omega)
    · rw [hT, List.cons_append, takeWhile_space_cons_ne _ _ ht, List.length_nil, Nat.add_zero]
      refine ⟨Nat.le_of_lt hG.lt, fun c h1 h2 => by omega, fun _ => ⟨?_, hG.begNoTrailer⟩⟩
      rw [hg.1, hT]
      intro hx
      injection hx with hx1 _
      exact ht hx1

/-- C23, as stated, fails for a glyph that begins with a space: in the width-6 row
written with a space, a combining acute accent and `b`, column 0 holds the cluster
of the space and the accent, which is no single space, yet `MeasureLeft()` is 1. -/
theorem C23_counterexample :
    sampleRowSpaceAccent.GlyphAt 0 = [0x20, 0x301]
      ∧ sampleRowSpaceAccent.GlyphAt 1 = [0x62]
      ∧ sampleRowSpaceAccent.MeasureLeft = 1 := by
  refine ⟨by rfl, by rfl, by rfl⟩

/-- C23, amended: for every row of width `W` reachable within the 15-bit limit in
which every glyph that begins with a space is a single narrow space,
`MeasureLeft()` is a column index `m` in `[0, W]`: every column below `m` holds
exactly one space, and if `m < W` a glyph that is no single space starts at column
`m`; so `m = W` exactly when every glyph of the row is a single space. -/
theorem C23_measure_left (env : Env) (hs : env.SegSound) (r : ROW) (h : Reachable env r)
    (hL : ∀ c, c < r.columnCount → (r.GlyphAt (c : Int)).head? = some UNICODE_SPACE →
      r.GlyphAt (c : Int) = [UNICODE_SPACE] ∧ r.DbcsAttrAt (c : Int) = DbcsAttribute.Single) :
    ∃ m : Nat, r.MeasureLeft = (m : Int) ∧ m ≤ r.columnCount
      ∧ (∀ c, c < m → r.GlyphAt (c : Int) = [UNICODE_SPACE])
      ∧ (m < r.columnCount →
          r.GlyphAt (m : Int) ≠ [UNICODE_SPACE] ∧ r._uncheckedIsTrailer m = false)
      ∧ (m = r.columnCount ↔ ∀ c, c < r.columnCount → r.GlyphAt (c : Int) = [UNICODE_SPACE]) := by
  have hinv := h.inv hs
  obtain ⟨l, hc, hfl⟩ := hinv.chain
  obtain ⟨l1, l2, l3⟩ := hc.leading hinv hL
  rw [hfl, Nat.zero_add] at l1 l2 l3
  refine ⟨_, rfl, l1, fun c hc => (l2 c (Nat.zero_le _) hc).1, l3, ?_⟩
  constructor
  · intro he c hc
    exact (l2 c (Nat.zero_le _) (by rw [he]; exact hc)).1
  · intro hall
    rcases Nat.eq_or_lt_of_le l1 with he | hlt
    · exact he
    · exact absurd (hall _ hlt) (l3 hlt).1

theorem C23_measure_left_witness :
    sampleEnv.SegSound ∧ Reachable sampleEnv sampleRowS2
      ∧ (∀ c, c < sampleRowS2.columnCount →
          (sampleRowS2.GlyphAt (c : Int)).head? = some UNICODE_SPACE →
          sampleRowS2.GlyphAt (c : Int) = [UNICODE_SPACE]
            ∧ sampleRowS2.DbcsAttrAt (c : Int) = DbcsAttribute.Single)
      ∧ ∃ m : Nat, sampleRowS2.MeasureLeft = (m : Int) ∧ m ≤ sampleRowS2.columnCount
        ∧ (∀ c, c < m → sampleRowS2.GlyphAt (c : Int) = [UNICODE_SPACE])
        ∧ (m < sampleRowS2.columnCount →
            sampleRowS2.GlyphAt (m : Int) ≠ [UNICODE_SPACE]
              ∧ sampleRowS2._uncheckedIsTrailer m = false)
        ∧ (m = sampleRowS2.columnCount ↔
            ∀ c, c < sampleRowS2.columnCount → sampleRowS2.GlyphAt (c : Int) = [UNICODE_SPACE]) :=
  have hS2 : Reachable sampleEnv sampleRowS2 :=
    Reachable.replace sampleRowWide 1 3 [0x4e03] sampleRowS2 4 [] sampleRowWide_reachable
      (by rfl) (bound_of_eval _ _ (by rfl))
  have hL : ∀ c, c < sampleRowS2.columnCount →
      (sampleRowS2.GlyphAt (c : Int)).head? = some UNICODE_SPACE →
      sampleRowS2.GlyphAt (c : Int) = [UNICODE_SPACE]
        ∧ sampleRowS2.DbcsAttrAt (c : Int) = DbcsAttribute.Single := by
    intro c hc
    have hc6 : c < 6 := hc
    have : c = 0 ∨ c = 1 ∨ c = 2 ∨ c = 3 ∨ c = 4 ∨ c = 5 := by omega
    rcases this with rfl | rfl | rfl | rfl | rfl | rfl <;> decide
  ⟨sampleEnv_segSound, hS2, hL, C23_measure_left sampleEnv sampleEnv_segSound sampleRowS2 hS2 hL⟩

/-- The witness of C23 in numbers: the row of scenario S2 (space, wide glyph, space,
wide glyph) has `MeasureLeft() = 1` and `MeasureRight() = 6`. -/
theorem sampleRowS2_measure :
    sampleRowS2.MeasureLeft = 1 ∧ sampleRowS2.MeasureRight = 6
      ∧ sampleRowS2.ContainsText = true := by
  refine ⟨by rfl, by rfl, by rfl⟩

/-! ## C22: `MeasureRight` -/

theorem GlyphChain.start_le {r : ROW} {a : Nat} {l : List RowTextIterator} (hc : GlyphChain r a l) :
    a ≤ r.columnCount := by
  cases hc with
  | nil => exact Nat.le_refl _
  | cons it l hG _ => exact Nat.le_of_lt hG.lt

theorem takeWhile_space_replicate (n : Nat) (Y : List Nat)
    (hY : Y.head? ≠ some UNICODE_SPACE) :
    ((List.replicate n UNICODE_SPACE ++ Y).takeWhile
      (fun ch => decide (ch = UNICODE_SPACE))).length = n := by
  induction n with
  | zero =>
    cases Y with
    | nil => rfl
    | cons y Y' =>
      have hy : y ≠ UNICODE_SPACE := by
        intro he
        rw [he] at hY
        exact hY rfl
      simp only [List.replicate_zero, List.nil_append]
      rw [takeWhile_space_cons_ne _ _ hy]
      rfl
  | succ n ih =>
    rw [List.replicate_succ, List.cons_append, takeWhile_space_cons, List.length_cons, ih]

/-- The number of trailing spaces of a text that ends in `n` spaces after a code unit
that is no space. -/
theorem trailing_spaces_append (X0 : List Nat) (n : Nat)
    (hX : X0.getLast? ≠ some UNICODE_SPACE) :
    ((X0 ++ List.replicate n UNICODE_SPACE).reverse.takeWhile
      (fun ch => decide (ch = UNICODE_SPACE))).length = n := by
  rw [List.reverse_append, List.reverse_replicate]
  exact takeWhile_space_replicate n _ (by rw [List.head?_reverse]; exact hX)

/-- Along a chain of glyphs in which every glyph that ends with a space is a single
narrow space: either all its glyphs are single spaces, or its text ends in `n`
spaces after a glyph that is no single space, and exactly the last `n` columns hold
single spaces. -/
theorem GlyphChain.trailing {r : ROW} (h : r.Inv)
    (hR : ∀ c, c < r.columnCount → (r.GlyphAt (c : Int)).getLast? = some UNICODE_SPACE →
      r.GlyphAt (c : Int) = [UNICODE_SPACE] ∧ r.DbcsAttrAt (c : Int) = DbcsAttribute.Single)
    {a : Nat} {l : List RowTextIterator} (hc : GlyphChain r a l) :
    ((l.map RowTextIterator.Text).flatten = List.replicate (r.columnCount - a) UNICODE_SPACE
        ∧ ∀ c, a ≤ c → c < r.columnCount → r.GlyphAt (c : Int) = [UNICODE_SPACE])
    ∨ ∃ X0 n, (l.map RowTextIterator.Text).flatten = X0 ++ List.replicate n UNICODE_SPACE
        ∧ X0 ≠ [] ∧ X0.getLast? ≠ some UNICODE_SPACE ∧ a + n < r.columnCount
        ∧ (∀ c, r.columnCount - n ≤ c → c < r.columnCount →
            r.GlyphAt (c : Int) = [UNICODE_SPACE])
        ∧ r.GlyphAt ((r.columnCount - n - 1 : Nat) : Int) ≠ [UNICODE_SPACE] := by
  induction hc with
  | nil =>
    left
    simp only [List.map_nil, List.flatten_nil, Nat.sub_self, List.replicate_zero, true_and]
    intro c h1 h2
    omega
  | cons it l hG hcl ih =>
    have hne := hG.text_ne_nil h
    have hspan : it.beg < it.fin := by rcases hG.span with h1 | ⟨h1, _⟩ <;> omega
    have hfW := hG.fin_le
    have hg := hG.glyphAt h it.beg (Nat.le_refl _) hspan
    rw [List.map_cons, List.flatten_cons]
    have hnotsp : it.Text.getLast? ≠ some UNICODE_SPACE → it.Text ≠ [UNICODE_SPACE] := by
      intro hx he
      rw [he] at hx
      exact hx rfl
    rcases ih with ⟨hX, hcols⟩ | ⟨X0, n, hX, hX0, hlast, hn, hcols, hglyph⟩
    · by_cases hT : it.Text.getLast? = some UNICODE_SPACE
      · left
        have hsp := hR it.beg hG.lt (by rw [hg.1]; exact hT)
        rw [hg.1] at hsp
        have hfin := hg.2 hsp.2
        refine ⟨?_, ?_⟩
        · rw [hX, hsp.1, List.singleton_append, ← List.replicate_succ]
          congr 1
          omega
        · intro c h1 h2
          rcases Nat.eq_or_lt_of_le h1 with he | hl
          · rw [← he, hg.1, hsp.1]
          · exact hcols c (by omega) h2
      · right
        refine ⟨it.Text, r.columnCount - it.fin, by rw [hX], hne, hT, by omega, ?_, ?_⟩
        · intro c h1 h2
          exact hcols c (by omega) h2
        · have e : r.columnCount - (r.columnCount - it.fin) - 1 = it.fin - 1 := by omega
          rw [e, (hG.glyphAt h (it.fin - 1) (by omega) (by omega)).1]
          exact hnotsp hT
    · right
      refine ⟨it.Text ++ X0, n, by rw [hX, List.append_assoc], ?_, ?_, by omega, hcols, hglyph⟩
      · intro hnil
        exact hX0 (List.append_eq_nil.1 hnil).2
      · rw [List.getLast?_append_of_ne_nil _ hX0]
        exact hlast

/-- C22 at its failing input: with a segmenter that keeps U+0600 with the code unit
after it, the width-2 row written with U+0600 and a space (a reachable row) holds
that cluster in column 0 and a space in column 1, so one past the last column whose
glyph is no single space is 1; yet `MeasureRight()` is 0.  The scan counts the
trailing space code units of the text and takes each of them for a cell. -/
theorem C22_measure_right_counts_units :
    samplePrependEnv.seg [0x600, 0x20] = some [2]
      ∧ Reachable samplePrependEnv sampleRowPrepend
      ∧ sampleRowPrepend.columnCount = 2
      ∧ sampleRowPrepend.GlyphAt 0 = [0x600, 0x20]
      ∧ sampleRowPrepend.GlyphAt 0 ≠ [UNICODE_SPACE]
      ∧ sampleRowPrepend.GlyphAt 1 = [0x20]
      ∧ sampleRowPrepend.GetText = [0x600, 0x20, 0x20]
      ∧ sampleRowPrepend.MeasureRight = 0 := by
  refine ⟨by rfl, ?_, by rfl, by rfl, by decide, by rfl, by rfl, by rfl⟩
  exact Reachable.replace (ROW.new 2 default) 0 2 [0x600, 0x20] sampleRowPrepend 1 []
    (Reachable.new 2 default (by decide)) (by rfl) (bound_of_eval _ _ (by rfl))

/-- Where the count of code units and the count of cells agree: for every row of
width `W` reachable within the 15-bit limit in which every glyph that ends with a
space is a single narrow space, `MeasureRight()` is a column count `m` in `[0, W]`:
every column from `m` on holds exactly one space, and if `m > 0` the glyph that
covers column `m - 1` is no single space; so `m = 0` exactly when every glyph of the
row is a single space. -/
theorem ROW.MeasureRight_cells (env : Env) (hs : env.SegSound) (r : ROW) (h : Reachable env r)
    (hR : ∀ c, c < r.columnCount → (r.GlyphAt (c : Int)).getLast? = some UNICODE_SPACE →
      r.GlyphAt (c : Int) = [UNICODE_SPACE] ∧ r.DbcsAttrAt (c : Int) = DbcsAttribute.Single) :
    ∃ m : Nat, r.MeasureRight = (m : Int) ∧ m ≤ r.columnCount
      ∧ (∀ c, m ≤ c → c < r.columnCount → r.GlyphAt (c : Int) = [UNICODE_SPACE])
      ∧ (0 < m → r.GlyphAt ((m - 1 : Nat) : Int) ≠ [UNICODE_SPACE])
      ∧ (m = 0 ↔ ∀ c, c < r.columnCount → r.GlyphAt (c : Int) = [UNICODE_SPACE]) := by
  have hinv := h.inv hs
  obtain ⟨l, hc, hfl⟩ := hinv.chain
  rcases hc.trailing hinv hR with ⟨hX, hcols⟩ | ⟨X0, n, hX, hX0, hlast, hn, hcols, hglyph⟩
  · rw [hfl, Nat.sub_zero] at hX
    refine ⟨0, ?_, Nat.zero_le _, fun c _ h2 => hcols c (Nat.zero_le _) h2,
      fun h0 => absurd h0 (by decide), ?_⟩
    · simp only [ROW.MeasureRight, hX, List.reverse_replicate]
      have := takeWhile_space_replicate r.columnCount [] (by simp)
      rw [List.append_nil] at this
      rw [this]
      simp
    · exact ⟨fun _ c hc => hcols c (Nat.zero_le _) hc, fun _ => rfl⟩
  · rw [hfl] at hX
    refine ⟨r.columnCount - n, ?_, Nat.sub_le _ _, hcols, fun _ => hglyph, ?_⟩
    · simp only [ROW.MeasureRight, hX]
      rw [trailing_spaces_append X0 n hlast]
      omega
    · constructor
      · intro h0
        omega
      · intro hall
        exact absurd (hall _ (by omega)) hglyph

theorem sampleRowMeasure_reachable : Reachable sampleEnv sampleRowMeasure :=
  Reachable.replace (ROW.new 6 default) 0 6 [0x61, 0x62, 0x4e00] sampleRowMeasure 4 []
    (Reachable.new 6 default (by decide)) (by rfl) (bound_of_eval _ _ (by rfl))

theorem ROW.MeasureRight_cells_sample :
    sampleEnv.SegSound ∧ Reachable sampleEnv sampleRowMeasure
      ∧ (∀ c, c < sampleRowMeasure.columnCount →
          (sampleRowMeasure.GlyphAt (c : Int)).getLast? = some UNICODE_SPACE →
          sampleRowMeasure.GlyphAt (c : Int) = [UNICODE_SPACE]
            ∧ sampleRowMeasure.DbcsAttrAt (c : Int) = DbcsAttribute.Single)
      ∧ sampleRowMeasure.GlyphAt 4 = [UNICODE_SPACE]
      ∧ sampleRowMeasure.MeasureRight = 4
      ∧ ∃ m : Nat, sampleRowMeasure.MeasureRight = (m : Int) ∧ m ≤ sampleRowMeasure.columnCount
        ∧ (∀ c, m ≤ c → c < sampleRowMeasure.columnCount →
            sampleRowMeasure.GlyphAt (c : Int) = [UNICODE_SPACE])
        ∧ (0 < m → sampleRowMeasure.GlyphAt ((m - 1 : Nat) : Int) ≠ [UNICODE_SPACE])
        ∧ (m = 0 ↔
            ∀ c, c < sampleRowMeasure.columnCount →
              sampleRowMeasure.GlyphAt (c : Int) = [UNICODE_SPACE]) :=
  have hL : ∀ c, c < sampleRowMeasure.columnCount →
      (sampleRowMeasure.GlyphAt (c : Int)).getLast? = some UNICODE_SPACE →
      sampleRowMeasure.GlyphAt (c : Int) = [UNICODE_SPACE]
        ∧ sampleRowMeasure.DbcsAttrAt (c : Int) = DbcsAttribute.Single := by
    intro c hc
    have hc6 : c < 6 := hc
    have : c = 0 ∨ c = 1 ∨ c = 2 ∨ c = 3 ∨ c = 4 ∨ c = 5 := by omega
    rcases this with rfl | rfl | rfl | rfl | rfl | rfl <;> decide
  ⟨sampleEnv_segSound, sampleRowMeasure_reachable, hL, by rfl, by rfl,
    ROW.MeasureRight_cells sampleEnv sampleEnv_segSound sampleRowMeasure sampleRowMeasure_reachable
      hL⟩

/-- The witness row of C22 in numbers: in the row of width 6 with narrow glyphs in
columns 0 and 1, a wide glyph in columns 2 and 3 and spaces after it,
`MeasureRight()` is 4 and `MeasureLeft()` is 0. -/
theorem sampleRowMeasure_right :
    sampleRowMeasure.charOffsets.take 7 = [0, 1, 2, 2 + CharOffsetsTrailer, 3, 4, 5]
      ∧ sampleRowMeasure.GetText = [0x61, 0x62, 0x4e00, 0x20, 0x20]
      ∧ sampleRowMeasure.MeasureRight = 4 ∧ sampleRowMeasure.MeasureLeft = 0 := by
  refine ⟨by rfl, by rfl, by rfl, by rfl⟩

/-! ## C24: `PrecedingColumn` -/

theorem ROW.DbcsAttrAt_trailing_iff (r : ROW) (c : Nat) (hc : c < r.columnCount) :
    r.DbcsAttrAt (c : Int) = DbcsAttribute.Trailing
      ↔ wordIsTrailer (r.charOffsets.getD c 0) = true := by
  simp only [ROW.DbcsAttrAt, ROW._clampedColumn_of_lt r c hc, ROW._uncheckedIsTrailer]
  cases h1 : wordIsTrailer (r.charOffsets.getD c 0) with
  | true => simp
  | false =>
    cases h2 : wordIsTrailer (r.charOffsets.getD (c + 1) 0) <;> simp

/-- The loop of `PrecedingColumn` on a well-formed row, started at a column
`col + 1`: it ends at `col` when `col` is no trailer and at `col - 1` otherwise. -/
theorem ROW.Inv.precedingLoop {r : ROW} (h : r.Inv) (col : Nat) :
    (wordIsTrailer (r.charOffsets.getD col 0) = false
        → precedingLoop r.charOffsets (col + 1) = col)
      ∧ (wordIsTrailer (r.charOffsets.getD col 0) = true
        → precedingLoop r.charOffsets (col + 1) + 1 = col
          ∧ wordIsTrailer (r.charOffsets.getD (col - 1) 0) = false) := by
  constructor
  · intro ht
    simp only [Row.precedingLoop, ht, Bool.false_eq_true, if_false]
  · intro ht
    obtain ⟨j, hj, _, h1, _⟩ := h.trailer_at col ht
    subst hj
    simp only [Row.precedingLoop, ht, if_true, h1, Bool.false_eq_true, if_false,
      Nat.add_sub_cancel, and_self]

/-- C24, as stated, fails at every column but 0 and the trailers: in the row of width
4 that holds `a`, U+1F600 (columns 1 and 2) and `b`, the columns 1 and 3 are no
trailers, yet `PrecedingColumn(1)` is 0 and `PrecedingColumn(3)` is 1. -/
theorem C24_counterexample :
    sampleRowEmoji.DbcsAttrAt 1 = DbcsAttribute.Leading
      ∧ sampleRowEmoji.DbcsAttrAt 3 = DbcsAttribute.Single
      ∧ sampleRowEmoji.PrecedingColumn 1 = 0
      ∧ sampleRowEmoji.PrecedingColumn 3 = 1 := by
  refine ⟨by rfl, by rfl, by rfl, by rfl⟩

/-- C24, amended: for every row reachable within the 15-bit limit and every column
`col` in `[0, W)`, `PrecedingColumn(0)` is 0, and for `col > 0` the result `p` is the
leading column of the glyph that covers column `col - 1`: `p` is no trailer,
`p < col <= p + 2`, every column strictly between `p` and `col` is a trailer, and
`GlyphAt(p) = GlyphAt(col - 1)`.  If column `col` is a trailer, the result is
`col - 1`, the leading column of the wide glyph that contains `col`. -/
theorem C24_preceding_column (env : Env) (hs : env.SegSound) (r : ROW) (h : Reachable env r)
    (col : Nat) (hc : col < r.columnCount) :
    (col = 0 → r.PrecedingColumn (col : Int) = 0)
      ∧ (0 < col →
          r.PrecedingColumn (col : Int) < col ∧ col ≤ r.PrecedingColumn (col : Int) + 2
            ∧ r.DbcsAttrAt ((r.PrecedingColumn (col : Int) : Nat) : Int) ≠ DbcsAttribute.Trailing
            ∧ (∀ c, r.PrecedingColumn (col : Int) < c → c < col →
                r.DbcsAttrAt (c : Int) = DbcsAttribute.Trailing)
            ∧ r.GlyphAt ((r.PrecedingColumn (col : Int) : Nat) : Int)
                = r.GlyphAt ((col - 1 : Nat) : Int))
      ∧ (r.DbcsAttrAt (col : Int) = DbcsAttribute.Trailing →
          r.PrecedingColumn (col : Int) + 1 = col
            ∧ r.GlyphAt ((r.PrecedingColumn (col : Int) : Nat) : Int) = r.GlyphAt (col : Int)) := by
  have hinv := h.inv hs
  have hP : r.PrecedingColumn (col : Int) = precedingLoop r.charOffsets col := by
    simp only [ROW.PrecedingColumn, ROW._clampedColumn_of_lt r col hc]
  rw [hP]
  refine ⟨?_, ?_, ?_⟩
  · intro h0
    subst h0
    rfl
  · intro hpos
    obtain ⟨j, rfl⟩ : ∃ j, col = j + 1 := ⟨col - 1, by omega⟩
    have hl := hinv.precedingLoop j
    cases ht : wordIsTrailer (r.charOffsets.getD j 0) with
    | false =>
      have e := hl.1 ht
      rw [e]
      refine ⟨by omega, by omega, ?_, ?_, by rw [Nat.add_sub_cancel]⟩
      · intro hx
        rw [(r.DbcsAttrAt_trailing_iff j (by omega)).1 hx] at ht
        exact Bool.noConfusion ht
      · intro c h1 h2
        omega
    | true =>
      obtain ⟨e, hprev⟩ := hl.2 ht
      obtain ⟨k, hk, _, _, _⟩ := hinv.trailer_at j ht
      subst hk
      have ep : precedingLoop r.charOffsets (k + 1 + 1) = k := by omega
      rw [ep]
      rw [Nat.add_sub_cancel] at hprev
      refine ⟨by omega, by omega, ?_, ?_, ?_⟩
      · intro hx
        rw [(r.DbcsAttrAt_trailing_iff k (by omega)).1 hx] at hprev
        exact Bool.noConfusion hprev
      · intro c h1 h2
        have hck : c = k + 1 := by omega
        subst hck
        exact (r.DbcsAttrAt_trailing_iff (k + 1) (by omega)).2 ht
      · rw [Nat.add_sub_cancel]
        exact (hinv.glyph_trailer k (by omega) hprev ht).1.symm
  · intro hT
    have ht := (r.DbcsAttrAt_trailing_iff col hc).1 hT
    obtain ⟨k, hk, _, hprev, _⟩ := hinv.trailer_at col ht
    subst hk
    have e := (hinv.precedingLoop k).1 hprev
    rw [e]
    exact ⟨rfl, (hinv.glyph_trailer k (by omega) hprev ht).1.symm⟩

theorem C24_preceding_column_witness :
    sampleEnv.SegSound ∧ Reachable sampleEnv sampleRowEmoji ∧ 2 < sampleRowEmoji.columnCount
      ∧ (2 = 0 → sampleRowEmoji.PrecedingColumn ((2 : Nat) : Int) = 0)
      ∧ (0 < 2 →
          sampleRowEmoji.PrecedingColumn ((2 : Nat) : Int) < 2
            ∧ 2 ≤ sampleRowEmoji.PrecedingColumn ((2 : Nat) : Int) + 2
            ∧ sampleRowEmoji.DbcsAttrAt
                ((sampleRowEmoji.PrecedingColumn ((2 : Nat) : Int) : Nat) : Int)
              ≠ DbcsAttribute.Trailing
            ∧ (∀ c, sampleRowEmoji.PrecedingColumn ((2 : Nat) : Int) < c → c < 2 →
                sampleRowEmoji.DbcsAttrAt (c : Int) = DbcsAttribute.Trailing)
            ∧ sampleRowEmoji.GlyphAt
                ((sampleRowEmoji.PrecedingColumn ((2 : Nat) : Int) : Nat) : Int)
              = sampleRowEmoji.GlyphAt ((2 - 1 : Nat) : Int))
      ∧ (sampleRowEmoji.DbcsAttrAt ((2 : Nat) : Int) = DbcsAttribute.Trailing →
          sampleRowEmoji.PrecedingColumn ((2 : Nat) : Int) + 1 = 2
            ∧ sampleRowEmoji.GlyphAt
                ((sampleRowEmoji.PrecedingColumn ((2 : Nat) : Int) : Nat) : Int)
              = sampleRowEmoji.GlyphAt ((2 : Nat) : Int)) :=
  ⟨sampleEnv_segSound, sampleRowEmoji_reachable, by decide,
    C24_preceding_column sampleEnv sampleEnv_segSound sampleRowEmoji sampleRowEmoji_reachable 2
      (by decide)⟩

/-- The witness of C24 in numbers: in the row that holds `a`, U+1F600 and `b`,
`PrecedingColumn` of the columns 0, 1, 2, 3 is 0, 0, 1, 1, and an argument beyond the
row counts as column 3. -/
theorem sampleRowEmoji_preceding :
    sampleRowEmoji.PrecedingColumn 0 = 0 ∧ sampleRowEmoji.PrecedingColumn 1 = 0
      ∧ sampleRowEmoji.PrecedingColumn 2 = 1 ∧ sampleRowEmoji.PrecedingColumn 3 = 1
      ∧ sampleRowEmoji.PrecedingColumn 9 = 1 ∧ sampleRowEmoji.PrecedingColumn (-4) = 0 := by
  refine ⟨by rfl, by rfl, by rfl, by rfl, by rfl, by rfl⟩

/-! ## C25: `GetHyperlinks` -/

/-- C25, as stated, fails when two runs that are not adjacent carry the same
hyperlink: in the row of width 3 whose columns 0 and 2 carry the hyperlink 7 and
whose column 1 carries the default attribute, `GetHyperlinks()` holds the id 7
twice. -/
theorem C25_counterexample :
    sampleRowLinks.map (fun r => r.attr)
        = some [(sampleAttrLink, 1), (default, 1), (sampleAttrLink, 1)]
      ∧ sampleRowLinks.map (fun r => r.GetHyperlinks) = some [7, 7]
      ∧ sampleRowLinks.map (fun r => r.GetHyperlinks.count 7) = some 2 := by
  refine ⟨by rfl, by rfl, by rfl⟩

theorem count_map_filter_link (id : Nat) (hid : id ≠ 0) : ∀ (runs : List (TextAttribute × Nat)),
    (((runs.filter (fun run => decide (run.1.hyperlinkId ≠ 0))).map
        (fun run => run.1.hyperlinkId)).count id)
      = runs.countP (fun run => decide (run.1.hyperlinkId = id)) := by
  intro runs
  induction runs with
  | nil => rfl
  | cons a rest ih =>
    rw [List.filter_cons]
    by_cases ha : a.1.hyperlinkId = 0
    · have hne : ¬ a.1.hyperlinkId = id := by
        intro he
        exact hid (by rw [← he]; exact ha)
      rw [if_neg (by simp [ha]), List.countP_cons, ih]
      simp [hne]
    · rw [if_pos (by simp [ha]), List.map_cons, List.count_cons, ih]
      by_cases he : a.1.hyperlinkId = id
      · rw [List.countP_cons]
        simp [he]
      · rw [List.countP_cons]
        simp [he]

/-- C25, amended: for every attribute run sequence of a row, an id is in the result
of `GetHyperlinks()` iff some run's attribute is a hyperlink with that id (a
hyperlink has an id other than 0), and a hyperlink id occurs in the result once for
every run that carries it: the result has one entry per hyperlink run, so an id
occurs more than once when several runs carry it. -/
theorem C25_hyperlinks (r : ROW) (id : Nat) :
    (id ∈ r.GetHyperlinks ↔ ∃ run, run ∈ r.attr ∧ run.1.hyperlinkId ≠ 0 ∧ run.1.hyperlinkId = id)
      ∧ (id ≠ 0 →
          r.GetHyperlinks.count id
            = r.attr.countP (fun run => decide (run.1.hyperlinkId = id)))
      ∧ r.GetHyperlinks.length = r.attr.countP (fun run => decide (run.1.hyperlinkId ≠ 0)) := by
  refine ⟨?_, ?_, ?_⟩
  · simp only [ROW.GetHyperlinks, List.mem_map, List.mem_filter, decide_eq_true_eq]
    constructor
    · rintro ⟨run, ⟨h1, h2⟩, h3⟩
      exact ⟨run, h1, h2, h3⟩
    · rintro ⟨run, h1, h2, h3⟩
      exact ⟨run, ⟨h1, h2⟩, h3⟩
  · intro hid
    exact count_map_filter_link id hid r.attr
  · simp only [ROW.GetHyperlinks, List.length_map, List.countP_eq_length_filter]

theorem C25_hyperlinks_witness :
    (7 : Nat) ≠ 0
      ∧ (ROW.new 3 sampleAttrLink).GetHyperlinks.count 7
          = (ROW.new 3 sampleAttrLink).attr.countP (fun run => decide (run.1.hyperlinkId = 7))
      ∧ (ROW.new 3 sampleAttrLink).GetHyperlinks = [7] :=
  ⟨by decide, (C25_hyperlinks (ROW.new 3 sampleAttrLink) 7).2.1 (by decide), by rfl⟩

/-! ## C27: the argument checks of `WriteCells` -/

/-- C27 at its failing input: on the row of width 6, `WriteCells(it, -1, wrap,
nullopt)` is not refused: it passes both checks (`-1 >= 6` is false; nothing tests
`columnBegin < 0`), `narrow_cast<uint16_t>` turns the column into 65535, the loop is
not entered and the call returns without an error; and `WriteCells(it, -65536, wrap,
nullopt)` enters its loop at column 0. -/
theorem C27_negative_column_begin :
    sampleRowWide.columnCount = 6
      ∧ sampleRowWide.WriteCellsHead true (-1) none = WriteCellsHead.done sampleRowWide
      ∧ sampleRowWide.WriteCellsHead true (-65536) none
          = WriteCellsHead.loop sampleRowWide 0 5 := by
  refine ⟨by rfl, by rfl, by rfl⟩

/-- The two checks of `WriteCells`: the call fails with the invalid-argument error,
the row being untouched, exactly when `columnBegin >= W` or the right limit (0 when
none is given) is `>= W`; so it fails whenever `columnBegin` is `W` or greater or a
given right limit is `>= W`, and a negative `columnBegin` with a right limit below
`W` passes both checks. -/
theorem ROW.WriteCellsHead_checks (r : ROW) (itValid : Bool) (columnBegin : Int)
    (limitRight : Option Int) :
    (r.WriteCellsHead itValid columnBegin limitRight = WriteCellsHead.invalidArg r
        ↔ (r.columnCount : Int) ≤ columnBegin ∨ (r.columnCount : Int) ≤ limitRight.getD 0)
      ∧ (∀ row, r.WriteCellsHead itValid columnBegin limitRight = WriteCellsHead.invalidArg row
          → row = r)
      ∧ ((r.columnCount : Int) ≤ columnBegin →
          r.WriteCellsHead itValid columnBegin limitRight = WriteCellsHead.invalidArg r)
      ∧ (∀ l, limitRight = some l → (r.columnCount : Int) ≤ l →
          r.WriteCellsHead itValid columnBegin limitRight = WriteCellsHead.invalidArg r)
      ∧ (columnBegin < 0 → limitRight.getD 0 < (r.columnCount : Int) →
          r.WriteCellsHead itValid columnBegin limitRight ≠ WriteCellsHead.invalidArg r) := by
  have key : r.WriteCellsHead itValid columnBegin limitRight = WriteCellsHead.invalidArg r
      ↔ (r.columnCount : Int) ≤ columnBegin ∨ (r.columnCount : Int) ≤ limitRight.getD 0 := by
    unfold ROW.WriteCellsHead
    by_cases h1 : (r.columnCount : Int) ≤ columnBegin
    · simp only [h1, if_true, true_or]
    · by_cases h2 : (r.columnCount : Int) ≤ limitRight.getD 0
      · simp only [h1, h2, if_true, if_false, or_true]
      · simp only [h1, h2, if_false, or_self, iff_false]
        split <;> exact fun hx => WriteCellsHead.noConfusion hx
  refine ⟨key, ?_, fun h1 => key.2 (Or.inl h1), ?_, ?_⟩
  · intro row hrow
    unfold ROW.WriteCellsHead at hrow
    split at hrow
    · exact (WriteCellsHead.invalidArg.inj hrow).symm
    · split at hrow
      · exact (WriteCellsHead.invalidArg.inj hrow).symm
      · dsimp only at hrow
        split at hrow <;> exact WriteCellsHead.noConfusion hrow
  · intro l hl h2
    exact key.2 (Or.inr (by rw [hl]; exact h2))
  · intro h1 h2 hx
    have hW : (0 : Int) ≤ (r.columnCount : Int) := Int.ofNat_nonneg _
    rcases key.1 hx with h3 | h3 <;> omega

theorem ROW.WriteCellsHead_checks_sample :
    (sampleRowWide.WriteCellsHead true 7 (some 9) = WriteCellsHead.invalidArg sampleRowWide
        ↔ (sampleRowWide.columnCount : Int) ≤ 7
          ∨ (sampleRowWide.columnCount : Int) ≤ (some (9 : Int)).getD 0)
      ∧ sampleRowWide.WriteCellsHead true 7 none = WriteCellsHead.invalidArg sampleRowWide
      ∧ sampleRowWide.WriteCellsHead true 6 none = WriteCellsHead.invalidArg sampleRowWide
      ∧ sampleRowWide.WriteCellsHead true 0 (some 6) = WriteCellsHead.invalidArg sampleRowWide
      ∧ sampleRowWide.WriteCellsHead true 0 (some 5) = WriteCellsHead.loop sampleRowWide 0 5 :=
  ⟨(ROW.WriteCellsHead_checks sampleRowWide true 7 (some 9)).1, by rfl, by rfl, by rfl, by rfl⟩

/-! ## C26: the read operations clamp their argument -/

/-- The witness of C26 in numbers: in the row of width 4 that holds `a`, U+1F600 and
`b`, the arguments -3 and 9 are read as the columns 0 and 3. -/
theorem sampleRowEmoji_clamped_reads :
    sampleRowEmoji.GlyphAt (-3) = [0x61] ∧ sampleRowEmoji.GlyphAt 9 = [0x62]
      ∧ sampleRowEmoji.DbcsAttrAt (-3) = DbcsAttribute.Single
      ∧ sampleRowEmoji.DelimiterClassAt 9 [0x62] = DelimiterClass.DelimiterChar
      ∧ sampleRowEmoji.DelimiterClassAt (-3) [0x62] = DelimiterClass.RegularChar
      ∧ sampleRowEmoji.GlyphAtOffsetReads 1 = [1, 2, 3, 3]
      ∧ sampleRowEmoji.GlyphAtOffsetReads 9 = [3, 4, 4]
      ∧ sampleRowEmoji.GlyphAtCharReads 9 = [3, 4]
      ∧ sampleRowEmoji.PrecedingColumnOffsetReads 9 = [2, 1] := by
  refine ⟨by rfl, by rfl, by rfl, by rfl, by rfl, by rfl, by rfl, by rfl, by rfl⟩

/-! ## C28: the consumed code units and the cluster boundaries -/

/-- C28 at its failing input: on a fresh row of width 3 the text `a b c U+0301` has
the cluster boundaries 1, 2 and 4, yet `ReplaceCharacters(0, 3, text)` returns,
consumes 3 code units, which is no boundary, and hands back the combining mark
alone, its base `c` being stored in the last column. -/
theorem C28_consumed_not_boundary :
    sampleEnv.seg [0x61, 0x62, 0x63, 0x301] = some [1, 2, 4]
      ∧ (ROW.new 3 default).ReplaceCharacters sampleEnv 0 3 [0x61, 0x62, 0x63, 0x301]
          = Outcome.returned
              ((ROW.new 3 default).ReplaceCharacters sampleEnv 0 3 [0x61, 0x62, 0x63, 0x301]).row
              3 [0x301]
      ∧ [0x61, 0x62, 0x63, 0x301].length - [0x301].length = 3
      ∧ 3 ∉ [1, 2, 4]
      ∧ ((ROW.new 3 default).ReplaceCharacters sampleEnv 0 3
            [0x61, 0x62, 0x63, 0x301]).row.GlyphAt 2 = [0x63]
      ∧ ((ROW.new 3 default).ReplaceCharacters sampleEnv 0 3
            [0x61, 0x62, 0x63, 0x301]).row.GetText = [0x61, 0x62, 0x63] := by
  refine ⟨by rfl, by rfl, by rfl, by decide, by rfl, by rfl⟩

/-! ## C29: scenario S2 -/

/-- C29, as stated, fails in the offsets: after `ReplaceCharacters(1, 3, w)` on the
row of three wide glyphs the offsets array is not `[0, 1, 2, 2|T, 3, 4, 4|T]`; its
entry of column 2 is `1|T`, the trailer of `w`. -/
theorem C29_counterexample :
    sampleRowS2.charOffsets
        ≠ [0, 1, 2, 2 + CharOffsetsTrailer, 3, 4, 4 + CharOffsetsTrailer]
      ∧ sampleRowS2.charOffsets.getD 2 0 = 1 + CharOffsetsTrailer
      ∧ sampleRowS2.DbcsAttrAt 2 = DbcsAttribute.Trailing
      ∧ sampleRowS2.DbcsAttrAt 3 = DbcsAttribute.Single := by
  refine ⟨by decide, by rfl, by rfl, by rfl⟩

/-- C29, amended (scenario S2): starting from the width-6 row built from three wide
single-code-unit glyphs (trailers at the columns 1, 3, 5), `ReplaceCharacters(1, 3,
w)` with `w` one wide glyph returns column 4 with nothing left to write and yields
the layout space, wide `w`, space, wide `z`: the text has the 4 code units space,
`w`, space, `z`, the offsets array is `[0, 1, 1|T, 2, 3, 3|T, 4]` (`w` leads in
column 1 and trails in column 2), and `dbcs_padded` is false. -/
theorem C29_scenario_S2 :
    sampleRowWide.charOffsets
        = [0, 0 + CharOffsetsTrailer, 1, 1 + CharOffsetsTrailer, 2, 2 + CharOffsetsTrailer, 3]
      ∧ sampleRowWide.ReplaceCharacters sampleEnv 1 3 [0x4e03]
          = Outcome.returned sampleRowS2 4 []
      ∧ sampleRowS2.GetText = [0x20, 0x4e03, 0x20, 0x4e02]
      ∧ sampleRowS2.charOffsets
          = [0, 1, 1 + CharOffsetsTrailer, 2, 3, 3 + CharOffsetsTrailer, 4]
      ∧ sampleRowS2.doubleBytePadded = false
      ∧ (List.range 6).map (fun (c : Nat) => sampleRowS2.GlyphAt (c : Int))
          = [[0x20], [0x4e03], [0x4e03], [0x20], [0x4e02], [0x4e02]]
      ∧ (List.range 6).map (fun (c : Nat) => sampleRowS2.DbcsAttrAt (c : Int))
          = [DbcsAttribute.Single, DbcsAttribute.Leading, DbcsAttribute.Trailing,
              DbcsAttribute.Single, DbcsAttribute.Leading, DbcsAttribute.Trailing] := by
  refine ⟨by rfl, by rfl, by rfl, by rfl, by rfl, by rfl, by rfl⟩

/-! ## C30: the text length and the width -/

/-- An encoding of glyphs has at most as many columns as code units and trailer
entries together. -/
theorem Cells.length_le_trailers {a b : Nat} {cs : List Nat} (h : Cells a cs b)
    (hb : b ≤ 32767) :
    a + cs.length ≤ b + cs.countP wordIsTrailer := by
  induction h with
  | nil a => simp
  | narrow a k cs b hk _ ih =>
    have := ih hb
    rw [List.length_cons, List.countP_cons]
    omega
  | wide a k cs b hk hc ih =>
    have := ih hb
    have hab := hc.le
    have ht := wordIsTrailer_add (show a ≤ 32767 by omega)
    rw [List.length_cons, List.length_cons, List.countP_cons, List.countP_cons, ht]
    simp only [if_true]
    omega

/-- C30, as stated, fails for wide glyphs: the row of width 6 written with three
wide glyphs of one code unit each, reached from a freshly constructed row by one
`ReplaceCharacters` call that returns, has the text length 3. -/
theorem C30_counterexample :
    (ROW.new 6 default).ReplaceCharacters sampleEnv 0 6 [0x4e00, 0x4e01, 0x4e02]
        = Outcome.returned sampleRowWide 6 []
      ∧ sampleRowWide.columnCount = 6
      ∧ sampleRowWide._charSize = 3
      ∧ sampleRowWide.charOffsets.getD sampleRowWide.columnCount 0 = 3 := by
  refine ⟨by rfl, by rfl, by rfl, by rfl⟩

/-- C30, amended: for every row of width `W` reachable within the 15-bit limit, the
text length `P = offsets[W]` satisfies `W <= P + T`, where `T` is the number of
trailer columns (each glyph contributes at least one code unit, a wide glyph covers
two columns), hence `W <= 2 P`, and `P >= W` when the row has no trailer column. -/
theorem C30_text_length (env : Env) (hs : env.SegSound) (r : ROW) (h : Reachable env r) :
    r._charSize = r.charOffsets.getD r.columnCount 0
      ∧ r.columnCount ≤ r._charSize + (r.charOffsets.take r.columnCount).countP wordIsTrailer
      ∧ r.columnCount ≤ 2 * r._charSize
      ∧ ((∀ c, c < r.columnCount → r.DbcsAttrAt (c : Int) ≠ DbcsAttribute.Trailing) →
          r.columnCount ≤ r._charSize) := by
  have hinv := h.inv hs
  have hlen : (r.charOffsets.take r.columnCount).length = r.columnCount := by
    simp [hinv.len]
  have h1 := hinv.cells.length_le_trailers hinv.bound
  have h2 := hinv.cells.length_le_twice
  rw [hlen] at h1 h2
  refine ⟨rfl, by omega, by omega, ?_⟩
  intro hno
  have hz : (r.charOffsets.take r.columnCount).countP wordIsTrailer = 0 := by
    rw [List.countP_eq_zero]
    intro x hx
    obtain ⟨i, hi, hget⟩ := List.getElem_of_mem hx
    rw [hlen] at hi
    have hg : r.charOffsets.getD i 0 = x := by
      rw [← getD_take_of_lt r.charOffsets r.columnCount i hi, List.getD_eq_getElem?_getD,
        List.getElem?_eq_getElem (by rw [hlen]; exact hi), hget]
      rfl
    intro hx2
    rw [← hg] at hx2
    exact hno i hi ((r.DbcsAttrAt_trailing_iff i hi).2 hx2)
  omega

theorem C30_text_length_witness :
    sampleEnv.SegSound ∧ Reachable sampleEnv sampleRowWide
      ∧ sampleRowWide._charSize = sampleRowWide.charOffsets.getD sampleRowWide.columnCount 0
      ∧ sampleRowWide.columnCount
          ≤ sampleRowWide._charSize
            + (sampleRowWide.charOffsets.take sampleRowWide.columnCount).countP wordIsTrailer
      ∧ sampleRowWide.columnCount ≤ 2 * sampleRowWide._charSize
      ∧ ((∀ c, c < sampleRowWide.columnCount →
            sampleRowWide.DbcsAttrAt (c : Int) ≠ DbcsAttribute.Trailing) →
          sampleRowWide.columnCount ≤ sampleRowWide._charSize) :=
  ⟨sampleEnv_segSound, sampleRowWide_reachable,
    C30_text_length sampleEnv sampleEnv_segSound sampleRowWide sampleRowWide_reachable⟩

/-! ## C31: the no-op calls of `ReplaceCharacters` -/

/-- C31: `ReplaceCharacters` with empty text, or with clamped `colBeg >= colEnd`, is a
no-op on every row: it returns, the row after the call is the row before it (text,
offsets, flags, attributes, every field), the text argument is handed back whole,
and the returned column is `columnBegin` clamped to `[0, W]`. -/
theorem C31_noop (env : Env) (r : ROW) (columnBegin columnEnd : Int) (chars : List Nat)
    (h : chars = [] ∨ r._clampedColumnInclusive columnEnd ≤ r._clampedColumnInclusive columnBegin) :
    r.ReplaceCharacters env columnBegin columnEnd chars
        = Outcome.returned r (r._clampedColumnInclusive columnBegin) chars
      ∧ ((r._clampedColumnInclusive columnBegin : Nat) : Int)
          = max 0 (min (r.columnCount : Int) columnBegin)
      ∧ r._clampedColumnInclusive columnBegin ≤ r.columnCount := by
  refine ⟨?_, ?_, r._clampedColumnInclusive_le columnBegin⟩
  · simp only [ROW.ReplaceCharacters]
    rw [if_pos (by rcases h with h | h; exact Or.inr h; exact Or.inl h)]
  · simp only [ROW._clampedColumnInclusive]
    omega

theorem C31_noop_witness :
    ([0x61] = ([] : List Nat)
        ∨ sampleRowEmoji._clampedColumnInclusive 2 ≤ sampleRowEmoji._clampedColumnInclusive 9)
      ∧ sampleRowEmoji.ReplaceCharacters sampleEnv 9 2 [0x61]
          = Outcome.returned sampleRowEmoji (sampleRowEmoji._clampedColumnInclusive 9) [0x61]
      ∧ ((sampleRowEmoji._clampedColumnInclusive 9 : Nat) : Int)
          = max 0 (min (sampleRowEmoji.columnCount : Int) 9)
      ∧ sampleRowEmoji._clampedColumnInclusive 9 ≤ sampleRowEmoji.columnCount :=
  ⟨Or.inr (by decide), C31_noop sampleEnv sampleRowEmoji 9 2 [0x61] (Or.inr (by decide))⟩

/-- The witness of C31 in numbers: on the row of width 4, a call with an empty text
at column 2 returns 2, a call with `columnBegin = 9` and `columnEnd = 2` returns 4,
and a call with `columnBegin = -3` and `columnEnd = 0` returns 0; the row stays. -/
theorem sampleRowEmoji_noop :
    sampleRowEmoji.ReplaceCharacters sampleEnv 2 4 [] = Outcome.returned sampleRowEmoji 2 []
      ∧ sampleRowEmoji.ReplaceCharacters sampleEnv 9 2 [0x61]
          = Outcome.returned sampleRowEmoji 4 [0x61]
      ∧ sampleRowEmoji.ReplaceCharacters sampleEnv (-3) 0 [0x61]
          = Outcome.returned sampleRowEmoji 0 [0x61] := by
  refine ⟨by rfl, by rfl, by rfl⟩

/-! ## C32 to C35: the text adapter -/

/-- The function `utextAccess` returns `true` only on the path that leaves the
`UText` as it is: when the chunk it describes already holds the index. -/
theorem utextAccess_true (buffer : List ROW) (ut : UText) (nativeIndex : Int) (forward : Bool)
    (h : (utextAccess buffer ut nativeIndex forward).1 = true) :
    (utextAccess buffer ut nativeIndex forward).2 = ut
      ∧ ut.chunkNativeStart ≤ (if forward then nativeIndex else nativeIndex - 1)
      ∧ (if forward then nativeIndex else nativeIndex - 1) < ut.chunkNativeLimit := by
  by_cases hc : ut.chunkNativeStart ≤ (if forward then nativeIndex else nativeIndex - 1)
      ∧ (if forward then nativeIndex else nativeIndex - 1) < ut.chunkNativeLimit
  · refine ⟨?_, hc.1, hc.2⟩
    unfold utextAccess
    dsimp only
    rw [if_pos hc]
  · exfalso
    unfold utextAccess at h
    dsimp only at h
    rw [if_neg hc] at h
    exact Bool.noConfusion h

/-- C32 at its failing input: on a freshly opened adapter every first `access` call
returns `false`, whatever the buffer, the index and the direction.  Over the two
rows `a U+1F600 b` and three wide glyphs (7 code units in all), `access(0, true)`
returns `false` although index 0 is in bounds, and it leaves the chunk `[0, 3)` of
row 1; a second `access(0, true)` returns `true`, and `access(3, true)`, in bounds
too, returns `false` with the row field 2, which is no row. -/
theorem C32_access_returns_false :
    (∀ (buffer : List ROW) (endPositionY nativeIndex : Int) (forward : Bool),
        (utextAccess buffer (utext_openUChars endPositionY) nativeIndex forward).1 = false)
      ∧ (utextLength sampleBuffer (utext_openUChars 2)).1 = 7
      ∧ utextAccess sampleBuffer (utext_openUChars 2) 0 true
          = (false,
              { utext_openUChars 2 with
                row := 1, chunkNativeStart := 0, chunkNativeLimit := 3, chunkOffset := 0
                chunkLength := 3, nativeIndexingLimit := 3 })
      ∧ (utextAccess sampleBuffer (utextAccess sampleBuffer (utext_openUChars 2) 0 true).2 0
          true).1 = true
      ∧ utextAccess sampleBuffer (utextAccess sampleBuffer (utext_openUChars 2) 0 true).2 3 true
          = (false,
              { utext_openUChars 2 with
                row := 2, chunkNativeStart := 0, chunkNativeLimit := 3, chunkOffset := 0
                chunkLength := 0, nativeIndexingLimit := 0 }) := by
  refine ⟨?_, by rfl, by rfl, by rfl, by rfl⟩
  intro buffer endPositionY nativeIndex forward
  cases hres : (utextAccess buffer (utext_openUChars endPositionY) nativeIndex forward).1 with
  | false => rfl
  | true =>
    have h := utextAccess_true buffer (utext_openUChars endPositionY) nativeIndex forward hres
    have h1 : (utext_openUChars endPositionY).chunkNativeStart = 0 := rfl
    have h2 : (utext_openUChars endPositionY).chunkNativeLimit = 0 := rfl
    rw [h1] at h
    rw [h2] at h
    omega

/-- C33 at its failing input: over the two rows `a U+1F600 b` (4 code units) and
three wide glyphs (3 code units), `access(0, true)` on the freshly opened adapter
leaves a chunk that is not empty, with the row field 1 and `chunkLength` 3, the text
length of row 1, but with `chunkNativeStart = 0`, whereas the text length of row 0
is 4; a following `access(0, false)` leaves the row field 0 with the chunk
`[-4, 0)`. -/
theorem C33_chunk_not_at_row_start :
    (utextAccess sampleBuffer (utext_openUChars 2) 0 true).2.row = 1
      ∧ (utextAccess sampleBuffer (utext_openUChars 2) 0 true).2.chunkLength = 3
      ∧ (utextAccess sampleBuffer (utext_openUChars 2) 0 true).2.chunkNativeStart = 0
      ∧ (utextAccess sampleBuffer (utext_openUChars 2) 0 true).2.chunkNativeLimit = 3
      ∧ (rowText sampleBuffer 0).length = 4
      ∧ (rowText sampleBuffer 1).length = 3
      ∧ (utextAccess sampleBuffer (utextAccess sampleBuffer (utext_openUChars 2) 0 true).2 0
          false).2.row = 0
      ∧ (utextAccess sampleBuffer (utextAccess sampleBuffer (utext_openUChars 2) 0 true).2 0
          false).2.chunkNativeStart = -4
      ∧ (utextAccess sampleBuffer (utextAccess sampleBuffer (utext_openUChars 2) 0 true).2 0
          false).2.chunkNativeLimit = 0 := by
  refine ⟨by rfl, by rfl, by rfl, by rfl, by rfl, by rfl, by rfl, by rfl, by rfl⟩

/-- C34 at its failing inputs: over the two rows whose concatenated text is
`a U+1F600 b` followed by three wide glyphs (7 code units), `extract(0, 4, dest, 7)`
on the freshly opened adapter returns 3 instead of 4 and writes the three code units
of row 1 instead of the first four of the text; `extract(1, 2, dest, 7)` returns 1
but writes three code units, the whole of row 1. -/
theorem C34_extract_copies_wrong_rows :
    (sampleBuffer.map ROW.GetText).flatten
        = [0x61, 0xd83d, 0xde00, 0x62, 0x4e00, 0x4e01, 0x4e02]
      ∧ (utextExtract sampleBuffer (utext_openUChars 2) 0 4 false 7 U_ZERO_ERROR).count = 3
      ∧ (utextExtract sampleBuffer (utext_openUChars 2) 0 4 false 7 U_ZERO_ERROR).dest
          = [0x4e00, 0x4e01, 0x4e02]
      ∧ (utextExtract sampleBuffer (utext_openUChars 2) 0 4 false 7 U_ZERO_ERROR).status
          = U_ZERO_ERROR
      ∧ (utextExtract sampleBuffer (utext_openUChars 2) 1 2 false 7 U_ZERO_ERROR).count = 1
      ∧ (utextExtract sampleBuffer (utext_openUChars 2) 1 2 false 7 U_ZERO_ERROR).dest
          = [0x4e00, 0x4e01, 0x4e02] := by
  refine ⟨by rfl, by rfl, by rfl, by rfl, by rfl, by rfl⟩

/-- C35 at its failing input: over the two rows of 4 and 3 code units, `length()` on
the freshly opened adapter returns 7; after `extract(0, 4, dest, 7)` the cached
length is 3, the provider property at bit 0 is cleared, and `length()` returns 3. -/
theorem C35_length_after_extract :
    (utextLength sampleBuffer (utext_openUChars 2)).1 = 7
      ∧ (utextLength sampleBuffer (utextLength sampleBuffer (utext_openUChars 2)).2).1 = 7
      ∧ (utextExtract sampleBuffer (utext_openUChars 2) 0 4 false 7 U_ZERO_ERROR).ut.length = 3
      ∧ (utextExtract sampleBuffer (utext_openUChars 2) 0 4 false 7
          U_ZERO_ERROR).ut.providerProperties = 2
      ∧ (utextLength sampleBuffer
          (utextExtract sampleBuffer (utext_openUChars 2) 0 4 false 7 U_ZERO_ERROR).ut).1 = 3 := by
  refine ⟨by rfl, by rfl, by rfl, by rfl, by rfl⟩

/-! ## C36: bit 15 of an offsets entry -/

/-- The row that `ReplaceCharacters(0, columnEnd, text)` leaves when it writes an
ASCII text that fits into a fresh row of any width up to 65535: the offsets are
still `0, 1, ..., W`. -/
theorem ReplaceCharacters_ascii_fresh_offs (env : Env) (W : Nat) (fill : TextAttribute)
    (text : List Nat) (columnEnd : Int) (hW : W ≤ 65535) (hne : text ≠ [])
    (hend : 0 < (ROW.new W fill)._clampedColumnInclusive columnEnd)
    (hfit : 0 + text.length ≤ W) (hlim : 0 + text.length ≤ 32767)
    (hascii : ∀ ch, ch ∈ text → ch < 0x80)
    (hseg : ∃ bs, env.seg (List.replicate 0 UNICODE_SPACE ++ text
      ++ List.replicate (W - (0 + text.length)) UNICODE_SPACE) = some bs) :
    ∃ r', (ROW.new W fill).ReplaceCharacters env ((0 : Nat) : Int) columnEnd text
        = Outcome.returned r' (0 + text.length) []
      ∧ r'.columnCount = W
      ∧ r'.charOffsets = List.range' 0 (W + 1)
      ∧ r'.chars = List.replicate 0 UNICODE_SPACE ++ text
          ++ List.replicate (W - (0 + text.length)) UNICODE_SPACE :=
  ⟨_, ReplaceCharacters_ascii_fresh env W 0 fill text columnEnd hW hne hend hfit hlim hascii hseg,
    rfl, ROW.new_offs W fill hW, rfl⟩

/-- C36, as stated, fails on a row of 32770 columns: `ReplaceCharacters(0, 1, "a")` on
the freshly constructed row returns, and afterwards the offsets of column 32769 and
of index `W` are 32769 and 32770, above 32767; column 32769 holds a narrow space,
yet its entry has bit 15 set and `DbcsAttrAt` takes it for the trailing half of a
wide glyph. -/
theorem C36_counterexample :
    ∃ r', (ROW.new 32770 default).ReplaceCharacters sampleEnv ((0 : Nat) : Int) 1 [0x61]
        = Outcome.returned r' 1 []
      ∧ r'.columnCount = 32770
      ∧ r'.charOffsets.getD 32769 0 = 32769
      ∧ r'.charOffsets.getD r'.columnCount 0 = 32770
      ∧ r'._uncheckedIsTrailer 32769 = true
      ∧ r'.DbcsAttrAt ((32769 : Nat) : Int) = DbcsAttribute.Trailing
      ∧ r'.chars.getD 32769 0 = UNICODE_SPACE := by
  have hWc : (ROW.new 32770 default).columnCount = 32770 := rfl
  obtain ⟨r', hcall, hcols, hoffs, hchars⟩ :=
    ReplaceCharacters_ascii_fresh_offs sampleEnv 32770 default [0x61] 1 (by decide)
      (by decide) (by
        simp only [ROW._clampedColumnInclusive, hWc]
        omega)
      (by decide) (by decide) (by intro ch hch; simp at hch; omega) ⟨_, rfl⟩
  have hg : r'.charOffsets.getD 32769 0 = 32769 := by
    rw [hoffs]
    exact range'_getD _ _ (by decide)
  have ht : wordIsTrailer (r'.charOffsets.getD 32769 0) = true := by
    rw [hg]
    decide
  refine ⟨r', hcall, hcols, hg, ?_, ?_, ?_, ?_⟩
  · rw [hcols, hoffs]
    exact range'_getD _ _ (by decide)
  · simp only [ROW._uncheckedIsTrailer]
    exact ht
  · exact (r'.DbcsAttrAt_trailing_iff 32769 (by rw [hcols]; decide)).2 ht
  · rw [hchars, getD_append_right' _ _ 32769 32768 (by rfl), List.getD_eq_getElem?_getD,
      List.getElem?_replicate, if_pos (by decide)]
    rfl

/-- C36, amended: for every `ReplaceCharacters` call on a row reachable within the
15-bit limit that returns and whose resulting text length is at most 32767, the text
length `offsets[W]` after the call is at most 32767, and for every index `i <= W`
the masked offset of entry `i` is at most the text length; entry `i` has bit 15 set
iff `i` is a column whose `DbcsAttrAt` is `Trailing`, in which case the column
before it is no trailer and holds the same offset; an entry without bit 15 is at
most 32767.  Nothing in the call refuses a longer text: the bound on the resulting
text length is a condition on the call. -/
theorem C36_offsets_within_limit (env : Env) (hs : env.SegSound) (r : ROW)
    (h : Reachable env r) (columnBegin columnEnd : Int) (chars : List Nat) (r' : ROW)
    (col : Nat) (rest : List Nat)
    (hcall : r.ReplaceCharacters env columnBegin columnEnd chars = Outcome.returned r' col rest)
    (hb : ∀ v, replaceLocals env r (r._clampedColumnInclusive columnBegin) chars = some v →
      v.textLength r ≤ 32767) :
    r'.charOffsets.getD r'.columnCount 0 ≤ 32767
      ∧ ∀ i, i ≤ r'.columnCount →
          r'._uncheckedCharOffset i ≤ r'.charOffsets.getD r'.columnCount 0
            ∧ (r'._uncheckedIsTrailer i = true
                ↔ i < r'.columnCount ∧ r'.DbcsAttrAt (i : Int) = DbcsAttribute.Trailing)
            ∧ (r'._uncheckedIsTrailer i = true →
                0 < i ∧ r'._uncheckedIsTrailer (i - 1) = false
                  ∧ r'._uncheckedCharOffset i = r'._uncheckedCharOffset (i - 1)
                  ∧ r'.charOffsets.getD i 0
                      = r'.charOffsets.getD (i - 1) 0 + CharOffsetsTrailer)
            ∧ (r'._uncheckedIsTrailer i = false → r'.charOffsets.getD i 0 ≤ 32767) := by
  have hr' : Reachable env r' :=
    Reachable.replace r columnBegin columnEnd chars r' col rest h hcall hb
  have hinv := hr'.inv hs
  have hP := hinv.bound
  refine ⟨hP, ?_⟩
  intro i hi
  refine ⟨hinv.offset_le i, ?_, ?_, ?_⟩
  · constructor
    · intro ht
      obtain ⟨j, hj, hlt, _⟩ := hinv.trailer_at i ht
      exact ⟨hlt, (r'.DbcsAttrAt_trailing_iff i hlt).2 ht⟩
    · rintro ⟨hlt, hT⟩
      exact (r'.DbcsAttrAt_trailing_iff i hlt).1 hT
  · intro ht
    obtain ⟨j, hj, hlt, hprev, he, hle, _⟩ := hinv.trailer_at i ht
    subst hj
    rw [Nat.add_sub_cancel]
    refine ⟨by omega, hprev, ?_, he⟩
    simp only [ROW._uncheckedCharOffset]
    rw [he, wordOffset_add hle, wordOffset_of_le hle]
  · intro ht
    have := (hinv.noTrailer_le i hi ht).1
    omega

theorem C36_offsets_within_limit_witness :
    sampleEnv.SegSound ∧ Reachable sampleEnv sampleRowWide
      ∧ sampleRowWide.ReplaceCharacters sampleEnv 1 3 [0x4e03] = Outcome.returned sampleRowS2 4 []
      ∧ (∀ v, replaceLocals sampleEnv sampleRowWide (sampleRowWide._clampedColumnInclusive 1)
            [0x4e03] = some v → v.textLength sampleRowWide ≤ 32767)
      ∧ sampleRowS2.charOffsets.getD sampleRowS2.columnCount 0 ≤ 32767
      ∧ ∀ i, i ≤ sampleRowS2.columnCount →
          sampleRowS2._uncheckedCharOffset i ≤ sampleRowS2.charOffsets.getD sampleRowS2.columnCount 0
            ∧ (sampleRowS2._uncheckedIsTrailer i = true
                ↔ i < sampleRowS2.columnCount
                  ∧ sampleRowS2.DbcsAttrAt (i : Int) = DbcsAttribute.Trailing)
            ∧ (sampleRowS2._uncheckedIsTrailer i = true →
                0 < i ∧ sampleRowS2._uncheckedIsTrailer (i - 1) = false
                  ∧ sampleRowS2._uncheckedCharOffset i = sampleRowS2._uncheckedCharOffset (i - 1)
                  ∧ sampleRowS2.charOffsets.getD i 0
                      = sampleRowS2.charOffsets.getD (i - 1) 0 + CharOffsetsTrailer)
            ∧ (sampleRowS2._uncheckedIsTrailer i = false →
                sampleRowS2.charOffsets.getD i 0 ≤ 32767) :=
  ⟨sampleEnv_segSound, sampleRowWide_reachable, by rfl, bound_of_eval _ _ (by rfl),
    C36_offsets_within_limit sampleEnv sampleEnv_segSound sampleRowWide sampleRowWide_reachable
      1 3 [0x4e03] sampleRowS2 4 [] (by rfl) (bound_of_eval _ _ (by rfl))⟩

/-! ## C37: the indices the iterator reads -/

/-- The columns that the loop of `operator++` tests when it starts behind the last
entry of the offsets array: the one index after the array. -/
theorem skipTrailersReads_past (offs : List Nat) (i : Nat) (hi : offs.length ≤ i)
    (hne : offs ≠ []) :
    skipTrailersReads offs offs.length i = [i] ∧ skipTrailers offs offs.length i = i := by
  obtain ⟨n, hn⟩ : ∃ n, offs.length = n + 1 := by
    cases offs with
    | nil => exact absurd rfl hne
    | cons a l => exact ⟨l.length, rfl⟩
  have hz : offs.getD i 0 = 0 := by
    rw [List.getD_eq_getElem?_getD, List.getElem?_eq_none hi]
    rfl
  have ht : wordIsTrailer (offs.getD i 0) = false := by
    rw [hz]
    rfl
  rw [hn]
  simp only [skipTrailersReads, skipTrailers, ht, Bool.false_eq_true, if_false, and_self]

/-- C37 at its failing input, which is every row: the offsets array of a row of width
`W` has the `W + 1` entries `0 .. W`, yet constructing `End()` sets `_beg = _end = W`
and runs `operator++`, whose loop tests `_uncheckedIsTrailer(++_end)` at index
`W + 1`, behind the array, and leaves `_end = W + 1`; the same read happens when the
iterator that stands at the last glyph (`_end = W`) is incremented. -/
theorem C37_end_reads_past_array (r : ROW) (hlen : r.charOffsets.length = r.columnCount + 1) :
    r.EndReads = [r.columnCount + 1]
      ∧ ¬ (r.columnCount + 1 < r.charOffsets.length)
      ∧ r.End.beg = r.columnCount
      ∧ r.End.fin = r.columnCount + 1
      ∧ ∀ it : RowTextIterator, it.charOffsets = r.charOffsets → it.fin = r.columnCount →
          it.nextReads = [r.columnCount + 1] ∧ it.next.fin = r.columnCount + 1 := by
  have hne : r.charOffsets ≠ [] := by
    intro h0
    rw [h0] at hlen
    simp at hlen
  have hp := skipTrailersReads_past r.charOffsets (r.columnCount + 1) (by omega) hne
  refine ⟨hp.1, by omega, rfl, hp.2, ?_⟩
  intro it ho hf
  simp only [RowTextIterator.nextReads, RowTextIterator.next, ho, hf]
  exact hp

theorem C37_end_reads_past_array_witness :
    sampleRowEmoji.charOffsets.length = sampleRowEmoji.columnCount + 1
      ∧ sampleRowEmoji.EndReads = [sampleRowEmoji.columnCount + 1]
      ∧ ¬ (sampleRowEmoji.columnCount + 1 < sampleRowEmoji.charOffsets.length)
      ∧ sampleRowEmoji.End.beg = sampleRowEmoji.columnCount
      ∧ sampleRowEmoji.End.fin = sampleRowEmoji.columnCount + 1
      ∧ ∀ it : RowTextIterator, it.charOffsets = sampleRowEmoji.charOffsets →
          it.fin = sampleRowEmoji.columnCount →
          it.nextReads = [sampleRowEmoji.columnCount + 1]
            ∧ it.next.fin = sampleRowEmoji.columnCount + 1 :=
  ⟨by rfl, C37_end_reads_past_array sampleRowEmoji (by rfl)⟩

/-- The failing input of C37 in numbers: the row of width 4 that holds `a`, U+1F600
and `b` has the offsets `[0, 1, 1|T, 3, 4]` at the indices 0 to 4; `Begin()` reads
index 1, the increments of the traversal read the indices 2 and 3, then 4, then 5,
and `End()` reads index 5. -/
theorem sampleRowEmoji_iterator_reads :
    sampleRowEmoji.charOffsets = [0, 1, 1 + CharOffsetsTrailer, 3, 4]
      ∧ sampleRowEmoji.BeginReads = [1]
      ∧ (sampleRowEmoji.iterate 5).map (fun l => l.map RowTextIterator.nextReads)
          = some [[2, 3], [4], [5]]
      ∧ sampleRowEmoji.EndReads = [5]
      ∧ sampleRowEmoji.End.fin = 5 := by
  refine ⟨by rfl, by rfl, by rfl, by rfl, by rfl⟩

/-! ## C38: the self-check after a write -/

/-- C38 at its failing input: on a freshly constructed row of width 6,
`ReplaceCharacters(0, 6, "a")` and then `ReplaceCharacters(1, 6, U+0301)` both
return; the row stores `a` in column 0 and the combining mark in column 1, so the
iterator yields the glyph `a` of one code unit first, while the segmenter, run over
the stored text `a U+0301` followed by four spaces, yields the cluster `a U+0301`
of two code units first: the check `expectedText.size() == advance` of the `DEBUG`
block fails.  It also fails on the row of three wide glyphs, where the segmenter
runs over the 6 code units of `_chars` and the iterator is at `End()` after 3
glyphs; it holds on the row `a`, U+1F600, `b`. -/
theorem C38_self_check_fails :
    (ROW.new 6 default).ReplaceCharacters sampleEnv 0 6 [0x61]
        = Outcome.returned ((ROW.new 6 default).ReplaceCharacters sampleEnv 0 6 [0x61]).row 1 []
      ∧ ((ROW.new 6 default).ReplaceCharacters sampleEnv 0 6 [0x61]).row.ReplaceCharacters
          sampleEnv 1 6 [0x301] = Outcome.returned sampleRowAccentSplit 2 []
      ∧ sampleRowAccentSplit.GetText = [0x61, 0x301, 0x20, 0x20, 0x20, 0x20]
      ∧ sampleRowAccentSplit.chars = [0x61, 0x301, 0x20, 0x20, 0x20, 0x20]
      ∧ sampleRowAccentSplit.charOffsets = [0, 1, 2, 3, 4, 5, 6]
      ∧ sampleEnv.seg sampleRowAccentSplit.chars = some [2, 3, 4, 5, 6]
      ∧ sampleRowAccentSplit.Begin.Text = [0x61]
      ∧ sampleRowAccentSplit.Begin.TextSize = 1
      ∧ (sampleRowAccentSplit.iterate 7).map (fun l => l.map RowTextIterator.Text)
          = some [[0x61], [0x301], [0x20], [0x20], [0x20], [0x20]]
      ∧ sampleRowAccentSplit.selfCheck sampleEnv = some false
      ∧ sampleRowWide.chars = [0x4e00, 0x4e01, 0x4e02, 0x20, 0x20, 0x20]
      ∧ sampleRowWide.selfCheck sampleEnv = some false
      ∧ sampleRowEmoji.selfCheck sampleEnv = some true := by
  refine ⟨by rfl, by rfl, by rfl, by rfl, by rfl, by rfl, by rfl, by rfl, by rfl, by rfl,
    by rfl, by rfl, by rfl⟩

/-! ## The in-place branch of `_resizeChars`

The branch moves the tail of the text with `std::copy_n`.  Under the convention of
this file (`copy_n` as `memmove`) the tail arrives intact; whether it does in the
program when the ranges overlap and the destination lies behind the source depends
on the order in which `copy_n` copies, which the sources do not fix. -/

theorem sz_add_szSub_lt (p new old : Nat) (ho : old ≤ p) (hp : p < 2 ^ 64)
    (hnew : p + new - old < 2 ^ 64) : sz (p + szSub new old) = p + new - old := by
  have hnew' : new < 2 ^ 64 := by omega
  have hold' : old < 2 ^ 64 := by omega
  simp only [szSub, sz, Nat.mod_eq_of_lt hnew', Nat.mod_eq_of_lt hold']
  by_cases hc : old ≤ new
  · rw [show new + 2 ^ 64 - old = (new - old) + 2 ^ 64 by omega, Nat.add_mod_right,
      Nat.mod_eq_of_lt (show new - old < 2 ^ 64 by omega)]
    rw [Nat.mod_eq_of_lt (by omega)]
    omega
  · rw [Nat.mod_eq_of_lt (show new + 2 ^ 64 - old < 2 ^ 64 by omega)]
    have e : p + (new + 2 ^ 64 - old) = (p + new - old) + 2 ^ 64 := by omega
    rw [e, Nat.add_mod_right]
    exact Nat.mod_eq_of_lt (by omega)

/-- With `copy_n` read as `memmove`: whenever the new text length `P + delta`
(`delta = chExtEndNew - chExtEnd`, positive or negative) is at most the capacity,
`_resizeChars` takes its in-place branch, the storage keeps its capacity, the code
units at `[chExtEndNew, P + delta)` are the code units that stood at `[chExtEnd, P)`
before the call, and the code units at `[0, chExtBeg)` are unchanged. -/
theorem ROW._resizeChars_in_place (r : ROW) (colExtEnd chExtBeg chExtEnd chExtEndNew : Nat)
    (hbeg : chExtBeg ≤ chExtEndNew) (hend : chExtEnd ≤ r._charSize)
    (hP : r._charSize ≤ r.chars.length) (hcap : r.chars.length < 2 ^ 64)
    (hfit : r._charSize + chExtEndNew - chExtEnd ≤ r.chars.length) :
    ∃ r2, r._resizeChars colExtEnd chExtBeg chExtEnd chExtEndNew = some r2
      ∧ r2.chars = specMoveTail r.chars r._charSize chExtEnd chExtEndNew
      ∧ r2.chars.length = r.chars.length
      ∧ r2.charsHeap = r.charsHeap
      ∧ (r2.chars.drop chExtEndNew).take (r._charSize + chExtEndNew - chExtEnd - chExtEndNew)
          = (r.chars.drop chExtEnd).take (r._charSize - chExtEnd)
      ∧ r2.chars.take chExtBeg = r.chars.take chExtBeg := by
  have hnl : sz (r._charSize + szSub chExtEndNew chExtEnd)
      = r._charSize + chExtEndNew - chExtEnd :=
    sz_add_szSub_lt _ _ _ hend (by omega) (by omega)
  have htl : ((r.chars.drop chExtEnd).take (r._charSize - chExtEnd)).length
      = r._charSize - chExtEnd := by
    rw [List.length_take, List.length_drop]
    omega
  have hw : writeAt r.chars chExtEndNew ((r.chars.drop chExtEnd).take (r._charSize - chExtEnd))
      = specMoveTail r.chars r._charSize chExtEnd chExtEndNew := by
    rw [writeAt_eq _ _ _ (by rw [htl]; omega), htl]
    rfl
  have hlenTake : (r.chars.take chExtEndNew).length = chExtEndNew := by
    rw [List.length_take]
    omega
  refine ⟨{ r with
      chars := writeAt r.chars chExtEndNew
        ((r.chars.drop chExtEnd).take (r._charSize - chExtEnd))
      charOffsets := shiftFrom r.charOffsets colExtEnd (szSub chExtEndNew chExtEnd) },
    ?_, hw, writeAt_length _ _ _, rfl, ?_, ?_⟩
  · simp only [ROW._resizeChars, hnl]
    rw [if_pos hfit]
  · show ((writeAt r.chars chExtEndNew
        ((r.chars.drop chExtEnd).take (r._charSize - chExtEnd))).drop chExtEndNew).take
          (r._charSize + chExtEndNew - chExtEnd - chExtEndNew) = _
    rw [hw]
    simp only [specMoveTail]
    rw [List.append_assoc, List.drop_left' hlenTake,
      show r._charSize + chExtEndNew - chExtEnd - chExtEndNew = r._charSize - chExtEnd by omega,
      List.take_left' htl]
  · show (writeAt r.chars chExtEndNew
        ((r.chars.drop chExtEnd).take (r._charSize - chExtEnd))).take chExtBeg = _
    rw [hw]
    simp only [specMoveTail]
    rw [List.append_assoc, List.take_append_of_le_length (by rw [hlenTake]; exact hbeg),
      List.take_take, Nat.min_eq_left hbeg]

theorem ROW._resizeChars_in_place_sample :
    (0 ≤ 2 ∧ 1 ≤ sampleRowWide._charSize ∧ sampleRowWide._charSize ≤ sampleRowWide.chars.length
        ∧ sampleRowWide.chars.length < 2 ^ 64
        ∧ sampleRowWide._charSize + 2 - 1 ≤ sampleRowWide.chars.length)
      ∧ ∃ r2, sampleRowWide._resizeChars 2 0 1 2 = some r2
        ∧ r2.chars = specMoveTail sampleRowWide.chars sampleRowWide._charSize 1 2
        ∧ r2.chars.length = sampleRowWide.chars.length
        ∧ r2.charsHeap = sampleRowWide.charsHeap
        ∧ (r2.chars.drop 2).take (sampleRowWide._charSize + 2 - 1 - 2)
            = (sampleRowWide.chars.drop 1).take (sampleRowWide._charSize - 1)
        ∧ r2.chars.take 0 = sampleRowWide.chars.take 0 :=
  ⟨by decide,
    ROW._resizeChars_in_place sampleRowWide 2 0 1 2 (by decide) (by decide) (by decide) (by decide)
      (by decide)⟩

/-- The in-place branch in numbers.  Positive delta with overlapping ranges: in the
row of three wide glyphs (text of 3 code units, capacity 6) the tail of two code
units moves from offset 1 to offset 2, and the second of them arrives intact.
Negative delta: in the row `a`, U+1F600, `b` the tail `b` moves from offset 3 to
offset 1. -/
theorem sampleRowWide_moveTail :
    sampleRowWide.chars = [0x4e00, 0x4e01, 0x4e02, 0x20, 0x20, 0x20]
      ∧ (sampleRowWide._resizeChars 2 0 1 2).map (fun r2 => (r2.chars, r2._charSize))
          = some ([0x4e00, 0x4e01, 0x4e01, 0x4e02, 0x20, 0x20], 4)
      ∧ specMoveTail sampleRowWide.chars 3 1 2 = [0x4e00, 0x4e01, 0x4e01, 0x4e02, 0x20, 0x20]
      ∧ sampleRowEmoji.chars = [0x61, 0xd83d, 0xde00, 0x62]
      ∧ (sampleRowEmoji._resizeChars 3 1 3 1).map (fun r2 => (r2.chars, r2._charSize))
          = some ([0x61, 0x62, 0xde00, 0x62], 2)
      ∧ specMoveTail sampleRowEmoji.chars 4 3 1 = [0x61, 0x62, 0xde00, 0x62] := by
  refine ⟨by rfl, by rfl, by rfl, by rfl, by rfl, by rfl⟩

/-- When the destination does not lie behind the source (`delta <= 0`), copying
element by element forwards gives what `memmove` gives. -/
theorem copyForward_eq_writeAt : ∀ (n : Nat) (l : List Nat) (src dst : Nat),
    dst ≤ src → src + n ≤ l.length →
    copyForward l src dst n = writeAt l dst ((l.drop src).take n) := by
  intro n
  induction n with
  | zero =>
    intro l src dst _ _
    simp [copyForward, writeAt]
  | succ n ih =>
    intro l src dst hle hfit
    have hlt : src < l.length := by omega
    have hd := drop_eq_getD_cons l src hlt
    rw [hd, List.take_succ_cons]
    simp only [copyForward, writeAt]
    rw [ih _ (src + 1) (dst + 1) (by omega) (by rw [List.length_set]; omega),
      List.drop_set_of_lt _ _ (by omega)]

/-- With a positive delta and overlapping ranges the two readings of `copy_n` differ:
moving the tail of two code units of the row of three wide glyphs from offset 1 to
offset 2 element by element forwards repeats the first of them. -/
theorem sampleRowWide_copyForward :
    copyForward sampleRowWide.chars 1 2 2 = [0x4e00, 0x4e01, 0x4e01, 0x4e01, 0x20, 0x20]
      ∧ writeAt sampleRowWide.chars 2 ((sampleRowWide.chars.drop 1).take 2)
          = [0x4e00, 0x4e01, 0x4e01, 0x4e02, 0x20, 0x20]
      ∧ copyForward sampleRowEmoji.chars 3 1 1 = [0x61, 0x62, 0xde00, 0x62] := by
  refine ⟨by rfl, by rfl, by rfl⟩

/-! ## C40: progress -/

theorem asciiPass_frame : ∀ (k : Nat) (s : Scan),
    (asciiPass k s).col2 = s.col2 + k ∧ (asciiPass k s).it = s.it + k
      ∧ (asciiPass k s).padded = s.padded ∧ (asciiPass k s).paddingSpaces = s.paddingSpaces
      ∧ (asciiPass k s).offs.length = s.offs.length
      ∧ ∀ i, s.col2 + k ≤ i → (asciiPass k s).offs.getD i 0 = s.offs.getD i 0 := by
  intro k
  induction k with
  | zero =>
    intro s
    exact ⟨rfl, rfl, rfl, rfl, rfl, fun _ _ => rfl⟩
  | succ k ih =>
    intro s
    obtain ⟨h1, h2, h3, h4, h5, h6⟩ := ih
      { s with
        offs := s.offs.set s.col2 s.ch2
        col2 := s.col2 + 1
        ch2 := u16 (s.ch2 + 1)
        it := s.it + 1 }
    simp only at h1 h2 h3 h4 h5 h6
    simp only [asciiPass]
    refine ⟨by rw [h1]; omega, by rw [h2]; omega, h3, h4, by rw [h5, List.length_set], ?_⟩
    intro i hi
    rw [h6 i (by omega)]
    exact getD_set_ne _ _ _ _ (by omega)

theorem ScanFrame.widen {old : List Nat} {s : Scan} (h : ScanFrame old s 0) :
    ScanFrame old s 1 :=
  ⟨h.1, fun i hi => h.2 i (by omega)⟩

theorem placeCluster_frame {old : List Nat} {s : Scan} (advance : Nat) (wide : Bool)
    (h : ScanFrame old s 1) :
    ScanFrame old (placeCluster s advance wide) 0
      ∧ (placeCluster s advance wide).col2 = s.col2 + clusterWidth wide
      ∧ (placeCluster s advance wide).it = s.it + advance
      ∧ (placeCluster s advance wide).padded = s.padded
      ∧ (placeCluster s advance wide).paddingSpaces = s.paddingSpaces := by
  cases wide with
  | false =>
    refine ⟨⟨?_, ?_⟩, ?_, rfl, rfl, rfl⟩
    · simp only [placeCluster, clusterWidth_false, ne_eq, not_true_eq_false, if_false,
        List.length_set]
      exact h.1
    · intro i hi
      simp only [placeCluster, clusterWidth_false, ne_eq, not_true_eq_false, if_false] at hi ⊢
      rw [getD_set_ne _ _ _ _ (by omega)]
      exact h.2 i (by omega)
    · simp only [placeCluster, clusterWidth_false, ne_eq, not_true_eq_false, if_false]
  | true =>
    have hne : clusterWidth true ≠ 1 := by decide
    refine ⟨⟨?_, ?_⟩, ?_, rfl, rfl, rfl⟩
    · simp only [placeCluster, if_pos hne, List.length_set]
      exact h.1
    · intro i hi
      simp only [placeCluster, if_pos hne] at hi ⊢
      rw [getD_set_ne _ _ _ _ (by omega), getD_set_ne _ _ _ _ (by omega)]
      exact h.2 i (by omega)
    · simp [placeCluster, clusterWidth_true]

/-- The segmenter loop, whatever the length of the clusters: the columns from `col2`
on (from `col2 + 1` on when a padding space is recorded) keep their words, `col2`
stays within the row, and `it` does not pass the last boundary. -/
theorem segLoop_frame (env : Env) (W : Nat) (text old : List Nat) (base : Nat) :
    ∀ (bs : List Nat) (ubrk0 : Nat) (s : Scan),
      List.Chain (fun a b => a < b) ubrk0 bs →
      s.col2 < W → s.it ≤ base + ubrk0 →
      s.paddingSpaces = 0 → s.padded = false →
      (ScanFrame old s 0 ∨ (bs ≠ [] ∧ ScanFrame old s 1)) →
      ScanFrame old (segLoop env W text bs ubrk0 s) (segLoop env W text bs ubrk0 s).paddingSpaces
        ∧ (segLoop env W text bs ubrk0 s).col2 ≤ W
        ∧ (((segLoop env W text bs ubrk0 s).paddingSpaces = 0
              ∧ (segLoop env W text bs ubrk0 s).padded = false)
            ∨ ((segLoop env W text bs ubrk0 s).paddingSpaces = 1
              ∧ (segLoop env W text bs ubrk0 s).padded = true
              ∧ (segLoop env W text bs ubrk0 s).col2 + 1 = W))
        ∧ (∃ b, b ∈ ubrk0 :: bs ∧ (segLoop env W text bs ubrk0 s).it ≤ base + b)
        ∧ (bs ≠ [] → s.it < (segLoop env W text bs ubrk0 s).it
            ∨ (segLoop env W text bs ubrk0 s).paddingSpaces = 1)
        ∧ s.col2 ≤ (segLoop env W text bs ubrk0 s).col2
        ∧ (s.it < (segLoop env W text bs ubrk0 s).it
            → s.col2 < (segLoop env W text bs ubrk0 s).col2) := by
  intro bs
  induction bs with
  | nil =>
    intro ubrk0 s _ hc hit hp hpd hform
    simp only [segLoop]
    refine ⟨?_, Nat.le_of_lt hc, Or.inl ⟨hp, hpd⟩, ⟨ubrk0, by simp, hit⟩,
      fun h => absurd rfl h, Nat.le_refl _, fun h => absurd h (Nat.lt_irrefl _)⟩
    rw [hp]
    rcases hform with h | ⟨h, _⟩
    · exact h
    · exact absurd rfl h
  | cons b bs ih =>
    intro ubrk0 s hchain hc hit hp hpd hform
    have hlt : ubrk0 < b := (List.chain_cons.mp hchain).1
    have hchain' : List.Chain (fun a b => a < b) b bs := (List.chain_cons.mp hchain).2
    have hform1 : ScanFrame old s 1 := by
      rcases hform with h | ⟨_, h⟩
      · exact h.widen
      · exact h
    simp only [segLoop]
    have hw := clusterWidth_le
      (env.IsGlyphFullWidth (List.take (min 65535 (b - ubrk0)) (List.drop s.it text)))
    split
    · -- the cluster does not fit: one padding space
      refine ⟨hform1, Nat.le_of_lt hc, Or.inr ⟨rfl, rfl, (by show s.col2 + 1 = W; omega)⟩,
        ⟨ubrk0, by simp, hit⟩, fun _ => Or.inr rfl, Nat.le_refl _,
        fun h => absurd h (Nat.lt_irrefl _)⟩
    · rename_i hfit
      have hfit' : s.col2 + clusterWidth
          (env.IsGlyphFullWidth (List.take (min 65535 (b - ubrk0)) (List.drop s.it text))) ≤ W := by
        omega
      obtain ⟨hf2, hcol2, hit2, hpd2, hp2⟩ := placeCluster_frame (min 65535 (b - ubrk0))
        (env.IsGlyphFullWidth (List.take (min 65535 (b - ubrk0)) (List.drop s.it text))) hform1
      have hadv : 0 < min 65535 (b - ubrk0) := by omega
      split
      · rename_i hend
        refine ⟨?_, by omega, Or.inl ⟨by rw [hp2]; exact hp, by rw [hpd2]; exact hpd⟩,
          ⟨b, by simp, by rw [hit2]; omega⟩, fun _ => Or.inl (by rw [hit2]; omega), by omega,
          fun _ => by omega⟩
        rw [hp2, hp]
        exact hf2
      · rename_i hend
        obtain ⟨g1, g2, g3, ⟨b', hb', hb'2⟩, _, g6, _⟩ := ih b _ hchain' (by omega)
          (by rw [hit2]; omega) (by rw [hp2]; exact hp) (by rw [hpd2]; exact hpd) (Or.inl hf2)
        have hmono := segLoop_it_mono env W text bs b
          (placeCluster s (min 65535 (b - ubrk0))
            (env.IsGlyphFullWidth (List.take (min 65535 (b - ubrk0)) (List.drop s.it text))))
        rw [hit2] at hmono
        refine ⟨g1, g2, g3, ⟨b', List.mem_cons_of_mem _ hb', hb'2⟩, fun _ => Or.inl (by omega),
          by omega, fun _ => by omega⟩

/-- The scan of a non-empty text from a column inside the row, whatever the length
of the text: the columns from `col2` on (from `col2 + 1` on when a padding space is
recorded) keep their words, `col2` stays within the row, a prefix of the text is
consumed, and something is consumed or a padding space is recorded. -/
theorem scanText_frame (env : Env) (r : ROW) (colBeg ch1 : Nat) (text : List Nat) (s : Scan)
    (hsound : env.SegSound) (hcb : colBeg < r.columnCount) (htext : text ≠ [])
    (h : scanText env r colBeg ch1 text = some s) :
    ScanFrame r.charOffsets s s.paddingSpaces
      ∧ colBeg ≤ s.col2 ∧ s.col2 ≤ r.columnCount
      ∧ ((s.paddingSpaces = 0 ∧ s.padded = false)
          ∨ (s.paddingSpaces = 1 ∧ s.padded = true ∧ s.col2 + 1 = r.columnCount))
      ∧ s.it ≤ text.length
      ∧ (0 < s.it ∨ s.paddingSpaces = 1)
      ∧ (0 < s.it → colBeg < s.col2) := by
  have htl : 0 < text.length := List.length_pos.mpr htext
  simp only [scanText] at h
  generalize hk : ((text.take (min (r.columnCount - colBeg) text.length)).takeWhile
    (fun ch => !decide (0x80 ≤ ch))).length = k at h
  have hkle : k ≤ min (r.columnCount - colBeg) text.length := by
    rw [← hk]
    refine Nat.le_trans (List.Sublist.length_le (List.takeWhile_sublist _)) ?_
    simp
  obtain ⟨a1, a2, a3, a4, a5, a6⟩ := asciiPass_frame k
    { offs := r.charOffsets, col2 := colBeg, ch2 := ch1, it := 0, padded := false,
      paddingSpaces := 0, placed := [] }
  simp only [Nat.zero_add] at a1 a2 a3 a4 a5 a6
  generalize asciiPass k
    { offs := r.charOffsets, col2 := colBeg, ch2 := ch1, it := 0, padded := false,
      paddingSpaces := 0, placed := [] } = s1 at h a1 a2 a3 a4 a5 a6
  split at h
  · -- the segmenter runs
    rename_i hne
    rw [a2] at hne
    have hklt : k < min (r.columnCount - colBeg) text.length := by omega
    simp only [scanUnicode] at h
    split at h
    · exact Option.noConfusion h
    · split at h
      · exact Option.noConfusion h
      · rename_i bs hseg
        have hs : s = _ := (Option.some.inj h).symm
        have hbo : (backOff s1).col2 = colBeg + (k - 1) ∧ (backOff s1).it = k - 1
            ∧ (backOff s1).padded = false ∧ (backOff s1).paddingSpaces = 0
            ∧ ScanFrame r.charOffsets (backOff s1) 1 := by
          simp only [backOff]
          split
          · refine ⟨by simp only [a1]; omega, by simp only [a2], a3, a4, a5, ?_⟩
            intro i hi
            simp only at hi
            exact a6 i (by omega)
          · rename_i h0
            have hk0 : k = 0 := by omega
            refine ⟨by rw [a1, hk0], by rw [a2, hk0], a3, a4, a5, ?_⟩
            intro i hi
            exact a6 i (by omega)
        obtain ⟨b1, b2, b3, b4, b5⟩ := hbo
        have hB := hsound _ _ hseg
        have hne' : bs ≠ [] := boundaries_ne_nil hB (by
          simp only [List.length_drop]
          omega)
        obtain ⟨g1, g2, g3, ⟨b, hbm, hbit⟩, g5, g6, g7⟩ := segLoop_frame env r.columnCount text
          r.charOffsets (backOff s1).it bs 0 (backOff s1) hB.1 (by omega) (by omega) b4 b3
          (Or.inr ⟨hne', b5⟩)
        rw [← hs] at g1 g2 g3 hbit g5 g6 g7
        have hle := (chain_le_last bs 0 b _ hB.1 hbm hB.2).1
        simp only [List.length_drop] at hle
        refine ⟨g1, by omega, g2, g3, by omega, ?_, ?_⟩
        · rcases g5 hne' with h1 | h1
          · left; omega
          · right; exact h1
        · intro hpos
          by_cases hk1 : 1 < k
          · omega
          · have : (backOff s1).it = 0 := by omega
            have := g7 (by omega)
            omega
  · rename_i heq
    have hs : s = s1 := (Option.some.inj h).symm
    have hkeq : k = min (r.columnCount - colBeg) text.length := by
      have : ¬ s1.it ≠ min (r.columnCount - colBeg) text.length := heq
      omega
    rw [hs]
    refine ⟨⟨a5, ?_⟩, by omega, by omega, Or.inl ⟨a4, a3⟩, by omega, Or.inl (by omega),
      fun _ => by omega⟩
    intro i hi
    rw [a4] at hi
    exact a6 i (by omega)

theorem ROW._resizeChars_padded (r r' : ROW) (a b c d : Nat)
    (h : r._resizeChars a b c d = some r') : r'.doubleBytePadded = r.doubleBytePadded := by
  simp only [ROW._resizeChars] at h
  split at h
  · injection h with h
    rw [← h]
  · split at h
    · injection h with h
      rw [← h]
    · exact Option.noConfusion h

theorem replaceWrite_padded (r r' : ROW) (chars : List Nat) (v : Locals)
    (h : replaceWrite r chars v = some r') :
    r'.doubleBytePadded = (if v.scan.padded then true else r.doubleBytePadded) := by
  simp only [replaceWrite] at h
  split at h
  · exact Option.noConfusion h
  · rename_i r2 hr2
    injection h with h
    rw [← h]
    simp only
    split at hr2
    · exact ROW._resizeChars_padded _ r2 _ _ _ _ hr2
    · injection hr2 with hr2
      rw [← hr2]

/-- The locals of a call on a well-formed row, whatever the length of the text: the
returned column `col3` lies behind `colBeg` and within the row, a prefix of the text
is consumed, and when nothing is consumed the padding flag is set and `col3` is the
width of the row. -/
theorem replaceLocals_progress (env : Env) (r : ROW) (colBeg : Nat) (text : List Nat)
    (v : Locals) (hsound : env.SegSound) (hinv : r.Inv) (hcb : colBeg < r.columnCount)
    (htext : text ≠ []) (h : replaceLocals env r colBeg text = some v) :
    colBeg < v.col3 ∧ v.col3 ≤ r.columnCount ∧ v.scan.it ≤ text.length
      ∧ (0 < v.scan.it
          ∨ (v.scan.it = 0 ∧ v.scan.padded = true ∧ v.col3 = r.columnCount)) := by
  simp only [replaceLocals] at h
  split at h
  · exact Option.noConfusion h
  · rename_i s hscan
    have hv : v = _ := (Option.some.inj h).symm
    obtain ⟨⟨f1, f2⟩, c1, c2, hpad, hit, hprog, hcol⟩ :=
      scanText_frame env r colBeg _ text s hsound hcb htext hscan
    have hc0 : s.col2 + s.paddingSpaces ≤ r.columnCount := by
      rcases hpad with ⟨h1, _⟩ | ⟨h1, _, h3⟩ <;> omega
    have hsk : skipTrailers s.offs s.offs.length (s.col2 + s.paddingSpaces)
        = skipTrailers r.charOffsets (r.columnCount + 1) (s.col2 + s.paddingSpaces) := by
      rw [f1, hinv.len]
      exact skipTrailers_congr _ _ _ _ f2
    have hS := hinv.skipTrailers (s.col2 + s.paddingSpaces) (r.columnCount + 1) (by omega)
    have hcol3 : s.col2 + s.paddingSpaces
          ≤ skipTrailers s.offs s.offs.length (s.col2 + s.paddingSpaces)
        ∧ skipTrailers s.offs s.offs.length (s.col2 + s.paddingSpaces) ≤ r.columnCount
        ∧ (s.col2 + s.paddingSpaces = r.columnCount →
            skipTrailers s.offs s.offs.length (s.col2 + s.paddingSpaces) = r.columnCount) := by
      rw [hsk]
      cases ht : wordIsTrailer (r.charOffsets.getD (s.col2 + s.paddingSpaces) 0) with
      | false =>
        rw [hS.1 ht]
        exact ⟨Nat.le_refl _, hc0, fun e => e⟩
      | true =>
        rw [hS.2 ht]
        obtain ⟨j, _, hlt, _⟩ := hinv.trailer_at _ ht
        exact ⟨by omega, by omega, fun e => by omega⟩
    obtain ⟨k1, k2, k3⟩ := hcol3
    rw [hv]
    simp only
    refine ⟨?_, k2, hit, ?_⟩
    · rcases hprog with hp | hp
      · have := hcol hp
        omega
      · rcases hpad with ⟨h1, _⟩ | ⟨_, _, h3⟩
        · omega
        · omega
    · by_cases hpos : 0 < s.it
      · exact Or.inl hpos
      · right
        have hp : s.paddingSpaces = 1 := by
          rcases hprog with hp | hp
          · exact absurd hp hpos
          · exact hp
        rcases hpad with ⟨h1, _⟩ | ⟨_, h2, h3⟩
        · omega
        · exact ⟨by omega, h2, k3 (by omega)⟩

/-- C40, amended: for every row reachable within the 15-bit limit and every call
`ReplaceCharacters(colBeg, colEnd, text)` with non-empty text and clamped
`colBeg < colEnd` that returns, whatever the length of the text, the returned column
`r` satisfies `colBeg < r <= W`, and either at least one code unit of the text was
consumed, or none was consumed, the text is handed back whole, `dbcs_padded` is
true after the call and `r = W`. -/
theorem C40_progress (env : Env) (hs : env.SegSound) (r : ROW) (h : Reachable env r)
    (columnBegin columnEnd : Int) (chars : List Nat) (r' : ROW) (col : Nat) (rest : List Nat)
    (hcall : r.ReplaceCharacters env columnBegin columnEnd chars = Outcome.returned r' col rest)
    (hop : r._clampedColumnInclusive columnBegin < r._clampedColumnInclusive columnEnd
      ∧ chars ≠ []) :
    r._clampedColumnInclusive columnBegin < col ∧ col ≤ r.columnCount
      ∧ rest.length ≤ chars.length
      ∧ (0 < chars.length - rest.length
          ∨ (rest = chars ∧ r'.doubleBytePadded = true ∧ col = r.columnCount)) := by
  have hinv := h.inv hs
  have hnop : ¬ (r._clampedColumnInclusive columnEnd ≤ r._clampedColumnInclusive columnBegin
      ∨ chars = []) := by
    intro hc
    rcases hc with hc | hc
    · omega
    · exact hop.2 hc
  obtain ⟨v, bs, hv, hw, hbs⟩ := ReplaceCharacters_parts env r columnBegin columnEnd chars r'
    col rest hcall hnop
  have hret := ReplaceCharacters_of_parts env r columnBegin columnEnd chars r' v bs hnop hv hw hbs
  rw [hret] at hcall
  injection hcall with _ hcol hrest
  have hcw := r._clampedColumnInclusive_le columnEnd
  obtain ⟨p1, p2, p3, p4⟩ := replaceLocals_progress env r _ chars v hs hinv (by omega) hop.2 hv
  have hpd := replaceWrite_padded r r' chars v hw
  have hlen : rest.length = chars.length - v.scan.it := by
    rw [← hrest, List.length_drop]
  rw [← hcol]
  refine ⟨p1, p2, by omega, ?_⟩
  rcases p4 with hpos | ⟨h0, hpadded, hW⟩
  · left
    omega
  · right
    refine ⟨by rw [← hrest, h0, List.drop_zero], ?_, hW⟩
    rw [hpd, hpadded]
    rfl

theorem C40_progress_witness :
    sampleEnv.SegSound ∧ Reachable sampleEnv (ROW.new 6 default)
      ∧ (ROW.new 6 default).ReplaceCharacters sampleEnv 5 6 [0x4e00]
          = Outcome.returned ((ROW.new 6 default).ReplaceCharacters sampleEnv 5 6 [0x4e00]).row
              6 [0x4e00]
      ∧ ((ROW.new 6 default)._clampedColumnInclusive 5
            < (ROW.new 6 default)._clampedColumnInclusive 6
          ∧ [0x4e00] ≠ ([] : List Nat))
      ∧ (ROW.new 6 default)._clampedColumnInclusive 5 < 6
      ∧ 6 ≤ (ROW.new 6 default).columnCount
      ∧ [0x4e00].length ≤ [0x4e00].length
      ∧ (0 < [0x4e00].length - [0x4e00].length
          ∨ ([0x4e00] = [0x4e00]
            ∧ ((ROW.new 6 default).ReplaceCharacters sampleEnv 5 6
                [0x4e00]).row.doubleBytePadded = true
            ∧ 6 = (ROW.new 6 default).columnCount)) :=
  ⟨sampleEnv_segSound, Reachable.new 6 default (by decide), by rfl, by decide,
    C40_progress sampleEnv sampleEnv_segSound (ROW.new 6 default)
      (Reachable.new 6 default (by decide)) 5 6 [0x4e00] _ 6 [0x4e00] (by rfl) (by decide)⟩

/-- The witness of C40 in numbers (scenario S4): on a fresh row of width 6, a wide
glyph written at column 5 does not fit; nothing is consumed, `dbcs_padded` becomes
true, column 5 holds a space and the call returns 6.  A narrow glyph written there
is consumed and the call returns 6 as well. -/
theorem sampleRowPadded_progress :
    ((ROW.new 6 default).ReplaceCharacters sampleEnv 5 6 [0x4e00]).row.doubleBytePadded = true
      ∧ ((ROW.new 6 default).ReplaceCharacters sampleEnv 5 6 [0x4e00]).row.GlyphAt 5 = [0x20]
      ∧ (ROW.new 6 default).ReplaceCharacters sampleEnv 5 6 [0x61]
          = Outcome.returned ((ROW.new 6 default).ReplaceCharacters sampleEnv 5 6 [0x61]).row
              6 []
      ∧ ((ROW.new 6 default).ReplaceCharacters sampleEnv 5 6 [0x61]).row.doubleBytePadded
          = false := by
  refine ⟨by rfl, by rfl, by rfl, by rfl⟩

/-! ## Calls that leave the 15-bit limit -/

theorem sampleBoundaries_long (t : List Nat)
    (ht : t = [] ∨ ∃ w, t = [w] ∧ sampleJoins w = false) :
    ∀ (n pos c : Nat), sampleBoundaries pos (c :: (List.replicate n 0x301 ++ t))
      = (pos + n + 1) :: (if t = [] then [] else [pos + n + 2]) := by
  intro n
  induction n with
  | zero =>
    intro pos c
    rcases ht with rfl | ⟨w, rfl, hw⟩
    · simp [sampleBoundaries]
    · simp [sampleBoundaries, hw]
  | succ n ih =>
    intro pos c
    have hj : sampleJoins 0x301 = true := by decide
    rw [List.replicate_succ, List.cons_append]
    simp only [sampleBoundaries, hj, if_true]
    rw [ih (pos + 1) 0x301]
    have e1 : pos + 1 + n + 1 = pos + (n + 1) + 1 := by omega
    have e2 : pos + 1 + n + 2 = pos + (n + 1) + 2 := by omega
    rw [e1, e2]

theorem contains_replicate_accent (n : Nat) :
    (List.replicate n 0x301).contains 0xfe0f = false := by
  induction n with
  | zero => rfl
  | succ n ih =>
    rw [List.replicate_succ, List.contains_cons, ih]
    decide

theorem sampleLongCluster_length (n : Nat) : (sampleLongCluster n).length = n + 1 := by
  simp [sampleLongCluster]

theorem sampleLongCluster_wide (n : Nat) : sampleWide (sampleLongCluster n) = false := by
  simp only [sampleLongCluster, sampleWide, contains_replicate_accent]
  decide

/-- The scan of a text that begins with a code unit above 0x7f goes straight to the
segmenter. -/
theorem scanText_nonascii_head (env : Env) (r : ROW) (colBeg ch1 c0 : Nat) (rest : List Nat)
    (hc0 : 0x80 ≤ c0) (hcb : colBeg < r.columnCount) :
    scanText env r colBeg ch1 (c0 :: rest)
      = scanUnicode env r.columnCount (c0 :: rest) (Scan.start r.charOffsets colBeg ch1) := by
  obtain ⟨k, hk⟩ : ∃ k, min (r.columnCount - colBeg) (c0 :: rest).length = k + 1 :=
    ⟨min (r.columnCount - colBeg) (c0 :: rest).length - 1, by
      simp only [List.length_cons]
      omega⟩
  have hp : (!decide (0x80 ≤ c0)) = false := by simp [hc0]
  simp only [scanText, hk, List.take_succ_cons, List.takeWhile_cons, hp, Bool.false_eq_true,
    if_false, List.length_nil, asciiPass, ne_eq]
  rw [if_pos (by omega)]
  rfl

/-- The scan of one long narrow cluster: it is placed in column `colBeg`. -/
theorem scanText_longCluster (r : ROW) (colBeg ch1 n : Nat) (hcb : colBeg < r.columnCount)
    (hn : n + 1 ≤ 65535) :
    scanText sampleEnv r colBeg ch1 (sampleLongCluster n)
      = some (placeCluster (Scan.start r.charOffsets colBeg ch1) (n + 1) false) := by
  have hb := sampleBoundaries_long [] (Or.inl rfl) n 0 0xe9
  rw [List.append_nil, if_pos rfl] at hb
  have hlen := sampleLongCluster_length n
  have hw := sampleLongCluster_wide n
  have htake : (sampleLongCluster n).take (n + 1) = sampleLongCluster n := by
    rw [← hlen, List.take_length]
  have hform : sampleLongCluster n = 0xe9 :: List.replicate n 0x301 := rfl
  rw [← hform] at hb
  have hstart : scanText sampleEnv r colBeg ch1 (sampleLongCluster n)
      = scanUnicode sampleEnv r.columnCount (sampleLongCluster n)
          (Scan.start r.charOffsets colBeg ch1) := by
    rw [hform]
    exact scanText_nonascii_head sampleEnv r colBeg ch1 0xe9 _ (by decide) hcb
  rw [hstart]
  simp only [scanUnicode, hlen, Scan.start, Nat.sub_zero, List.drop_zero]
  rw [if_neg (by omega)]
  simp only [sampleEnv, hb, Nat.zero_add, segLoop, Nat.sub_zero,
    Nat.min_eq_right hn, List.drop_zero, htake, hw, clusterWidth, Bool.false_eq_true, if_false,
    Nat.add_zero]
  rw [if_neg (by
    simp only [Nat.cast_one]
    omega)]
  simp only [ite_self]

/-- The scan of one long narrow cluster followed by a wide glyph: the cluster is placed
in column `colBeg` and the wide glyph in the two columns after it. -/
theorem scanText_longThenWide (r : ROW) (colBeg ch1 n : Nat) (hcb : colBeg + 3 ≤ r.columnCount)
    (hn : n + 2 ≤ 65535) :
    scanText sampleEnv r colBeg ch1 (sampleLongThenWide n)
      = some (placeCluster
          (placeCluster (Scan.start r.charOffsets colBeg ch1) (n + 1) false) 1 true) := by
  have hb := sampleBoundaries_long [0x4e00] (Or.inr ⟨0x4e00, rfl, by decide⟩) n 0 0xe9
  rw [if_neg (by simp)] at hb
  have hlen : (sampleLongThenWide n).length = n + 2 := by
    simp [sampleLongThenWide, sampleLongCluster]
  have hw := sampleLongCluster_wide n
  have htake : (sampleLongThenWide n).take (n + 1) = sampleLongCluster n := by
    rw [sampleLongThenWide, List.take_left' (sampleLongCluster_length n)]
  have hdrop : (sampleLongThenWide n).drop (n + 1) = [0x4e00] := by
    rw [sampleLongThenWide, List.drop_left' (sampleLongCluster_length n)]
  have hform : sampleLongThenWide n = 0xe9 :: (List.replicate n 0x301 ++ [0x4e00]) := rfl
  rw [← hform] at hb
  have hstart : scanText sampleEnv r colBeg ch1 (sampleLongThenWide n)
      = scanUnicode sampleEnv r.columnCount (sampleLongThenWide n)
          (Scan.start r.charOffsets colBeg ch1) := by
    rw [hform]
    exact scanText_nonascii_head sampleEnv r colBeg ch1 0xe9 _ (by decide) (by omega)
  rw [hstart]
  simp only [scanUnicode, hlen, Scan.start, Nat.sub_zero, List.drop_zero]
  rw [if_neg (by omega)]
  simp only [sampleEnv, hb, Nat.zero_add, segLoop, Nat.sub_zero,
    Nat.min_eq_right (show n + 1 ≤ 65535 by omega), List.drop_zero, htake, hw, clusterWidth,
    Bool.false_eq_true, if_false, Nat.add_zero]
  rw [if_neg (by
    simp only [Nat.cast_one]
    omega)]
  have hc2 : (placeCluster
      { offs := r.charOffsets, col2 := colBeg, ch2 := ch1, it := 0, padded := false,
        paddingSpaces := 0, placed := [] } (n + 1) false).col2 = colBeg + 1 := by
    simp [placeCluster, clusterWidth]
  have hit : (placeCluster
      { offs := r.charOffsets, col2 := colBeg, ch2 := ch1, it := 0, padded := false,
        paddingSpaces := 0, placed := [] } (n + 1) false).it = n + 1 := by
    simp [placeCluster]
  rw [if_neg (by rw [hc2]; omega)]
  have hadv : min 65535 (n + 2 - (n + 1)) = 1 := by omega
  have hwide : sampleWide [0x4e00] = true := by decide
  simp only [hit, hdrop, hadv, List.take_succ_cons, List.take_zero, hwide, if_true, hc2]
  rw [if_neg (by
    push_cast
    omega)]
  simp only [ite_self]

/-- The offsets that `_resizeChars` leaves, whatever its branch, when the new text
length fits 16 bits: every word from `colExtEnd` on has the difference added in 16
bits. -/
theorem ROW._resizeChars_offs (r : ROW) (colExtEnd chExtBeg chExtEnd chExtEndNew : Nat)
    (h : sz (r._charSize + szSub chExtEndNew chExtEnd) ≤ 65535) :
    ∃ r2, r._resizeChars colExtEnd chExtBeg chExtEnd chExtEndNew = some r2
      ∧ r2.charOffsets = shiftFrom r.charOffsets colExtEnd (szSub chExtEndNew chExtEnd)
      ∧ r2.columnCount = r.columnCount
      ∧ r2.doubleBytePadded = r.doubleBytePadded := by
  simp only [ROW._resizeChars]
  split
  · exact ⟨_, rfl, rfl, rfl, rfl⟩
  · rw [if_pos (by omega)]
    exact ⟨_, rfl, rfl, rfl, rfl⟩

/-- The offsets that the writing part of `ReplaceCharacters` leaves, when the new text
length fits 16 bits. -/
theorem replaceWrite_offs (r : ROW) (chars : List Nat) (v : Locals)
    (h : v.ch3new = v.ch3
      ∨ sz (v.scan.offs.getD r.columnCount 0 + szSub v.ch3new v.ch3) ≤ 65535) :
    ∃ r', replaceWrite r chars v = some r'
      ∧ r'.charOffsets
          = iotaAt
              (iotaAt
                (if v.ch3new ≠ v.ch3 then shiftFrom v.scan.offs v.col3 (szSub v.ch3new v.ch3)
                  else v.scan.offs)
                v.colExtBeg (v.colBeg - v.colExtBeg) v.chExtBeg)
              v.scan.col2 (v.col3 + 1 - v.scan.col2) v.scan.ch2
      ∧ r'.columnCount = r.columnCount
      ∧ r'.doubleBytePadded = (if v.scan.padded then true else r.doubleBytePadded) := by
  by_cases hc : v.ch3new = v.ch3
  · simp only [replaceWrite, hc, ne_eq, not_true_eq_false, if_false]
    exact ⟨_, rfl, rfl, rfl, rfl⟩
  · have hsz : sz (v.scan.offs.getD r.columnCount 0 + szSub v.ch3new v.ch3) ≤ 65535 := by
      rcases h with h | h
      · exact absurd h hc
      · exact h
    obtain ⟨r2, h1, h2, h3, h4⟩ := ROW._resizeChars_offs
      { r with
        charOffsets := v.scan.offs
        doubleBytePadded := if v.scan.padded then true else r.doubleBytePadded }
      v.col3 v.chExtBeg v.ch3 v.ch3new hsz
    simp only [replaceWrite, hc, ne_eq, not_false_eq_true, if_true, h1]
    exact ⟨_, rfl, by simp only [h2], h3, h4⟩

/-- A call of `ReplaceCharacters` that is no no-op, with a segmenter that accepts
every text, returns when the new text length fits 16 bits; the offsets it leaves
are those of `replaceWrite_offs`. -/
theorem ReplaceCharacters_offs (env : Env) (htot : env.SegTotal) (r : ROW)
    (columnBegin columnEnd : Int) (chars : List Nat) (v : Locals)
    (hlt : r._clampedColumnInclusive columnBegin < r._clampedColumnInclusive columnEnd)
    (hne : chars ≠ [])
    (hv : replaceLocals env r (r._clampedColumnInclusive columnBegin) chars = some v)
    (h : v.ch3new = v.ch3
      ∨ sz (v.scan.offs.getD r.columnCount 0 + szSub v.ch3new v.ch3) ≤ 65535) :
    ∃ r', r.ReplaceCharacters env columnBegin columnEnd chars
        = Outcome.returned r' v.col3 (chars.drop v.scan.it)
      ∧ r'.charOffsets
          = iotaAt
              (iotaAt
                (if v.ch3new ≠ v.ch3 then shiftFrom v.scan.offs v.col3 (szSub v.ch3new v.ch3)
                  else v.scan.offs)
                v.colExtBeg (v.colBeg - v.colExtBeg) v.chExtBeg)
              v.scan.col2 (v.col3 + 1 - v.scan.col2) v.scan.ch2
      ∧ r'.columnCount = r.columnCount
      ∧ r'.doubleBytePadded = (if v.scan.padded then true else r.doubleBytePadded) := by
  obtain ⟨r', hw, h1, h2, h3⟩ := replaceWrite_offs r chars v h
  obtain ⟨bs, hbs⟩ := htot r'.chars
  refine ⟨r', ?_, h1, h2, h3⟩
  simp only [ROW.ReplaceCharacters]
  rw [if_neg (by
    intro hx
    rcases hx with hx | hx
    · omega
    · exact hne hx)]
  simp only [hv, hw, hbs]

/-- Whatever the offsets hold, the text that `GlyphAt` returns has at most 32767 code
units: both ends of the view are masked offsets. -/
theorem ROW.GlyphAt_length_le (r : ROW) (column : Int) : (r.GlyphAt column).length ≤ 32767 := by
  simp only [ROW.GlyphAt, ROW._uncheckedCharOffset, List.length_take]
  have h : ∀ w, wordOffset w ≤ 32767 := by
    intro w
    simp only [wordOffset, CharOffsetsMask]
    omega
  have := h (r.charOffsets.getD
    (skipTrailers r.charOffsets r.charOffsets.length (r._clampedColumn column + 1)) 0)
  omega

/-- The row of width 4 after `ReplaceCharacters(0, 4, text)` with one narrow cluster of
32768 code units: the call returns column 1 with the text consumed, and every offset
behind column 0 has bit 15 set. -/
theorem ReplaceCharacters_longCluster :
    ∃ r', (ROW.new 4 default).ReplaceCharacters sampleEnv ((0 : Nat) : Int) ((4 : Nat) : Int)
        (sampleLongCluster 32767) = Outcome.returned r' 1 []
      ∧ r'.charOffsets = [0, 32768, 32769, 32770, 32771]
      ∧ r'.columnCount = 4
      ∧ r'.doubleBytePadded = false := by
  have hc0 : (ROW.new 4 default)._clampedColumnInclusive ((0 : Nat) : Int) = 0 :=
    ROW._clampedColumnInclusive_of_le _ 0 (by decide)
  have hc4 : (ROW.new 4 default)._clampedColumnInclusive ((4 : Nat) : Int) = 4 :=
    ROW._clampedColumnInclusive_of_le _ 4 (by decide)
  have hv : replaceLocals sampleEnv (ROW.new 4 default) 0 (sampleLongCluster 32767)
      = some
        { colBeg := 0, colExtBeg := 0, chExtBeg := 0, leadingSpaces := 0, ch1 := 0
          scan :=
            { offs := [0, 1, 2, 3, 4], col2 := 1, ch2 := 32768, it := 32768, padded := false
              paddingSpaces := 0, placed := [(0, 0, 0, 32768, false)] }
          col3 := 1, ch3 := 1, trailingSpaces := 0, copiedChars := 32768, ch3new := 32768 } := by
    rw [replaceLocals, scanText_longCluster _ 0 _ 32767 (by decide) (by decide)]
    rfl
  obtain ⟨r', h1, h2, h3, h4⟩ := ReplaceCharacters_offs sampleEnv sampleEnv_segTotal
    (ROW.new 4 default) ((0 : Nat) : Int) ((4 : Nat) : Int) (sampleLongCluster 32767) _
    (by rw [hc0, hc4]; decide) (List.cons_ne_nil _ _) (by rw [hc0]; exact hv)
    (Or.inr (by decide))
  refine ⟨r', ?_, ?_, h3, h4⟩
  · rw [h1]
    have hd : (sampleLongCluster 32767).drop 32768 = [] :=
      List.drop_eq_nil_of_le (by rw [sampleLongCluster_length])
    simp only [hd]
  · rw [h2]
    rfl

/-- The locals of `ReplaceCharacters` depend on the row only through its offsets and
its width. -/
theorem replaceLocals_congr (env : Env) (r r2 : ROW) (colBeg : Nat) (chars : List Nat)
    (h1 : r.charOffsets = r2.charOffsets) (h2 : r.columnCount = r2.columnCount) :
    replaceLocals env r colBeg chars = replaceLocals env r2 colBeg chars := by
  simp only [replaceLocals, scanText, ROW._uncheckedCharOffset, h1, h2]

/-- The row of three wide glyphs after `ReplaceCharacters(0, 1, text)` with one narrow
cluster of 32768 code units: the cluster takes column 0, column 1 (the trailer that
is left over) is padded, the call returns 2, and the 16-bit addition in
`_resizeChars` flips bit 15 of every word from column 2 on. -/
theorem ReplaceCharacters_longCluster_wide :
    ∃ r', sampleRowWide.ReplaceCharacters sampleEnv ((0 : Nat) : Int) ((1 : Nat) : Int)
        (sampleLongCluster 32767) = Outcome.returned r' 2 []
      ∧ r'.charOffsets = [0, 32768, 32769, 1, 32770, 2, 32771]
      ∧ r'.columnCount = 6
      ∧ r'.doubleBytePadded = false := by
  have hc0 : sampleRowWide._clampedColumnInclusive ((0 : Nat) : Int) = 0 :=
    ROW._clampedColumnInclusive_of_le _ 0 (by decide)
  have hc1 : sampleRowWide._clampedColumnInclusive ((1 : Nat) : Int) = 1 :=
    ROW._clampedColumnInclusive_of_le _ 1 (by decide)
  have hv : replaceLocals sampleEnv sampleRowWide 0 (sampleLongCluster 32767)
      = some
        { colBeg := 0, colExtBeg := 0, chExtBeg := 0, leadingSpaces := 0, ch1 := 0
          scan :=
            { offs := [0, 32768, 1, 32769, 2, 32770, 3], col2 := 1, ch2 := 32768, it := 32768
              padded := false, paddingSpaces := 0, placed := [(0, 0, 0, 32768, false)] }
          col3 := 2, ch3 := 1, trailingSpaces := 1, copiedChars := 32768, ch3new := 32769 } := by
    rw [replaceLocals, scanText_longCluster _ 0 _ 32767 (by decide) (by decide)]
    rfl
  obtain ⟨r', h1, h2, h3, h4⟩ := ReplaceCharacters_offs sampleEnv sampleEnv_segTotal
    sampleRowWide ((0 : Nat) : Int) ((1 : Nat) : Int) (sampleLongCluster 32767) _
    (by rw [hc0, hc1]; decide) (List.cons_ne_nil _ _) (by rw [hc0]; exact hv)
    (Or.inr (by decide))
  refine ⟨r', ?_, ?_, h3, h4⟩
  · rw [h1]
    have hd : (sampleLongCluster 32767).drop 32768 = [] :=
      List.drop_eq_nil_of_le (by rw [sampleLongCluster_length])
    simp only [hd]
  · rw [h2]
    rfl

theorem sampleLongThenWide_length (n : Nat) : (sampleLongThenWide n).length = n + 2 := by
  simp only [sampleLongThenWide, List.length_append, sampleLongCluster_length,
    List.length_singleton]

/-- The row of width 4 after `ReplaceCharacters(0, 4, text)` with a narrow cluster of
32768 code units followed by the wide glyph U+4E00: the cluster takes column 0, the
wide glyph is placed at column 1 with `ch2 = 32768`, and the call returns 3. -/
theorem ReplaceCharacters_longThenWide :
    ∃ r', (ROW.new 4 default).ReplaceCharacters sampleEnv ((0 : Nat) : Int) ((4 : Nat) : Int)
        (sampleLongThenWide 32767) = Outcome.returned r' 3 []
      ∧ r'.charOffsets = [0, 32768, 32768, 32769, 32770]
      ∧ r'.columnCount = 4
      ∧ r'.doubleBytePadded = false
      ∧ ∃ v, replaceLocals sampleEnv (ROW.new 4 default) 0 (sampleLongThenWide 32767) = some v
        ∧ v.scan.placed = [(0, 0, 0, 32768, false), (1, 32768, 32768, 1, true)] := by
  have hc0 : (ROW.new 4 default)._clampedColumnInclusive ((0 : Nat) : Int) = 0 :=
    ROW._clampedColumnInclusive_of_le _ 0 (by decide)
  have hc4 : (ROW.new 4 default)._clampedColumnInclusive ((4 : Nat) : Int) = 4 :=
    ROW._clampedColumnInclusive_of_le _ 4 (by decide)
  have hv : replaceLocals sampleEnv (ROW.new 4 default) 0 (sampleLongThenWide 32767)
      = some
        { colBeg := 0, colExtBeg := 0, chExtBeg := 0, leadingSpaces := 0, ch1 := 0
          scan :=
            { offs := [0, 32768, 32768, 3, 4], col2 := 3, ch2 := 32769, it := 32769
              padded := false, paddingSpaces := 0
              placed := [(0, 0, 0, 32768, false), (1, 32768, 32768, 1, true)] }
          col3 := 3, ch3 := 3, trailingSpaces := 0, copiedChars := 32769, ch3new := 32769 } := by
    rw [replaceLocals, scanText_longThenWide _ 0 _ 32767 (by decide) (by decide)]
    rfl
  obtain ⟨r', h1, h2, h3, h4⟩ := ReplaceCharacters_offs sampleEnv sampleEnv_segTotal
    (ROW.new 4 default) ((0 : Nat) : Int) ((4 : Nat) : Int) (sampleLongThenWide 32767) _
    (by rw [hc0, hc4]; decide) (List.cons_ne_nil _ _) (by rw [hc0]; exact hv)
    (Or.inr (by decide))
  refine ⟨r', ?_, ?_, h3, h4, _, hv, rfl⟩
  · rw [h1]
    have hd : (sampleLongThenWide 32767).drop 32769 = [] :=
      List.drop_eq_nil_of_le (by rw [sampleLongThenWide_length])
    simp only [hd]
  · rw [h2]
    rfl

/-- On a row of width 4 whose offsets behind column 0 all have bit 15 set,
`ReplaceCharacters(2, 3, "a")` returns: the search for the end of the replaced range
passes the columns 3 and 4 and stops behind the array, at column 5. -/
theorem ReplaceCharacters_after_longCluster (r : ROW)
    (hoffs : r.charOffsets = [0, 32768, 32769, 32770, 32771]) (hcols : r.columnCount = 4) :
    ∃ r', r.ReplaceCharacters sampleEnv ((2 : Nat) : Int) ((3 : Nat) : Int) [0x61]
        = Outcome.returned r' 5 []
      ∧ r'.columnCount = 4 := by
  have hc2 : r._clampedColumnInclusive ((2 : Nat) : Int) = 2 :=
    ROW._clampedColumnInclusive_of_le _ 2 (by rw [hcols]; decide)
  have hc3 : r._clampedColumnInclusive ((3 : Nat) : Int) = 3 :=
    ROW._clampedColumnInclusive_of_le _ 3 (by rw [hcols]; decide)
  have hv : replaceLocals sampleEnv r 2 [0x61]
      = some
        { colBeg := 2, colExtBeg := 0, chExtBeg := 1, leadingSpaces := 2, ch1 := 3
          scan :=
            { offs := [0, 32768, 3, 32770, 32771], col2 := 3, ch2 := 4, it := 1
              padded := false, paddingSpaces := 0, placed := [] }
          col3 := 5, ch3 := 0, trailingSpaces := 2, copiedChars := 1, ch3new := 6 } := by
    rw [replaceLocals_congr sampleEnv r
      { chars := [], charOffsets := [0, 32768, 32769, 32770, 32771], attr := [], columnCount := 4
        lineRendition := LineRendition.SingleWidth, wrapForced := false
        doubleBytePadded := false, charsHeap := false } 2 [0x61] hoffs hcols]
    rfl
  obtain ⟨r', h1, _, h3, _⟩ := ReplaceCharacters_offs sampleEnv sampleEnv_segTotal
    r ((2 : Nat) : Int) ((3 : Nat) : Int) [0x61] _
    (by rw [hc2, hc3]; decide) (List.cons_ne_nil _ _) (by rw [hc2]; exact hv)
    (Or.inr (by
      simp only [hcols]
      decide))
  exact ⟨r', by rw [h1]; rfl, by rw [h3, hcols]⟩

theorem skipTrailers_ge (offs : List Nat) : ∀ (fuel col : Nat),
    col ≤ skipTrailers offs fuel col := by
  intro fuel
  induction fuel with
  | zero => intro col; exact Nat.le_refl _
  | succ f ih =>
    intro col
    simp only [skipTrailers]
    split
    · have := ih (col + 1)
      omega
    · exact Nat.le_refl _

/-- On a row whose offsets behind column 0 all have bit 15 set, the traversal from
`Begin()` never stands at the column of `End()`: the first glyph already ends behind
the array. -/
theorem iterate_after_longCluster (r : ROW)
    (hoffs : r.charOffsets = [0, 32768, 32769, 32770, 32771]) (hcols : r.columnCount = 4) :
    r.Begin.beg = 0 ∧ r.Begin.fin = 5 ∧ r.End.beg = 4 ∧ ∀ fuel, r.iterate fuel = none := by
  have hB : r.Begin.fin = 5 := by
    simp only [ROW.Begin, RowTextIterator.new, RowTextIterator.next, hoffs]
    rfl
  have hE : r.End.beg = 4 := by
    simp only [ROW.End, RowTextIterator.new, RowTextIterator.next, hcols]
  have key : ∀ (fuel : Nat) (it : RowTextIterator), it.beg ≠ 4 → 5 ≤ it.fin →
      iterateFrom r.End fuel it = none := by
    intro fuel
    induction fuel with
    | zero => intro it _ _; rfl
    | succ f ih =>
      intro it hb hf
      have hne : it.eq r.End = false := by
        simp only [RowTextIterator.eq, hE]
        exact decide_eq_false hb
      simp only [iterateFrom, hne, Bool.false_eq_true, if_false]
      rw [ih it.next (by simp only [RowTextIterator.next]; omega) (by
        simp only [RowTextIterator.next]
        have := skipTrailers_ge it.charOffsets it.charOffsets.length (it.fin + 1)
        omega)]
      rfl
  refine ⟨rfl, hB, hE, ?_⟩
  intro fuel
  exact key fuel r.Begin (by
    show (0 : Nat) ≠ 4
    decide) (by rw [hB])

/-! ## The claims about `ReplaceCharacters` at calls that leave the 15-bit limit -/

/-- The attribute `DbcsAttrAt` depends on the row only through its offsets and its
width. -/
theorem ROW.DbcsAttrAt_congr (r r2 : ROW) (column : Int)
    (h1 : r.charOffsets = r2.charOffsets) (h2 : r.columnCount = r2.columnCount) :
    r.DbcsAttrAt column = r2.DbcsAttrAt column := by
  simp only [ROW.DbcsAttrAt, ROW._clampedColumn, ROW._uncheckedIsTrailer, h1, h2]

/-- The locals of the call with one narrow cluster of 32768 code units at column 0 of
a fresh row of width 4. -/
theorem replaceLocals_longCluster :
    ∃ v, replaceLocals sampleEnv (ROW.new 4 default) 0 (sampleLongCluster 32767) = some v
      ∧ v.scan.col2 = 1 ∧ v.scan.it = 32768 ∧ v.trailingSpaces = 0 ∧ v.col3 = 1 := by
  refine ⟨{ colBeg := 0, colExtBeg := 0, chExtBeg := 0, leadingSpaces := 0, ch1 := 0
            scan :=
              { offs := [0, 1, 2, 3, 4], col2 := 1, ch2 := 32768, it := 32768
                padded := false, paddingSpaces := 0, placed := [(0, 0, 0, 32768, false)] }
            col3 := 1, ch3 := 1, trailingSpaces := 0, copiedChars := 32768, ch3new := 32768 },
    ?_, rfl, rfl, rfl, rfl⟩
  rw [replaceLocals, scanText_longCluster _ 0 _ 32767 (by decide) (by decide)]
  rfl

/-- The locals of the call with one narrow cluster of 32768 code units at column 0 of
the row of three wide glyphs. -/
theorem replaceLocals_longCluster_wide :
    ∃ v, replaceLocals sampleEnv sampleRowWide 0 (sampleLongCluster 32767) = some v
      ∧ v.colExtBeg = 0 ∧ v.scan.col2 = 1 ∧ v.scan.it = 32768 ∧ v.trailingSpaces = 1
      ∧ v.col3 = 2 := by
  refine ⟨{ colBeg := 0, colExtBeg := 0, chExtBeg := 0, leadingSpaces := 0, ch1 := 0
            scan :=
              { offs := [0, 32768, 1, 32769, 2, 32770, 3], col2 := 1, ch2 := 32768, it := 32768
                padded := false, paddingSpaces := 0, placed := [(0, 0, 0, 32768, false)] }
            col3 := 2, ch3 := 1, trailingSpaces := 1, copiedChars := 32768, ch3new := 32769 },
    ?_, rfl, rfl, rfl, rfl, rfl⟩
  rw [replaceLocals, scanText_longCluster _ 0 _ 32767 (by decide) (by decide)]
  rfl

/-- C4 as stated, at a call that leaves the 15-bit limit: on the row of three wide
glyphs (reachable, width 6) `ReplaceCharacters(0, 1, text)` with one narrow cluster
of 32768 code units is no no-op and returns 2.  The first column after the written
glyph, `col2 = 1`, was the trailing column of a wide glyph; after the call its word
is 32768, bit 15 set, so its DBCS attribute is Trailing and not Single. -/
theorem C4_counterexample :
    Reachable sampleEnv sampleRowWide
      ∧ sampleRowWide.DbcsAttrAt ((1 : Nat) : Int) = DbcsAttribute.Trailing
      ∧ (∃ v, replaceLocals sampleEnv sampleRowWide 0 (sampleLongCluster 32767) = some v
          ∧ v.scan.col2 = 1)
      ∧ ∃ r', sampleRowWide.ReplaceCharacters sampleEnv ((0 : Nat) : Int) ((1 : Nat) : Int)
            (sampleLongCluster 32767) = Outcome.returned r' 2 []
          ∧ r'.charOffsets.getD 1 0 = 32768
          ∧ r'.DbcsAttrAt ((1 : Nat) : Int) = DbcsAttribute.Trailing
          ∧ r'.DbcsAttrAt ((1 : Nat) : Int) ≠ DbcsAttribute.Single := by
  obtain ⟨v, hv, _, hc2, _⟩ := replaceLocals_longCluster_wide
  obtain ⟨r', hcall, hoffs, hcols, _⟩ := ReplaceCharacters_longCluster_wide
  have hd : r'.DbcsAttrAt ((1 : Nat) : Int) = DbcsAttribute.Trailing := by
    rw [ROW.DbcsAttrAt_congr r'
      { chars := [], charOffsets := [0, 32768, 32769, 1, 32770, 2, 32771], attr := []
        columnCount := 6, lineRendition := LineRendition.SingleWidth, wrapForced := false
        doubleBytePadded := false, charsHeap := false } _ hoffs hcols]
    rfl
  refine ⟨sampleRowWide_reachable, by rfl, ⟨v, hv, hc2⟩, r', hcall, by rw [hoffs]; rfl, hd, ?_⟩
  rw [hd]
  decide

/-- C5 as stated, at a call that leaves the 15-bit limit: on a fresh row of width 4,
`ReplaceCharacters(0, 4, text)` with a narrow cluster of 32768 code units followed by
the wide glyph U+4E00 returns 3; the wide cluster is placed at column `c = 1 <= W-2`
with text offset 32768, so afterwards `offsets[1]` has bit 15 set and column 1 reads
as Trailing, not Leading. -/
theorem C5_counterexample :
    sampleEnv.IsGlyphFullWidth [0x4e00] = true
      ∧ (∃ v, replaceLocals sampleEnv (ROW.new 4 default) 0 (sampleLongThenWide 32767) = some v
          ∧ v.scan.placed = [(0, 0, 0, 32768, false), (1, 32768, 32768, 1, true)])
      ∧ ∃ r', (ROW.new 4 default).ReplaceCharacters sampleEnv ((0 : Nat) : Int) ((4 : Nat) : Int)
            (sampleLongThenWide 32767) = Outcome.returned r' 3 []
          ∧ r'.columnCount = 4
          ∧ r'.charOffsets.getD 1 0 = 32768
          ∧ r'._uncheckedIsTrailer 1 = true
          ∧ r'.DbcsAttrAt ((1 : Nat) : Int) = DbcsAttribute.Trailing
          ∧ r'.DbcsAttrAt ((1 : Nat) : Int) ≠ DbcsAttribute.Leading := by
  obtain ⟨r', hcall, hoffs, hcols, _, v, hv, hp⟩ := ReplaceCharacters_longThenWide
  have hd : r'.DbcsAttrAt ((1 : Nat) : Int) = DbcsAttribute.Trailing := by
    rw [ROW.DbcsAttrAt_congr r'
      { chars := [], charOffsets := [0, 32768, 32768, 32769, 32770], attr := []
        columnCount := 4, lineRendition := LineRendition.SingleWidth, wrapForced := false
        doubleBytePadded := false, charsHeap := false } _ hoffs hcols]
    rfl
  refine ⟨by rfl, ⟨v, hv, hp⟩, r', hcall, hcols, by rw [hoffs]; rfl, ?_, hd, ?_⟩
  · simp only [ROW._uncheckedIsTrailer, hoffs]
    rfl
  · rw [hd]
    decide

/-- C9 as stated, at a call that leaves the 15-bit limit: on a fresh row of width 4,
`ReplaceCharacters(0, 4, text)` with one narrow cluster of 32768 code units returns 1
and consumes the whole text (`col2 = 1`, nothing left); the only glyph stored in the
columns `[0, 1)` afterwards has at most 32767 code units, so the stored glyph texts
do not concatenate to the consumed text. -/
theorem C9_counterexample :
    (sampleLongCluster 32767).length = 32768
      ∧ (∃ v, replaceLocals sampleEnv (ROW.new 4 default) 0 (sampleLongCluster 32767) = some v
          ∧ v.scan.col2 = 1 ∧ v.scan.it = 32768)
      ∧ ∃ r', (ROW.new 4 default).ReplaceCharacters sampleEnv ((0 : Nat) : Int) ((4 : Nat) : Int)
            (sampleLongCluster 32767) = Outcome.returned r' 1 []
          ∧ r'.glyphTexts 0 1 = [r'.GlyphAt ((0 : Nat) : Int)]
          ∧ (r'.glyphTexts 0 1).flatten.length ≤ 32767
          ∧ (r'.glyphTexts 0 1).flatten ≠ (sampleLongCluster 32767).take 32768 := by
  obtain ⟨v, hv, hc2, hit, _⟩ := replaceLocals_longCluster
  obtain ⟨r', hcall, hoffs, hcols, _⟩ := ReplaceCharacters_longCluster
  have hg : r'.glyphTexts 0 1 = [r'.GlyphAt ((0 : Nat) : Int)] := by
    simp only [ROW.glyphTexts, ROW._uncheckedIsTrailer, hoffs]
    rfl
  have hl : (r'.glyphTexts 0 1).flatten.length ≤ 32767 := by
    rw [hg]
    simp only [List.flatten_cons, List.flatten_nil, List.append_nil]
    exact ROW.GlyphAt_length_le r' _
  refine ⟨sampleLongCluster_length 32767, ⟨v, hv, hc2, hit⟩, r', hcall, hg, hl, ?_⟩
  intro he
  have hlen := congrArg List.length he
  rw [List.length_take, sampleLongCluster_length] at hlen
  have : min 32768 (32767 + 1) = 32768 := by decide
  omega

/-- C10 as stated, at a call that leaves the 15-bit limit: on the row of three wide
glyphs (reachable, width 6) `ReplaceCharacters(0, 1, text)` with one narrow cluster
of 32768 code units returns `r = 2`, having extended the range to `[0, 2)`.  The 16
bit addition of the delta 32768 to the words of the columns from 2 on flips their bit
15: column 3, the trailing half of the second wide glyph before the call, is the
leading column of a glyph after it, and column 2 has become a trailer. -/
theorem C10_counterexample :
    Reachable sampleEnv sampleRowWide
      ∧ sampleRowWide.columnCount = 6
      ∧ sampleRowWide.DbcsAttrAt ((2 : Nat) : Int) = DbcsAttribute.Leading
      ∧ sampleRowWide.DbcsAttrAt ((3 : Nat) : Int) = DbcsAttribute.Trailing
      ∧ (∃ v, replaceLocals sampleEnv sampleRowWide 0 (sampleLongCluster 32767) = some v
          ∧ v.colExtBeg = 0 ∧ v.col3 = 2)
      ∧ ∃ r', sampleRowWide.ReplaceCharacters sampleEnv ((0 : Nat) : Int) ((1 : Nat) : Int)
            (sampleLongCluster 32767) = Outcome.returned r' 2 []
          ∧ r'.DbcsAttrAt ((2 : Nat) : Int) = DbcsAttribute.Trailing
          ∧ r'.DbcsAttrAt ((3 : Nat) : Int) = DbcsAttribute.Leading
          ∧ r'.DbcsAttrAt ((3 : Nat) : Int) ≠ sampleRowWide.DbcsAttrAt ((3 : Nat) : Int)
          ∧ sampleRowWide.charOffsets.getD 3 0 = 32769
          ∧ r'.charOffsets.getD 3 0 = 1 := by
  obtain ⟨v, hv, hce, _, _, _, hc3⟩ := replaceLocals_longCluster_wide
  obtain ⟨r', hcall, hoffs, hcols, _⟩ := ReplaceCharacters_longCluster_wide
  have hcg : ∀ c : Int, r'.DbcsAttrAt c
      = ROW.DbcsAttrAt
        { chars := [], charOffsets := [0, 32768, 32769, 1, 32770, 2, 32771], attr := []
          columnCount := 6, lineRendition := LineRendition.SingleWidth, wrapForced := false
          doubleBytePadded := false, charsHeap := false } c :=
    fun c => ROW.DbcsAttrAt_congr r' _ c hoffs hcols
  have h3 : r'.DbcsAttrAt ((3 : Nat) : Int) = DbcsAttribute.Leading := by
    rw [hcg]
    rfl
  refine ⟨sampleRowWide_reachable, by rfl, by rfl, by rfl, ⟨v, hv, hce, hc3⟩, r', hcall, ?_, h3,
    ?_, by rfl, by rw [hoffs]; rfl⟩
  · rw [hcg]
    rfl
  · rw [h3]
    decide

/-- C12 as stated, at its last clause: on a fresh row of width `W = 4`,
`ReplaceCharacters(0, W, text)` with one narrow cluster of 32768 code units returns;
on the row it leaves, the first glyph yielded from `Begin()` spans the columns
`[0, 5)`, more than the row has, and the iterator never equals `End()`: the traversal
does not end, whatever the number of steps. -/
theorem C12_counterexample :
    ∃ r', (ROW.new 4 default).ReplaceCharacters sampleEnv ((0 : Nat) : Int) ((4 : Nat) : Int)
          (sampleLongCluster 32767) = Outcome.returned r' 1 []
      ∧ r'.columnCount = 4
      ∧ r'.Begin.beg = 0 ∧ r'.Begin.Cols = 5
      ∧ r'.End.beg = 4
      ∧ ∀ fuel, r'.iterate fuel = none := by
  obtain ⟨r', hcall, hoffs, hcols, _⟩ := ReplaceCharacters_longCluster
  obtain ⟨hb, hf, he, hit⟩ := iterate_after_longCluster r' hoffs hcols
  refine ⟨r', hcall, hcols, hb, ?_, he, hit⟩
  simp only [RowTextIterator.Cols, hb, hf]
  rfl

/-- C40 as stated, on a row that an earlier call has taken out of the 15-bit limit:
on a fresh row of width `W = 4`, `ReplaceCharacters(0, 4, text)` with one narrow
cluster of 32768 code units returns a row `r1`; on `r1` the call
`ReplaceCharacters(2, 3, "a")`, with non-empty text and `colBeg < colEnd`, returns
the column 5, which is greater than `W`. -/
theorem C40_counterexample :
    ∃ r1 r2, (ROW.new 4 default).ReplaceCharacters sampleEnv ((0 : Nat) : Int) ((4 : Nat) : Int)
          (sampleLongCluster 32767) = Outcome.returned r1 1 []
      ∧ r1.columnCount = 4
      ∧ r1._clampedColumnInclusive ((2 : Nat) : Int) < r1._clampedColumnInclusive ((3 : Nat) : Int)
      ∧ r1.ReplaceCharacters sampleEnv ((2 : Nat) : Int) ((3 : Nat) : Int) [0x61]
          = Outcome.returned r2 5 []
      ∧ ¬ (5 ≤ r1.columnCount) := by
  obtain ⟨r1, hcall, hoffs, hcols, _⟩ := ReplaceCharacters_longCluster
  obtain ⟨r2, hcall2, _⟩ := ReplaceCharacters_after_longCluster r1 hoffs hcols
  refine ⟨r1, r2, hcall, hcols, ?_, hcall2, by rw [hcols]; decide⟩
  rw [ROW._clampedColumnInclusive_of_le _ 2 (by rw [hcols]; decide),
    ROW._clampedColumnInclusive_of_le _ 3 (by rw [hcols]; decide)]
  decide

/-! ## C17 at a width past the 15-bit limit -/

/-- The offsets of a fresh row of width 4 resized to a width `w` from 4 to 65535: the
four copied words, then the words `4, 5, ..., w` written by `iota_n`. -/
theorem ROW.Resize_fresh_offs (w : Nat) (fill : TextAttribute) (h4 : 4 ≤ w) (hw : w ≤ 65535) :
    ((ROW.new 4 default).Resize w fill).charOffsets
      = (ROW.new 4 default).charOffsets.take 4 ++ List.range' 4 (w - 4 + 1) := by
  have hn : (ROW.new 4 default).charOffsets = [0, 1, 2, 3, 4] := rfl
  have hc : (ROW.new 4 default).columnCount = 4 := rfl
  have hm : min w 4 = 4 := Nat.min_eq_right h4
  have hx : extendDown [0, 1, 2, 3, 4] 4 = 4 := by decide
  have ho : (ROW.new 4 default)._uncheckedCharOffset 4 = 4 := by decide
  simp only [ROW.Resize, hc, hm, ho, hn, hx]
  rw [iotaAt_eq _ _ _ _ (by omega)]
  have e1 : writeAt (List.replicate (w + 1) 0) 0 (List.take 4 [0, 1, 2, 3, 4])
      = [0, 1, 2, 3] ++ List.replicate (w - 3) 0 ++ [] := by
    rw [writeAt_eq _ _ _ (by
      simp only [List.length_replicate, List.length_take, List.length_cons, List.length_nil]
      omega)]
    simp only [List.take_zero, List.nil_append, Nat.zero_add, List.drop_replicate,
      List.length_take, List.length_cons, List.length_nil, List.append_nil]
    have : w + 1 - min 4 (0 + 1 + 1 + 1 + 1 + 1) = w - 3 := by
      have : min 4 (0 + 1 + 1 + 1 + 1 + 1) = 4 := by decide
      omega
    rw [this]
    rfl
  rw [e1, writeAt_mid _ _ _ _ 4 (by rfl) (by
    simp only [List.length_range', List.length_replicate]
    omega)]
  simp

/-- C17 as stated, at a new width past the 15-bit limit: a fresh row of width 4 is
resized to `W' = 32768`; column `m = 4` is no trailer, so `k = 4`.  After the call
`offsets[32768]` is the word 32768, which reads as a trailer with offset 0: column
32767, one of the padded columns `[k, W')`, has the DBCS attribute Leading and not
Single, and `offsets[W']` read as an offset is 0, not the text length. -/
theorem C17_counterexample :
    Reachable sampleEnv (ROW.new 4 default)
      ∧ (ROW.new 4 default)._uncheckedIsTrailer (min 32768 (ROW.new 4 default).columnCount) = false
      ∧ extendDown (ROW.new 4 default).charOffsets (min 32768 (ROW.new 4 default).columnCount) = 4
      ∧ ((ROW.new 4 default).Resize 32768 default).columnCount = 32768
      ∧ ((ROW.new 4 default).Resize 32768 default).charOffsets.getD 32768 0 = 32768
      ∧ ((ROW.new 4 default).Resize 32768 default)._uncheckedIsTrailer 32768 = true
      ∧ ((ROW.new 4 default).Resize 32768 default)._uncheckedCharOffset 32768 = 0
      ∧ ((ROW.new 4 default).Resize 32768 default).DbcsAttrAt ((32767 : Nat) : Int)
          = DbcsAttribute.Leading
      ∧ ((ROW.new 4 default).Resize 32768 default).DbcsAttrAt ((32767 : Nat) : Int)
          ≠ DbcsAttribute.Single := by
  have hoffs := ROW.Resize_fresh_offs 32768 default (by decide) (by decide)
  obtain ⟨_, g2⟩ := ROW.Resize_offs_at (ROW.new 4 default) 32768 default 4 4 (by decide) hoffs
  have hWc : ((ROW.new 4 default).Resize 32768 default).columnCount = 32768 := rfl
  have g7 : ((ROW.new 4 default).Resize 32768 default).charOffsets.getD 32767 0 = 32767 :=
    g2 32767 (by decide) (by decide)
  have g8 : ((ROW.new 4 default).Resize 32768 default).charOffsets.getD 32768 0 = 32768 :=
    g2 32768 (by decide) (by decide)
  have hcl := ROW._clampedColumn_of_lt ((ROW.new 4 default).Resize 32768 default) 32767
    (by rw [hWc]; decide)
  generalize (ROW.new 4 default).Resize 32768 default = R at hWc g7 g8 hcl ⊢
  have hd : R.DbcsAttrAt ((32767 : Nat) : Int) = DbcsAttribute.Leading := by
    simp only [ROW.DbcsAttrAt, hcl, ROW._uncheckedIsTrailer, g7, g8]
    decide
  refine ⟨Reachable.new 4 default (by decide), by decide, by decide, hWc, g8, ?_, ?_, hd, ?_⟩
  · simp only [ROW._uncheckedIsTrailer, g8]
    decide
  · simp only [ROW._uncheckedCharOffset, g8]
    decide
  · rw [hd]
    decide

end Row
